import Mathlib

/-!
# DxPRT: integration planning, spherical-harmonic evaluation and reduction

A shallow embedding of the host-side numeric core of DxPRT
(`GenerateGeneral_Utility.cpp`, `GeneratePRT_Utility.cpp`, `GenerateEM_Utility.cpp`,
`SphericalHarmonics.cpp`) together with theorems about it.

Conventions of the embedding.

* `UINT64` values are naturals; every `UINT64` multiplication that can leave the range is
  written with an explicit `% 2 ^ 64`.
* The single-precision computations of `RoundInput` end in a conversion back to an
  integer, so they are modelled exactly: `toFloat` is the IEEE-754 round-to-nearest-even
  conversion of an unsigned integer to a 24-bit significand, `sqrtFloat24` the correctly
  rounded single-precision square root.  Division by `8.0f` and `ceil` are exact.
* `CalcSH`, `StorePRTResult` and `StoreEMResult` are embedded twice: over a field (exact
  arithmetic), for the statements about sizes, layout and the constant harmonic, and,
  under the names `Single.CalcSH`, `Single.StorePRTResult` and `Single.StoreEMResult`,
  with every floating-point operation of the source taken from a structure `FloatOps`
  about which nothing is assumed; `ieee` is the instance of IEEE 754 arithmetic.
* Behaviour the C++ standard leaves undefined (an out-of-range vector access, overflow of
  an `int` loop counter) and failure to construct a vector are `none`.
-/

namespace DxPRT

/-! ## `RoundInput` (GenerateGeneral_Utility.cpp) -/

/-- The value of `(float)n` for an unsigned integer `n`: the nearest number with a
24-bit significand, ties going to the even significand.  (`n < 2 ^ 64` is far below the
single-precision overflow threshold.) -/
def toFloat (n : Nat) : Nat :=
  if n < 2 ^ 24 then n
  else
    let k := Nat.log 2 n - 23
    let q := n / 2 ^ k
    let r := n % 2 ^ k
    if 2 ^ (k - 1) < r ∨ (r = 2 ^ (k - 1) ∧ q % 2 = 1) then (q + 1) * 2 ^ k else q * 2 ^ k

/-- The single-precision `sqrt` of a non-negative integer-valued float `f`, correctly
rounded (round to nearest, ties to even), scaled by `2 ^ 24`: the float returned by
`sqrt(f)` is `sqrtFloat24 f / 2 ^ 24`.  With `x = f * 2 ^ 48` the exact root is `√x`
on that scale; `r = ⌊√x⌋` has `Nat.log 2 r + 1` bits of which 24 are kept, so the
candidates are the two multiples of `2 ^ k` around `r` and `mid` is their midpoint. -/
def sqrtFloat24 (f : Nat) : Nat :=
  let x := f * 2 ^ 48
  let r := Nat.sqrt x
  let k := Nat.log 2 r - 23
  let q := r / 2 ^ k
  let mid := (2 * q + 1) * 2 ^ (k - 1)
  if mid * mid < x ∨ (mid * mid = x ∧ q % 2 = 1) then (q + 1) * 2 ^ k else q * 2 ^ k

/-- The three outputs of `RoundInput`. -/
structure RoundedInput where
  roundedNumEvents : Nat
  roundedNumEventsX : Nat
  roundedSHGridNum : Nat
  deriving DecidableEq

/-- Embedding of `RoundInput`:
`N = UINT64(ceil(sqrt((float)numEvents) / 8.0f))`, `roundedNumEvents = 64u * N * N`,
`roundedNumEventsX = 8u * N`, then `N = UINT64(ceil((float)shGridNum / 8.0f))` and
`roundedSHGridNum = 8u * N`.  The float `sqrt(..) / 8.0f` is
`sqrtFloat24 .. / 2 ^ 27`, whose ceiling is taken by the rounded-up division. -/
def RoundInput (numEvents shGridNum : Nat) : RoundedInput :=
  let N := (sqrtFloat24 (toFloat numEvents) + (2 ^ 27 - 1)) / 2 ^ 27
  let N' := (toFloat shGridNum + 7) / 8
  { roundedNumEvents := (64 * N * N) % 2 ^ 64
    roundedNumEventsX := (8 * N) % 2 ^ 64
    roundedSHGridNum := (8 * N') % 2 ^ 64 }

/-- The descriptor fields read by `InitializePRTConstants` / `InitializeEMConstants`
(`PRT_DESC` and `EM_DESC` have the same numeric fields, all `UINT64`). -/
structure Desc where
  MaxL : Nat
  NumEvents : Nat
  SHGridNum : Nat
  deriving DecidableEq

/-- The type `PRTConstantContainer`. -/
structure PRTConstantContainer where
  numEvents : Nat
  numEventsX : Nat
  shGridNum : Nat
  numThreadGroups : Nat
  maxL : Nat
  nCoefficients : Nat
  triangleNum : Nat
  vertexNum : Nat
  deriving DecidableEq

/-- The type `EMConstantContainer`. -/
structure EMConstantContainer where
  numPixelsX : Nat
  numPixelsY : Nat
  numEvents : Nat
  numEventsX : Nat
  shGridNum : Nat
  numThreadGroups : Nat
  maxL : Nat
  nCoefficients : Nat
  deriving DecidableEq

/-- Embedding of `InitializePRTConstants`. -/
def InitializePRTConstants (desc : Desc) (triangleNum vertexNum : Nat) :
    PRTConstantContainer :=
  let r := RoundInput desc.NumEvents desc.SHGridNum
  { maxL := desc.MaxL
    nCoefficients := ((desc.MaxL + 1) * (desc.MaxL + 1)) % 2 ^ 64
    triangleNum := triangleNum
    vertexNum := vertexNum
    numEvents := r.roundedNumEvents
    numEventsX := r.roundedNumEventsX
    shGridNum := r.roundedSHGridNum
    numThreadGroups := r.roundedNumEvents / (8 * 8) }

/-- Embedding of `InitializeEMConstants`. -/
def InitializeEMConstants (desc : Desc) (numPixelsX numPixelsY : Nat) :
    EMConstantContainer :=
  let r := RoundInput desc.NumEvents desc.SHGridNum
  { maxL := desc.MaxL
    nCoefficients := ((desc.MaxL + 1) * (desc.MaxL + 1)) % 2 ^ 64
    numPixelsX := numPixelsX
    numPixelsY := numPixelsY
    numEvents := r.roundedNumEvents
    numEventsX := r.roundedNumEventsX
    shGridNum := r.roundedSHGridNum
    numThreadGroups := r.roundedNumEvents / (8 * 8) }

/-- The value `r` is the smallest of the form `64 * n ^ 2` (`n` a positive integer) that is
at least `numEvents`. -/
def IsSmallest64Square (numEvents r : Nat) : Prop :=
  (∃ n, 1 ≤ n ∧ r = 64 * n ^ 2) ∧ numEvents ≤ r ∧
    ∀ n, 1 ≤ n → numEvents ≤ 64 * n ^ 2 → r ≤ 64 * n ^ 2

/-- The value `r` is the smallest multiple of 8 that is at least `shGridNum`. -/
def IsSmallestMultipleOf8 (shGridNum r : Nat) : Prop :=
  8 ∣ r ∧ shGridNum ≤ r ∧ ∀ s, 8 ∣ s → shGridNum ≤ s → r ≤ s

/-- The invariant of the integration constants with the products read as exact
integers: `numEventsX` and `shGridNum` are multiples of 8,
`numEventsX * numEventsX = numEvents`, `numThreadGroups * 64 = numEvents` and
`nCoefficients = (MaxL + 1) ^ 2`. -/
def PlanInvariantExact
    (MaxL numEvents numEventsX shGridNum numThreadGroups nCoefficients : Nat) : Prop :=
  8 ∣ numEventsX ∧ 8 ∣ shGridNum ∧ numEventsX * numEventsX = numEvents ∧
    numThreadGroups * 64 = numEvents ∧ nCoefficients = (MaxL + 1) ^ 2

/-- The same invariant with the two products taken in `UINT64` arithmetic. -/
def PlanInvariant64
    (MaxL numEvents numEventsX shGridNum numThreadGroups nCoefficients : Nat) : Prop :=
  8 ∣ numEventsX ∧ 8 ∣ shGridNum ∧ (numEventsX * numEventsX) % 2 ^ 64 = numEvents ∧
    numThreadGroups * 64 = numEvents ∧ nCoefficients = (MaxL + 1) ^ 2 % 2 ^ 64

/-! ## Loops and vectors -/

/-- The loop `for (i = 0; i < n; ++i) body`, threading the state; a failing iteration
ends the run with `none`. -/
def forUp {σ : Type} (body : Nat → σ → Option σ) : Nat → σ → Option σ
  | 0, s => some s
  | n + 1, s => (forUp body n s).bind (body n)

/-- The loop `for (i = n - 1; i >= 0; --i) body`. -/
def forDown {σ : Type} (body : Nat → σ → Option σ) : Nat → σ → Option σ
  | 0, s => some s
  | n + 1, s => (body n s).bind (forDown body n)

/-- The loop `for (int i = 0; i < n; ++i) body` with an unsigned 64-bit bound `n`: the
counter is an `int`, so a bound above `INT_MAX` makes `++i` overflow, which is
undefined. -/
def forInt {σ : Type} (body : Nat → σ → Option σ) (n : Nat) (s : σ) : Option σ :=
  if n < 2 ^ 31 then forUp body n s else none

/-- The `size_t` value of an integer index expression. -/
def toIndex (z : Int) : Nat := (z % 2 ^ 64).toNat

/-- The assignment `v[i] = a` on a `std::vector`; an index outside the vector is
undefined behaviour. -/
def store {α : Type} (v : List α) (i : Nat) (a : α) : Option (List α) :=
  if i < v.length then some (v.set i a) else none

/-! ## `CalcSH` (SphericalHarmonics.cpp)

Scalars are elements of a field `α` (exact arithmetic: float rounding is not modelled);
the library functions `sqrt`, `sin`, `cos`, `pow` are the fields of `MathOps`.  This is
the code read in exact arithmetic; `Single.CalcSH` further down is the embedding with
the floating-point operations of the source, and `CalcSH_eq_exactOps` shows that the two
agree when those operations are read exactly. -/

/-- The `<cmath>` functions used by `CalcSH`. -/
structure MathOps (α : Type) where
  sqrt : α → α
  sin : α → α
  cos : α → α
  pow : α → α → α

section SphericalHarmonics
variable {α : Type} [Field α]

/-- The constant `static const float PI = 3.1415926f` of `CalcCoefficient`. -/
def PI : α := 3.1415926

/-- Embedding of `Factorical`: `n > 1 ? n * Factorical(n - 1) : 1`, on a float holding
the integer `n`. -/
def Factorical (n : Int) : α :=
  if 1 < n then (n : α) * Factorical (n - 1) else 1
termination_by n.toNat
decreasing_by omega

/-- Embedding of `DoubleFactorical`: `n > 1 ? n * DoubleFactorical(n - 2) : 1`. -/
def DoubleFactorical (n : Int) : α :=
  if 1 < n then (n : α) * DoubleFactorical (n - 2) else 1
termination_by n.toNat
decreasing_by omega

/-- Embedding of `CalcLegendre1` (the case `l = m`). -/
def CalcLegendre1 (ops : MathOps α) (m : Int) (x : α) : α :=
  ops.pow (-1) (m : α) * DoubleFactorical (2 * m - 1) * ops.pow (1 - x * x) ((m : α) / 2)

/-- Embedding of `CalcLegendre2` (the case `l = m + 1`). -/
def CalcLegendre2 (m : Int) (x P1 : α) : α :=
  x * ((2 * m + 1 : Int) : α) * P1

/-- Embedding of `CalcLegendre3` (all other cases). -/
def CalcLegendre3 (l m : Int) (x P1 P2 : α) : α :=
  (x * ((2 * l - 1 : Int) : α) * P1 - ((l + m - 1 : Int) : α) * P2) / ((l - m : Int) : α)

/-- Embedding of `CalcCoefficient`. -/
def CalcCoefficient (ops : MathOps α) (l m : Int) (phi : α) : α :=
  let res :=
    ops.sqrt (((2 * l + 1 : Int) : α) * Factorical (l - |m|) / (4 * PI * Factorical (l + |m|)))
  if m < 0 then res * (ops.sqrt 2 * ops.sin (((-m : Int) : α) * phi))
  else if 0 < m then res * (ops.sqrt 2 * ops.cos ((m : α) * phi))
  else res

/-- The body of the first loop nest of `CalcSH` up to the assignment: the value `res`
for `(l, m)`, read off the entries already in the vector (`none` when a read is outside
the vector). -/
def legendreValue (ops : MathOps α) (x : α) (l m : Int) (v : List α) : Option α :=
  if l = m then some (CalcLegendre1 ops m x)
  else if l = m + 1 then
    (v[toIndex (m * m + 2 * m)]?).map fun P1 => CalcLegendre2 m x P1
  else
    (v[toIndex (l * l - l + m)]?).bind fun P1 =>
      (v[toIndex (l * l - 3 * l + m + 2)]?).map fun P2 => CalcLegendre3 l m x P1 P2

/-- One iteration of the first loop nest of `CalcSH`: `SHvec[l * l + l + m] = res`. -/
def legendreStep (ops : MathOps α) (x : α) (l m : Int) (v : List α) : Option (List α) :=
  (legendreValue ops x l m v).bind fun res => store v (toIndex (l * l + l + m)) res

/-- One iteration of the second loop nest of `CalcSH`:
`SHvec[l * l + l + m] = CalcCoefficient(l, m, phi) * SHvec[l * l + l + abs(m)]`. -/
def coefficientStep (ops : MathOps α) (phi : α) (l m : Int) (v : List α) :
    Option (List α) :=
  (v[toIndex (l * l + l + |m|)]?).bind fun p =>
    store v (toIndex (l * l + l + m)) (CalcCoefficient ops l m phi * p)

/-- Embedding of `CalcSH`.  The vector has `(N + 1ull) * (N + 1ull)` entries (a `size_t`
product); `std::vector<float>` cannot be constructed with more than `max_size()` entries,
that is when the `4 * size` bytes are not addressable.  The first loop nest runs `l` from
`0` to `N` and `m` from `l` down to `0`; the second runs `l` from `0` to `N` and `m` from
`-l` up to `l`. -/
def CalcSH (ops : MathOps α) (N : Nat) (ctheta phi : α) : Option (List α) :=
  let size := ((N + 1) * (N + 1)) % 2 ^ 64
  if 2 ^ 64 ≤ 4 * size then none
  else
    (forUp (fun l => forDown (fun m => legendreStep ops ctheta l m) (l + 1)) (N + 1)
      (List.replicate size 0)).bind
    (forUp (fun l => forUp (fun i => coefficientStep ops phi l ((i : Int) - l)) (2 * l + 1))
      (N + 1))

/-- The unnormalised associated Legendre value `P(l, m)` for `l = m + d`, by the three
cases of the specification: `P(m, m) = (-1)^m (2m-1)!! (1 - x^2)^(m/2)`,
`P(m+1, m) = x (2m+1) P(m, m)`, and
`P(l, m) = (x (2l-1) P(l-1, m) - (l+m-1) P(l-2, m)) / (l - m)`. -/
def specLegendre (ops : MathOps α) (x : α) (m : Nat) : Nat → α
  | 0 => (-1) ^ m * (Nat.doubleFactorial (2 * m - 1) : α) * ops.pow (1 - x ^ 2) ((m : α) / 2)
  | 1 => x * (2 * (m : α) + 1) * specLegendre ops x m 0
  | d + 2 =>
    (x * (2 * ((m + d + 2 : Nat) : α) - 1) * specLegendre ops x m (d + 1)
      - (((m + d + 2 : Nat) : α) + (m : α) - 1) * specLegendre ops x m d)
      / (((m + d + 2 : Nat) : α) - (m : α))

/-- The normalisation `K(l, m) = sqrt((2l+1) (l-|m|)! / (4 pi (l+|m|)!))` of the
specification, `pi` being the constant `PI` of the code. -/
def specK (ops : MathOps α) (l : Nat) (m : Int) : α :=
  ops.sqrt ((2 * (l : α) + 1) * (Nat.factorial (l - m.natAbs) : α)
    / (4 * PI * (Nat.factorial (l + m.natAbs) : α)))

/-- The azimuthal factor of the specification: `√2 cos(m φ)` for `m > 0`,
`√2 sin(-m φ)` for `m < 0`, `1` for `m = 0`. -/
def specA (ops : MathOps α) (m : Int) (phi : α) : α :=
  if 0 < m then ops.sqrt 2 * ops.cos ((m : α) * phi)
  else if m < 0 then ops.sqrt 2 * ops.sin (-(m : α) * phi)
  else 1

/-- The real spherical harmonic `Y(l, m) = K(l, m) P(l, |m|) A(m, φ)` of the
specification. -/
def specY (ops : MathOps α) (x phi : α) (l : Nat) (m : Int) : α :=
  specK ops l m * specLegendre ops x m.natAbs (l - m.natAbs) * specA ops m phi

/-- Loop invariant of the first loop nest of `CalcSH`: the vector has `size` entries,
every row `l < L` holds the Legendre values `P(l, m)` at `l * l + l + m` for
`0 ≤ m ≤ l`, and row `L` holds them for `M ≤ m ≤ L`. -/
def LegendreInv (ops : MathOps α) (x : α) (size L M : Nat) (v : List α) : Prop :=
  v.length = size ∧
    ∀ l m, m ≤ l → (l < L ∨ (l = L ∧ M ≤ m)) →
      v[l * l + l + m]? = some (specLegendre ops x m (l - m))

/-- Loop invariant of the second loop nest of `CalcSH`: rows `l < L` and the first `I`
entries of row `L` hold the finished values `Y(l, m)` (entry `l * l + i` is order
`m = i - l`); the entries of orders `m ≥ 0` not yet overwritten still hold `P(l, m)`. -/
def CoefficientInv (ops : MathOps α) (x phi : α) (size N L I : Nat) (v : List α) : Prop :=
  v.length = size ∧
    (∀ l i, i ≤ 2 * l → (l < L ∨ (l = L ∧ i < I)) →
      v[l * l + i]? = some (specY ops x phi l ((i : Int) - l))) ∧
    (∀ l m, l ≤ N → m ≤ l → (L < l ∨ (l = L ∧ I ≤ l + m)) →
      v[l * l + l + m]? = some (specLegendre ops x m (l - m)))

end SphericalHarmonics

/-! ## `StorePRTResult` and `StoreEMResult`

The mapped read-back buffer is the list `readback` of the floats it holds; reading past
its end is undefined.  The loop counters `j`, `k` are `int`s compared with `UINT64`
bounds (`forInt`), and the index expressions are `UINT64` arithmetic.  `float(numEvents)`
is the exact value of `numEvents`: this is the code read in exact arithmetic.
`Single.StorePRTResult` and `Single.StoreEMResult` further down are the embeddings with
the floating-point operations of the source, and `StorePRTResult_eq_exactOps` and
`StoreEMResult_eq_exactOps` show that they agree with these when the operations are read
exactly. -/

section StoreResult
variable {α : Type} [Field α]

/-- Embedding of `StorePRTResult`: for each coefficient `j`, sum the `numThreadGroups`
partial sums at `j * numThreadGroups + k` and push back `total / float(numEvents) * 4.0f`. -/
def StorePRTResult (coefficients readback : List α) (constants : PRTConstantContainer) :
    Option (List α) :=
  forInt (fun j coeffs =>
    (forInt (fun k (total : α) =>
        (readback[(j * constants.numThreadGroups + k) % 2 ^ 64]?).map fun b => total + b)
      constants.numThreadGroups 0).map fun total =>
        coeffs ++ [total / (constants.numEvents : α) * 4])
    constants.nCoefficients coefficients

/-- Embedding of `StoreEMResult`: for each coefficient `j`, sum the three channels of the
`numThreadGroups` partial sums at `(j * numThreadGroups + k) * 3 + c` and push back
`total[c] / float(numEvents) * 4.0f * 3.14159f` for `c = 0, 1, 2`. -/
def StoreEMResult (coefficients readback : List α) (constants : EMConstantContainer) :
    Option (List α) :=
  forInt (fun j coeffs =>
    (forInt (fun k (total : α × α × α) =>
        (readback[((j * constants.numThreadGroups + k) * 3) % 2 ^ 64]?).bind fun b0 =>
        (readback[((j * constants.numThreadGroups + k) * 3 + 1) % 2 ^ 64]?).bind fun b1 =>
        (readback[((j * constants.numThreadGroups + k) * 3 + 2) % 2 ^ 64]?).map fun b2 =>
          (total.1 + b0, total.2.1 + b1, total.2.2 + b2))
      constants.numThreadGroups (0, 0, 0)).map fun total =>
        coeffs ++ [total.1 / (constants.numEvents : α) * 4 * 3.14159,
          total.2.1 / (constants.numEvents : α) * 4 * 3.14159,
          total.2.2 / (constants.numEvents : α) * 4 * 3.14159])
    constants.nCoefficients coefficients

end StoreResult

/-! ## `GenerateRandomVector` (GenerateGeneral_Utility.cpp)

The random source is the list `samples` of the values that successive evaluations of
`rand() % int(pow(2, 32))` store into a `UINT32` entry; running out of samples stands for
a call that does not return. -/

/-- The call `v.resize(n, fill)` on a `std::vector`: the first `n` entries are kept, new
entries are `fill`. -/
def resize (v : List Nat) (n fill : Nat) : List Nat :=
  v.take n ++ List.replicate (n - v.length) fill

/-- The loop `while (*iter < 128) *iter = <next sample>;` on an entry holding `cur`: the
final value of the entry and the unused samples. -/
def resample : Nat → List Nat → Option (Nat × List Nat)
  | cur, [] => if cur < 128 then none else some (cur, [])
  | cur, s :: rest => if cur < 128 then resample s rest else some (cur, s :: rest)

/-- The loop of `GenerateRandomVector` over the entries of the vector. -/
def fillSeeds : List Nat → List Nat → Option (List Nat)
  | [], _ => some []
  | e :: es, samples =>
    (resample e samples).bind fun p => (fillSeeds es p.2).map fun out => p.1 :: out

/-- Embedding of `GenerateRandomVector`: `randomVector.resize(numEvents * 8, 0)` (a
`UINT64` product; a `std::vector<UINT32>` of more than `max_size()` entries cannot be
built), then every entry is resampled until it is at least 128. -/
def GenerateRandomVector (numEvents : Nat) (randomVector samples : List Nat) :
    Option (List Nat) :=
  let n := (numEvents * 8) % 2 ^ 64
  if 2 ^ 64 ≤ 4 * n then none else fillSeeds (resize randomVector n 0) samples

/-! ## Text streams and the standard library's conversions

Text is a list of characters.  The standard library functions the readers and the writer
call are modelled from the C++ standard: `std::getline`, `operator<<` on unsigned
integers, `std::stoi`, `std::stoul` (a 32-bit `unsigned long`, as on Windows, the only
platform of the repository).  The text form of a `float` is a parameter. -/

/-- The exceptions that can leave the embedded functions: `std::invalid_argument` and
`std::out_of_range` from the `std::sto*` conversions, and the plain `std::exception`
thrown by the `NotLoadedMessage` functions. -/
inductive Exception where
  | invalid_argument
  | out_of_range
  | exception
  deriving DecidableEq

/-- How a call of a `bool`-returning member function ends: it returns `b` leaving the
object in state `s`, or an exception leaves it, or its behaviour is undefined (overflow
of an `int`). -/
inductive Outcome (σ : Type) where
  | returned (b : Bool) (s : σ)
  | raised (e : Exception)
  | undefined

/-- The strings that the loop `while (in) { if (!getline(in, s, delim)) break; ... }`
reads from a stream holding the given characters: the pieces between delimiters, where
the stream end closes a last piece only if that piece is not empty (`getline` fails
when it extracts nothing). -/
def getlines (delim : Char) : List Char → List (List Char)
  | [] => []
  | c :: cs =>
    if c = delim then [] :: getlines delim cs
    else
      match getlines delim cs with
      | [] => [[c]]
      | l :: ls => (c :: l) :: ls

/-- The character of a decimal digit. -/
def digitChar (d : Nat) : Char := Char.ofNat (48 + d)

/-- Digits of `n` pushed in front of `acc`, most significant first. -/
def decimalAux : Nat → Nat → List Char → List Char
  | 0, _, acc => acc
  | fuel + 1, n, acc =>
    if n < 10 then digitChar n :: acc
    else decimalAux fuel (n / 10) (digitChar (n % 10) :: acc)

/-- The characters `out << n` writes for an unsigned integer `n`. -/
def decimal (n : Nat) : List Char := decimalAux (n + 1) n []

/-- The value of a string of decimal digits. -/
def digitsValue (ds : List Char) : Nat :=
  ds.foldl (fun acc c => 10 * acc + (c.toNat - 48)) 0

/-- The function `isspace` of the "C" locale. -/
def isspace (c : Char) : Bool := c = ' ' || (9 ≤ c.toNat && c.toNat ≤ 13)

/-- An optional sign at the start of a string: whether it is `-`, and the rest. -/
def scanSign : List Char → Bool × List Char
  | [] => (false, [])
  | c :: r => if c = '-' then (true, r) else if c = '+' then (false, r) else (false, c :: r)

/-- The integer that `strtol` and `strtoul` find at the start of a string: leading
white space is skipped, then come an optional sign and the longest run of decimal
digits.  The result is the sign and the magnitude, or `none` when there is no digit. -/
def scanInteger (s : List Char) : Option (Bool × Nat) :=
  let p := scanSign (s.dropWhile isspace)
  let ds := p.2.takeWhile Char.isDigit
  if ds = [] then none else some (p.1, digitsValue ds)

/-- The function `std::stoi`: `std::invalid_argument` when no conversion can be made,
`std::out_of_range` when the value does not fit an `int`. -/
def stoi (s : List Char) : Except Exception Int :=
  match scanInteger s with
  | none => .error .invalid_argument
  | some (neg, m) =>
    let v : Int := if neg then -(m : Int) else (m : Int)
    if -2 ^ 31 ≤ v ∧ v < 2 ^ 31 then .ok v else .error .out_of_range

/-- The function `std::stoul` with a 32-bit `unsigned long`: a magnitude above
`ULONG_MAX` is `std::out_of_range`, a minus sign negates in the unsigned type. -/
def stoul (s : List Char) : Except Exception Nat :=
  match scanInteger s with
  | none => .error .invalid_argument
  | some (neg, m) =>
    if m < 2 ^ 32 then .ok (if neg then (2 ^ 32 - m) % 2 ^ 32 else m)
    else .error .out_of_range

/-- The text form of single-precision numbers: `put x` are the characters `out << x`
writes, `stof` is `std::stof`. -/
structure FloatText (α : Type) where
  put : α → List Char
  stof : List Char → Except Exception α

/-- A concrete text form, for numbers whose value is an integer of at most six digits:
`out << x` writes such a number as a plain decimal integer and `std::stof` reads it back
exactly (and reads the integer in front of any other text it is given). -/
def integerText : FloatText Int where
  put := fun z => if z < 0 then '-' :: decimal z.natAbs else decimal z.natAbs
  stof := fun s =>
    match scanInteger s with
    | none => .error .invalid_argument
    | some (neg, m) => .ok (if neg then -(m : Int) else (m : Int))

/-! ## `PRTReader` (PRTReader.cpp)

The state of a reader is the record of its data members (the numbered-vertex cache,
which no function below reads, is left out).  A file is `none` when it cannot be opened
and otherwise the characters its text-mode stream delivers. -/

/-- The data members of `PRTReader`. -/
structure PRTReader (α : Type) where
  vertices_ : List α
  coefficients_ : List α
  indices_ : List Nat
  nCoefficients_ : Nat
  maxL_ : Nat
  isLoaded_ : Bool
  maxLFound_ : Bool

/-- A default-constructed reader. -/
def PRTReader.fresh (α : Type) : PRTReader α :=
  { vertices_ := [], coefficients_ := [], indices_ := [], nCoefficients_ := 0, maxL_ := 0,
    isLoaded_ := false, maxLFound_ := false }

/-- Converts the strings of a list in order; the first conversion that throws ends it. -/
def parseAll {β : Type} (parse : List Char → Except Exception β) :
    List (List Char) → Except Exception (List β)
  | [] => .ok []
  | t :: ts =>
    match parse t with
    | .error e => .error e
    | .ok x =>
      match parseAll parse ts with
      | .error e => .error e
      | .ok xs => .ok (x :: xs)

/-- Embedding of `PRTReader::SetVertex`.  The second loop counts with an `int` up to
the `size_t` value `nCoefficients_`. -/
def SetVertex {α : Type} (ft : FloatText α) (r : PRTReader α) (line : List (List Char)) :
    Outcome (PRTReader α) :=
  if line.length ≠ (3 + r.nCoefficients_) % 2 ^ 64 ∨ r.maxLFound_ = false then
    .returned false r
  else
    match parseAll ft.stof (line.take 3) with
    | .error e => .raised e
    | .ok vs =>
      if 2 ^ 31 ≤ r.nCoefficients_ then .undefined
      else
        match parseAll ft.stof ((line.drop 3).take r.nCoefficients_) with
        | .error e => .raised e
        | .ok cs =>
          .returned true
            { r with vertices_ := r.vertices_ ++ vs, coefficients_ := r.coefficients_ ++ cs }

/-- Embedding of `PRTReader::SetIndex`; the `unsigned long` results are stored as
`UINT32`. -/
def SetIndex {α : Type} (r : PRTReader α) (line : List (List Char)) : Outcome (PRTReader α) :=
  if line.length ≠ 3 ∨ r.maxLFound_ = false then .returned false r
  else
    match parseAll stoul (line.take 3) with
    | .error e => .raised e
    | .ok is => .returned true { r with indices_ := r.indices_ ++ is }

/-- The `L` branch shared by `ProcessLine` and `ProcessLineEM`: the `int` result of
`std::stoi` is stored in the `size_t` member `maxL_`. -/
def SetMaxLine {α : Type} (r : PRTReader α) (line : List (List Char)) : Outcome (PRTReader α) :=
  if r.maxLFound_ = true ∨ line.length ≠ 1 then .returned false r
  else
    match stoi (line.headD []) with
    | .error e => .raised e
    | .ok v =>
      let maxL := toIndex v
      .returned true
        { r with maxL_ := maxL,
                 nCoefficients_ := (((maxL + 1) % 2 ^ 64) * ((maxL + 1) % 2 ^ 64)) % 2 ^ 64,
                 maxLFound_ := true }

/-- Embedding of `PRTReader::ProcessLine`. -/
def ProcessLine {α : Type} (ft : FloatText α) (r : PRTReader α) (specifier : List Char)
    (line : List (List Char)) : Outcome (PRTReader α) :=
  if specifier = ['v'] then
    if r.maxLFound_ = false then .returned false r else SetVertex ft r line
  else if specifier = ['f'] then SetIndex r line
  else if specifier = ['L'] then SetMaxLine r line
  else .returned true r

/-- Embedding of `PRTReader::ProcessLineEM`. -/
def ProcessLineEM {α : Type} (ft : FloatText α) (r : PRTReader α) (specifier : List Char)
    (line : List (List Char)) : Outcome (PRTReader α) :=
  if specifier = ['L'] then SetMaxLine r line
  else if specifier = ['c'] then
    if line.length ≠ (r.nCoefficients_ * 3) % 2 ^ 64 ∨ r.maxLFound_ = false then
      .returned false r
    else
      match parseAll ft.stof line with
      | .error e => .raised e
      | .ok cs => .returned true { r with coefficients_ := r.coefficients_ ++ cs }
  else .returned true r

/-- The line specifier that `Load` takes from a line: its first string. -/
def specifier (s : List Char) : List Char := (getlines ' ' s).headD []

/-- The strings after the specifier, collected in `stringVec`. -/
def tokens (s : List Char) : List (List Char) := (getlines ' ' s).tail

/-- The lines that `Load` passes over: empty lines and lines that start with `#`. -/
def skipped (s : List Char) : Bool := s.head? = some '#' || s.isEmpty

/-- The line loop of `PRTReader::Load`: every line that is not skipped is split at
spaces and processed; `returned true` means that the loop reached the end of the
stream. -/
def loadLines {α : Type} (ft : FloatText α) (isEM : Bool) :
    List (List Char) → PRTReader α → Outcome (PRTReader α)
  | [], r => .returned true r
  | s :: rest, r =>
    if skipped s = true then loadLines ft isEM rest r
    else
      match (if isEM = true then ProcessLineEM ft r (specifier s) (tokens s)
             else ProcessLine ft r (specifier s) (tokens s)) with
      | .returned true r' => loadLines ft isEM rest r'
      | .returned false r' => .returned false r'
      | .raised e => .raised e
      | .undefined => .undefined

/-- The final checks of `PRTReader::Load`. -/
def finalChecks {α : Type} (isEM : Bool) (r : PRTReader α) : Bool :=
  if isEM then
    if r.coefficients_.length ≠ (r.nCoefficients_ * 3) % 2 ^ 64 then false else true
  else
    if r.vertices_.length = 0 ∨ r.vertices_.length % 3 ≠ 0 then false
    else if r.indices_.length = 0 then false
    else if r.coefficients_.length ≠ (r.nCoefficients_ * r.vertices_.length) % 2 ^ 64 / 3 then
      false
    else true

/-- Embedding of `PRTReader::Load`. -/
def Load {α : Type} (ft : FloatText α) (r : PRTReader α) (file : Option (List Char))
    (isEM : Bool) : Outcome (PRTReader α) :=
  match file with
  | none => .returned false r
  | some content =>
    match loadLines ft isEM (getlines '\n' content) r with
    | .returned true r' =>
      if finalChecks isEM r' = true then .returned true { r' with isLoaded_ := true }
      else .returned false r'
    | o => o

/-- The `int` value of a `size_t` (two's complement, 32 bits). -/
def toInt32 (n : Nat) : Int := ((n + 2 ^ 31) % 2 ^ 32 : Nat) - 2 ^ 31

/-- Embedding of `PRTReader::GetVertices` (the data behind the returned pointer);
`NotLoadedMessage` throws when nothing is loaded. -/
def GetVertices {α : Type} (r : PRTReader α) : Except Exception (List α) :=
  if r.isLoaded_ = true then .ok r.vertices_ else .error .exception

/-- Embedding of `PRTReader::GetCoefficients`. -/
def GetCoefficients {α : Type} (r : PRTReader α) : Except Exception (List α) :=
  if r.isLoaded_ = true then .ok r.coefficients_ else .error .exception

/-- Embedding of `PRTReader::GetIndices`. -/
def GetIndices {α : Type} (r : PRTReader α) : Except Exception (List Nat) :=
  if r.isLoaded_ = true then .ok r.indices_ else .error .exception

/-- Embedding of `PRTReader::GetSizeVertices`. -/
def GetSizeVertices {α : Type} (r : PRTReader α) : Except Exception Nat :=
  if r.isLoaded_ = true then .ok r.vertices_.length else .error .exception

/-- Embedding of `PRTReader::GetSizeIndices`. -/
def GetSizeIndices {α : Type} (r : PRTReader α) : Except Exception Nat :=
  if r.isLoaded_ = true then .ok r.indices_.length else .error .exception

/-- Embedding of `PRTReader::GetSizeCoefficients`. -/
def GetSizeCoefficients {α : Type} (r : PRTReader α) : Except Exception Nat :=
  if r.isLoaded_ = true then .ok r.coefficients_.length else .error .exception

/-- Embedding of `PRTReader::GetMaxL`. -/
def GetMaxL {α : Type} (r : PRTReader α) : Except Exception Nat :=
  if r.isLoaded_ = true then .ok r.maxL_ else .error .exception

/-- Embedding of `PRTReader::GetNCoefficients`, which returns an `int`. -/
def GetNCoefficients {α : Type} (r : PRTReader α) : Except Exception Int :=
  if r.isLoaded_ = true then .ok (toInt32 r.nCoefficients_) else .error .exception

/-! ## `PRTWriter` (PRTWriter.cpp)

A pointer member is modelled by the array it points to; reading behind the end of that
array is undefined.  `Write` is given whether the file can be opened and returns the
`bool` result together with the text written to the file (`none`: the file was not
touched). -/

/-- The data members of `PRTWriter`. -/
structure PRTWriter (α : Type) where
  pVertex_ : List α
  pCoefficient_ : List α
  pIndex_ : List Nat
  vertexSize_ : Nat
  coefficientSize_ : Nat
  indexSize_ : Nat
  nCoefficients_ : Nat
  maxL_ : Nat
  addedVertices_ : Bool
  addedIndices_ : Bool
  addedCoefficients_ : Bool

/-- A default-constructed writer. -/
def PRTWriter.fresh (α : Type) : PRTWriter α :=
  { pVertex_ := [], pCoefficient_ := [], pIndex_ := [], vertexSize_ := 0,
    coefficientSize_ := 0, indexSize_ := 0, nCoefficients_ := 0, maxL_ := 0,
    addedVertices_ := false, addedIndices_ := false, addedCoefficients_ := false }

/-- Embedding of `PRTWriter::AddVertices`. -/
def AddVertices {α : Type} (w : PRTWriter α) (pVertex : List α) (size : Nat) : PRTWriter α :=
  { w with pVertex_ := pVertex, vertexSize_ := size, addedVertices_ := true }

/-- Embedding of `PRTWriter::AddCoefficients`: `(maxL + 1) * (maxL + 1)` is computed in
`int`, where overflow is undefined, and then stored in a `size_t`. -/
def AddCoefficients {α : Type} (w : PRTWriter α) (maxL : Int) (pCoefficient : List α)
    (size : Nat) : Option (PRTWriter α) :=
  if maxL + 1 < 2 ^ 31 ∧ (maxL + 1) * (maxL + 1) < 2 ^ 31 then
    some { w with maxL_ := toIndex maxL, nCoefficients_ := toIndex ((maxL + 1) * (maxL + 1)),
                  pCoefficient_ := pCoefficient, coefficientSize_ := size,
                  addedCoefficients_ := true }
  else none

/-- Embedding of `PRTWriter::AddIndices`. -/
def AddIndices {α : Type} (w : PRTWriter α) (pIndex : List Nat) (size : Nat) : PRTWriter α :=
  { w with pIndex_ := pIndex, indexSize_ := size, addedIndices_ := true }

/-- Embedding of `PRTWriter::writeVertices`, appending to the text `out` written so far.
The offset `3 * i` is an `int` product. -/
def writeVertices {α : Type} (ft : FloatText α) (w : PRTWriter α) (out : List Char) :
    Option (List Char) :=
  forInt (fun i o =>
      (forUp (fun j o1 =>
          if 2 ^ 31 ≤ 3 * i then none
          else (w.pVertex_[3 * i + j]?).map fun x => o1 ++ ' ' :: ft.put x)
        3 (o ++ ['v'])).bind fun o2 =>
      (forInt (fun j o3 =>
          (w.pCoefficient_[(i * w.nCoefficients_ + j) % 2 ^ 64]?).map fun x =>
            o3 ++ ' ' :: ft.put x)
        w.nCoefficients_ o2).map fun o4 => o4 ++ ['\n'])
    (w.vertexSize_ / 3) out

/-- Embedding of `PRTWriter::writeIndices`. -/
def writeIndices {α : Type} (w : PRTWriter α) (out : List Char) : Option (List Char) :=
  forInt (fun i o =>
      (forUp (fun j o1 =>
          if 2 ^ 31 ≤ 3 * i then none
          else (w.pIndex_[3 * i + j]?).map fun x => o1 ++ ' ' :: decimal x)
        3 (o ++ ['f'])).map fun o2 => o2 ++ ['\n'])
    (w.indexSize_ / 3) out

/-- Embedding of `PRTWriter::writeCoefficients`. -/
def writeCoefficients {α : Type} (ft : FloatText α) (w : PRTWriter α) (out : List Char) :
    Option (List Char) :=
  forInt (fun j o =>
      (w.pCoefficient_[j]?).map fun x =>
        if j ≠ (w.nCoefficients_ * 3) % 2 ^ 64 - 1 then o ++ ft.put x ++ [' ']
        else o ++ ft.put x)
    ((w.nCoefficients_ * 3) % 2 ^ 64) (out ++ ['c', ' '])

/-- Embedding of `PRTWriter::Write`. -/
def Write {α : Type} (ft : FloatText α) (w : PRTWriter α) (canOpen : Bool) (isEM : Bool) :
    Option (Bool × Option (List Char)) :=
  if isEM = true ∧ w.addedCoefficients_ = false then some (false, none)
  else if isEM = false ∧ (w.addedCoefficients_ = false ∨ w.addedIndices_ = false ∨
      w.addedVertices_ = false) then some (false, none)
  else if canOpen = false then some (false, none)
  else
    let header := 'L' :: ' ' :: decimal w.maxL_ ++ ['\n']
    (if isEM = true then writeCoefficients ft w header
     else (writeVertices ft w header).bind (writeIndices w)).map fun out => (true, some out)

/-- The lines that `Load` processes under the specifier `sp`. -/
def isLine (sp : List Char) (s : List Char) : Prop := skipped s = false ∧ specifier s = sp

/-! ## `Workspace`: the coefficient limit of the renderer (Workspace.cpp)

Only the members that `RenderPRTObject` uses for the root constants `prtMaxL`, `emMaxL`
and `setMaxL` are kept.  A call ends with `none` when its behaviour is undefined, with
an exception, or with the new state. -/

/-- The members of `Workspace` behind the three root constants. -/
structure Workspace (α : Type) where
  prtData_ : PRTReader α
  emData_ : List (PRTReader α)
  iEM_ : Nat
  maxL_ : Nat
  prtMaxL_ : Nat
  emMaxL_ : List Nat
  numEM_ : Nat
  isInitialized_ : Bool

/-- Embedding of the constructor `Workspace(numEM)`, with the default member
initialisers `maxL_ = 1000` and `prtMaxL_ = 0`. -/
def Workspace.create (α : Type) (numEM : Nat) : Workspace α :=
  { prtData_ := PRTReader.fresh α, emData_ := List.replicate numEM (PRTReader.fresh α),
    iEM_ := 0, maxL_ := 1000, prtMaxL_ := 0, emMaxL_ := List.replicate numEM 0,
    numEM_ := numEM, isInitialized_ := false }

/-- The `UINT` value of an `int`. -/
def toUInt32 (z : Int) : Nat := (z % 2 ^ 32).toNat

/-- Embedding of `Workspace::AddEM`, as far as the members above go: `PRTReader em(emFile,
true)` loads the file into a fresh reader and ignores the result of `Load`; the later
accessor calls throw when that reader is not loaded; the entry `emMaxL_[iEM]` receives
the value of `GetNCoefficients()`. -/
def AddEM {α : Type} (ft : FloatText α) (ws : Workspace α) (emFile : Option (List Char))
    (iEM : Nat) : Option (Except Exception (Workspace α)) :=
  if ws.isInitialized_ = true then some (.ok ws)
  else
    match Load ft (PRTReader.fresh α) emFile true with
    | .undefined => none
    | .raised e => some (.error e)
    | .returned _ em =>
      if ws.emData_.length ≤ iEM then none
      else
        match GetSizeCoefficients em, GetCoefficients em, GetNCoefficients em with
        | .ok _, .ok _, .ok n =>
          some (.ok { ws with emData_ := ws.emData_.set iEM em,
                              emMaxL_ := ws.emMaxL_.set iEM (toUInt32 n) })
        | _, _, _ => some (.error .exception)

/-- Embedding of `Workspace::AddPRT`, as far as the members above go: the member reader
`prtData_` loads the file (the result of `Load` is ignored), and `prtMaxL_` receives
the value of `GetMaxL()`, a `size_t` stored in a `UINT`. -/
def AddPRT {α : Type} (ft : FloatText α) (ws : Workspace α) (prtFile : Option (List Char)) :
    Option (Except Exception (Workspace α)) :=
  if ws.isInitialized_ = true then some (.ok ws)
  else
    match Load ft ws.prtData_ prtFile false with
    | .undefined => none
    | .raised e => some (.error e)
    | .returned _ prt =>
      match GetSizeCoefficients prt, GetCoefficients prt, GetMaxL prt with
      | .ok _, .ok _, .ok l => some (.ok { ws with prtData_ := prt, prtMaxL_ := l % 2 ^ 32 })
      | _, _, _ => some (.error .exception)

/-- Embedding of `Workspace::SetMaxL`. -/
def SetMaxL {α : Type} (ws : Workspace α) (maxL : Nat) : Workspace α :=
  { ws with maxL_ := maxL }

/-- Embedding of `Workspace::SetCurrentEM`. -/
def SetCurrentEM {α : Type} (ws : Workspace α) (iEM : Nat) : Workspace α :=
  { ws with iEM_ := iEM % ws.numEM_ }

/-- The root constants `prtMaxL`, `emMaxL` and `setMaxL` of `PRTInData`. -/
structure PRTInData where
  prtMaxL : Nat
  emMaxL : Nat
  setMaxL : Nat
  deriving DecidableEq

/-- Embedding of the root constants that `Workspace::RenderPRTObject` computes. -/
def RenderPRTObject {α : Type} (ws : Workspace α) : Option PRTInData :=
  (ws.emMaxL_[ws.iEM_]?).map fun em =>
    { prtMaxL := ws.prtMaxL_, emMaxL := em, setMaxL := min (min ws.maxL_ ws.prtMaxL_) em }

/-! ## `GeneratePRT`: the per-vertex root constants (GeneratePRT.cpp) -/

/-- The structure `RaySettings`, four `UINT32` root constants. -/
structure RaySettings where
  numEventsX : Nat
  numPlaneChunks : Nat
  numPlanes : Nat
  iSH : Nat
  deriving DecidableEq

/-- The structure `DirectX::XMFLOAT4`. -/
structure XMFLOAT4 (α : Type) where
  x : α
  y : α
  z : α
  w : α

/-- The structure `RayData`. -/
structure RayData (α : Type) where
  rayPos : XMFLOAT4 α
  forward : XMFLOAT4 α
  xDir : XMFLOAT4 α
  settings : RaySettings

/-- The settings that `GeneratePRT` stores before its vertex loop: `UINT64` expressions
assigned to `UINT32` members (`iSH` is set later, by `PopulateIntegrator`). -/
def initialRaySettings (constants : PRTConstantContainer) : RaySettings :=
  { numEventsX := constants.numEventsX % 2 ^ 32,
    numPlaneChunks := (constants.triangleNum / 512 + 1) % 2 ^ 32,
    numPlanes := constants.triangleNum % 2 ^ 32,
    iSH := 0 }

/-- The three assignments to `rayData` at the start of iteration `i` of the vertex loop
of `GeneratePRT`, where `pVertex` and `pNormal` have been advanced `i` times by 3; a read
behind the end of an array is undefined. -/
def setRay {α : Type} [Field α] (rayData : RayData α) (vertexData normalData : List α)
    (i : Nat) : Option (RayData α) :=
  match vertexData[3 * i]?, vertexData[3 * i + 1]?, vertexData[3 * i + 2]?,
        normalData[3 * i]?, normalData[3 * i + 1]?, normalData[3 * i + 2]? with
  | some px, some py, some pz, some nx, some ny, some nz =>
    some { rayData with rayPos := ⟨px, py, pz, 0⟩, forward := ⟨nx, ny, nz, 0⟩,
                        xDir := ⟨-ny, nx, 0, 0⟩ }
  | _, _, _, _, _, _ => none

/-- The scalar product of the spatial parts of two `XMFLOAT4` values. -/
def dot3 {α : Type} [Field α] (a b : XMFLOAT4 α) : α := a.x * b.x + a.y * b.y + a.z * b.z

/-- The concatenation `f 0 ++ f 1 ++ ... ++ f (n - 1)`: what a loop that appends `f i`
in iteration `i` has produced after `n` iterations. -/
def concatUpTo {β : Type} (f : Nat → List β) : Nat → List β
  | 0 => []
  | n + 1 => concatUpTo f n ++ f n

/-- The text of a list of strings, each with a space in front of it. -/
def spaced : List (List Char) → List Char
  | [] => []
  | t :: ts => ' ' :: t ++ spaced ts

/-- The data a writer holds is in range for `Write`: the arrays behind the pointers hold
what the loops read, and the loop bounds and `int` offsets stay below `2 ^ 31`. -/
def WriterInRange {α : Type} (w : PRTWriter α) (isEM : Bool) : Prop :=
  if isEM = true then
    (w.nCoefficients_ * 3) % 2 ^ 64 < 2 ^ 31 ∧
      (w.nCoefficients_ * 3) % 2 ^ 64 ≤ w.pCoefficient_.length
  else
    w.nCoefficients_ < 2 ^ 31 ∧
    3 * (w.vertexSize_ / 3) < 2 ^ 31 ∧ 3 * (w.vertexSize_ / 3) ≤ w.pVertex_.length ∧
    w.vertexSize_ / 3 * w.nCoefficients_ ≤ w.pCoefficient_.length ∧
    3 * (w.indexSize_ / 3) < 2 ^ 31 ∧ 3 * (w.indexSize_ / 3) ≤ w.pIndex_.length

/-! ## Command lists, the queue and the vertex loop of `GeneratePRT`

A command list is the list of the commands recorded between `Reset` and `Close`.  The
host side is a trace of events: what is recorded on which list, which list is handed to
the queue, the fence values signalled and waited for, and the mapping of the read-back
buffer.  `WaitForFence` returns only when the fence has reached `fenceValue_`, so the
event `waitForFence v` stands for the end of that wait. -/

/-- The resource states that occur. -/
inductive ResourceState where
  | UNORDERED_ACCESS
  | NON_PIXEL_SHADER_RESOURCE
  | COPY_SOURCE
  | COPY_DEST
  | VERTEX_AND_CONSTANT_BUFFER
  deriving DecidableEq

/-- The resources of `PRTResourceContainer` and `EMResourceContainer`. -/
inductive ResourceId where
  | randomRes
  | planeRes
  | resultRes
  | readbackRes
  | indexRes
  | vertexRes
  | visibilityRes
  | hdrRes
  | shRes (i : Nat)
  deriving DecidableEq

/-- The compute pipelines. -/
inductive PipelineId where
  | rayTracerPrePass
  | rayTracer
  | integrate
  | emIntegrate
  deriving DecidableEq

/-- The descriptor heaps. -/
inductive HeapId where
  | planeHeap
  | rayHeap
  | integrateHeap
  | emHeap
  deriving DecidableEq

/-- The commands of a command list; `ρ` is the type of the root constants that
`SetComputeConstants` copies into the list. -/
inductive Command (ρ : Type) where
  | SetPipeline (pipeline : PipelineId)
  | SetDescriptorHeap (num : Nat) (heap : HeapId)
  | SetComputeConstants (index size : Nat) (data : ρ)
  | SetComputeDesciptorTable (index : Nat) (heap : HeapId) (handle : Nat)
  | Dispatch (numX numY numZ : Nat)
  | Barrier (resource : ResourceId) (stateBefore stateAfter : ResourceState)
  | CopyResource (dest src : ResourceId)

/-- The state in which `InitializePRTResources` and `InitializeEMResources` create each
resource (the argument of `SetState`). -/
def initialState : ResourceId → ResourceState
  | .randomRes => .UNORDERED_ACCESS
  | .planeRes => .UNORDERED_ACCESS
  | .resultRes => .UNORDERED_ACCESS
  | .readbackRes => .COPY_DEST
  | .indexRes => .VERTEX_AND_CONSTANT_BUFFER
  | .vertexRes => .VERTEX_AND_CONSTANT_BUFFER
  | .visibilityRes => .UNORDERED_ACCESS
  | .hdrRes => .NON_PIXEL_SHADER_RESOURCE
  | .shRes _ => .NON_PIXEL_SHADER_RESOURCE

/-- The resource states after a command list, or `none` when a `Barrier` names a
`stateBefore` that is not the state of its resource, or a `CopyResource` finds its
source outside `COPY_SOURCE` or its destination outside `COPY_DEST`. -/
def runStates {ρ : Type} :
    List (Command ρ) → (ResourceId → ResourceState) → Option (ResourceId → ResourceState)
  | [], st => some st
  | .Barrier res before after :: cs, st =>
    if st res = before then runStates cs (fun r => if r = res then after else st r) else none
  | .CopyResource dest src :: cs, st =>
    if st src = .COPY_SOURCE ∧ st dest = .COPY_DEST then runStates cs st else none
  | _ :: cs, st => runStates cs st

/-- Embedding of the commands that `PopulateRayTracer` records between `Reset` and
`Close`.  `sizeof(RayData) / 4` is 16. -/
def PopulateRayTracer {α : Type} (constants : PRTConstantContainer) (rayData : RayData α) :
    List (Command (RayData α)) :=
  [ .SetPipeline .rayTracerPrePass,
    .SetDescriptorHeap 1 .planeHeap,
    .SetComputeConstants 0 16 rayData,
    .SetComputeDesciptorTable 1 .planeHeap 0,
    .SetComputeDesciptorTable 2 .planeHeap 2,
    .Dispatch rayData.settings.numPlaneChunks 1 1,
    .Barrier .planeRes .UNORDERED_ACCESS .NON_PIXEL_SHADER_RESOURCE,
    .SetPipeline .rayTracer,
    .SetDescriptorHeap 1 .rayHeap,
    .SetComputeConstants 0 16 rayData,
    .SetComputeDesciptorTable 1 .rayHeap 0,
    .SetComputeDesciptorTable 2 .rayHeap 2,
    .Dispatch (constants.numEventsX % 2 ^ 32 / 8) (constants.numEventsX % 2 ^ 32 / 8) 1,
    .Barrier .planeRes .NON_PIXEL_SHADER_RESOURCE .UNORDERED_ACCESS ]

/-- The loop body of `PopulateIntegrator` for the coefficient `j`: it stores `j` in
`rayData.settings.iSH` and appends seven commands; the handle index `3 + j` is an `int`
sum. -/
def integrateStep {α : Type} (constants : PRTConstantContainer) (j : Nat)
    (s : List (Command (RayData α)) × RayData α) :
    Option (List (Command (RayData α)) × RayData α) :=
  if 2 ^ 31 ≤ 3 + j then none
  else
    let rd : RayData α := { s.2 with settings := { s.2.settings with iSH := j % 2 ^ 32 } }
    some (s.1 ++
      [ .SetPipeline .integrate,
        .SetDescriptorHeap 1 .integrateHeap,
        .SetComputeConstants 0 16 rd,
        .SetComputeDesciptorTable 1 .integrateHeap (3 + j),
        .SetComputeDesciptorTable 2 .integrateHeap 0,
        .SetComputeDesciptorTable 3 .integrateHeap 2,
        .Dispatch (constants.numEventsX % 2 ^ 32 / 8) (constants.numEventsX % 2 ^ 32 / 8) 1 ],
      rd)

/-- Embedding of the commands that `PopulateIntegrator` records between `Reset` and
`Close`, with the `rayData` it leaves behind. -/
def PopulateIntegrator {α : Type} (constants : PRTConstantContainer) (rayData : RayData α) :
    Option (List (Command (RayData α)) × RayData α) :=
  (forInt (integrateStep constants) constants.nCoefficients
    ([ .Barrier .randomRes .UNORDERED_ACCESS .NON_PIXEL_SHADER_RESOURCE,
       .Barrier .visibilityRes .UNORDERED_ACCESS .NON_PIXEL_SHADER_RESOURCE ], rayData)).map
    fun s =>
      (s.1 ++
        [ .Barrier .randomRes .NON_PIXEL_SHADER_RESOURCE .UNORDERED_ACCESS,
          .Barrier .visibilityRes .NON_PIXEL_SHADER_RESOURCE .UNORDERED_ACCESS,
          .Barrier .resultRes .UNORDERED_ACCESS .COPY_SOURCE,
          .CopyResource .readbackRes .resultRes,
          .Barrier .resultRes .COPY_SOURCE .UNORDERED_ACCESS ], s.2)

/-- The structure `EMSETTINGS` without its two padding members. -/
structure EMSETTINGS where
  numEventsX : Nat
  iCoefficient : Nat
  deriving DecidableEq

/-- The loop body of `ExecuteEMPipeline` for the coefficient `i`. -/
def emStep (constants : EMConstantContainer) (i : Nat) (cmds : List (Command EMSETTINGS)) :
    Option (List (Command EMSETTINGS)) :=
  if 2 ^ 31 ≤ 3 + i then none
  else
    some (cmds ++
      [ .SetComputeDesciptorTable 3 .emHeap (3 + i),
        .SetComputeConstants 4 4 ⟨constants.numEventsX % 2 ^ 32, i % 2 ^ 32⟩,
        .Dispatch (constants.numEventsX / 8 % 2 ^ 32) (constants.numEventsX / 8 % 2 ^ 32) 1 ])

/-- The commands that `ExecuteEMPipeline` records between `Reset` and `Close`. -/
def emCommands (constants : EMConstantContainer) : Option (List (Command EMSETTINGS)) :=
  (forInt (emStep constants) constants.nCoefficients
    [ .SetPipeline .emIntegrate,
      .SetDescriptorHeap 1 .emHeap,
      .SetComputeDesciptorTable 0 .emHeap 0,
      .SetComputeDesciptorTable 1 .emHeap 1,
      .SetComputeDesciptorTable 2 .emHeap 2 ]).map fun cmds =>
    cmds ++
      [ .Barrier .resultRes .UNORDERED_ACCESS .COPY_SOURCE,
        .CopyResource .readbackRes .resultRes,
        .Barrier .resultRes .COPY_SOURCE .UNORDERED_ACCESS ]

/-- The two command lists of `GeneratePRT`; `ExecuteEMPipeline` uses the first. -/
inductive ListId where
  | commandList
  | commandListSH
  deriving DecidableEq

/-- The events of the host thread. -/
inductive HostEvent (ρ : Type) where
  | reset (list : ListId)
  | record (list : ListId) (command : Command ρ)
  | close (list : ListId)
  | execute (list : ListId)
  | signal (value : Nat)
  | waitForFence (value : Nat)
  | map
  | unmap

/-- The member `fenceValue_` of the command queue and the trace so far. -/
structure Host (ρ : Type) where
  fenceValue_ : Nat
  trace : List (HostEvent ρ)

/-- The calls `list.Reset()`, the recording of `cmds`, and `list.Close()`. -/
def Host.recordList {ρ : Type} (h : Host ρ) (list : ListId) (cmds : List (Command ρ)) :
    Host ρ :=
  { h with trace := h.trace ++ [.reset list] ++ cmds.map (.record list) ++ [.close list] }

/-- Embedding of `CommandQueue::Execute`. -/
def Host.Execute {ρ : Type} (h : Host ρ) (list : ListId) : Host ρ :=
  { h with trace := h.trace ++ [.execute list] }

/-- Embedding of `CommandQueue::Signal`: `++fenceValue_` on a `uint64_t`, then the
signal of the new value is queued. -/
def Host.Signal {ρ : Type} (h : Host ρ) : Host ρ :=
  { fenceValue_ := (h.fenceValue_ + 1) % 2 ^ 64,
    trace := h.trace ++ [.signal ((h.fenceValue_ + 1) % 2 ^ 64)] }

/-- Embedding of `CommandQueue::WaitForFence`. -/
def Host.WaitForFence {ρ : Type} (h : Host ρ) : Host ρ :=
  { h with trace := h.trace ++ [.waitForFence h.fenceValue_] }

/-- The `Map` and `Unmap` calls of `StorePRTResult` and `StoreEMResult`. -/
def Host.mapUnmap {ρ : Type} (h : Host ρ) : Host ρ :=
  { h with trace := h.trace ++ [.map, .unmap] }

/-- Embedding of `ExecuteEMPipeline`: the list is recorded, executed, and the host
signals and waits. -/
def ExecuteEMPipeline (constants : EMConstantContainer) (h : Host EMSETTINGS) :
    Option (Host EMSETTINGS) :=
  (emCommands constants).map fun cmds =>
    (((h.recordList .commandList cmds).Execute .commandList).Signal).WaitForFence

/-- The state of the vertex loop of `GeneratePRT`. -/
structure VertexLoop (α : Type) where
  host : Host (RayData α)
  rayData : RayData α
  coefficients : List α

section VertexLoopDef
variable {α : Type} [Field α]

/-- Iteration `i` of the vertex loop of `GeneratePRT`; `readback i` is what the read-back
buffer holds when `StorePRTResult` maps it. -/
def vertexStep (constants : PRTConstantContainer) (vertexData normalData : List α)
    (readback : Nat → List α) (i : Nat) (s : VertexLoop α) : Option (VertexLoop α) :=
  (setRay s.rayData vertexData normalData i).bind fun rd =>
    let h1 := ((s.host.recordList .commandList (PopulateRayTracer constants rd)).Execute
      .commandList).Signal
    (PopulateIntegrator constants rd).bind fun p =>
      let h2 := (((((h1.recordList .commandListSH p.1).WaitForFence).Execute
        .commandListSH).Signal).WaitForFence)
      (StorePRTResult s.coefficients (readback i) constants).map fun coeffs =>
        { host := h2.mapUnmap, rayData := p.2, coefficients := coeffs }

/-- The vertex loop `for (int i = 0; i < vertexNum; ++i)` of `GeneratePRT`, started with
the settings of `initialRaySettings` and an empty coefficient vector. -/
def vertexLoop (constants : PRTConstantContainer) (vertexData normalData : List α)
    (readback : Nat → List α) (vertexNum : Nat) (h : Host (RayData α)) (rayData : RayData α) :
    Option (VertexLoop α) :=
  forInt (vertexStep constants vertexData normalData readback) vertexNum
    { host := h, rayData := { rayData with settings := initialRaySettings constants },
      coefficients := [] }

/-- The events of one vertex: the ray-tracing list is recorded, executed and signalled
with `f + 1`; the integration list is recorded; the host waits for `f + 1`, executes the
integration list, signals `f + 2`, waits for `f + 2`, and maps and unmaps the read-back
buffer. -/
def vertexEvents (constants : PRTConstantContainer) (rd : RayData α)
    (cmdsSH : List (Command (RayData α))) (f : Nat) : List (HostEvent (RayData α)) :=
  [.reset .commandList] ++ (PopulateRayTracer constants rd).map (.record .commandList) ++
    [.close .commandList, .execute .commandList, .signal (f + 1), .reset .commandListSH] ++
    cmdsSH.map (.record .commandListSH) ++
    [.close .commandListSH, .waitForFence (f + 1), .execute .commandListSH, .signal (f + 2),
     .waitForFence (f + 2), .map, .unmap]

end VertexLoopDef

/-- Whether a command is a `Dispatch`. -/
def Command.isDispatch {ρ : Type} : Command ρ → Bool
  | .Dispatch _ _ _ => true
  | _ => false

/-! ## The sizes of the result and read-back buffers -/

/-- Embedding of `Resource::SetBuffer`: the width in bytes, `numElements * elementSize`,
a `UINT64` product (stored in a `LONG_PTR` and passed on as a `UINT64`). -/
def SetBuffer (numElements elementSize : Nat) : Nat := (numElements * elementSize) % 2 ^ 64

/-- The width in bytes that `InitializePRTResources` gives the result buffer and the
read-back buffer: `SetBuffer(nCoefficients * numThreadGroups, 4, ..)`. -/
def prtReadbackWidth (constants : PRTConstantContainer) : Nat :=
  SetBuffer ((constants.nCoefficients * constants.numThreadGroups) % 2 ^ 64) 4

/-- The width in bytes that `InitializeEMResources` gives the result buffer and the
read-back buffer: `SetBuffer(nCoefficients * numThreadGroups * 3, sizeof(float), ..)`. -/
def emReadbackWidth (constants : EMConstantContainer) : Nat :=
  SetBuffer ((constants.nCoefficients * constants.numThreadGroups * 3) % 2 ^ 64) 4

/-! ## `GenerateSHvector` (GenerateGeneral_Utility.cpp) -/

section SHGrid
variable {α : Type} [Field α]

/-- The body of the innermost loop of `GenerateSHvector`:
`shVector[k].push_back(sh[k])`; an index outside either vector is undefined. -/
def pushSH (sh : List α) (k : Nat) (shVector : List (List α)) : Option (List (List α)) :=
  (sh[k]?).bind fun x => (shVector[k]?).map fun col => shVector.set k (col ++ [x])

/-- Embedding of `GenerateSHvector`.  The constant is the one of the function,
`const float PI = 3.1315927f`; `nCoefficients` is the `int` value of the `UINT64`
product `(maxL + 1) * (maxL + 1)`; the counters `i`, `j` are `int`s compared with the
`UINT64` grid size, and `float(shGridNum - 1)` is taken only when `shGridNum ≥ 1`. -/
def GenerateSHvector (ops : MathOps α) (shGridNum maxL : Nat) (shVector : List (List α)) :
    Option (List (List α)) :=
  let nCoefficients := toInt32 (((maxL + 1) * (maxL + 1)) % 2 ^ 64)
  forInt (fun i v =>
    forInt (fun j v =>
      let theta := (3.1315927 : α) * (j : α) / ((shGridNum - 1 : Nat) : α)
      let phi := 2 * (3.1315927 : α) * (i : α) / ((shGridNum - 1 : Nat) : α)
      (CalcSH ops maxL (ops.cos theta) phi).bind fun sh =>
        forUp (pushSH sh) nCoefficients.toNat v)
      shGridNum v)
    shGridNum shVector

/-- The vector that `GenerateSHvector` gets from `CalcSH` for the grid point `(i, j)`
(empty when the call does not return one). -/
def shCell (ops : MathOps α) (shGridNum maxL i j : Nat) : List α :=
  (CalcSH ops maxL (ops.cos ((3.1315927 : α) * (j : α) / ((shGridNum - 1 : Nat) : α)))
    (2 * (3.1315927 : α) * (i : α) / ((shGridNum - 1 : Nat) : α))).getD []

/-- The polar angle of grid column `j` as the specification defines it, for a value
`pi` of the circle constant: `theta_j = pi * j / (G - 1)`. -/
def specTheta (pi : α) (G j : Nat) : α := pi * (j : α) / ((G : α) - 1)

/-- The azimuth of grid row `i` as the specification defines it:
`phi_i = 2 * pi * i / (G - 1)`. -/
def specPhi (pi : α) (G i : Nat) : α := 2 * pi * (i : α) / ((G : α) - 1)

end SHGrid

/-! ## `HDRReader::DecodeByteCode` (HDRReader.cpp)

The bytes of the file behind the header are a list of numbers (each taken modulo 256);
the iterator `iter` is its offset `pos` from `byteData.cbegin()`.  The decoded floats
are the byte values, kept as numbers. -/

/-- The ways in which `DecodeByteCode` can leave defined behaviour: `*iter` with `iter`
at or behind `byteData.cend()`; `decodedData[index]` with `index` outside the vector;
`iter += 4` beyond `byteData.cend()`; `++index` at `INT_MAX`. -/
inductive Violation where
  | readPastEnd
  | writePastEnd
  | advancePastEnd
  | intOverflow
  deriving DecidableEq

/-- How a call of `DecodeByteCode` ends: it returns `b` with `decodedData` as given, or
its behaviour is undefined. -/
inductive Decoded where
  | returned (b : Bool) (decodedData : List Nat)
  | undefined (v : Violation)
  deriving DecidableEq

/-- The loop `for (i = 0; i < counter; ++i) { decodedData[index] = value; ++index; }`
over the values of one block. -/
def storeBlock : List Nat → Nat → List Nat → Except Violation (List Nat × Nat)
  | decodedData, index, [] => .ok (decodedData, index)
  | decodedData, index, v :: vs =>
    if index < decodedData.length then
      if 2 ^ 31 ≤ index + 1 then .error .intOverflow
      else storeBlock (decodedData.set index v) (index + 1) vs
    else .error .writePastEnd

/-- The local variables of `DecodeByteCode` at the test of its `while` loop; `pos` is the
offset of `iter` from `byteData.cbegin()`. -/
structure DecodeState where
  iLine : Nat
  iData : Nat
  pos : Nat
  index : Nat
  decodedData : List Nat
  deriving DecidableEq

/-- One round of the loops of `DecodeByteCode`: the call ends, or the loops go on. -/
inductive DecodeStep where
  | done (r : Decoded)
  | next (s : DecodeState)
  deriving DecidableEq

/-- The two nested loops of `DecodeByteCode`, one round from the test of the `while`
loop on.  When the scanline is complete (`iData ≥ width_ * 4`) the line counter is
incremented and, if lines remain, `iter += 4` skips the four bytes in front of the next
scanline.  Otherwise one block is decoded: the count byte is read, its values are
stored, and only then is the count compared with what is left of the scanline. -/
def decodeStep (width_ height_ : Nat) (byteData : List Nat) (s : DecodeState) : DecodeStep :=
  if s.iData < (width_ * 4) % 2 ^ 64 then
    match byteData[s.pos]? with
    | none => .done (.undefined .readPastEnd)
    | some byte =>
      if 128 < byte % 256 then
        if byteData.length - s.pos < 2 then .done (.returned false s.decodedData)
        else
          match storeBlock s.decodedData s.index
            (List.replicate (byte % 256 - 128) (byteData.getD (s.pos + 1) 0 % 256)) with
          | .error v => .done (.undefined v)
          | .ok (d, ix) =>
            if (width_ * 4) % 2 ^ 64 - s.iData < byte % 256 - 128 then
              .done (.returned false d)
            else
              .next ⟨s.iLine, (s.iData + (byte % 256 - 128)) % 2 ^ 32, s.pos + 2, ix, d⟩
      else
        if byteData.length - s.pos < byte % 256 + 1 then
          .done (.returned false s.decodedData)
        else
          match storeBlock s.decodedData s.index
            ((List.range (byte % 256)).map fun i =>
              byteData.getD (s.pos + 1 + i) 0 % 256) with
          | .error v => .done (.undefined v)
          | .ok (d, ix) =>
            if (width_ * 4) % 2 ^ 64 - s.iData < byte % 256 then .done (.returned false d)
            else
              .next ⟨s.iLine, (s.iData + byte % 256) % 2 ^ 32, s.pos + byte % 256 + 1, ix, d⟩
  else
    if (s.iLine + 1) % 2 ^ 32 < height_ then
      if s.pos + 4 ≤ byteData.length then
        .next ⟨(s.iLine + 1) % 2 ^ 32, 0, s.pos + 4, s.index, s.decodedData⟩
      else .done (.undefined .advancePastEnd)
    else .done (.returned true s.decodedData)

/-- The loops of `DecodeByteCode`, at most `fuel` rounds of them.  Every round moves
`iter` forward inside `byteData`, so `byteData.length` rounds are enough; `none` is a
run that was cut off. -/
def decodeFrom (width_ height_ : Nat) (byteData : List Nat) :
    Nat → DecodeState → Option Decoded
  | 0, _ => none
  | fuel + 1, s =>
    match decodeStep width_ height_ byteData s with
    | .done r => some r
    | .next t => decodeFrom width_ height_ byteData fuel t

/-- Embedding of `HDRReader::DecodeByteCode` on the bytes behind the header:
`decodedData.resize(width_ * height_ * 4ull)`, `index = 0`, and the loop over the
scanlines, which starts with `iter += 4`. -/
def DecodeByteCode (width_ height_ : Nat) (byteData : List Nat) : Option Decoded :=
  if 0 < height_ then
    if 4 ≤ byteData.length then
      decodeFrom width_ height_ byteData byteData.length
        ⟨0, 0, 4, 0, List.replicate ((width_ * height_ * 4) % 2 ^ 64) 0⟩
    else some (.undefined .advancePastEnd)
  else some (.returned true (List.replicate ((width_ * height_ * 4) % 2 ^ 64) 0))

/-! ## `ObjReader::CalcNormal` (ObjReader.cpp) -/

/-- How the first loop of `CalcNormal` ends: every index passed the range check, or one
was rejected (`return false`), or `std::stoi` threw, or `stoi(..) - 1` overflowed. -/
inductive RangeCheck where
  | passed (indices : List Int)
  | rejected
  | raised (e : Exception)
  | undefined
  deriving DecidableEq

/-- The first loop of `CalcNormal`, from token `i` on: `indices.push_back(stoi(line[i]) - 1)`
with an `int` subtraction, then `if ((size_t) indices[i] * 3 + 2 > vertices_.size())
return false`, the left side in `size_t` arithmetic. -/
def checkIndices (size : Nat) : List (List Char) → List Int → RangeCheck
  | [], indices => .passed indices
  | t :: ts, indices =>
    match stoi t with
    | .error e => .raised e
    | .ok v =>
      if v - 1 < -2 ^ 31 then .undefined
      else if size < (toIndex (v - 1) * 3 + 2) % 2 ^ 64 then .rejected
      else checkIndices size ts (indices ++ [v - 1])

section ObjNormals
variable {α : Type} [Field α]

/-- The read `vertices_[(size_t) index * 3 + i]`; outside the vector it is undefined. -/
def vertexAt (vertices_ : List α) (index : Int) (i : Nat) : Option α :=
  vertices_[(toIndex index * 3 + i) % 2 ^ 64]?

/-- The difference `vertices_[(size_t) a * 3 + i] - vertices_[(size_t) b * 3 + i]`. -/
def edge (vertices_ : List α) (a b : Int) (i : Nat) : Option α :=
  (vertexAt vertices_ a i).bind fun x => (vertexAt vertices_ b i).map fun y => x - y

/-- The update `normals_[(size_t) index * 3 + i] += x`. -/
def addNormal (normals_ : List α) (index : Int) (i : Nat) (x : α) : Option (List α) :=
  (normals_[(toIndex index * 3 + i) % 2 ^ 64]?).bind fun old =>
    store normals_ ((toIndex index * 3 + i) % 2 ^ 64) (old + x)

/-- The array `normal` of one face: the cross product of `vector1` and `vector2`. -/
def faceNormal (vertices_ : List α) (indices : List Int) (iFace : Nat) : Option (List α) :=
  (indices[iFace]?).bind fun i0 =>
  (indices[iFace + 1]?).bind fun i1 =>
  (indices[iFace + 2]?).bind fun i2 =>
  (edge vertices_ i1 i0 0).bind fun a0 =>
  (edge vertices_ i2 i0 0).bind fun b0 =>
  (edge vertices_ i1 i0 1).bind fun a1 =>
  (edge vertices_ i2 i0 1).bind fun b1 =>
  (edge vertices_ i1 i0 2).bind fun a2 =>
  (edge vertices_ i2 i0 2).map fun b2 =>
    [a1 * b2 - a2 * b1, a2 * b0 - a0 * b2, a0 * b1 - a1 * b0]

/-- The body of the second loop of `CalcNormal` for the face `iFace`: the normal is
computed and added to the normals of the three vertices of the face. -/
def faceStep (vertices_ : List α) (indices : List Int) (iFace : Nat) (normals_ : List α) :
    Option (List α) :=
  (faceNormal vertices_ indices iFace).bind fun normal =>
    forUp (fun iVertex n =>
      forUp (fun iIndex n =>
        (indices[iFace + iIndex]?).bind fun index =>
          (normal[iVertex]?).bind fun x => addNormal n index iVertex x) 3 n) 3 normals_

/-- Embedding of `ObjReader::CalcNormal` on the members `vertices_` and `normals_`; the
state returned is `normals_`.  The bound `line.size() - 2` of the second loop is a
`size_t` difference. -/
def CalcNormal (vertices_ normals_ : List α) (line : List (List Char)) : Outcome (List α) :=
  match checkIndices vertices_.length line [] with
  | .raised e => .raised e
  | .undefined => .undefined
  | .rejected => .returned false normals_
  | .passed indices =>
    match forUp (faceStep vertices_ indices) ((line.length + (2 ^ 64 - 2)) % 2 ^ 64)
        normals_ with
    | none => .undefined
    | some n => .returned true n

end ObjNormals

/-! ## The events of one vertex as the specification orders them -/

/-- The ray-tracing command list as the specification describes it: the prepass
pipeline with one dispatch of `groups` thread groups, the transition of the plane
buffer, then the ray-tracing pipeline with one dispatch of `numX × numX` thread groups
and the transition back; `data` are the root constants of both. -/
def specRayTracerList {ρ : Type} (data : ρ) (groups numX : Nat) : List (Command ρ) :=
  [ .SetPipeline .rayTracerPrePass,
    .SetDescriptorHeap 1 .planeHeap,
    .SetComputeConstants 0 16 data,
    .SetComputeDesciptorTable 1 .planeHeap 0,
    .SetComputeDesciptorTable 2 .planeHeap 2,
    .Dispatch groups 1 1,
    .Barrier .planeRes .UNORDERED_ACCESS .NON_PIXEL_SHADER_RESOURCE,
    .SetPipeline .rayTracer,
    .SetDescriptorHeap 1 .rayHeap,
    .SetComputeConstants 0 16 data,
    .SetComputeDesciptorTable 1 .rayHeap 0,
    .SetComputeDesciptorTable 2 .rayHeap 2,
    .Dispatch numX numX 1,
    .Barrier .planeRes .NON_PIXEL_SHADER_RESOURCE .UNORDERED_ACCESS ]

/-- The events of one vertex in the order of the specification, for a ray-tracing list
`cmdsRT`, an integration list `cmdsSH` and the fence value `f` at the start: the
ray-tracing list is reset, recorded, closed, executed and signalled with `f + 1`; the
integration list is reset, recorded and closed; the wait for `f + 1` ends; the
integration list is executed and signalled with `f + 2`; the wait for `f + 2` ends; the
read-back buffer is mapped and unmapped. -/
def specVertexEvents {ρ : Type} (cmdsRT cmdsSH : List (Command ρ)) (f : Nat) :
    List (HostEvent ρ) :=
  [.reset .commandList] ++ cmdsRT.map (.record .commandList) ++
    [.close .commandList, .execute .commandList, .signal (f + 1), .reset .commandListSH] ++
    cmdsSH.map (.record .commandListSH) ++
    [.close .commandListSH, .waitForFence (f + 1), .execute .commandListSH, .signal (f + 2),
     .waitForFence (f + 2), .map, .unmap]

/-- The events of vertex `i` in a run of `GeneratePRT` over a mesh of
`constants.triangleNum` triangles that starts at the fence value `f`: the prepass is
dispatched with `triangleNum / 512 + 1` thread groups (a `UINT32`) and the ray tracer
with `numEventsX / 8` groups in each of two directions. -/
def specVertexTrace {α : Type} (constants : PRTConstantContainer) (rds : Nat → RayData α)
    (cmds : Nat → List (Command (RayData α))) (f i : Nat) : List (HostEvent (RayData α)) :=
  specVertexEvents
    (specRayTracerList (rds i) ((constants.triangleNum / 512 + 1) % 2 ^ 32)
      (constants.numEventsX % 2 ^ 32 / 8))
    (cmds i) (f + 2 * i)

/-- The commands recorded on the list `list` in a trace, in the order of recording. -/
def recorded {ρ : Type} (list : ListId) (trace : List (HostEvent ρ)) : List (Command ρ) :=
  trace.filterMap fun e =>
    match e with
    | .record l c => if l = list then some c else none
    | _ => none

/-! ## Floating-point arithmetic

`FloatOps` lists the floating-point operations that `StorePRTResult`, `StoreEMResult`
and `CalcSH` perform: `α` is the type of the `float` values and `δ` of the `double`
values, and nothing is assumed about the operations (rounding, overflow to an
infinity, NaN, division by zero).  Every operator of the source is one operation of
its own type: no product is fused with a sum, and no `float` expression is evaluated in
a wider format.  `ieee` is the instance that computes in IEEE 754 binary32 and binary64
with rounding to nearest, ties to even. -/

/-- The floating-point operations of the host code.  `ofInt` is the conversion of an
integer to `float`, `lit n d` the `float` literal whose decimal text denotes `n / d`
(`4.0f` is `lit 4 1`, `3.14159f` is `lit 314159 100000`); `add`, `sub`, `mul`, `div` are
the `float` operators and `sqrt`, `sin`, `cos` the `float` overloads of `<cmath>`;
`toDouble` and `toFloat` convert between `float` and `double`, `dofInt` converts an
integer to `double`, `dmul` and `ddiv` are the `double` operators and `dpow` is
`pow(double, double)`. -/
structure FloatOps (α δ : Type) where
  ofInt : Int → α
  lit : Nat → Nat → α
  add : α → α → α
  sub : α → α → α
  mul : α → α → α
  div : α → α → α
  sqrt : α → α
  sin : α → α
  cos : α → α
  toDouble : α → δ
  toFloat : δ → α
  dofInt : Int → δ
  dmul : δ → δ → δ
  ddiv : δ → δ → δ
  dpow : δ → δ → δ

/-- A binary floating-point format: the number of bits of the significand and the
least and greatest exponent of a normal number. -/
structure Format where
  prec : Nat
  emin : Int
  emax : Int
  deriving DecidableEq

/-- The format of `float`. -/
def binary32 : Format := { prec := 24, emin := -126, emax := 127 }

/-- The format of `double`. -/
def binary64 : Format := { prec := 53, emin := -1022, emax := 1023 }

/-- A floating-point datum: the number `± m * 2 ^ e` (zero has a sign and is written
with `m = 0`, `e = 0`), an infinity, or a NaN. -/
inductive Fp where
  | finite (negative : Bool) (m : Nat) (e : Int)
  | infinite (negative : Bool)
  | nan
  deriving DecidableEq

/-- The loop of `bitLength`: one more digit for every halving that leaves a positive
number, at most `fuel` of them. -/
def bitLengthAux : Nat → Nat → Nat
  | 0, _ => 0
  | fuel + 1, n => if n = 0 then 0 else bitLengthAux fuel (n / 2) + 1

/-- The number of binary digits of `n`: `0` for `0`, and `⌊log₂ n⌋ + 1` otherwise. -/
def bitLength (n : Nat) : Nat := bitLengthAux n n

/-- The loop of `isqrt`: the digits of the root from `2 ^ (k - 1)` downwards. -/
def isqrtAux : Nat → Nat → Nat → Nat
  | 0, _, r => r
  | k + 1, n, r => isqrtAux k n (if (r + 2 ^ k) * (r + 2 ^ k) ≤ n then r + 2 ^ k else r)

/-- The integer square root `⌊√n⌋`, digit by digit. -/
def isqrt (n : Nat) : Nat := isqrtAux (bitLength n / 2 + 1) n 0

/-- The integer `⌊log₂ (n / d)⌋` for positive `n` and `d`. -/
def floorLog2 (n d : Nat) : Int :=
  let k : Int := (bitLength n : Int) - (bitLength d : Int)
  if 0 ≤ k then (if d * 2 ^ k.toNat ≤ n then k else k - 1)
  else (if d ≤ n * 2 ^ (-k).toNat then k else k - 1)

/-- Rounding to nearest, ties to even: the datum of the format nearest to
`± (n / d) * 2 ^ e`.  With `E` the exponent of the number, the significand is counted
in units of `2 ^ q`, `q = max E emin - (prec - 1)` (so numbers below `2 ^ emin` are
subnormal); a significand that rounds up to `2 ^ prec` moves to the next exponent; a
result of exponent above `emax` is an infinity. -/
def Format.round (fmt : Format) (negative : Bool) (n d : Nat) (e : Int) : Fp :=
  if n = 0 then .finite negative 0 0
  else
    let q : Int := max (floorLog2 n d + e) fmt.emin - ((fmt.prec : Int) - 1)
    let s : Int := e - q
    let a : Nat := if 0 ≤ s then n * 2 ^ s.toNat else n
    let b : Nat := if 0 ≤ s then d else d * 2 ^ (-s).toNat
    let m0 : Nat := a / b
    let r : Nat := a % b
    let m1 : Nat := if 2 * r < b then m0 else if b < 2 * r then m0 + 1 else m0 + m0 % 2
    let m2 : Nat := if m1 = 2 ^ fmt.prec then 2 ^ (fmt.prec - 1) else m1
    let q2 : Int := if m1 = 2 ^ fmt.prec then q + 1 else q
    if m2 = 0 then .finite negative 0 0
    else if fmt.emax < q2 + ((fmt.prec : Int) - 1) then .infinite negative
    else .finite negative m2 q2

/-- Conversion of an integer. -/
def Format.ofInt (fmt : Format) (z : Int) : Fp :=
  fmt.round (decide (z < 0)) z.natAbs 1 0

/-- The literal that denotes `n / d`. -/
def Format.lit (fmt : Format) (n d : Nat) : Fp :=
  fmt.round false n d 0

/-- Conversion of a datum to the format. -/
def Format.convert (fmt : Format) : Fp → Fp
  | .finite s m e => fmt.round s m 1 e
  | x => x

/-- The datum with the other sign. -/
def Fp.neg : Fp → Fp
  | .finite s m e => .finite (!s) m e
  | .infinite s => .infinite (!s)
  | .nan => .nan

/-- Addition: the exact sum is rounded; an exact sum zero is `+0` unless both terms are
negative; infinities of opposite sign give NaN. -/
def Format.add (fmt : Format) : Fp → Fp → Fp
  | .finite s1 m1 e1, .finite s2 m2 e2 =>
    let e : Int := min e1 e2
    let a : Int := if s1 then -((m1 * 2 ^ (e1 - e).toNat : Nat) : Int)
      else ((m1 * 2 ^ (e1 - e).toNat : Nat) : Int)
    let b : Int := if s2 then -((m2 * 2 ^ (e2 - e).toNat : Nat) : Int)
      else ((m2 * 2 ^ (e2 - e).toNat : Nat) : Int)
    if a + b = 0 then .finite (s1 && s2) 0 0
    else fmt.round (decide (a + b < 0)) (a + b).natAbs 1 e
  | .finite _ _ _, .infinite s => .infinite s
  | .infinite s, .finite _ _ _ => .infinite s
  | .infinite s1, .infinite s2 => if s1 = s2 then .infinite s1 else .nan
  | _, _ => .nan

/-- Subtraction. -/
def Format.sub (fmt : Format) (x y : Fp) : Fp := fmt.add x y.neg

/-- Multiplication: the exact product is rounded; zero times an infinity is NaN. -/
def Format.mul (fmt : Format) : Fp → Fp → Fp
  | .finite s1 m1 e1, .finite s2 m2 e2 => fmt.round (Bool.xor s1 s2) (m1 * m2) 1 (e1 + e2)
  | .finite s1 m1 _, .infinite s2 => if m1 = 0 then .nan else .infinite (Bool.xor s1 s2)
  | .infinite s1, .finite s2 m2 _ => if m2 = 0 then .nan else .infinite (Bool.xor s1 s2)
  | .infinite s1, .infinite s2 => .infinite (Bool.xor s1 s2)
  | _, _ => .nan

/-- Division: the exact quotient is rounded; a non-zero number divided by zero is an
infinity, zero by zero and infinity by infinity are NaN. -/
def Format.div (fmt : Format) : Fp → Fp → Fp
  | .finite s1 m1 e1, .finite s2 m2 e2 =>
    if m2 = 0 then (if m1 = 0 then .nan else .infinite (Bool.xor s1 s2))
    else fmt.round (Bool.xor s1 s2) m1 m2 (e1 - e2)
  | .finite s1 _ _, .infinite s2 => .finite (Bool.xor s1 s2) 0 0
  | .infinite s1, .finite s2 _ _ => .infinite (Bool.xor s1 s2)
  | _, _ => .nan

/-- The correctly rounded square root.  The significand is scaled by an even power of
two until its integer root `r` has more than `prec + 2` bits; `2 r`, or `2 r + 1` when
the root is not exact, then rounds as the root itself does. -/
def Format.sqrt (fmt : Format) : Fp → Fp
  | .finite s m e =>
    if m = 0 then .finite s 0 0
    else if s then .nan
    else
      let m' : Nat := if e % 2 = 0 then m else 2 * m
      let e' : Int := if e % 2 = 0 then e else e - 1
      let t : Nat := fmt.prec + 2
      let r : Nat := isqrt (m' * 2 ^ (2 * t))
      fmt.round false (2 * r + (if r * r = m' * 2 ^ (2 * t) then 0 else 1)) 1
        (e' / 2 - (t : Int) - 1)
  | .infinite s => if s then .nan else .infinite false
  | .nan => .nan

/-- The functions of `<cmath>` whose results IEEE 754 does not fix: `sin` and `cos` on
`float`, `pow` on `double`. -/
structure Libm where
  sin : Fp → Fp
  cos : Fp → Fp
  pow : Fp → Fp → Fp

/-- The operations of the host code in IEEE 754 arithmetic: `float` is binary32 and
`double` is binary64. -/
def ieee (lib : Libm) : FloatOps Fp Fp :=
  { ofInt := binary32.ofInt
    lit := binary32.lit
    add := binary32.add
    sub := binary32.sub
    mul := binary32.mul
    div := binary32.div
    sqrt := binary32.sqrt
    sin := lib.sin
    cos := lib.cos
    toDouble := binary64.convert
    toFloat := binary32.convert
    dofInt := binary64.ofInt
    dmul := binary64.mul
    ddiv := binary64.div
    dpow := lib.pow }

/-- The order `x < y` of two floating-point data: the numbers are compared on the finer
of the two scales; a comparison with a NaN is false. -/
def Fp.lt : Fp → Fp → Bool
  | .finite s1 m1 e1, .finite s2 m2 e2 =>
    let e : Int := min e1 e2
    let a : Int := if s1 then -((m1 * 2 ^ (e1 - e).toNat : Nat) : Int)
      else ((m1 * 2 ^ (e1 - e).toNat : Nat) : Int)
    let b : Int := if s2 then -((m2 * 2 ^ (e2 - e).toNat : Nat) : Int)
      else ((m2 * 2 ^ (e2 - e).toNat : Nat) : Int)
    decide (a < b)
  | .finite _ _ _, .infinite s => !s
  | .infinite s, .finite _ _ _ => s
  | .infinite s1, .infinite s2 => s1 && !s2
  | _, _ => false

/-- The function `Factorical` of the source on a binary32 datum, word for word:
`n > 1.0f ? n * Factorical(n - 1.0f) : 1.0f`.  `fuel` bounds the number of nested
calls; `none` says that they did not suffice. -/
def Fp.Factorical : Nat → Fp → Option Fp
  | 0, _ => none
  | fuel + 1, n =>
    if Fp.lt (binary32.lit 1 1) n then
      (Fp.Factorical fuel (binary32.sub n (binary32.lit 1 1))).map fun f => binary32.mul n f
    else some (binary32.lit 1 1)

/-- The function `DoubleFactorical` of the source on a binary32 datum, word for word:
`n > 1.0f ? n * DoubleFactorical(n - 2.0f) : 1.0f`, with at most `fuel` nested calls. -/
def Fp.DoubleFactorical : Nat → Fp → Option Fp
  | 0, _ => none
  | fuel + 1, n =>
    if Fp.lt (binary32.lit 1 1) n then
      (Fp.DoubleFactorical fuel (binary32.sub n (binary32.lit 2 1))).map fun f =>
        binary32.mul n f
    else some (binary32.lit 1 1)

/-- The number that a finite datum denotes. -/
def Fp.toRat : Fp → Option ℚ
  | .finite s m e => some ((if s then -1 else 1) * (m : ℚ) * (2 : ℚ) ^ e)
  | _ => none

/-! ## `StorePRTResult`, `StoreEMResult` and `CalcSH` in floating-point arithmetic

The same functions as above with every arithmetic operation of the source taken from a
`FloatOps`, in the order in which the source performs it. -/

section SingleDefs
variable {α δ : Type}

/-- Embedding of `StorePRTResult`: for each coefficient `j`, `float total = 0`, then
`total += *(p + j * numThreadGroups + k)` for each `k`, then
`push_back(total / float(numEvents) * 4.0f)`. -/
def Single.StorePRTResult (ops : FloatOps α δ) (coefficients readback : List α)
    (constants : PRTConstantContainer) : Option (List α) :=
  forInt (fun j coeffs =>
    (forInt (fun k (total : α) =>
        (readback[(j * constants.numThreadGroups + k) % 2 ^ 64]?).map fun b =>
          ops.add total b)
      constants.numThreadGroups (ops.ofInt 0)).map fun total =>
        coeffs ++ [ops.mul (ops.div total (ops.ofInt constants.numEvents)) (ops.lit 4 1)])
    constants.nCoefficients coefficients

/-- Embedding of `StoreEMResult`: for each coefficient `j`,
`float total[] = { 0.0f, 0.0f, 0.0f }`, then
`total[c] += *(p + (j * numThreadGroups + k) * 3 + c)` for each `k`, then
`push_back(total[c] / float(numEvents) * 4.0f * 3.14159f)` for `c = 0, 1, 2`. -/
def Single.StoreEMResult (ops : FloatOps α δ) (coefficients readback : List α)
    (constants : EMConstantContainer) : Option (List α) :=
  forInt (fun j coeffs =>
    (forInt (fun k (total : α × α × α) =>
        (readback[((j * constants.numThreadGroups + k) * 3) % 2 ^ 64]?).bind fun b0 =>
        (readback[((j * constants.numThreadGroups + k) * 3 + 1) % 2 ^ 64]?).bind fun b1 =>
        (readback[((j * constants.numThreadGroups + k) * 3 + 2) % 2 ^ 64]?).map fun b2 =>
          (ops.add total.1 b0, ops.add total.2.1 b1, ops.add total.2.2 b2))
      constants.numThreadGroups (ops.lit 0 1, ops.lit 0 1, ops.lit 0 1)).map fun total =>
        coeffs ++
          [ops.mul (ops.mul (ops.div total.1 (ops.ofInt constants.numEvents)) (ops.lit 4 1))
            (ops.lit 314159 100000),
           ops.mul (ops.mul (ops.div total.2.1 (ops.ofInt constants.numEvents)) (ops.lit 4 1))
            (ops.lit 314159 100000),
           ops.mul (ops.mul (ops.div total.2.2 (ops.ofInt constants.numEvents)) (ops.lit 4 1))
            (ops.lit 314159 100000)])
    constants.nCoefficients coefficients

/-- The sum `f 0 + f 1 + .. + f (n - 1)` added up from the left in `float`, starting
from `zero`. -/
def Single.sumUpTo (ops : FloatOps α δ) (zero : α) (f : Nat → α) : Nat → α
  | 0 => zero
  | k + 1 => ops.add (Single.sumUpTo ops zero f k) (f k)

/-- The PRT coefficient of the specification, evaluated in `float`: the sum of the
`numThreadGroups` partial sums of coefficient `j`, divided by `numEvents`, times `4`. -/
def Single.specPRTCoefficient (ops : FloatOps α δ) (readback : List α)
    (numThreadGroups numEvents j : Nat) : α :=
  ops.mul
    (ops.div
      (Single.sumUpTo ops (ops.ofInt 0)
        (fun k => readback.getD (j * numThreadGroups + k) (ops.ofInt 0)) numThreadGroups)
      (ops.ofInt numEvents))
    (ops.lit 4 1)

/-- The environment-map coefficient of the specification for coefficient `j` and
channel `c`, evaluated in `float`: the sum of the partial sums, divided by `numEvents`,
times `4`, times the literal `3.14159f` that the code has for pi. -/
def Single.specEMCoefficient (ops : FloatOps α δ) (readback : List α)
    (numThreadGroups numEvents j c : Nat) : α :=
  ops.mul
    (ops.mul
      (ops.div
        (Single.sumUpTo ops (ops.lit 0 1)
          (fun k => readback.getD ((j * numThreadGroups + k) * 3 + c) (ops.lit 0 1))
          numThreadGroups)
        (ops.ofInt numEvents))
      (ops.lit 4 1))
    (ops.lit 314159 100000)

/-- The constant `static const float PI = 3.1415926f` of `CalcCoefficient`. -/
def Single.PI (ops : FloatOps α δ) : α := ops.lit 31415926 10000000

/-- The recursion `n > 1.0f ? n * Factorical(n - 1.0f) : 1.0f` on a `float` that holds
the natural number `n ≤ 2 ^ 24`: such a float is exact, and so are `n - 1.0f` and the
comparison, so that the nested calls are on the floats of `n - 1`, .., `1`.  In IEEE 754
arithmetic this is `Fp_Factorical_eq`: the recursion of the source on the datum itself,
`Fp.Factorical`, returns this value. -/
def Single.factorical (ops : FloatOps α δ) : Nat → α
  | 0 => ops.lit 1 1
  | n + 1 =>
    if 1 < n + 1 then ops.mul (ops.ofInt ((n + 1 : Nat) : Int)) (Single.factorical ops n)
    else ops.lit 1 1

/-- Embedding of `Factorical`, called with the integer `n` converted to `float`.  Up to
`2 ^ 24` every integer is a `float` and the recursion runs through `n, n - 1, .., 2`.
Above, the conversion and `n - 1.0f` are rounded: the recursion leaves integers out or
does not end (at `2 ^ 24 + 4` the difference `n - 1.0f` is `n` again); that range is
not embedded, and no value is given for it. -/
def Single.Factorical (ops : FloatOps α δ) (n : Int) : Option α :=
  if 2 ^ 24 < n then none else some (Single.factorical ops n.toNat)

/-- The recursion `n > 1.0f ? n * DoubleFactorical(n - 2.0f) : 1.0f` on a `float` that
holds the natural number `n ≤ 2 ^ 24`; in IEEE 754 arithmetic the recursion of the source
on the datum itself, `Fp.DoubleFactorical`, returns this value
(`Fp_DoubleFactorical_eq`). -/
def Single.doubleFactorical (ops : FloatOps α δ) : Nat → α
  | 0 => ops.lit 1 1
  | 1 => ops.lit 1 1
  | n + 2 => ops.mul (ops.ofInt ((n + 2 : Nat) : Int)) (Single.doubleFactorical ops n)

/-- Embedding of `DoubleFactorical`, called with the integer `n` converted to `float`;
the range above `2 ^ 24`, where the conversion is rounded, is not embedded, and no value
is given for it. -/
def Single.DoubleFactorical (ops : FloatOps α δ) (n : Int) : Option α :=
  if 2 ^ 24 < n then none else some (Single.doubleFactorical ops n.toNat)

/-- Embedding of `CalcLegendre1` (the case `l = m`):
`pow(-1, m) * DoubleFactorical(2 * m - 1) * pow(1 - x * x, double(m) / 2)`, a `double`
expression (`pow` of two integers and `pow` of a `float` and a `double` are `double`)
that the `return` converts to `float`; `1 - x * x` is a `float`. -/
def Single.CalcLegendre1 (ops : FloatOps α δ) (m : Int) (x : α) : Option α :=
  (Single.DoubleFactorical ops (2 * m - 1)).map fun df =>
    ops.toFloat
      (ops.dmul
        (ops.dmul (ops.dpow (ops.dofInt (-1)) (ops.dofInt m)) (ops.toDouble df))
        (ops.dpow (ops.toDouble (ops.sub (ops.ofInt 1) (ops.mul x x)))
          (ops.ddiv (ops.dofInt m) (ops.dofInt 2))))

/-- Embedding of `CalcLegendre2` (the case `l = m + 1`): `x * (2 * m + 1) * P1`. -/
def Single.CalcLegendre2 (ops : FloatOps α δ) (m : Int) (x P1 : α) : α :=
  ops.mul (ops.mul x (ops.ofInt (2 * m + 1))) P1

/-- Embedding of `CalcLegendre3` (all other cases):
`(x * (2 * l - 1) * P1 - (l + m - 1) * P2) / float(l - m)`. -/
def Single.CalcLegendre3 (ops : FloatOps α δ) (l m : Int) (x P1 P2 : α) : α :=
  ops.div
    (ops.sub (ops.mul (ops.mul x (ops.ofInt (2 * l - 1))) P1)
      (ops.mul (ops.ofInt (l + m - 1)) P2))
    (ops.ofInt (l - m))

/-- Embedding of `CalcCoefficient`:
`res = sqrt(float(2 * l + 1) * Factorical(l - abs(m)) / (4.0f * PI * Factorical(l + abs(m))))`,
then `res *= sqrt(2.0f) * sin(-m * phi)` for `m < 0` and
`res *= sqrt(2.0f) * cos(m * phi)` for `m > 0`. -/
def Single.CalcCoefficient (ops : FloatOps α δ) (l m : Int) (phi : α) : Option α :=
  (Single.Factorical ops (l - |m|)).bind fun a =>
    (Single.Factorical ops (l + |m|)).map fun b =>
      let res :=
        ops.sqrt (ops.div (ops.mul (ops.ofInt (2 * l + 1)) a)
          (ops.mul (ops.mul (ops.lit 4 1) (Single.PI ops)) b))
      if m < 0 then
        ops.mul res (ops.mul (ops.sqrt (ops.lit 2 1)) (ops.sin (ops.mul (ops.ofInt (-m)) phi)))
      else if 0 < m then
        ops.mul res (ops.mul (ops.sqrt (ops.lit 2 1)) (ops.cos (ops.mul (ops.ofInt m) phi)))
      else res

/-- The body of the first loop nest of `CalcSH` up to the assignment: the value `res`
for `(l, m)`, read off the entries already in the vector (`none` when a read is outside
the vector). -/
def Single.legendreValue (ops : FloatOps α δ) (x : α) (l m : Int) (v : List α) : Option α :=
  if l = m then Single.CalcLegendre1 ops m x
  else if l = m + 1 then
    (v[toIndex (m * m + 2 * m)]?).map fun P1 => Single.CalcLegendre2 ops m x P1
  else
    (v[toIndex (l * l - l + m)]?).bind fun P1 =>
      (v[toIndex (l * l - 3 * l + m + 2)]?).map fun P2 => Single.CalcLegendre3 ops l m x P1 P2

/-- One iteration of the first loop nest of `CalcSH`: `SHvec[l * l + l + m] = res`. -/
def Single.legendreStep (ops : FloatOps α δ) (x : α) (l m : Int) (v : List α) :
    Option (List α) :=
  (Single.legendreValue ops x l m v).bind fun res => store v (toIndex (l * l + l + m)) res

/-- One iteration of the second loop nest of `CalcSH`:
`SHvec[l * l + l + m] = CalcCoefficient(l, m, phi) * SHvec[l * l + l + abs(m)]`. -/
def Single.coefficientStep (ops : FloatOps α δ) (phi : α) (l m : Int) (v : List α) :
    Option (List α) :=
  (Single.CalcCoefficient ops l m phi).bind fun c =>
    (v[toIndex (l * l + l + |m|)]?).bind fun p =>
      store v (toIndex (l * l + l + m)) (ops.mul c p)

/-- Embedding of `CalcSH`.  The vector has `(N + 1ull) * (N + 1ull)` entries (a `size_t`
product), all `0.0f`; `capacity` is the greatest number of `float`s with which a
`std::vector<float>` can be constructed on the machine (at most `max_size()`, which is
below `2 ^ 62`), a construction with more throws and no vector is returned.  The first
loop nest runs `l` from `0` to `N` and `m` from `l` down to `0`; the second runs `l`
from `0` to `N` and `m` from `-l` up to `l`. -/
def Single.CalcSH (ops : FloatOps α δ) (capacity N : Nat) (ctheta phi : α) :
    Option (List α) :=
  let size := ((N + 1) * (N + 1)) % 2 ^ 64
  if min capacity (2 ^ 62 - 1) < size then none
  else
    (forUp (fun l => forDown (fun m => Single.legendreStep ops ctheta l m) (l + 1)) (N + 1)
      (List.replicate size (ops.lit 0 1))).bind
    (forUp (fun l =>
      forUp (fun i => Single.coefficientStep ops phi l ((i : Int) - l)) (2 * l + 1)) (N + 1))

/-- The unnormalised associated Legendre value `P(l, m)` for `l = m + d`, by the three
cases of the specification, evaluated in floating-point arithmetic:
`P(m, m) = (-1)^m (2m-1)!! (1 - x^2)^(m/2)` (in `double`, then converted),
`P(m+1, m) = x (2m+1) P(m, m)`, and
`P(l, m) = (x (2l-1) P(l-1, m) - (l+m-1) P(l-2, m)) / (l - m)`. -/
def Single.specLegendre (ops : FloatOps α δ) (x : α) (m : Nat) : Nat → α
  | 0 =>
    ops.toFloat
      (ops.dmul
        (ops.dmul (ops.dpow (ops.dofInt (-1)) (ops.dofInt m))
          (ops.toDouble (Single.doubleFactorical ops (2 * m - 1))))
        (ops.dpow (ops.toDouble (ops.sub (ops.ofInt 1) (ops.mul x x)))
          (ops.ddiv (ops.dofInt m) (ops.dofInt 2))))
  | 1 => ops.mul (ops.mul x (ops.ofInt (2 * m + 1))) (Single.specLegendre ops x m 0)
  | d + 2 =>
    ops.div
      (ops.sub
        (ops.mul (ops.mul x (ops.ofInt (2 * ((m + d + 2 : Nat) : Int) - 1)))
          (Single.specLegendre ops x m (d + 1)))
        (ops.mul (ops.ofInt (((m + d + 2 : Nat) : Int) + m - 1))
          (Single.specLegendre ops x m d)))
      (ops.ofInt (((m + d + 2 : Nat) : Int) - m))

/-- The normalisation `K(l, m) = sqrt((2l+1) (l-|m|)! / (4 pi (l+|m|)!))` of the
specification, evaluated in `float`, the factorials being the products
`n * ((n - 1) * (.. * 1))` and `pi` the constant `PI` of the code. -/
def Single.specK (ops : FloatOps α δ) (l : Nat) (m : Int) : α :=
  ops.sqrt
    (ops.div (ops.mul (ops.ofInt (2 * (l : Int) + 1)) (Single.factorical ops (l - m.natAbs)))
      (ops.mul (ops.mul (ops.lit 4 1) (Single.PI ops)) (Single.factorical ops (l + m.natAbs))))

/-- The azimuthal factor of the specification for `m ≠ 0`, evaluated in `float`:
`√2 cos(m φ)` for `m > 0` and `√2 sin(-m φ)` for `m < 0`. -/
def Single.specA (ops : FloatOps α δ) (m : Int) (phi : α) : α :=
  if 0 < m then ops.mul (ops.sqrt (ops.lit 2 1)) (ops.cos (ops.mul (ops.ofInt m) phi))
  else ops.mul (ops.sqrt (ops.lit 2 1)) (ops.sin (ops.mul (ops.ofInt (-m)) phi))

/-- The real spherical harmonic `Y(l, m) = K(l, m) P(l, |m|) A(m, φ)` of the
specification, evaluated in `float` in the order of the code: `(K A) P` for `m ≠ 0` and
`K P` for `m = 0`, where the factor `A` is `1`. -/
def Single.specY (ops : FloatOps α δ) (x phi : α) (l : Nat) (m : Int) : α :=
  if m = 0 then ops.mul (Single.specK ops l m) (Single.specLegendre ops x m.natAbs (l - m.natAbs))
  else
    ops.mul (ops.mul (Single.specK ops l m) (Single.specA ops m phi))
      (Single.specLegendre ops x m.natAbs (l - m.natAbs))

/-- Loop invariant of the first loop nest of `CalcSH`: the vector has `size` entries,
every row `l < L` holds the Legendre values `P(l, m)` at `l * l + l + m` for
`0 ≤ m ≤ l`, and row `L` holds them for `M ≤ m ≤ L`. -/
def Single.LegendreInv (ops : FloatOps α δ) (x : α) (size L M : Nat) (v : List α) : Prop :=
  v.length = size ∧
    ∀ l m, m ≤ l → (l < L ∨ (l = L ∧ M ≤ m)) →
      v[l * l + l + m]? = some (Single.specLegendre ops x m (l - m))

/-- Loop invariant of the second loop nest of `CalcSH`: rows `l < L` and the first `I`
entries of row `L` hold the finished values `Y(l, m)` (entry `l * l + i` is order
`m = i - l`); the entries of orders `m ≥ 0` not yet overwritten still hold `P(l, m)`. -/
def Single.CoefficientInv (ops : FloatOps α δ) (x phi : α) (size N L I : Nat) (v : List α) :
    Prop :=
  v.length = size ∧
    (∀ l i, i ≤ 2 * l → (l < L ∨ (l = L ∧ i < I)) →
      v[l * l + i]? = some (Single.specY ops x phi l ((i : Int) - l))) ∧
    (∀ l m, l ≤ N → m ≤ l → (L < l ∨ (l = L ∧ I ≤ l + m)) →
      v[l * l + l + m]? = some (Single.specLegendre ops x m (l - m)))

end SingleDefs

/-! ## Exact arithmetic as an instance of `FloatOps` -/

/-- The operations read as the exact operations of a field, as the formulas of the
specification read them: conversions change nothing, the literal that denotes `n / d`
is `n / d`. -/
def exactOps {α : Type} [Field α] (fns : MathOps α) : FloatOps α α :=
  { ofInt := fun z => (z : α)
    lit := fun n d => (n : α) / (d : α)
    add := fun a b => a + b
    sub := fun a b => a - b
    mul := fun a b => a * b
    div := fun a b => a / b
    sqrt := fns.sqrt
    sin := fns.sin
    cos := fns.cos
    toDouble := fun a => a
    toFloat := fun a => a
    dofInt := fun z => (z : α)
    dmul := fun a b => a * b
    ddiv := fun a b => a / b
    dpow := fns.pow }

/-! ## Rounding lemmas for the single-precision model -/

theorem two_pow_pred_double {k : Nat} (hk : 1 ≤ k) : 2 ^ k = 2 * 2 ^ (k - 1) := by
  obtain ⟨j, rfl⟩ : ∃ j, k = j + 1 := ⟨k - 1, by omega⟩
  simp [pow_succ, mul_comm]

/-- A grid point below the exact root is below the rounded root. -/
theorem le_sqrtFloat24 (f M k : Nat)
    (hk : Nat.log 2 (Nat.sqrt (f * 2 ^ 48)) - 23 = k)
    (hM : 2 ^ k ∣ M) (h : M * M ≤ f * 2 ^ 48) :
    M ≤ sqrtFloat24 f := by
  unfold sqrtFloat24
  simp only []
  set r := Nat.sqrt (f * 2 ^ 48) with hr
  rw [hk]
  obtain ⟨c, rfl⟩ := hM
  have hG : 0 < 2 ^ k := Nat.pow_pos (by norm_num)
  have h1 : 2 ^ k * c ≤ r := Nat.le_sqrt.2 h
  have hc : c ≤ r / 2 ^ k := (Nat.le_div_iff_mul_le hG).2 (by rw [mul_comm]; exact h1)
  have h2 : 2 ^ k * c ≤ r / 2 ^ k * 2 ^ k := by
    rw [mul_comm]; exact Nat.mul_le_mul_right _ hc
  split_ifs
  · calc 2 ^ k * c ≤ r / 2 ^ k * 2 ^ k := h2
      _ ≤ (r / 2 ^ k + 1) * 2 ^ k := Nat.mul_le_mul_right _ (Nat.le_succ _)
  · exact h2

/-- A grid point above the exact root is above the rounded root. -/
theorem sqrtFloat24_le (f M k : Nat)
    (hk : Nat.log 2 (Nat.sqrt (f * 2 ^ 48)) - 23 = k) (hk1 : 1 ≤ k)
    (hM : 2 ^ k ∣ M) (h : f * 2 ^ 48 ≤ M * M) :
    sqrtFloat24 f ≤ M := by
  unfold sqrtFloat24
  simp only []
  set r := Nat.sqrt (f * 2 ^ 48) with hr
  rw [hk]
  obtain ⟨c, rfl⟩ := hM
  have hG : 0 < 2 ^ k := Nat.pow_pos (by norm_num)
  have hrM : r ≤ 2 ^ k * c := by
    have h3 : r * r ≤ (2 ^ k * c) * (2 ^ k * c) := le_trans (Nat.sqrt_le _) h
    exact Nat.mul_self_le_mul_self_iff.1 h3
  have hq : r / 2 ^ k ≤ c := Nat.div_le_of_le_mul hrM
  have hlo : r / 2 ^ k * 2 ^ k ≤ r := Nat.div_mul_le_self _ _
  rcases Nat.lt_or_ge (r / 2 ^ k) c with hlt | hge
  · have h4 : (r / 2 ^ k + 1) * 2 ^ k ≤ 2 ^ k * c := by
      rw [mul_comm (2 ^ k) c]; exact Nat.mul_le_mul_right _ hlt
    split_ifs
    · exact h4
    · exact le_trans (Nat.mul_le_mul_right _ (Nat.le_succ _)) h4
  · have hqc : r / 2 ^ k = c := le_antisymm hq hge
    have hdbl := two_pow_pred_double hk1
    have hH : 0 < 2 ^ (k - 1) := Nat.pow_pos (by norm_num)
    have hmid : 2 ^ k * c < (2 * c + 1) * 2 ^ (k - 1) := by
      rw [hdbl]; nlinarith
    have hsq : 2 ^ k * c * (2 ^ k * c) < (2 * c + 1) * 2 ^ (k - 1) * ((2 * c + 1) * 2 ^ (k - 1)) :=
      Nat.mul_self_lt_mul_self hmid
    rw [hqc]
    rw [if_neg]
    · rw [mul_comm]
    · rintro (h5 | ⟨h5, -⟩) <;> omega

/-- When the exact root is beyond the midpoint above a grid point, the rounded root is
at least the next grid point. -/
theorem add_le_sqrtFloat24 (f M k : Nat)
    (hk : Nat.log 2 (Nat.sqrt (f * 2 ^ 48)) - 23 = k) (hk1 : 1 ≤ k)
    (hM : 2 ^ k ∣ M)
    (h : (M + 2 ^ (k - 1)) * (M + 2 ^ (k - 1)) < f * 2 ^ 48) :
    M + 2 ^ k ≤ sqrtFloat24 f := by
  unfold sqrtFloat24
  simp only []
  set r := Nat.sqrt (f * 2 ^ 48) with hr
  rw [hk]
  obtain ⟨c, rfl⟩ := hM
  have hG : 0 < 2 ^ k := Nat.pow_pos (by norm_num)
  have hdbl := two_pow_pred_double hk1
  have hH : 0 < 2 ^ (k - 1) := Nat.pow_pos (by norm_num)
  have h1 : 2 ^ k * c + 2 ^ (k - 1) ≤ r := Nat.le_sqrt.2 (le_of_lt h)
  have hc : c ≤ r / 2 ^ k :=
    (Nat.le_div_iff_mul_le hG).2 (by rw [mul_comm]; omega)
  rcases Nat.lt_or_ge c (r / 2 ^ k) with hlt | hge
  · have h4 : 2 ^ k * c + 2 ^ k ≤ r / 2 ^ k * 2 ^ k := by
      have := Nat.mul_le_mul_right (2 ^ k) hlt
      calc 2 ^ k * c + 2 ^ k = (c + 1) * 2 ^ k := by ring
        _ ≤ r / 2 ^ k * 2 ^ k := this
    split_ifs
    · exact le_trans h4 (Nat.mul_le_mul_right _ (Nat.le_succ _))
    · exact h4
  · have hqc : r / 2 ^ k = c := le_antisymm hge hc
    rw [hqc]
    have hmid : (2 * c + 1) * 2 ^ (k - 1) = 2 ^ k * c + 2 ^ (k - 1) := by
      rw [hdbl]; ring
    rw [hmid, if_pos (Or.inl h)]
    exact le_of_eq (by ring)

/-- The grid exponent of the rounded root: the floor root `r` lies in
`[2 ^ (k + 23), 2 ^ (k + 24))`. -/
theorem gridExp_spec (f : Nat) (hf : 1 ≤ f) :
    1 ≤ Nat.log 2 (Nat.sqrt (f * 2 ^ 48)) - 23 ∧
    2 ^ (Nat.log 2 (Nat.sqrt (f * 2 ^ 48)) - 23 + 23) ≤ Nat.sqrt (f * 2 ^ 48) ∧
    Nat.sqrt (f * 2 ^ 48) < 2 ^ (Nat.log 2 (Nat.sqrt (f * 2 ^ 48)) - 23 + 24) := by
  set r := Nat.sqrt (f * 2 ^ 48) with hr
  have hr24 : 2 ^ 24 ≤ r := by
    apply Nat.le_sqrt.2
    calc 2 ^ 24 * 2 ^ 24 = 1 * 2 ^ 48 := by norm_num
      _ ≤ f * 2 ^ 48 := Nat.mul_le_mul_right _ hf
  have hr0 : r ≠ 0 := by
    have : 0 < 2 ^ 24 := by norm_num
    omega
  have hL : 24 ≤ Nat.log 2 r := (Nat.pow_le_iff_le_log (by norm_num) hr0).1 hr24
  have h1 := Nat.pow_log_le_self 2 hr0
  have h2 := Nat.lt_pow_succ_log_self (by norm_num : 1 < 2) r
  have e1 : Nat.log 2 r - 23 + 23 = Nat.log 2 r := by omega
  have e2 : Nat.log 2 r - 23 + 24 = (Nat.log 2 r).succ := by omega
  refine ⟨by omega, ?_, ?_⟩
  · rw [e1]; exact h1
  · rw [e2]; exact h2

/-- An upper bound on the grid exponent from an upper bound on the argument. -/
theorem gridExp_le (f j : Nat) (hf : 1 ≤ f) (h : f * 2 ^ 48 < 2 ^ (j + 23) * 2 ^ (j + 23)) :
    Nat.log 2 (Nat.sqrt (f * 2 ^ 48)) - 23 < j := by
  obtain ⟨-, h2, -⟩ := gridExp_spec f hf
  have h3 : Nat.sqrt (f * 2 ^ 48) < 2 ^ (j + 23) := Nat.sqrt_lt.2 h
  have h4 := lt_of_le_of_lt h2 h3
  have := (Nat.pow_lt_pow_iff_right (by norm_num : 1 < 2)).1 h4
  omega

theorem toFloat_of_le (n : Nat) (h : n ≤ 2 ^ 24) : toFloat n = n := by
  rcases Nat.lt_or_ge n (2 ^ 24) with h1 | h1
  · unfold toFloat
    rw [if_pos h1]
  · have hn : n = 2 ^ 24 := le_antisymm h h1
    subst hn
    have hlog : Nat.log 2 (2 ^ 24) = 24 := Nat.log_pow (by norm_num) 24
    unfold toFloat
    simp only [hlog]
    norm_num

/-- On `1 ≤ n ≤ 2 ^ 24` the rounded-up quotient `N` computed by `RoundInput` is the
least positive `N` with `n ≤ 64 * N * N`. -/
theorem roundInput_quotient_spec (n : Nat) (h1 : 1 ≤ n) (h2 : n ≤ 2 ^ 24) :
    1 ≤ (sqrtFloat24 n + (2 ^ 27 - 1)) / 2 ^ 27 ∧
    (sqrtFloat24 n + (2 ^ 27 - 1)) / 2 ^ 27 ≤ 512 ∧
    n ≤ 64 * ((sqrtFloat24 n + (2 ^ 27 - 1)) / 2 ^ 27) * ((sqrtFloat24 n + (2 ^ 27 - 1)) / 2 ^ 27) ∧
    ∀ j, n ≤ 64 * j * j → (sqrtFloat24 n + (2 ^ 27 - 1)) / 2 ^ 27 ≤ j := by
  obtain ⟨hk1, hlo, hhi⟩ := gridExp_spec n h1
  have hk13 : Nat.log 2 (Nat.sqrt (n * 2 ^ 48)) - 23 < 14 := by
    apply gridExp_le n 14 h1
    calc n * 2 ^ 48 ≤ 2 ^ 24 * 2 ^ 48 := Nat.mul_le_mul_right _ h2
      _ < 2 ^ (14 + 23) * 2 ^ (14 + 23) := by norm_num
  generalize hk : Nat.log 2 (Nat.sqrt (n * 2 ^ 48)) - 23 = k at hk1 hlo hhi hk13
  have hdvd27 : ∀ j, 2 ^ k ∣ j * 2 ^ 27 := fun j =>
    Dvd.dvd.mul_left (pow_dvd_pow 2 (by omega)) j
  -- the rounded root lies between 2^24 and 2^36
  have hS24 : 1 * 2 ^ 27 ≤ sqrtFloat24 n + (2 ^ 27 - 1) := by
    have : 2 ^ 24 ≤ sqrtFloat24 n := by
      apply le_sqrtFloat24 n (2 ^ 24) k hk (pow_dvd_pow 2 (by omega))
      calc 2 ^ 24 * 2 ^ 24 = 1 * 2 ^ 48 := by norm_num
        _ ≤ n * 2 ^ 48 := Nat.mul_le_mul_right _ h1
    omega
  have hS36 : sqrtFloat24 n ≤ 512 * 2 ^ 27 := by
    apply sqrtFloat24_le n _ k hk hk1 (hdvd27 512)
    calc n * 2 ^ 48 ≤ 2 ^ 24 * 2 ^ 48 := Nat.mul_le_mul_right _ h2
      _ = 512 * 2 ^ 27 * (512 * 2 ^ 27) := by norm_num
  have hmin : ∀ j, n ≤ 64 * j * j → (sqrtFloat24 n + (2 ^ 27 - 1)) / 2 ^ 27 ≤ j := by
    intro j hj
    have hSj : sqrtFloat24 n ≤ j * 2 ^ 27 := by
      apply sqrtFloat24_le n _ k hk hk1 (hdvd27 j)
      calc n * 2 ^ 48 ≤ 64 * j * j * 2 ^ 48 := Nat.mul_le_mul_right _ hj
        _ = j * 2 ^ 27 * (j * 2 ^ 27) := by ring
    omega
  refine ⟨by omega, by omega, ?_, hmin⟩
  by_contra hcon
  push_neg at hcon
  set S := sqrtFloat24 n with hS
  set N := (S + (2 ^ 27 - 1)) / 2 ^ 27 with hN
  have hceil : S ≤ N * 2 ^ 27 := by omega
  have hN512 : N ≤ 512 := by omega
  have hx : N * 2 ^ 27 * (N * 2 ^ 27) + 2 ^ 48 ≤ n * 2 ^ 48 := by
    have : 64 * N * N + 1 ≤ n := hcon
    calc N * 2 ^ 27 * (N * 2 ^ 27) + 2 ^ 48 = (64 * N * N + 1) * 2 ^ 48 := by ring
      _ ≤ n * 2 ^ 48 := Nat.mul_le_mul_right _ this
  have hMS : N * 2 ^ 27 ≤ S :=
    le_sqrtFloat24 n _ k hk (hdvd27 N) (by omega)
  have hMr : N * 2 ^ 27 ≤ Nat.sqrt (n * 2 ^ 48) := Nat.le_sqrt.2 (by omega)
  have hN511 : N ≤ 511 := by
    by_contra h511
    have : N = 512 := by omega
    rw [this] at hcon
    omega
  have hk12 : k ≤ 12 := by
    by_contra h13
    have hk13' : k = 13 := by omega
    subst hk13'
    have hr36 : 512 * 2 ^ 27 ≤ Nat.sqrt (n * 2 ^ 48) := by
      have : (2 : Nat) ^ (13 + 23) = 512 * 2 ^ 27 := by norm_num
      omega
    have h512 : 512 * 2 ^ 27 ≤ S :=
      le_sqrtFloat24 n _ 13 hk (hdvd27 512) (Nat.le_sqrt.1 hr36)
    omega
  have hnext : N * 2 ^ 27 + 2 ^ k ≤ S := by
    apply add_le_sqrtFloat24 n _ k hk hk1 (hdvd27 N)
    have hMk : N * 2 ^ 27 < 2 ^ (k + 24) := lt_of_le_of_lt hMr hhi
    have hexp : (N * 2 ^ 27 + 2 ^ (k - 1)) * (N * 2 ^ 27 + 2 ^ (k - 1))
        = N * 2 ^ 27 * (N * 2 ^ 27) + (2 * 2 ^ (k - 1) * (N * 2 ^ 27) + 2 ^ (k - 1) * 2 ^ (k - 1)) := by
      ring
    rw [hexp]
    have hsmall : 2 * 2 ^ (k - 1) * (N * 2 ^ 27) + 2 ^ (k - 1) * 2 ^ (k - 1) < 2 ^ 48 := by
      interval_cases k <;> norm_num at hMk ⊢ <;> omega
    omega
  have hG : 0 < 2 ^ k := Nat.pow_pos (by norm_num)
  omega

theorem toFloat_pos (n : Nat) (h : 1 ≤ n) : 1 ≤ toFloat n := by
  unfold toFloat
  simp only []
  split_ifs with h1 h2
  · exact h
  · exact Nat.mul_pos (Nat.succ_pos _) (Nat.pow_pos (by norm_num))
  · have hle : 2 ^ (Nat.log 2 n - 23) ≤ n :=
      le_trans (Nat.pow_le_pow_right (by norm_num) (Nat.sub_le _ _))
        (Nat.pow_log_le_self 2 (by omega))
    have hq : 1 ≤ n / 2 ^ (Nat.log 2 n - 23) :=
      (Nat.le_div_iff_mul_le (Nat.pow_pos (by norm_num))).2 (by simpa using hle)
    exact Nat.mul_pos hq (Nat.pow_pos (by norm_num))

/-- Conversion to float never leaves the range `[0, 2 ^ 64]` on `UINT64` arguments. -/
theorem toFloat_le (n : Nat) (h : n < 2 ^ 64) : toFloat n ≤ 2 ^ 64 := by
  unfold toFloat
  simp only []
  have key : ¬ n < 2 ^ 24 → (n / 2 ^ (Nat.log 2 n - 23) + 1) * 2 ^ (Nat.log 2 n - 23) ≤ 2 ^ 64 := by
    intro h1
    have hn0 : n ≠ 0 := by
      rintro rfl
      simp at h1
    have hL : 24 ≤ Nat.log 2 n :=
      (Nat.pow_le_iff_le_log (by norm_num) hn0).1 (by omega)
    have hL63 : Nat.log 2 n < 64 := (Nat.lt_pow_iff_log_lt (by norm_num) hn0).1 h
    have hlt := Nat.lt_pow_succ_log_self (by norm_num : 1 < 2) n
    have hq : n / 2 ^ (Nat.log 2 n - 23) < 2 ^ 24 := by
      rw [Nat.div_lt_iff_lt_mul (Nat.pow_pos (by norm_num)), ← pow_add]
      have : 24 + (Nat.log 2 n - 23) = (Nat.log 2 n).succ := by omega
      rw [this]; exact hlt
    calc (n / 2 ^ (Nat.log 2 n - 23) + 1) * 2 ^ (Nat.log 2 n - 23)
        ≤ 2 ^ 24 * 2 ^ (Nat.log 2 n - 23) := Nat.mul_le_mul_right _ hq
      _ = 2 ^ (24 + (Nat.log 2 n - 23)) := by rw [pow_add]
      _ ≤ 2 ^ 64 := Nat.pow_le_pow_right (by norm_num) (by omega)
  split_ifs with h1 h2
  · omega
  · exact key h1
  · exact le_trans (Nat.div_mul_le_self _ _) (le_of_lt h)

/-- The quotient `N` of `RoundInput` is at most `2 ^ 29` on every `UINT64` argument, so
`8u * N` never wraps. -/
theorem roundInput_quotient_le (n : Nat) (h : n < 2 ^ 64) :
    (sqrtFloat24 (toFloat n) + (2 ^ 27 - 1)) / 2 ^ 27 ≤ 2 ^ 29 := by
  rcases Nat.eq_zero_or_pos n with h0 | hpos
  · subst h0
    have h1 : toFloat 0 = 0 := by simp [toFloat]
    have h2 : sqrtFloat24 0 = 0 := by simp [sqrtFloat24]
    rw [h1, h2]; norm_num
  · have hf1 := toFloat_pos n hpos
    have hf2 := toFloat_le n h
    obtain ⟨hk1, -, -⟩ := gridExp_spec (toFloat n) hf1
    have hk34 : Nat.log 2 (Nat.sqrt (toFloat n * 2 ^ 48)) - 23 < 34 := by
      apply gridExp_le _ 34 hf1
      calc toFloat n * 2 ^ 48 ≤ 2 ^ 64 * 2 ^ 48 := Nat.mul_le_mul_right _ hf2
        _ < 2 ^ (34 + 23) * 2 ^ (34 + 23) := by norm_num
    have hS : sqrtFloat24 (toFloat n) ≤ 2 ^ 56 := by
      apply sqrtFloat24_le _ _ _ rfl hk1 (pow_dvd_pow 2 (by omega))
      calc toFloat n * 2 ^ 48 ≤ 2 ^ 64 * 2 ^ 48 := Nat.mul_le_mul_right _ hf2
        _ = 2 ^ 56 * 2 ^ 56 := by norm_num
    omega

theorem RoundInput_roundedNumEvents_eq (numEvents shGridNum : Nat) :
    (RoundInput numEvents shGridNum).roundedNumEvents =
      (64 * ((sqrtFloat24 (toFloat numEvents) + (2 ^ 27 - 1)) / 2 ^ 27)
        * ((sqrtFloat24 (toFloat numEvents) + (2 ^ 27 - 1)) / 2 ^ 27)) % 2 ^ 64 := rfl

theorem RoundInput_roundedNumEventsX_eq (numEvents shGridNum : Nat) :
    (RoundInput numEvents shGridNum).roundedNumEventsX =
      (8 * ((sqrtFloat24 (toFloat numEvents) + (2 ^ 27 - 1)) / 2 ^ 27)) % 2 ^ 64 := rfl

theorem RoundInput_roundedSHGridNum_eq (numEvents shGridNum : Nat) :
    (RoundInput numEvents shGridNum).roundedSHGridNum =
      (8 * ((toFloat shGridNum + 7) / 8)) % 2 ^ 64 := rfl

theorem sqrtFloat24_100 : sqrtFloat24 100 = 167772160 := by
  have hs : Nat.sqrt (100 * 2 ^ 48) = 167772160 := by norm_num
  have hl : Nat.log 2 167772160 = 27 :=
    Nat.log_eq_of_pow_le_of_lt_pow (by norm_num) (by norm_num)
  unfold sqrtFloat24
  simp only [hs, hl]
  norm_num

theorem toFloat_16777217 : toFloat 16777217 = 16777216 := by
  have hl : Nat.log 2 16777217 = 24 :=
    Nat.log_eq_of_pow_le_of_lt_pow (by norm_num) (by norm_num)
  unfold toFloat
  simp only [hl]
  norm_num

theorem sqrtFloat24_16777216 : sqrtFloat24 16777216 = 68719476736 := by
  have hs : Nat.sqrt (16777216 * 2 ^ 48) = 68719476736 := by norm_num
  have hl : Nat.log 2 68719476736 = 36 :=
    Nat.log_eq_of_pow_le_of_lt_pow (by norm_num) (by norm_num)
  unfold sqrtFloat24
  simp only [hs, hl]
  norm_num

theorem toFloat_max : toFloat 18446744073709551615 = 18446744073709551616 := by
  have hl : Nat.log 2 18446744073709551615 = 63 :=
    Nat.log_eq_of_pow_le_of_lt_pow (by norm_num) (by norm_num)
  unfold toFloat
  simp only [hl]
  norm_num

theorem sqrtFloat24_two_pow_64 : sqrtFloat24 18446744073709551616 = 72057594037927936 := by
  have hs : Nat.sqrt (18446744073709551616 * 2 ^ 48) = 72057594037927936 := by norm_num
  have hl : Nat.log 2 72057594037927936 = 56 :=
    Nat.log_eq_of_pow_le_of_lt_pow (by norm_num) (by norm_num)
  unfold sqrtFloat24
  simp only [hs, hl]
  norm_num

/-- At the top of the `UINT64` range both roundings wrap: `(float)(2 ^ 64 - 1)` is
`2 ^ 64`, so `N = 2 ^ 29` and `64u * N * N` is `0`, while `8u * 2 ^ 61` is `0` as well. -/
theorem RoundInput_max :
    RoundInput 18446744073709551615 18446744073709551615 =
      { roundedNumEvents := 0, roundedNumEventsX := 4294967296, roundedSHGridNum := 0 } := by
  have hN : (sqrtFloat24 (toFloat 18446744073709551615) + (2 ^ 27 - 1)) / 2 ^ 27
      = 536870912 := by
    rw [toFloat_max, sqrtFloat24_two_pow_64]
    norm_num
  have hN' : (toFloat 18446744073709551615 + 7) / 8 = 2305843009213693952 := by
    rw [toFloat_max]
  unfold RoundInput
  simp only [hN, hN']
  norm_num

/-! ## `RoundInput`: the rounded event count -/

/-- C1 (amended): for every `numEvents` with `1 ≤ numEvents ≤ 2 ^ 24` (the range on which
the conversion to `float` is exact), `RoundInput` sets `roundedNumEvents` to the smallest
value of the form `64 * n ^ 2`, `n` a positive integer, that is at least `numEvents`; in
particular an input already of that form is returned unchanged. -/
theorem RoundInput_roundedNumEvents_smallest (numEvents shGridNum : Nat)
    (h1 : 1 ≤ numEvents) (h2 : numEvents ≤ 2 ^ 24) :
    IsSmallest64Square numEvents (RoundInput numEvents shGridNum).roundedNumEvents ∧
    ((∃ n, 1 ≤ n ∧ numEvents = 64 * n ^ 2) →
      (RoundInput numEvents shGridNum).roundedNumEvents = numEvents) := by
  obtain ⟨hN1, hN512, hge, hmin⟩ := roundInput_quotient_spec numEvents h1 h2
  have hval : (RoundInput numEvents shGridNum).roundedNumEvents
      = 64 * ((sqrtFloat24 numEvents + (2 ^ 27 - 1)) / 2 ^ 27) ^ 2 := by
    rw [RoundInput_roundedNumEvents_eq, toFloat_of_le numEvents h2]
    have : 64 * ((sqrtFloat24 numEvents + (2 ^ 27 - 1)) / 2 ^ 27)
        * ((sqrtFloat24 numEvents + (2 ^ 27 - 1)) / 2 ^ 27) ≤ 64 * 512 * 512 :=
      Nat.mul_le_mul (Nat.mul_le_mul_left _ hN512) hN512
    rw [Nat.mod_eq_of_lt (by omega)]
    ring
  generalize (sqrtFloat24 numEvents + (2 ^ 27 - 1)) / 2 ^ 27 = N at *
  have hsmall : IsSmallest64Square numEvents (64 * N ^ 2) := by
    refine ⟨⟨N, hN1, rfl⟩, ?_, ?_⟩
    · calc numEvents ≤ 64 * N * N := hge
        _ = 64 * N ^ 2 := by ring
    · intro n _ hn
      have : N ≤ n := hmin n (by calc numEvents ≤ 64 * n ^ 2 := hn
                                    _ = 64 * n * n := by ring)
      exact Nat.mul_le_mul_left _ (Nat.pow_le_pow_left this 2)
  rw [hval]
  refine ⟨hsmall, ?_⟩
  rintro ⟨n, hn1, hn⟩
  apply le_antisymm
  · rw [hn]; exact hsmall.2.2 n hn1 (le_of_eq hn)
  · exact hsmall.2.1

/-- Witness for `RoundInput_roundedNumEvents_smallest` at `numEvents = 100`. -/
theorem RoundInput_roundedNumEvents_smallest_witness :
    (1 ≤ 100 ∧ 100 ≤ 2 ^ 24) ∧
    IsSmallest64Square 100 (RoundInput 100 10).roundedNumEvents :=
  ⟨⟨by norm_num, by norm_num⟩,
    (RoundInput_roundedNumEvents_smallest 100 10 (by norm_num) (by norm_num)).1⟩

/-- C1 as stated fails at `numEvents = 2 ^ 24 + 1`: the conversion `(float)numEvents`
rounds to `2 ^ 24`, so `roundedNumEvents` is `16777216`, which is below the input.  It
also fails at `numEvents = 2 ^ 64 - 1`, where `64u * N * N` wraps to `0`. -/
theorem RoundInput_roundedNumEvents_counterexample :
    ((RoundInput 16777217 8).roundedNumEvents = 16777216 ∧
      ¬ IsSmallest64Square 16777217 (RoundInput 16777217 8).roundedNumEvents) ∧
    ((RoundInput 18446744073709551615 18446744073709551615).roundedNumEvents = 0 ∧
      ¬ IsSmallest64Square 18446744073709551615
        (RoundInput 18446744073709551615 18446744073709551615).roundedNumEvents) := by
  have hN : (sqrtFloat24 (toFloat 16777217) + (2 ^ 27 - 1)) / 2 ^ 27 = 512 := by
    rw [toFloat_16777217, sqrtFloat24_16777216]
    norm_num
  have hval : (RoundInput 16777217 8).roundedNumEvents = 16777216 := by
    rw [RoundInput_roundedNumEvents_eq, hN]
    norm_num
  have hmax : (RoundInput 18446744073709551615 18446744073709551615).roundedNumEvents = 0 := by
    rw [RoundInput_max]
  refine ⟨⟨hval, ?_⟩, hmax, ?_⟩
  · rw [hval]
    rintro ⟨-, h, -⟩
    omega
  · rw [hmax]
    rintro ⟨-, h, -⟩
    omega

/-! ## `RoundInput`: the rounded grid size -/

/-- C2 (amended): for every `shGridNum` with `1 ≤ shGridNum ≤ 2 ^ 24`, `RoundInput` sets
`roundedSHGridNum` to the smallest multiple of 8 that is at least `shGridNum`; in
particular the input is never decreased and a multiple of 8 is returned unchanged. -/
theorem RoundInput_roundedSHGridNum_smallest (numEvents shGridNum : Nat)
    (h1 : 1 ≤ shGridNum) (h2 : shGridNum ≤ 2 ^ 24) :
    IsSmallestMultipleOf8 shGridNum (RoundInput numEvents shGridNum).roundedSHGridNum ∧
    (8 ∣ shGridNum → (RoundInput numEvents shGridNum).roundedSHGridNum = shGridNum) := by
  have hval : (RoundInput numEvents shGridNum).roundedSHGridNum = 8 * ((shGridNum + 7) / 8) := by
    rw [RoundInput_roundedSHGridNum_eq, toFloat_of_le shGridNum h2]
    apply Nat.mod_eq_of_lt
    have : (2 : Nat) ^ 24 = 16777216 := by norm_num
    omega
  rw [hval]
  refine ⟨⟨Dvd.intro _ rfl, by omega, ?_⟩, ?_⟩
  · rintro s ⟨t, rfl⟩ hs
    omega
  · rintro ⟨t, rfl⟩
    omega

/-- Witness for `RoundInput_roundedSHGridNum_smallest` at `shGridNum = 10`. -/
theorem RoundInput_roundedSHGridNum_smallest_witness :
    (1 ≤ 10 ∧ 10 ≤ 2 ^ 24) ∧
    IsSmallestMultipleOf8 10 (RoundInput 100 10).roundedSHGridNum :=
  ⟨⟨by norm_num, by norm_num⟩,
    (RoundInput_roundedSHGridNum_smallest 100 10 (by norm_num) (by norm_num)).1⟩

/-- C2 as stated fails at `shGridNum = 2 ^ 24 + 1`: `(float)shGridNum` is `2 ^ 24`, so
`roundedSHGridNum` is `16777216`, which is below the input.  It also fails at
`shGridNum = 2 ^ 64 - 1`, where `8u * N` wraps to `0`. -/
theorem RoundInput_roundedSHGridNum_counterexample :
    ((RoundInput 64 16777217).roundedSHGridNum = 16777216 ∧
      ¬ IsSmallestMultipleOf8 16777217 (RoundInput 64 16777217).roundedSHGridNum) ∧
    ((RoundInput 18446744073709551615 18446744073709551615).roundedSHGridNum = 0 ∧
      ¬ IsSmallestMultipleOf8 18446744073709551615
        (RoundInput 18446744073709551615 18446744073709551615).roundedSHGridNum) := by
  have hval : (RoundInput 64 16777217).roundedSHGridNum = 16777216 := by
    rw [RoundInput_roundedSHGridNum_eq, toFloat_16777217]
    norm_num
  have hmax : (RoundInput 18446744073709551615 18446744073709551615).roundedSHGridNum = 0 := by
    rw [RoundInput_max]
  refine ⟨⟨hval, ?_⟩, hmax, ?_⟩
  · rw [hval]
    rintro ⟨-, h, -⟩
    omega
  · rw [hmax]
    rintro ⟨-, h, -⟩
    omega

/-! ## `InitializePRTConstants` and `InitializeEMConstants` -/

theorem InitializePRTConstants_eq (m n s t v : Nat) :
    InitializePRTConstants ⟨m, n, s⟩ t v =
      { maxL := m
        nCoefficients := ((m + 1) * (m + 1)) % 2 ^ 64
        triangleNum := t
        vertexNum := v
        numEvents := (RoundInput n s).roundedNumEvents
        numEventsX := (RoundInput n s).roundedNumEventsX
        shGridNum := (RoundInput n s).roundedSHGridNum
        numThreadGroups := (RoundInput n s).roundedNumEvents / (8 * 8) } := rfl

theorem InitializeEMConstants_eq (m n s x y : Nat) :
    InitializeEMConstants ⟨m, n, s⟩ x y =
      { maxL := m
        nCoefficients := ((m + 1) * (m + 1)) % 2 ^ 64
        numPixelsX := x
        numPixelsY := y
        numEvents := (RoundInput n s).roundedNumEvents
        numEventsX := (RoundInput n s).roundedNumEventsX
        shGridNum := (RoundInput n s).roundedSHGridNum
        numThreadGroups := (RoundInput n s).roundedNumEvents / (8 * 8) } := rfl

/-- The invariant in `UINT64` arithmetic, for the outputs of `RoundInput`. -/
theorem planInvariant64_roundInput (m n s : Nat) :
    PlanInvariant64 m (RoundInput n s).roundedNumEvents (RoundInput n s).roundedNumEventsX
      (RoundInput n s).roundedSHGridNum ((RoundInput n s).roundedNumEvents / (8 * 8))
      (((m + 1) * (m + 1)) % 2 ^ 64) := by
  rw [RoundInput_roundedNumEvents_eq, RoundInput_roundedNumEventsX_eq,
    RoundInput_roundedSHGridNum_eq]
  generalize (sqrtFloat24 (toFloat n) + (2 ^ 27 - 1)) / 2 ^ 27 = N
  generalize (toFloat s + 7) / 8 = N'
  have h8 : (8 : Nat) ∣ 2 ^ 64 := ⟨2 ^ 61, by norm_num⟩
  have h64 : (64 : Nat) ∣ 2 ^ 64 := ⟨2 ^ 58, by norm_num⟩
  refine ⟨(Nat.dvd_mod_iff h8).2 (dvd_mul_right 8 N), (Nat.dvd_mod_iff h8).2 (dvd_mul_right 8 N'),
    ?_, ?_, ?_⟩
  · rw [← Nat.mul_mod]
    congr 1
    ring
  · have hd : 64 ∣ 64 * N * N % 2 ^ 64 :=
      (Nat.dvd_mod_iff h64).2 ⟨N * N, by ring⟩
    exact Nat.div_mul_cancel hd
  · rw [pow_two]

/-- The exact invariant, when neither product wraps. -/
theorem planInvariantExact_roundInput (m n s : Nat) (hm : m + 1 < 2 ^ 32)
    (hX : (RoundInput n s).roundedNumEventsX < 2 ^ 32) :
    PlanInvariantExact m (RoundInput n s).roundedNumEvents (RoundInput n s).roundedNumEventsX
      (RoundInput n s).roundedSHGridNum ((RoundInput n s).roundedNumEvents / (8 * 8))
      (((m + 1) * (m + 1)) % 2 ^ 64) := by
  obtain ⟨h1, h2, h3, h4, -⟩ := planInvariant64_roundInput m n s
  refine ⟨h1, h2, ?_, h4, ?_⟩
  · rw [← h3]
    symm
    apply Nat.mod_eq_of_lt
    calc (RoundInput n s).roundedNumEventsX * (RoundInput n s).roundedNumEventsX
        < 2 ^ 32 * 2 ^ 32 := Nat.mul_lt_mul'' hX hX
      _ = 2 ^ 64 := by norm_num
  · rw [pow_two]
    apply Nat.mod_eq_of_lt
    calc (m + 1) * (m + 1) < 2 ^ 32 * 2 ^ 32 := Nat.mul_lt_mul'' hm hm
      _ = 2 ^ 64 := by norm_num

/-- C3 (amended): for every descriptor, the constants returned by
`InitializePRTConstants` and by `InitializeEMConstants` satisfy: `numEventsX` and
`shGridNum` are multiples of 8, `numThreadGroups * 64 = numEvents`, and, in `UINT64`
arithmetic (modulo `2 ^ 64`), `numEventsX * numEventsX = numEvents` and
`nCoefficients = (MaxL + 1) ^ 2`; the last two hold as exact integer equalities whenever
`MaxL + 1 < 2 ^ 32` and `numEventsX < 2 ^ 32`. -/
theorem InitializeConstants_invariant (MaxL NumEvents SHGridNum : Nat)
    (triangleNum vertexNum numPixelsX numPixelsY : Nat) :
    (PlanInvariant64 MaxL
      (InitializePRTConstants ⟨MaxL, NumEvents, SHGridNum⟩ triangleNum vertexNum).numEvents
      (InitializePRTConstants ⟨MaxL, NumEvents, SHGridNum⟩ triangleNum vertexNum).numEventsX
      (InitializePRTConstants ⟨MaxL, NumEvents, SHGridNum⟩ triangleNum vertexNum).shGridNum
      (InitializePRTConstants ⟨MaxL, NumEvents, SHGridNum⟩ triangleNum vertexNum).numThreadGroups
      (InitializePRTConstants ⟨MaxL, NumEvents, SHGridNum⟩ triangleNum vertexNum).nCoefficients ∧
    PlanInvariant64 MaxL
      (InitializeEMConstants ⟨MaxL, NumEvents, SHGridNum⟩ numPixelsX numPixelsY).numEvents
      (InitializeEMConstants ⟨MaxL, NumEvents, SHGridNum⟩ numPixelsX numPixelsY).numEventsX
      (InitializeEMConstants ⟨MaxL, NumEvents, SHGridNum⟩ numPixelsX numPixelsY).shGridNum
      (InitializeEMConstants ⟨MaxL, NumEvents, SHGridNum⟩ numPixelsX numPixelsY).numThreadGroups
      (InitializeEMConstants ⟨MaxL, NumEvents, SHGridNum⟩ numPixelsX numPixelsY).nCoefficients) ∧
    (MaxL + 1 < 2 ^ 32 →
      (InitializePRTConstants ⟨MaxL, NumEvents, SHGridNum⟩ triangleNum vertexNum).numEventsX
        < 2 ^ 32 →
      PlanInvariantExact MaxL
        (InitializePRTConstants ⟨MaxL, NumEvents, SHGridNum⟩ triangleNum vertexNum).numEvents
        (InitializePRTConstants ⟨MaxL, NumEvents, SHGridNum⟩ triangleNum vertexNum).numEventsX
        (InitializePRTConstants ⟨MaxL, NumEvents, SHGridNum⟩ triangleNum vertexNum).shGridNum
        (InitializePRTConstants ⟨MaxL, NumEvents, SHGridNum⟩ triangleNum vertexNum).numThreadGroups
        (InitializePRTConstants ⟨MaxL, NumEvents, SHGridNum⟩ triangleNum vertexNum).nCoefficients ∧
      PlanInvariantExact MaxL
        (InitializeEMConstants ⟨MaxL, NumEvents, SHGridNum⟩ numPixelsX numPixelsY).numEvents
        (InitializeEMConstants ⟨MaxL, NumEvents, SHGridNum⟩ numPixelsX numPixelsY).numEventsX
        (InitializeEMConstants ⟨MaxL, NumEvents, SHGridNum⟩ numPixelsX numPixelsY).shGridNum
        (InitializeEMConstants ⟨MaxL, NumEvents, SHGridNum⟩ numPixelsX numPixelsY).numThreadGroups
        (InitializeEMConstants ⟨MaxL, NumEvents, SHGridNum⟩ numPixelsX numPixelsY).nCoefficients) := by
  rw [InitializePRTConstants_eq, InitializeEMConstants_eq]
  refine ⟨⟨planInvariant64_roundInput _ _ _, planInvariant64_roundInput _ _ _⟩, ?_⟩
  intro hm hX
  exact ⟨planInvariantExact_roundInput _ _ _ hm hX,
    planInvariantExact_roundInput _ _ _ hm hX⟩

theorem RoundInput_roundedNumEventsX_lt (n s : Nat) (h1 : 1 ≤ n) (h2 : n ≤ 2 ^ 24) :
    (RoundInput n s).roundedNumEventsX < 2 ^ 32 := by
  obtain ⟨-, hN512, -, -⟩ := roundInput_quotient_spec n h1 h2
  rw [RoundInput_roundedNumEventsX_eq, toFloat_of_le n h2]
  have : (2 : Nat) ^ 32 = 4294967296 := by norm_num
  omega

theorem InitializePRTConstants_numEventsX (m n s t v : Nat) :
    (InitializePRTConstants ⟨m, n, s⟩ t v).numEventsX = (RoundInput n s).roundedNumEventsX :=
  rfl

/-- Witness for `InitializeConstants_invariant` at the default descriptor
(`MaxL = 3`, `NumEvents = 262144`, `SHGridNum = 512`). -/
theorem InitializeConstants_invariant_witness :
    PlanInvariantExact 3
      (InitializePRTConstants ⟨3, 262144, 512⟩ 12 8).numEvents
      (InitializePRTConstants ⟨3, 262144, 512⟩ 12 8).numEventsX
      (InitializePRTConstants ⟨3, 262144, 512⟩ 12 8).shGridNum
      (InitializePRTConstants ⟨3, 262144, 512⟩ 12 8).numThreadGroups
      (InitializePRTConstants ⟨3, 262144, 512⟩ 12 8).nCoefficients :=
  ((InitializeConstants_invariant 3 262144 512 12 8 1024 512).2 (by norm_num)
    (lt_of_eq_of_lt (InitializePRTConstants_numEventsX 3 262144 512 12 8)
      (RoundInput_roundedNumEventsX_lt 262144 512 (by norm_num) (by norm_num)))).1

/-- C3 as stated fails at `MaxL = 2 ^ 32 - 1`: `(MaxL + 1) * (MaxL + 1)` wraps to `0` in
`UINT64`, so `nCoefficients` is `0` and not `(MaxL + 1) ^ 2`.  It also fails at
`NumEvents = 2 ^ 64 - 1`, where `numEventsX` is `2 ^ 32` and `numEvents` has wrapped
to `0`. -/
theorem InitializeConstants_invariant_counterexample :
    ((InitializePRTConstants ⟨4294967295, 64, 8⟩ 12 8).nCoefficients = 0 ∧
      ¬ PlanInvariantExact 4294967295
        (InitializePRTConstants ⟨4294967295, 64, 8⟩ 12 8).numEvents
        (InitializePRTConstants ⟨4294967295, 64, 8⟩ 12 8).numEventsX
        (InitializePRTConstants ⟨4294967295, 64, 8⟩ 12 8).shGridNum
        (InitializePRTConstants ⟨4294967295, 64, 8⟩ 12 8).numThreadGroups
        (InitializePRTConstants ⟨4294967295, 64, 8⟩ 12 8).nCoefficients) ∧
    ¬ PlanInvariantExact 3
      (InitializeEMConstants ⟨3, 18446744073709551615, 18446744073709551615⟩ 4 2).numEvents
      (InitializeEMConstants ⟨3, 18446744073709551615, 18446744073709551615⟩ 4 2).numEventsX
      (InitializeEMConstants ⟨3, 18446744073709551615, 18446744073709551615⟩ 4 2).shGridNum
      (InitializeEMConstants ⟨3, 18446744073709551615, 18446744073709551615⟩ 4 2).numThreadGroups
      (InitializeEMConstants ⟨3, 18446744073709551615, 18446744073709551615⟩ 4 2).nCoefficients := by
  rw [InitializePRTConstants_eq, InitializeEMConstants_eq, RoundInput_max]
  have h0 : ((4294967295 + 1) * (4294967295 + 1)) % 2 ^ 64 = 0 := by norm_num
  refine ⟨⟨h0, ?_⟩, ?_⟩
  · rintro ⟨-, -, -, -, h⟩
    rw [h0] at h
    norm_num at h
  · rintro ⟨-, -, h, -, -⟩
    norm_num at h

/-! ## The concrete plan for `MaxL = 2`, `NumEvents = 100`, `SHGridNum = 10` -/

theorem RoundInput_100_10 :
    RoundInput 100 10 =
      { roundedNumEvents := 256, roundedNumEventsX := 16, roundedSHGridNum := 16 } := by
  have hN : (sqrtFloat24 (toFloat 100) + (2 ^ 27 - 1)) / 2 ^ 27 = 2 := by
    rw [toFloat_of_le 100 (by norm_num), sqrtFloat24_100]
    norm_num
  have hN' : (toFloat 10 + 7) / 8 = 2 := by
    rw [toFloat_of_le 10 (by norm_num)]
  unfold RoundInput
  simp only [hN, hN']
  norm_num

/-- C4: for the descriptor `MaxL = 2`, `NumEvents = 100`, `SHGridNum = 10` the computed
constants are `nCoefficients = 9`, `numEvents = 256`, `numEventsX = 16`,
`shGridNum = 16` and `numThreadGroups = 4`, for `InitializePRTConstants` and for
`InitializeEMConstants` alike. -/
theorem InitializeConstants_example (triangleNum vertexNum numPixelsX numPixelsY : Nat) :
    InitializePRTConstants ⟨2, 100, 10⟩ triangleNum vertexNum =
      { maxL := 2, nCoefficients := 9, triangleNum := triangleNum, vertexNum := vertexNum,
        numEvents := 256, numEventsX := 16, shGridNum := 16, numThreadGroups := 4 } ∧
    InitializeEMConstants ⟨2, 100, 10⟩ numPixelsX numPixelsY =
      { maxL := 2, nCoefficients := 9, numPixelsX := numPixelsX, numPixelsY := numPixelsY,
        numEvents := 256, numEventsX := 16, shGridNum := 16, numThreadGroups := 4 } := by
  rw [InitializePRTConstants_eq, InitializeEMConstants_eq, RoundInput_100_10]
  norm_num

theorem sqrtFloat24_64 : sqrtFloat24 64 = 134217728 := by
  have hs : Nat.sqrt (64 * 2 ^ 48) = 134217728 := by norm_num
  have hl : Nat.log 2 134217728 = 27 :=
    Nat.log_eq_of_pow_le_of_lt_pow (by norm_num) (by norm_num)
  unfold sqrtFloat24
  simp only [hs, hl]
  norm_num

theorem RoundInput_64_8 :
    RoundInput 64 8 =
      { roundedNumEvents := 64, roundedNumEventsX := 8, roundedSHGridNum := 8 } := by
  have hN : (sqrtFloat24 (toFloat 64) + (2 ^ 27 - 1)) / 2 ^ 27 = 1 := by
    rw [toFloat_of_le 64 (by norm_num), sqrtFloat24_64]
    norm_num
  have hN' : (toFloat 8 + 7) / 8 = 1 := by
    rw [toFloat_of_le 8 (by norm_num)]
  unfold RoundInput
  simp only [hN, hN']
  norm_num

/-- The descriptor `MaxL = 46340`, `NumEvents = 64`, `SHGridNum = 8` yields
`nCoefficients = 46341 ^ 2 = 2147488281`, above `INT_MAX`. -/
theorem InitializePRTConstants_46340 :
    InitializePRTConstants ⟨46340, 64, 8⟩ 12 8 =
      { maxL := 46340, nCoefficients := 2147488281, triangleNum := 12, vertexNum := 8,
        numEvents := 64, numEventsX := 8, shGridNum := 8, numThreadGroups := 1 } := by
  rw [InitializePRTConstants_eq, RoundInput_64_8]
  norm_num

theorem InitializeEMConstants_46340 :
    InitializeEMConstants ⟨46340, 64, 8⟩ 4 2 =
      { maxL := 46340, nCoefficients := 2147488281, numPixelsX := 4, numPixelsY := 2,
        numEvents := 64, numEventsX := 8, shGridNum := 8, numThreadGroups := 1 } := by
  rw [InitializeEMConstants_eq, RoundInput_64_8]
  norm_num

/-! ## Loop and vector lemmas -/

theorem forUp_invariant {σ : Type} (body : Nat → σ → Option σ) (Inv : Nat → σ → Prop)
    (n : Nat) (s : σ) (h0 : Inv 0 s)
    (hstep : ∀ i, i < n → ∀ t, Inv i t → ∃ t', body i t = some t' ∧ Inv (i + 1) t') :
    ∃ t, forUp body n s = some t ∧ Inv n t := by
  induction n with
  | zero => exact ⟨s, rfl, h0⟩
  | succ n ih =>
    obtain ⟨t, ht, hI⟩ := ih (fun i hi => hstep i (Nat.lt_succ_of_lt hi))
    obtain ⟨t', ht', hI'⟩ := hstep n (Nat.lt_succ_self n) t hI
    exact ⟨t', by simp [forUp, ht, ht'], hI'⟩

theorem forDown_invariant {σ : Type} (body : Nat → σ → Option σ) (Inv : Nat → σ → Prop)
    (n : Nat) (s : σ) (h0 : Inv n s)
    (hstep : ∀ i, i < n → ∀ t, Inv (i + 1) t → ∃ t', body i t = some t' ∧ Inv i t') :
    ∃ t, forDown body n s = some t ∧ Inv 0 t := by
  induction n generalizing s with
  | zero => exact ⟨s, rfl, h0⟩
  | succ n ih =>
    obtain ⟨t, ht, hI⟩ := hstep n (Nat.lt_succ_self n) s h0
    obtain ⟨t', ht', hI'⟩ := ih t hI (fun i hi => hstep i (Nat.lt_succ_of_lt hi))
    exact ⟨t', by simp [forDown, ht, ht'], hI'⟩

theorem forUp_none_of_first {σ : Type} (body : Nat → σ → Option σ) (n : Nat) (s : σ)
    (h : body 0 s = none) : forUp body (n + 1) s = none := by
  induction n with
  | zero => simp [forUp, h]
  | succ n ih => rw [forUp, ih]; rfl

theorem toIndex_natCast (n : Nat) (h : n < 2 ^ 64) : toIndex (n : Int) = n := by
  unfold toIndex
  omega

theorem store_of_lt {α : Type} (v : List α) (i : Nat) (a : α) (h : i < v.length) :
    store v i a = some (v.set i a) := by
  simp [store, h]

/-- Distinct `(l, i)` with `i ≤ 2 l` address distinct entries `l * l + i`. -/
theorem shIndex_inj (l i l' i' : Nat) (hi : i ≤ 2 * l) (hi' : i' ≤ 2 * l')
    (h : l * l + i = l' * l' + i') : l = l' ∧ i = i' := by
  have hl : l = l' := by
    rcases Nat.lt_trichotomy l l' with h1 | h1 | h1
    · exfalso
      have : (l + 1) * (l + 1) ≤ l' * l' := Nat.mul_le_mul h1 h1
      nlinarith
    · exact h1
    · exfalso
      have : (l' + 1) * (l' + 1) ≤ l * l := Nat.mul_le_mul h1 h1
      nlinarith
  subst hl
  exact ⟨rfl, by omega⟩

theorem shIndex_lt (N l i : Nat) (hl : l ≤ N) (hi : i ≤ 2 * l) :
    l * l + i < (N + 1) * (N + 1) := by
  have : l * l ≤ N * N := Nat.mul_le_mul hl hl
  nlinarith

section SHLemmas
variable {α : Type} [Field α]

theorem Factorical_natCast (n : Nat) : (Factorical (n : Int) : α) = (n.factorial : α) := by
  induction n with
  | zero => rw [Factorical]; simp
  | succ n ih =>
    rw [Factorical]
    rcases Nat.eq_zero_or_pos n with h0 | hpos
    · subst h0; simp
    · have h1 : (1 : Int) < ((n + 1 : Nat) : Int) := by omega
      have h2 : ((n + 1 : Nat) : Int) - 1 = (n : Int) := by omega
      rw [if_pos h1, h2, ih, Nat.factorial_succ]
      push_cast
      ring

theorem DoubleFactorical_natCast (n : Nat) :
    (DoubleFactorical (n : Int) : α) = (n.doubleFactorial : α) := by
  induction n using Nat.strong_induction_on with
  | _ n ih =>
    rw [DoubleFactorical]
    rcases Nat.lt_or_ge n 2 with h | h
    · have h1 : ¬ (1 : Int) < (n : Int) := by omega
      rw [if_neg h1]
      interval_cases n <;> simp
    · obtain ⟨k, rfl⟩ : ∃ k, n = k + 2 := ⟨n - 2, by omega⟩
      have h1 : (1 : Int) < ((k + 2 : Nat) : Int) := by omega
      have h2 : ((k + 2 : Nat) : Int) - 2 = (k : Int) := by omega
      rw [if_pos h1, h2, ih k (by omega), Nat.doubleFactorial_add_two]
      push_cast
      ring

theorem DoubleFactorical_two_mul_sub_one (m : Nat) :
    (DoubleFactorical (2 * (m : Int) - 1) : α) = ((2 * m - 1).doubleFactorial : α) := by
  rcases Nat.eq_zero_or_pos m with h0 | hpos
  · subst h0
    rw [DoubleFactorical]
    simp
  · have : 2 * (m : Int) - 1 = ((2 * m - 1 : Nat) : Int) := by omega
    rw [this, DoubleFactorical_natCast]

end SHLemmas
section SHInv
variable {α : Type} [Field α]

theorem CalcLegendre1_eq (ops : MathOps α)
    (hpow : ∀ m : Nat, ops.pow (-1) (m : α) = (-1) ^ m) (m : Nat) (x : α) :
    CalcLegendre1 ops (m : Int) x = specLegendre ops x m 0 := by
  unfold CalcLegendre1 specLegendre
  rw [Int.cast_natCast, hpow, show (2 : Int) * (m : Int) - 1 = 2 * (m : Int) - 1 from rfl,
    DoubleFactorical_two_mul_sub_one, pow_two]

theorem CalcLegendre2_eq (ops : MathOps α) (m : Nat) (x : α) :
    CalcLegendre2 (m : Int) x (specLegendre ops x m 0) = specLegendre ops x m 1 := by
  unfold CalcLegendre2
  simp only [specLegendre]
  push_cast
  ring

theorem CalcLegendre3_eq (ops : MathOps α) (m d : Nat) (x : α) :
    CalcLegendre3 ((m + d + 2 : Nat) : Int) (m : Int) x (specLegendre ops x m (d + 1))
      (specLegendre ops x m d) = specLegendre ops x m (d + 2) := by
  unfold CalcLegendre3
  conv_rhs => rw [specLegendre]
  push_cast
  ring

theorem legendreStep_inv (ops : MathOps α)
    (hpow : ∀ m : Nat, ops.pow (-1) (m : α) = (-1) ^ m) (x : α) (N L M : Nat)
    (hN : (N + 1) * (N + 1) < 2 ^ 64) (hL : L ≤ N) (hM : M ≤ L) (v : List α)
    (h : LegendreInv ops x ((N + 1) * (N + 1)) L (M + 1) v) :
    ∃ v', legendreStep ops x (L : Int) (M : Int) v = some v' ∧
      LegendreInv ops x ((N + 1) * (N + 1)) L M v' := by
  obtain ⟨hlen, hent⟩ := h
  have hbound : ∀ l i, l ≤ N → i ≤ 2 * l → l * l + i < 2 ^ 64 := fun l i hl hi =>
    lt_trans (shIndex_lt N l i hl hi) hN
  have hw : toIndex ((L : Int) * L + L + M) = L * L + L + M := by
    have : (L : Int) * L + L + M = ((L * L + L + M : Nat) : Int) := by push_cast; ring
    rw [this, toIndex_natCast]
    have := hbound L (L + M) hL (by omega)
    omega
  have hwlt : L * L + L + M < v.length := by
    rw [hlen]
    have := shIndex_lt N L (L + M) hL (by omega)
    omega
  -- the value written is `P(L, M)`
  have hres : ∃ res, legendreValue ops x (L : Int) (M : Int) v = some res ∧
      res = specLegendre ops x M (L - M) := by
    rcases Nat.lt_trichotomy L (M + 1) with h1 | h1 | h1
    · have hLM : L = M := by omega
      subst hLM
      refine ⟨CalcLegendre1 ops (L : Int) x, ?_, ?_⟩
      · unfold legendreValue
        rw [if_pos rfl]
      · rw [Nat.sub_self]
        exact CalcLegendre1_eq ops hpow L x
    · subst h1
      have hr : toIndex ((M : Int) * M + 2 * M) = M * M + M + M := by
        have : (M : Int) * M + 2 * M = ((M * M + M + M : Nat) : Int) := by push_cast; ring
        rw [this, toIndex_natCast]
        have := hbound M (M + M) (by omega) (by omega)
        omega
      have hP := hent M M (le_refl M) (Or.inl (by omega))
      rw [Nat.sub_self] at hP
      refine ⟨CalcLegendre2 (M : Int) x (specLegendre ops x M 0), ?_, ?_⟩
      · have hne : ¬ (((M + 1 : Nat) : Int) = (M : Int)) := by omega
        have heq : ((M + 1 : Nat) : Int) = (M : Int) + 1 := by omega
        unfold legendreValue
        rw [if_neg hne, if_pos heq, hr, hP]
        rfl
      · have : M + 1 - M = 1 := by omega
        rw [this, CalcLegendre2_eq]
    · obtain ⟨d, rfl⟩ : ∃ d, L = M + d + 2 := ⟨L - M - 2, by omega⟩
      have hr1 : toIndex (((M + d + 2 : Nat) : Int) * ((M + d + 2 : Nat) : Int)
          - ((M + d + 2 : Nat) : Int) + M)
          = (M + d + 1) * (M + d + 1) + (M + d + 1) + M := by
        have : ((M + d + 2 : Nat) : Int) * ((M + d + 2 : Nat) : Int)
            - ((M + d + 2 : Nat) : Int) + M
            = (((M + d + 1) * (M + d + 1) + (M + d + 1) + M : Nat) : Int) := by
          push_cast; ring
        rw [this, toIndex_natCast]
        have := hbound (M + d + 1) (M + d + 1 + M) (by omega) (by omega)
        omega
      have hr2 : toIndex (((M + d + 2 : Nat) : Int) * ((M + d + 2 : Nat) : Int)
          - 3 * ((M + d + 2 : Nat) : Int) + M + 2)
          = (M + d) * (M + d) + (M + d) + M := by
        have : ((M + d + 2 : Nat) : Int) * ((M + d + 2 : Nat) : Int)
            - 3 * ((M + d + 2 : Nat) : Int) + M + 2
            = (((M + d) * (M + d) + (M + d) + M : Nat) : Int) := by
          push_cast; ring
        rw [this, toIndex_natCast]
        have := hbound (M + d) (M + d + M) (by omega) (by omega)
        omega
      have hP1 := hent (M + d + 1) M (by omega) (Or.inl (by omega))
      have hP2 := hent (M + d) M (by omega) (Or.inl (by omega))
      have e1 : M + d + 1 - M = d + 1 := by omega
      have e2 : M + d - M = d := by omega
      have e3 : M + d + 2 - M = d + 2 := by omega
      rw [e1] at hP1
      rw [e2] at hP2
      refine ⟨CalcLegendre3 ((M + d + 2 : Nat) : Int) (M : Int) x
        (specLegendre ops x M (d + 1)) (specLegendre ops x M d), ?_, ?_⟩
      · have hne : ¬ (((M + d + 2 : Nat) : Int) = (M : Int)) := by omega
        have hne' : ¬ (((M + d + 2 : Nat) : Int) = (M : Int) + 1) := by omega
        unfold legendreValue
        rw [if_neg hne, if_neg hne', hr1, hr2, hP1, hP2]
        rfl
      · rw [e3, CalcLegendre3_eq]
  obtain ⟨res, hres1, hres2⟩ := hres
  refine ⟨v.set (L * L + L + M) res, ?_, ?_, ?_⟩
  · unfold legendreStep
    rw [hres1, hw]
    exact store_of_lt v _ res hwlt
  · rw [List.length_set, hlen]
  · intro l m hml hcond
    by_cases hsame : L * L + L + M = l * l + l + m
    · obtain ⟨hl, hm⟩ := shIndex_inj L (L + M) l (l + m) (by omega) (by omega) (by omega)
      have hm' : M = m := by omega
      subst hl hm'
      rw [List.getElem?_set_self hwlt, hres2]
    · rw [List.getElem?_set_ne hsame]
      apply hent l m hml
      rcases hcond with h1 | ⟨h1, h2⟩
      · exact Or.inl h1
      · refine Or.inr ⟨h1, ?_⟩
        subst h1
        rcases Nat.lt_or_ge M m with h3 | h3
        · exact h3
        · exfalso; apply hsame; have : M = m := by omega
          rw [this]

end SHInv
section SHPass
variable {α : Type} [Field α]

theorem legendre_pass (ops : MathOps α)
    (hpow : ∀ m : Nat, ops.pow (-1) (m : α) = (-1) ^ m) (x : α) (N : Nat)
    (hN : (N + 1) * (N + 1) < 2 ^ 64) :
    ∃ v, forUp (fun l => forDown (fun m => legendreStep ops x l m) (l + 1)) (N + 1)
        (List.replicate ((N + 1) * (N + 1)) 0) = some v ∧
      LegendreInv ops x ((N + 1) * (N + 1)) (N + 1) (N + 1 + 1) v := by
  exact forUp_invariant
    (fun l => forDown (fun m => legendreStep ops x (l : Int) (m : Int)) (l + 1))
    (fun L v => LegendreInv ops x ((N + 1) * (N + 1)) L (L + 1) v) (N + 1)
    (List.replicate ((N + 1) * (N + 1)) 0)
    ⟨List.length_replicate _ _, fun l m hml hc => by omega⟩
    (by
      intro L hL v hv
      obtain ⟨v', hv', hI⟩ := forDown_invariant
        (fun m => legendreStep ops x (L : Int) (m : Int))
        (fun M v => LegendreInv ops x ((N + 1) * (N + 1)) L M v) (L + 1) v hv
        (fun M hM w hw =>
          legendreStep_inv ops hpow x N L M hN (by omega) (by omega) w hw)
      refine ⟨v', hv', hI.1, ?_⟩
      intro l m hml hc
      apply hI.2 l m hml
      rcases hc with h1 | ⟨h1, h2⟩
      · rcases Nat.lt_or_ge l L with h3 | h3
        · exact Or.inl h3
        · exact Or.inr ⟨by omega, Nat.zero_le _⟩
      · omega)

theorem CalcCoefficient_mul (ops : MathOps α) (x phi : α) (l : Nat) (m : Int)
    (hm : m.natAbs ≤ l) :
    CalcCoefficient ops (l : Int) m phi * specLegendre ops x m.natAbs (l - m.natAbs)
      = specY ops x phi l m := by
  have hF1 : (Factorical ((l : Int) - |m|) : α) = ((l - m.natAbs).factorial : α) := by
    have : (l : Int) - |m| = ((l - m.natAbs : Nat) : Int) := by
      rw [← Int.natCast_natAbs]; omega
    rw [this, Factorical_natCast]
  have hF2 : (Factorical ((l : Int) + |m|) : α) = ((l + m.natAbs).factorial : α) := by
    have : (l : Int) + |m| = ((l + m.natAbs : Nat) : Int) := by
      rw [← Int.natCast_natAbs]; omega
    rw [this, Factorical_natCast]
  have hc : (((2 * (l : Int) + 1 : Int)) : α) = 2 * (l : α) + 1 := by push_cast; ring
  unfold CalcCoefficient specY specK specA
  simp only [hF1, hF2, hc]
  rcases lt_trichotomy m 0 with h | h | h
  · have h' : ¬ 0 < m := by omega
    rw [if_pos h, if_neg h', if_pos h]
    push_cast
    ring
  · subst h
    simp
  · have h' : ¬ m < 0 := by omega
    rw [if_neg h', if_pos h, if_pos h]
    ring

theorem coefficientStep_inv (ops : MathOps α) (x phi : α) (N L I : Nat)
    (hN : (N + 1) * (N + 1) < 2 ^ 64) (hL : L ≤ N) (hI : I ≤ 2 * L) (v : List α)
    (h : CoefficientInv ops x phi ((N + 1) * (N + 1)) N L I v) :
    ∃ v', coefficientStep ops phi (L : Int) ((I : Int) - L) v = some v' ∧
      CoefficientInv ops x phi ((N + 1) * (N + 1)) N L (I + 1) v' := by
  obtain ⟨hlen, hY, hP⟩ := h
  have hbound : ∀ l i, l ≤ N → i ≤ 2 * l → l * l + i < 2 ^ 64 := fun l i hl hi =>
    lt_trans (shIndex_lt N l i hl hi) hN
  have habs : ((I : Int) - L).natAbs ≤ L := by omega
  have hw : toIndex ((L : Int) * L + L + ((I : Int) - L)) = L * L + I := by
    have : (L : Int) * L + L + ((I : Int) - L) = ((L * L + I : Nat) : Int) := by
      push_cast; ring
    rw [this, toIndex_natCast _ (hbound L I hL hI)]
  have hr : toIndex ((L : Int) * L + L + |(I : Int) - L|)
      = L * L + L + ((I : Int) - L).natAbs := by
    have : (L : Int) * L + L + |(I : Int) - L|
        = ((L * L + L + ((I : Int) - L).natAbs : Nat) : Int) := by
      rw [← Int.natCast_natAbs]; push_cast; ring
    rw [this, toIndex_natCast]
    have := hbound L (L + ((I : Int) - L).natAbs) hL (by omega)
    omega
  have hwlt : L * L + I < v.length := by
    rw [hlen]; exact shIndex_lt N L I hL hI
  have hread := hP L ((I : Int) - L).natAbs hL habs (Or.inr ⟨rfl, by omega⟩)
  refine ⟨v.set (L * L + I) (CalcCoefficient ops (L : Int) ((I : Int) - L) phi *
    specLegendre ops x ((I : Int) - L).natAbs (L - ((I : Int) - L).natAbs)), ?_, ?_, ?_, ?_⟩
  · unfold coefficientStep
    rw [hr, hread, hw]
    exact store_of_lt v _ _ hwlt
  · rw [List.length_set, hlen]
  · intro l i hi hc
    by_cases hsame : L * L + I = l * l + i
    · obtain ⟨hl, hi'⟩ := shIndex_inj L I l i hI hi hsame
      subst hl hi'
      rw [List.getElem?_set_self hwlt, CalcCoefficient_mul ops x phi L _ habs]
    · rw [List.getElem?_set_ne hsame]
      apply hY l i hi
      rcases hc with h1 | ⟨h1, h2⟩
      · exact Or.inl h1
      · refine Or.inr ⟨h1, ?_⟩
        subst h1
        rcases Nat.lt_or_ge i I with h3 | h3
        · exact h3
        · exfalso; apply hsame; have : I = i := by omega
          rw [this]
  · intro l m hl hml hc
    have hne : L * L + I ≠ l * l + l + m := by
      intro heq
      obtain ⟨h1, h2⟩ := shIndex_inj L I l (l + m) hI (by omega) (by omega)
      omega
    rw [List.getElem?_set_ne hne]
    apply hP l m hl hml
    rcases hc with h1 | ⟨h1, h2⟩
    · exact Or.inl h1
    · exact Or.inr ⟨h1, by omega⟩

theorem coefficient_pass (ops : MathOps α) (x phi : α) (N : Nat)
    (hN : (N + 1) * (N + 1) < 2 ^ 64) (v : List α)
    (hv : LegendreInv ops x ((N + 1) * (N + 1)) (N + 1) (N + 1 + 1) v) :
    ∃ w, forUp (fun l => forUp (fun i => coefficientStep ops phi l ((i : Int) - l))
        (2 * l + 1)) (N + 1) v = some w ∧
      w.length = (N + 1) * (N + 1) ∧
      ∀ l i, l ≤ N → i ≤ 2 * l → w[l * l + i]? = some (specY ops x phi l ((i : Int) - l)) := by
  have hloop := forUp_invariant
    (fun l => forUp (fun i => coefficientStep ops phi (l : Int) ((i : Int) - l)) (2 * l + 1))
    (fun L w => CoefficientInv ops x phi ((N + 1) * (N + 1)) N L 0 w) (N + 1) v
    ⟨hv.1, fun l i _ hc => by omega, fun l m hl hml _ => hv.2 l m hml (Or.inl (by omega))⟩
    (by
      intro L hL w hw
      obtain ⟨w', hw', hI⟩ := forUp_invariant
        (fun i => coefficientStep ops phi (L : Int) ((i : Int) - L))
        (fun I u => CoefficientInv ops x phi ((N + 1) * (N + 1)) N L I u) (2 * L + 1) w hw
        (fun I hI u hu =>
          coefficientStep_inv ops x phi N L I hN (by omega) (by omega) u hu)
      refine ⟨w', hw', hI.1, ?_, ?_⟩
      · intro l i hi hc
        apply hI.2.1 l i hi
        rcases hc with h1 | ⟨h1, h2⟩
        · rcases Nat.lt_or_ge l L with h3 | h3
          · exact Or.inl h3
          · exact Or.inr ⟨by omega, by omega⟩
        · omega
      · intro l m hl hml hc
        apply hI.2.2 l m hl hml
        rcases hc with h1 | ⟨h1, h2⟩
        · exact Or.inl (by omega)
        · exact Or.inl (by omega))
  obtain ⟨w, hw, hI⟩ := hloop
  refine ⟨w, hw, hI.1, ?_⟩
  intro l i hl hi
  exact hI.2.1 l i hi (Or.inl (by omega))

/-- Functional correctness of `CalcSH` on the range where the vector can be built: the
call returns, the result has `(N + 1) ^ 2` entries, and entry `l * l + i` of row `l`
is `Y(l, i - l)`. -/
theorem CalcSH_spec (ops : MathOps α)
    (hpow : ∀ m : Nat, ops.pow (-1) (m : α) = (-1) ^ m) (N : Nat) (hN : N + 1 < 2 ^ 31)
    (x phi : α) :
    ∃ v, CalcSH ops N x phi = some v ∧ v.length = (N + 1) ^ 2 ∧
      ∀ l i, l ≤ N → i ≤ 2 * l → v[l * l + i]? = some (specY ops x phi l ((i : Int) - l)) := by
  have hsz : (N + 1) * (N + 1) < 2 ^ 62 := by
    calc (N + 1) * (N + 1) < 2 ^ 31 * 2 ^ 31 := Nat.mul_lt_mul'' hN hN
      _ = 2 ^ 62 := by norm_num
  have hN64 : (N + 1) * (N + 1) < 2 ^ 64 := lt_trans hsz (by norm_num)
  have hmod : ((N + 1) * (N + 1)) % 2 ^ 64 = (N + 1) * (N + 1) := Nat.mod_eq_of_lt hN64
  obtain ⟨v, hv, hLeg⟩ := legendre_pass ops hpow x N hN64
  obtain ⟨w, hw, hlen, hent⟩ := coefficient_pass ops x phi N hN64 v hLeg
  refine ⟨w, ?_, by rw [hlen, pow_two], hent⟩
  unfold CalcSH
  simp only [hmod]
  rw [if_neg (by omega), hv]
  exact hw

end SHPass
section SHRange
variable {α : Type} [Field α]

theorem forUp_preserves {σ : Type} (body : Nat → σ → Option σ) (P : σ → Prop)
    (hstep : ∀ i t t', P t → body i t = some t' → P t') (n : Nat) (s t : σ) (hs : P s)
    (h : forUp body n s = some t) : P t := by
  induction n generalizing t with
  | zero =>
    simp only [forUp, Option.some.injEq] at h
    exact h ▸ hs
  | succ n ih =>
    simp only [forUp, Option.bind_eq_some] at h
    obtain ⟨u, hu, hb⟩ := h
    exact hstep n u t (ih u hu) hb

theorem forDown_preserves {σ : Type} (body : Nat → σ → Option σ) (P : σ → Prop)
    (hstep : ∀ i t t', P t → body i t = some t' → P t') (n : Nat) (s t : σ) (hs : P s)
    (h : forDown body n s = some t) : P t := by
  induction n generalizing s with
  | zero =>
    simp only [forDown, Option.some.injEq] at h
    exact h ▸ hs
  | succ n ih =>
    simp only [forDown, Option.bind_eq_some] at h
    obtain ⟨u, hu, hb⟩ := h
    exact ih u (hstep n s u hs hu) hb

theorem forUp_none_mono {σ : Type} (body : Nat → σ → Option σ) (k n : Nat) (s : σ)
    (hk : forUp body k s = none) (hkn : k ≤ n) : forUp body n s = none := by
  induction n with
  | zero =>
    have : k = 0 := by omega
    subst this
    exact hk
  | succ n ih =>
    rcases Nat.lt_or_ge k (n + 1) with h | h
    · rw [forUp, ih (by omega)]
      rfl
    · have : k = n + 1 := by omega
      subst this
      exact hk

end SHRange

/-! ## `CalcSH`: the constant harmonic -/

section SHZero
variable {α : Type} [Field α]

theorem Factorical_zero : (Factorical 0 : α) = 1 := by
  rw [Factorical]; simp

theorem DoubleFactorical_neg_one : (DoubleFactorical (-1) : α) = 1 := by
  rw [DoubleFactorical]; simp

/-- The call `CalcSH(0, x, phi)` returns the one-element vector holding
`sqrt(1 * 1 / (4 * PI * 1)) * (1 * 1 * 1)`, whenever `pow(a, 0) = 1`. -/
theorem CalcSH_zero_eq (ops : MathOps α) (hpow : ∀ a : α, ops.pow a 0 = 1) (x phi : α) :
    CalcSH ops 0 x phi = some [ops.sqrt (1 / (4 * PI))] := by
  simp [CalcSH, forUp, forDown, legendreStep, legendreValue, store, toIndex, coefficientStep,
    CalcLegendre1, CalcCoefficient, hpow, Factorical_zero, DoubleFactorical_neg_one]

end SHZero

/-- The constant of `CalcSH_zero` agrees with `1 / (2 sqrt(pi))` for the real number `pi`
to within `10⁻⁸`: the code's `PI = 3.1415926` is pi to single precision. -/
theorem CalcSH_zero_close_to_pi :
    |1 / (2 * Real.sqrt (PI : ℝ)) - 1 / (2 * Real.sqrt Real.pi)| < 1 / 10 ^ 8 := by
  have hPI : (PI : ℝ) = 3.1415926 := rfl
  have hPI0 : (0 : ℝ) ≤ PI := by rw [hPI]; norm_num
  have hpi0 : (0 : ℝ) ≤ Real.pi := Real.pi_pos.le
  have hlo := Real.pi_gt_d20
  have hhi := Real.pi_lt_d20
  set a := Real.sqrt (PI : ℝ) with ha
  set b := Real.sqrt Real.pi with hb
  have haa : a * a = PI := Real.mul_self_sqrt hPI0
  have hbb : b * b = Real.pi := Real.mul_self_sqrt hpi0
  have ha17 : (17 / 10 : ℝ) < a := by
    rw [ha]
    apply Real.lt_sqrt_of_sq_lt
    rw [hPI]; norm_num
  have hb17 : (17 / 10 : ℝ) < b := by
    rw [hb]
    apply Real.lt_sqrt_of_sq_lt
    nlinarith
  have hdiff : (b - a) * (a + b) = Real.pi - PI := by
    rw [← haa, ← hbb]; ring
  have hd1 : 0 < Real.pi - PI := by rw [hPI]; linarith
  have hd2 : Real.pi - PI < 54 / 10 ^ 9 := by rw [hPI]; linarith
  have hsum : 0 < a + b := by linarith
  have hba0 : 0 < b - a := by
    by_contra hcon
    push_neg at hcon
    have := mul_nonpos_of_nonpos_of_nonneg hcon hsum.le
    rw [hdiff] at this
    linarith
  have hba : b - a < 2 / 10 ^ 8 := by
    by_contra hcon
    push_neg at hcon
    have h1 : 2 / 10 ^ 8 * (a + b) ≤ (b - a) * (a + b) :=
      mul_le_mul_of_nonneg_right hcon hsum.le
    rw [hdiff] at h1
    have h2 : (2 : ℝ) / 10 ^ 8 * (34 / 10) ≤ 2 / 10 ^ 8 * (a + b) :=
      mul_le_mul_of_nonneg_left (by linarith) (by norm_num)
    norm_num at h1 h2 hd2
    linarith
  have hab : (289 / 100 : ℝ) < a * b := by nlinarith
  have ha0 : 0 < a := by linarith
  have hb0 : 0 < b := by linarith
  have hexpr : 1 / (2 * a) - 1 / (2 * b) = (b - a) / (2 * (a * b)) := by
    field_simp
    ring
  rw [hexpr, abs_of_pos (div_pos hba0 (by positivity)), div_lt_iff₀ (by positivity)]
  norm_num at hba ⊢
  nlinarith

/-- C7: for every `cos(theta)` and every `phi`, `CalcSH(0, cos(theta), phi)` is the
one-element vector `[1 / (2 * sqrt(PI))]`, independent of both angles; `PI` is the constant
`3.1415926` that the code uses for pi, and the value is within `10⁻⁸` of `1 / (2 sqrt(pi))`.
Scalars are real numbers, `sqrt` is the real square root and `pow(a, 0) = 1` as in C. -/
theorem CalcSH_zero (ops : MathOps ℝ) (hsqrt : ∀ a, ops.sqrt a = Real.sqrt a)
    (hpow : ∀ a : ℝ, ops.pow a 0 = 1) (x phi : ℝ) :
    CalcSH ops 0 x phi = some [1 / (2 * Real.sqrt (PI : ℝ))] ∧
    |1 / (2 * Real.sqrt (PI : ℝ)) - 1 / (2 * Real.sqrt Real.pi)| < 1 / 10 ^ 8 := by
  refine ⟨?_, CalcSH_zero_close_to_pi⟩
  rw [CalcSH_zero_eq ops hpow x phi, hsqrt]
  have h4 : Real.sqrt 4 = 2 := by
    rw [show (4 : ℝ) = 2 ^ 2 by norm_num]
    exact Real.sqrt_sq (by norm_num)
  rw [Real.sqrt_div (by norm_num), Real.sqrt_one, Real.sqrt_mul (by norm_num), h4]

/-- Witness for `CalcSH_zero` with the real `sqrt`, `sin`, `cos` and power function. -/
theorem CalcSH_zero_witness :
    (∀ a, (⟨Real.sqrt, Real.sin, Real.cos, fun b e => b ^ e⟩ : MathOps ℝ).sqrt a = Real.sqrt a) ∧
    (∀ a : ℝ, (⟨Real.sqrt, Real.sin, Real.cos, fun b e => b ^ e⟩ : MathOps ℝ).pow a 0 = 1) ∧
    CalcSH (⟨Real.sqrt, Real.sin, Real.cos, fun b e => b ^ e⟩ : MathOps ℝ) 0 (1 / 2) 1
      = some [1 / (2 * Real.sqrt (PI : ℝ))] :=
  ⟨fun _ => rfl, fun a => Real.rpow_zero a,
    (CalcSH_zero ⟨Real.sqrt, Real.sin, Real.cos, fun b e => b ^ e⟩ (fun _ => rfl)
      (fun a => Real.rpow_zero a) (1 / 2) 1).1⟩

/-! ## `StorePRTResult` and `StoreEMResult` -/

section StoreLemmas
variable {α : Type} [Field α]

theorem forInt_of_lt {σ : Type} (body : Nat → σ → Option σ) (n : Nat) (s : σ)
    (h : n < 2 ^ 31) : forInt body n s = forUp body n s := by
  unfold forInt
  rw [if_pos h]

theorem forInt_of_ge {σ : Type} (body : Nat → σ → Option σ) (n : Nat) (s : σ)
    (h : 2 ^ 31 ≤ n) : forInt body n s = none := by
  unfold forInt
  rw [if_neg (by omega)]

theorem getElem?_eq_some_getD (B : List α) (i : Nat) (h : i < B.length) :
    B[i]? = some (B.getD i 0) := by
  rw [List.getD_eq_getElem?_getD, List.getElem?_eq_getElem h]
  rfl

end StoreLemmas

/-! ## `GenerateRandomVector` -/

theorem resize_length (v : List Nat) (n fill : Nat) : (resize v n fill).length = n := by
  unfold resize
  rw [List.length_append, List.length_take, List.length_replicate]
  omega

theorem resample_ge (cur : Nat) (samples : List Nat) (e : Nat) (rest : List Nat)
    (h : resample cur samples = some (e, rest)) : 128 ≤ e := by
  induction samples generalizing cur with
  | nil =>
    unfold resample at h
    split_ifs at h with h1
    simp only [Option.some.injEq, Prod.mk.injEq] at h
    omega
  | cons s rest' ih =>
    unfold resample at h
    split_ifs at h with h1
    · exact ih s h
    · simp only [Option.some.injEq, Prod.mk.injEq] at h
      omega

theorem fillSeeds_spec (v samples out : List Nat) (h : fillSeeds v samples = some out) :
    out.length = v.length ∧ ∀ e ∈ out, 128 ≤ e := by
  induction v generalizing samples out with
  | nil =>
    unfold fillSeeds at h
    simp only [Option.some.injEq] at h
    subst h
    simp
  | cons a as ih =>
    unfold fillSeeds at h
    rcases hr : resample a samples with _ | ⟨e, rest⟩
    · rw [hr] at h; exact Option.noConfusion h
    · rw [hr] at h
      simp only [Option.some_bind] at h
      rcases hf : fillSeeds as rest with _ | out'
      · rw [hf] at h; exact Option.noConfusion h
      · rw [hf] at h
        simp only [Option.map_some', Option.some.injEq] at h
        subst h
        obtain ⟨hlen, hall⟩ := ih rest out' hf
        refine ⟨by simp [hlen], ?_⟩
        intro x hx
        rcases List.mem_cons.1 hx with rfl | hx'
        · exact resample_ge a samples x rest hr
        · exact hall x hx'

theorem fillSeeds_returns (v samples : List Nat) (hgood : ∀ s ∈ samples, 128 ≤ s)
    (hlen : v.length ≤ samples.length) : ∃ out, fillSeeds v samples = some out := by
  induction v generalizing samples with
  | nil => exact ⟨[], rfl⟩
  | cons e es ih =>
    rcases samples with _ | ⟨s, rest⟩
    · simp at hlen
    · have hs : 128 ≤ s := hgood s (List.mem_cons_self _ _)
      have hrest : ∀ t ∈ rest, 128 ≤ t := fun t ht => hgood t (List.mem_cons_of_mem _ ht)
      have hlen' : es.length ≤ rest.length := by simpa using hlen
      rcases Nat.lt_or_ge e 128 with he | he
      · have h1 : resample e (s :: rest) = resample s rest := by
          rw [resample, if_pos he]
        have h2 : resample s rest = some (s, rest) := by
          cases rest with
          | nil => rw [resample, if_neg (by omega)]
          | cons t ts => rw [resample, if_neg (by omega)]
        obtain ⟨out, hout⟩ := ih rest hrest hlen'
        exact ⟨s :: out, by rw [fillSeeds, h1, h2, Option.some_bind, hout]; rfl⟩
      · have h1 : resample e (s :: rest) = some (e, s :: rest) := by
          rw [resample, if_neg (by omega)]
        obtain ⟨out, hout⟩ := ih (s :: rest) hgood (by simp at hlen ⊢; omega)
        exact ⟨e :: out, by rw [fillSeeds, h1, Option.some_bind, hout]; rfl⟩

/-- The call returns as soon as the random source delivers `8 * numEvents` values that are
all at least 128 (and the vector can be built). -/
theorem GenerateRandomVector_returns (numEvents : Nat) (randomVector samples : List Nat)
    (hn : numEvents < 2 ^ 59) (hgood : ∀ s ∈ samples, 128 ≤ s)
    (hlen : 8 * numEvents ≤ samples.length) :
    ∃ out, GenerateRandomVector numEvents randomVector samples = some out := by
  have hmod : (numEvents * 8) % 2 ^ 64 = numEvents * 8 := Nat.mod_eq_of_lt (by omega)
  unfold GenerateRandomVector
  simp only [hmod]
  rw [if_neg (by omega)]
  exact fillSeeds_returns _ _ hgood (by rw [resize_length]; omega)

/-- C10 (amended): for every `numEvents`, every initial content of the vector and every
sequence of values produced by the random source for which `GenerateRandomVector` returns,
the output vector has exactly `(8 * numEvents) mod 2 ^ 64` entries, which is
`8 * numEvents` whenever `numEvents < 2 ^ 61`, and every entry is at least 128. -/
theorem GenerateRandomVector_spec (numEvents : Nat) (randomVector samples out : List Nat)
    (h : GenerateRandomVector numEvents randomVector samples = some out) :
    out.length = (numEvents * 8) % 2 ^ 64 ∧
    (numEvents < 2 ^ 61 → out.length = 8 * numEvents) ∧
    ∀ e ∈ out, 128 ≤ e := by
  unfold GenerateRandomVector at h
  simp only [] at h
  split_ifs at h with h1
  obtain ⟨hlen, hall⟩ := fillSeeds_spec _ _ _ h
  rw [resize_length] at hlen
  refine ⟨hlen, ?_, hall⟩
  intro hn
  rw [hlen]
  omega

/-- Witness for `GenerateRandomVector_spec`: one event, samples below 128 are skipped. -/
theorem GenerateRandomVector_spec_witness :
    GenerateRandomVector 1 [] [5, 200, 3, 127, 128, 4096, 129, 0, 130, 131, 132, 7, 133, 9]
      = some [200, 128, 4096, 129, 130, 131, 132, 133] ∧
    ([200, 128, 4096, 129, 130, 131, 132, 133] : List Nat).length = (1 * 8) % 2 ^ 64 ∧
    ((1 < 2 ^ 61) → ([200, 128, 4096, 129, 130, 131, 132, 133] : List Nat).length = 8 * 1) ∧
    ∀ e ∈ ([200, 128, 4096, 129, 130, 131, 132, 133] : List Nat), 128 ≤ e :=
  ⟨by decide, GenerateRandomVector_spec 1 []
    [5, 200, 3, 127, 128, 4096, 129, 0, 130, 131, 132, 7, 133, 9]
    [200, 128, 4096, 129, 130, 131, 132, 133] (by decide)⟩

/-- C10 as stated fails at `numEvents = 2 ^ 61`: `numEvents * 8` wraps to `0` in `UINT64`,
the vector is resized to no entries, and the call returns an empty vector instead of one
with `8 * numEvents` entries. -/
theorem GenerateRandomVector_counterexample :
    GenerateRandomVector 2305843009213693952 [] [] = some [] ∧
    ([] : List Nat).length ≠ 8 * 2305843009213693952 := by
  refine ⟨?_, by norm_num⟩
  have hn : (2305843009213693952 * 8) % 2 ^ 64 = 0 := by norm_num
  unfold GenerateRandomVector
  simp only [hn]
  rfl

/-! ## Text streams: splitting and decimal numbers -/

theorem getlines_append_delim (d : Char) (l rest : List Char) (hl : d ∉ l) :
    getlines d (l ++ d :: rest) = l :: getlines d rest := by
  induction l with
  | nil => simp [getlines]
  | cons c cs ih =>
    have hc : c ≠ d := fun h => hl (by simp [h])
    have hcs : d ∉ cs := fun h => hl (by simp [h])
    simp [getlines, hc, ih hcs]

theorem getlines_last (d : Char) (l : List Char) (hl : d ∉ l) (hne : l ≠ []) :
    getlines d l = [l] := by
  induction l with
  | nil => exact absurd rfl hne
  | cons c cs ih =>
    have hc : c ≠ d := fun h => hl (by simp [h])
    have hcs : d ∉ cs := fun h => hl (by simp [h])
    cases cs with
    | nil => simp [getlines, hc]
    | cons c' cs' =>
      have h2 := ih hcs (by simp)
      rw [getlines, if_neg hc, h2]

theorem digitChar_isDigit (d : Nat) (h : d < 10) : (digitChar d).isDigit = true := by
  interval_cases d <;> rfl

theorem digitChar_value (d : Nat) (h : d < 10) : (digitChar d).toNat - 48 = d := by
  interval_cases d <;> rfl

theorem digitsValue_append (ds : List Char) (c : Char) :
    digitsValue (ds ++ [c]) = 10 * digitsValue ds + (c.toNat - 48) := by
  simp [digitsValue, List.foldl_append]

theorem decimalAux_spec (fuel : Nat) : ∀ (n : Nat) (acc : List Char), n < fuel →
    ∃ ds, decimalAux fuel n acc = ds ++ acc ∧ ds ≠ [] ∧
      (∀ c ∈ ds, c.isDigit = true) ∧ digitsValue ds = n := by
  induction fuel with
  | zero => intro n acc h; omega
  | succ fuel ih =>
    intro n acc h
    by_cases h10 : n < 10
    · refine ⟨[digitChar n], by simp [decimalAux, h10], by simp, ?_, ?_⟩
      · intro c hc
        simp at hc
        rw [hc]; exact digitChar_isDigit n h10
      · simp [digitsValue, digitChar_value n h10]
    · have hlt : n / 10 < fuel := by omega
      obtain ⟨ds, hds, hne, hdig, hval⟩ := ih (n / 10) (digitChar (n % 10) :: acc) hlt
      refine ⟨ds ++ [digitChar (n % 10)], ?_, by simp, ?_, ?_⟩
      · simp [decimalAux, h10, hds]
      · intro c hc
        rcases List.mem_append.1 hc with h1 | h1
        · exact hdig c h1
        · simp at h1
          rw [h1]; exact digitChar_isDigit _ (Nat.mod_lt _ (by norm_num))
      · rw [digitsValue_append, hval, digitChar_value _ (Nat.mod_lt _ (by norm_num))]
        omega

theorem decimal_spec (n : Nat) :
    decimal n ≠ [] ∧ (∀ c ∈ decimal n, c.isDigit = true) ∧ digitsValue (decimal n) = n := by
  obtain ⟨ds, hds, hne, hdig, hval⟩ := decimalAux_spec (n + 1) n [] (Nat.lt_succ_self n)
  have h : decimal n = ds := by simp [decimal, hds]
  rw [h]
  exact ⟨hne, hdig, hval⟩

theorem isDigit_not_isspace (c : Char) (h : c.isDigit = true) : isspace c = false := by
  have h1 : 48 ≤ c.toNat := by
    simp [Char.isDigit] at h
    have := h.1
    simpa [Char.toNat, UInt32.le_def] using this
  have hsp : c ≠ ' ' := by
    intro hc; rw [hc] at h1; revert h1; decide
  simp [isspace, hsp]
  omega

theorem isDigit_ne (c d : Char) (h : c.isDigit = true) (hd : d.isDigit = false) : c ≠ d := by
  intro hcd; rw [hcd, hd] at h; exact Bool.noConfusion h

theorem decimal_not_mem (n : Nat) (d : Char) (hd : d.isDigit = false) : d ∉ decimal n :=
  fun h => isDigit_ne d d ((decimal_spec n).2.1 d h) hd rfl

theorem scanInteger_digits (ds : List Char) (hne : ds ≠ [])
    (hdig : ∀ c ∈ ds, c.isDigit = true) : scanInteger ds = some (false, digitsValue ds) := by
  cases ds with
  | nil => exact absurd rfl hne
  | cons c cs =>
    have hc : c.isDigit = true := hdig c (by simp)
    have hsp : isspace c = false := isDigit_not_isspace c hc
    have hm : c ≠ '-' := isDigit_ne c '-' hc rfl
    have hp : c ≠ '+' := isDigit_ne c '+' hc rfl
    have htw : List.takeWhile Char.isDigit (c :: cs) = c :: cs := by
      rw [List.takeWhile_eq_self_iff]
      exact hdig
    have hdw : List.dropWhile isspace (c :: cs) = c :: cs := by
      simp [List.dropWhile, hsp]
    unfold scanInteger
    rw [hdw]
    simp only [scanSign, hm, hp, if_false]
    rw [htw]
    simp

theorem scanInteger_decimal (n : Nat) : scanInteger (decimal n) = some (false, n) := by
  have h := decimal_spec n
  rw [scanInteger_digits _ h.1 h.2.1, h.2.2]

theorem stoi_decimal (n : Nat) (h : n < 2 ^ 31) : stoi (decimal n) = .ok (n : Int) := by
  unfold stoi
  rw [scanInteger_decimal]
  have h1 : (-2 ^ 31 : Int) ≤ (n : Int) ∧ (n : Int) < 2 ^ 31 := by
    constructor
    · have : (0 : Int) ≤ n := Int.natCast_nonneg n
      linarith
    · exact_mod_cast h
  simp only [Bool.false_eq_true, if_false]
  rw [if_pos h1]

theorem stoul_decimal (n : Nat) (h : n < 2 ^ 32) : stoul (decimal n) = .ok n := by
  unfold stoul
  rw [scanInteger_decimal]
  simp only [Bool.false_eq_true, if_false]
  rw [if_pos h]

/-! ## `PRTReader::Load`: the validation of the line order -/

theorem loadLines_append {α : Type} (ft : FloatText α) (isEM : Bool)
    (a b : List (List Char)) (r : PRTReader α) :
    loadLines ft isEM (a ++ b) r =
      match loadLines ft isEM a r with
      | .returned true r1 => loadLines ft isEM b r1
      | o => o := by
  induction a generalizing r with
  | nil => simp [loadLines]
  | cons s rest ih =>
    simp only [List.cons_append, loadLines]
    by_cases hs : skipped s = true
    · simp only [hs, if_true]; exact ih r
    · simp only [hs, if_false]
      cases hp : (if isEM = true then ProcessLineEM ft r (specifier s) (tokens s)
             else ProcessLine ft r (specifier s) (tokens s)) with
      | returned b r' =>
        cases b with
        | true => simp only []; exact ih r'
        | false => rfl
      | raised e => rfl
      | undefined => rfl

theorem loadLines_append_of_true {α : Type} (ft : FloatText α) (isEM : Bool)
    (a b : List (List Char)) (r r1 : PRTReader α)
    (h : loadLines ft isEM a r = .returned true r1) :
    loadLines ft isEM (a ++ b) r = loadLines ft isEM b r1 := by
  rw [loadLines_append, h]

theorem loadLines_append_of_false {α : Type} (ft : FloatText α) (isEM : Bool)
    (a b : List (List Char)) (r r1 : PRTReader α)
    (h : loadLines ft isEM a r = .returned false r1) :
    loadLines ft isEM (a ++ b) r = .returned false r1 := by
  rw [loadLines_append, h]

/-- What one line does to the loop. -/
theorem loadLines_cons_of_false {α : Type} (ft : FloatText α) (isEM : Bool)
    (s : List Char) (rest : List (List Char)) (r r1 : PRTReader α) (hs : skipped s = false)
    (h : (if isEM = true then ProcessLineEM ft r (specifier s) (tokens s)
          else ProcessLine ft r (specifier s) (tokens s)) = .returned false r1) :
    loadLines ft isEM (s :: rest) r = .returned false r1 := by
  simp only [loadLines, hs, Bool.false_eq_true, if_false, h]

theorem loadLines_cons_of_true {α : Type} (ft : FloatText α) (isEM : Bool)
    (s : List Char) (rest : List (List Char)) (r r1 : PRTReader α) (hs : skipped s = false)
    (h : (if isEM = true then ProcessLineEM ft r (specifier s) (tokens s)
          else ProcessLine ft r (specifier s) (tokens s)) = .returned true r1) :
    loadLines ft isEM (s :: rest) r = loadLines ft isEM rest r1 := by
  simp only [loadLines, hs, Bool.false_eq_true, if_false, h]

theorem loadLines_cons_skipped {α : Type} (ft : FloatText α) (isEM : Bool)
    (s : List Char) (rest : List (List Char)) (r : PRTReader α) (hs : skipped s = true) :
    loadLines ft isEM (s :: rest) r = loadLines ft isEM rest r := by
  simp only [loadLines, hs, if_true]

/-- Before the `L` line has been seen, a line with another specifier either stops the
load with `false` or changes nothing. -/
theorem processLine_before_L {α : Type} (ft : FloatText α) (isEM : Bool) (r : PRTReader α)
    (sp : List Char) (line : List (List Char)) (hr : r.maxLFound_ = false)
    (hsp : sp ≠ ['L']) :
    (if isEM = true then ProcessLineEM ft r sp line else ProcessLine ft r sp line)
        = .returned false r ∨
    (if isEM = true then ProcessLineEM ft r sp line else ProcessLine ft r sp line)
        = .returned true r := by
  cases isEM with
  | true =>
    simp only [if_true, ProcessLineEM, hsp, if_false]
    by_cases hc : sp = ['c']
    · left; simp [hc, hr]
    · right; simp [hc]
  | false =>
    simp only [Bool.false_eq_true, if_false, ProcessLine, hsp]
    by_cases hv : sp = ['v']
    · left; simp [hv, hr]
    · by_cases hf : sp = ['f']
      · left; simp [hf, SetIndex, hr]
      · right; simp [hv, hf]

/-- Before the `L` line has been seen, a `v` or `f` line (a `c` line for an environment
map) stops the load with `false`. -/
theorem processLine_misplaced {α : Type} (ft : FloatText α) (isEM : Bool) (r : PRTReader α)
    (sp : List Char) (line : List (List Char)) (hr : r.maxLFound_ = false)
    (hsp : (isEM = false ∧ (sp = ['v'] ∨ sp = ['f'])) ∨ (isEM = true ∧ sp = ['c'])) :
    (if isEM = true then ProcessLineEM ft r sp line else ProcessLine ft r sp line)
        = .returned false r := by
  rcases hsp with ⟨h1, h2 | h2⟩ | ⟨h1, h2⟩
  · subst h1 h2; simp [ProcessLine, hr]
  · subst h1 h2; simp [ProcessLine, SetIndex, hr]
  · subst h1 h2; simp [ProcessLineEM, hr]

/-- A second `L` line stops the load with `false`. -/
theorem processLine_second_L {α : Type} (ft : FloatText α) (isEM : Bool) (r : PRTReader α)
    (line : List (List Char)) (hr : r.maxLFound_ = true) :
    (if isEM = true then ProcessLineEM ft r ['L'] line else ProcessLine ft r ['L'] line)
        = .returned false r := by
  cases isEM <;> simp [ProcessLine, ProcessLineEM, SetMaxLine, hr]

/-- A line that is processed successfully never clears `maxLFound_`, sets it when it is
an `L` line, and leaves `nCoefficients_` alone once `maxLFound_` is set. -/
theorem processLine_found {α : Type} (ft : FloatText α) (isEM : Bool) (r r1 : PRTReader α)
    (sp : List Char) (line : List (List Char))
    (h : (if isEM = true then ProcessLineEM ft r sp line else ProcessLine ft r sp line)
        = .returned true r1) :
    (r.maxLFound_ = true → r1.maxLFound_ = true ∧ r1.nCoefficients_ = r.nCoefficients_ ∧
        r1.maxL_ = r.maxL_) ∧
    (sp = ['L'] → r1.maxLFound_ = true) ∧
    (sp ≠ ['L'] → r1.maxLFound_ = r.maxLFound_) := by
  have key : ∀ (o : Outcome (PRTReader α)), o = .returned true r1 →
      (o = SetMaxLine r line ∧ sp = ['L'] ∨
       (sp ≠ ['L'] ∧ r1.maxLFound_ = r.maxLFound_ ∧ r1.nCoefficients_ = r.nCoefficients_ ∧
         r1.maxL_ = r.maxL_)) →
      (r.maxLFound_ = true → r1.maxLFound_ = true ∧ r1.nCoefficients_ = r.nCoefficients_ ∧
        r1.maxL_ = r.maxL_) ∧
      (sp = ['L'] → r1.maxLFound_ = true) ∧ (sp ≠ ['L'] → r1.maxLFound_ = r.maxLFound_) := by
    intro o ho hcase
    rcases hcase with ⟨h1, h2⟩ | ⟨h1, h2, h3, h4⟩
    · rw [ho] at h1
      unfold SetMaxLine at h1
      by_cases hc : r.maxLFound_ = true ∨ line.length ≠ 1
      · rw [if_pos hc] at h1; cases h1
      · rw [if_neg hc] at h1
        cases hst : stoi (line.headD []) with
        | error e => rw [hst] at h1; cases h1
        | ok v =>
          rw [hst] at h1
          simp only [Outcome.returned.injEq, true_and] at h1
          subst h1
          refine ⟨fun hr => absurd (Or.inl hr) hc, fun _ => rfl, fun hne => absurd h2 hne⟩
    · exact ⟨fun hr => ⟨by rw [h2, hr], h3, h4⟩, fun hl => absurd hl h1, fun _ => h2⟩
  apply key _ h
  cases isEM with
  | true =>
    simp only [if_true] at h ⊢
    unfold ProcessLineEM at h ⊢
    by_cases hL : sp = ['L']
    · left; simp [hL]
    · right
      refine ⟨hL, ?_⟩
      simp only [hL, if_false] at h
      by_cases hc : sp = ['c']
      · simp only [hc, if_true] at h
        split at h
        · cases h
        · split at h
          · cases h
          · simp only [Outcome.returned.injEq, true_and] at h
            subst h; exact ⟨rfl, rfl, rfl⟩
      · simp only [hc, if_false, Outcome.returned.injEq, true_and] at h
        subst h; exact ⟨rfl, rfl, rfl⟩
  | false =>
    simp only [Bool.false_eq_true, if_false] at h ⊢
    unfold ProcessLine at h ⊢
    by_cases hv : sp = ['v']
    · right
      refine ⟨by rw [hv]; decide, ?_⟩
      simp only [hv, if_true] at h
      split at h
      · cases h
      · unfold SetVertex at h
        split at h
        · cases h
        · split at h
          · cases h
          · split at h
            · cases h
            · split at h
              · cases h
              · simp only [Outcome.returned.injEq, true_and] at h
                subst h; exact ⟨rfl, rfl, rfl⟩
    · simp only [hv, if_false] at h ⊢
      by_cases hf : sp = ['f']
      · right
        refine ⟨by rw [hf]; decide, ?_⟩
        simp only [hf, if_true] at h
        unfold SetIndex at h
        split at h
        · cases h
        · split at h
          · cases h
          · simp only [Outcome.returned.injEq, true_and] at h
            subst h; exact ⟨rfl, rfl, rfl⟩
      · simp only [hf, if_false] at h ⊢
        by_cases hL : sp = ['L']
        · left; simp [hL]
        · right
          simp only [hL, if_false, Outcome.returned.injEq, true_and] at h
          subst h; exact ⟨hL, rfl, rfl, rfl⟩

theorem loadLines_before_L {α : Type} (ft : FloatText α) (isEM : Bool)
    (pre : List (List Char)) (r : PRTReader α) (hr : r.maxLFound_ = false)
    (hpre : ∀ s ∈ pre, ¬ isLine ['L'] s) :
    loadLines ft isEM pre r = .returned true r ∨ loadLines ft isEM pre r = .returned false r := by
  induction pre with
  | nil => left; rfl
  | cons s rest ih =>
    have ih' := ih (fun t ht => hpre t (List.mem_cons_of_mem s ht))
    by_cases hs : skipped s = true
    · rw [loadLines_cons_skipped ft isEM s rest r hs]; exact ih'
    · have hs' : skipped s = false := by simpa using hs
      have hsp : specifier s ≠ ['L'] := fun h => hpre s (List.mem_cons_self s rest) ⟨hs', h⟩
      rcases processLine_before_L ft isEM r (specifier s) (tokens s) hr hsp with h | h
      · right; exact loadLines_cons_of_false ft isEM s rest r r hs' h
      · rw [loadLines_cons_of_true ft isEM s rest r r hs' h]; exact ih'

theorem loadLines_found {α : Type} (ft : FloatText α) (isEM : Bool)
    (lines : List (List Char)) (r r1 : PRTReader α) (hr : r.maxLFound_ = true)
    (h : loadLines ft isEM lines r = .returned true r1) :
    r1.maxLFound_ = true ∧ r1.nCoefficients_ = r.nCoefficients_ ∧ r1.maxL_ = r.maxL_ := by
  induction lines generalizing r with
  | nil =>
    simp only [loadLines, Outcome.returned.injEq, true_and] at h
    subst h; exact ⟨hr, rfl, rfl⟩
  | cons s rest ih =>
    by_cases hs : skipped s = true
    · rw [loadLines_cons_skipped ft isEM s rest r hs] at h
      exact ih r hr h
    · have hs' : skipped s = false := by simpa using hs
      cases hp : (if isEM = true then ProcessLineEM ft r (specifier s) (tokens s)
             else ProcessLine ft r (specifier s) (tokens s)) with
      | returned b r2 =>
        cases b with
        | true =>
          rw [loadLines_cons_of_true ft isEM s rest r r2 hs' hp] at h
          obtain ⟨h1, h2, h3⟩ := (processLine_found ft isEM r r2 _ _ hp).1 hr
          obtain ⟨h4, h5, h6⟩ := ih r2 h1 h
          exact ⟨h4, by rw [h5, h2], by rw [h6, h3]⟩
        | false =>
          rw [loadLines_cons_of_false ft isEM s rest r r2 hs' hp] at h
          cases h
      | raised e =>
        simp only [loadLines, hs', Bool.false_eq_true, if_false, hp] at h
        cases h
      | undefined =>
        simp only [loadLines, hs', Bool.false_eq_true, if_false, hp] at h
        cases h

theorem loadLines_found_of_L {α : Type} (ft : FloatText α) (isEM : Bool)
    (lines : List (List Char)) (r r1 : PRTReader α)
    (hL : ∃ s ∈ lines, isLine ['L'] s)
    (h : loadLines ft isEM lines r = .returned true r1) : r1.maxLFound_ = true := by
  induction lines generalizing r with
  | nil => obtain ⟨s, hs, _⟩ := hL; cases hs
  | cons s rest ih =>
    by_cases hs : skipped s = true
    · rw [loadLines_cons_skipped ft isEM s rest r hs] at h
      obtain ⟨t, ht, htL⟩ := hL
      rcases List.mem_cons.1 ht with h1 | h1
      · subst h1; rw [htL.1] at hs; cases hs
      · exact ih r ⟨t, h1, htL⟩ h
    · have hs' : skipped s = false := by simpa using hs
      cases hp : (if isEM = true then ProcessLineEM ft r (specifier s) (tokens s)
             else ProcessLine ft r (specifier s) (tokens s)) with
      | returned b r2 =>
        cases b with
        | true =>
          rw [loadLines_cons_of_true ft isEM s rest r r2 hs' hp] at h
          obtain ⟨t, ht, htL⟩ := hL
          rcases List.mem_cons.1 ht with h1 | h1
          · subst h1
            have h2 := (processLine_found ft isEM r r2 _ _ hp).2.1 htL.2
            exact (loadLines_found ft isEM rest r2 r1 h2 h).1
          · exact ih r2 ⟨t, h1, htL⟩ h
        | false =>
          rw [loadLines_cons_of_false ft isEM s rest r r2 hs' hp] at h
          cases h
      | raised e =>
        simp only [loadLines, hs', Bool.false_eq_true, if_false, hp] at h
        cases h
      | undefined =>
        simp only [loadLines, hs', Bool.false_eq_true, if_false, hp] at h
        cases h

theorem Load_of_loadLines_false {α : Type} (ft : FloatText α) (isEM : Bool)
    (content : List Char) (r r1 : PRTReader α)
    (h : loadLines ft isEM (getlines '\n' content) r = .returned false r1) :
    Load ft r (some content) isEM = .returned false r1 := by
  simp only [Load, h]

/-- A line that stops the load with `false` in the state the lines before it lead to
makes `Load` return `false`, provided the loop over those lines ends normally. -/
theorem Load_false_of_line {α : Type} (ft : FloatText α) (isEM : Bool)
    (content : List Char) (pre post : List (List Char)) (bad : List Char)
    (r : PRTReader α) (b : Bool) (r1 : PRTReader α)
    (hlines : getlines '\n' content = pre ++ bad :: post)
    (hpre : loadLines ft isEM pre r = .returned b r1)
    (hbad : b = true → skipped bad = false ∧
      (if isEM = true then ProcessLineEM ft r1 (specifier bad) (tokens bad)
       else ProcessLine ft r1 (specifier bad) (tokens bad)) = .returned false r1) :
    Load ft r (some content) isEM = .returned false r1 := by
  apply Load_of_loadLines_false
  rw [hlines]
  cases b with
  | false => exact loadLines_append_of_false ft isEM pre _ r r1 hpre
  | true =>
    rw [loadLines_append_of_true ft isEM pre _ r r1 hpre]
    obtain ⟨h1, h2⟩ := hbad rfl
    exact loadLines_cons_of_false ft isEM bad post r1 r1 h1 h2

theorem stoi_range (t : List Char) (m : Int) (h : stoi t = .ok m) :
    -2 ^ 31 ≤ m ∧ m < 2 ^ 31 := by
  unfold stoi at h
  cases hs : scanInteger t with
  | none => rw [hs] at h; cases h
  | some p =>
    obtain ⟨neg, n⟩ := p
    rw [hs] at h
    by_cases hr : (-2 ^ 31 : Int) ≤ (if neg = true then -(n : Int) else (n : Int)) ∧
        (if neg = true then -(n : Int) else (n : Int)) < 2 ^ 31
    · have h' : (Except.ok (if neg = true then -(n : Int) else (n : Int)) : Except Exception Int)
          = .ok m := by
        simpa only [if_pos hr] using h
      simp only [Except.ok.injEq] at h'
      rw [← h']; exact hr
    · have h' : (Except.error Exception.out_of_range : Except Exception Int) = .ok m := by
        simpa only [if_neg hr] using h
      cases h'

theorem toIndex_succ_sq (m : Int) (h1 : -2 ^ 31 ≤ m) (h2 : m < 2 ^ 31) :
    (((toIndex m + 1) % 2 ^ 64) * ((toIndex m + 1) % 2 ^ 64)) % 2 ^ 64
      = ((m + 1) * (m + 1)).toNat := by
  obtain ⟨q, hq⟩ : ∃ q : Int, (((toIndex m + 1) % 2 ^ 64 : Nat) : Int)
      = (m + 1) + 18446744073709551616 * q := by
    by_cases hm : 0 ≤ m
    · exact ⟨0, by unfold toIndex; omega⟩
    · by_cases hm1 : m = -1
      · exact ⟨0, by subst hm1; unfold toIndex; norm_num⟩
      · exact ⟨1, by unfold toIndex; omega⟩
  have hsq : (0 : Int) ≤ (m + 1) * (m + 1) := mul_self_nonneg _
  have hlt : (m + 1) * (m + 1) < 18446744073709551616 := by nlinarith
  have hcast : (((((toIndex m + 1) % 2 ^ 64) * ((toIndex m + 1) % 2 ^ 64)) % 2 ^ 64 : Nat) : Int)
      = (m + 1) * (m + 1) := by
    rw [Int.natCast_mod, Nat.cast_mul, hq]
    have : ((m + 1) + 18446744073709551616 * q) * ((m + 1) + 18446744073709551616 * q)
        = (m + 1) * (m + 1)
          + 18446744073709551616 * (2 * (m + 1) * q + 18446744073709551616 * q * q) := by ring
    rw [this]
    norm_num
    exact Int.emod_eq_of_lt hsq hlt
  omega

theorem setMaxLine_fresh {α : Type} (t : List Char) (m : Int) (hm : stoi t = .ok m) :
    SetMaxLine (PRTReader.fresh α) [t] = .returned true
      { PRTReader.fresh α with
        maxL_ := toIndex m,
        nCoefficients_ := (((toIndex m + 1) % 2 ^ 64) * ((toIndex m + 1) % 2 ^ 64)) % 2 ^ 64,
        maxLFound_ := true } := by
  simp [SetMaxLine, PRTReader.fresh, hm]

theorem processLine_L {α : Type} (ft : FloatText α) (isEM : Bool) (r : PRTReader α)
    (line : List (List Char)) :
    (if isEM = true then ProcessLineEM ft r ['L'] line else ProcessLine ft r ['L'] line)
      = SetMaxLine r line := by
  cases isEM <;> simp [ProcessLine, ProcessLineEM]

/-- The state in which the first `L` line leaves the reader, as seen by later lines. -/
theorem loadLines_after_L {α : Type} (ft : FloatText α) (isEM : Bool)
    (pre mid : List (List Char)) (lline t : List Char) (m : Int) (r1 : PRTReader α)
    (hpre : ∀ s ∈ pre, ¬ isLine ['L'] s)
    (hL : isLine ['L'] lline) (ht : tokens lline = [t]) (hm : stoi t = .ok m)
    (h : loadLines ft isEM (pre ++ lline :: mid) (PRTReader.fresh α) = .returned true r1) :
    r1.maxLFound_ = true ∧ r1.nCoefficients_ = ((m + 1) * (m + 1)).toNat ∧
      r1.maxL_ = toIndex m := by
  rcases loadLines_before_L ft isEM pre (PRTReader.fresh α) rfl hpre with h0 | h0
  · rw [loadLines_append_of_true ft isEM pre _ _ _ h0] at h
    have hp : (if isEM = true then ProcessLineEM ft (PRTReader.fresh α) (specifier lline)
          (tokens lline) else ProcessLine ft (PRTReader.fresh α) (specifier lline)
          (tokens lline)) = .returned true
      { PRTReader.fresh α with
        maxL_ := toIndex m,
        nCoefficients_ := (((toIndex m + 1) % 2 ^ 64) * ((toIndex m + 1) % 2 ^ 64)) % 2 ^ 64,
        maxLFound_ := true } := by
      rw [hL.2, ht, processLine_L]; exact setMaxLine_fresh t m hm
    rw [loadLines_cons_of_true ft isEM lline mid _ _ hL.1 hp] at h
    obtain ⟨h1, h2, h3⟩ := loadLines_found ft isEM mid _ r1 rfl h
    obtain ⟨hr1, hr2⟩ := stoi_range t m hm
    exact ⟨h1, by rw [h2]; exact toIndex_succ_sq m hr1 hr2, h3⟩
  · rw [loadLines_append_of_false ft isEM pre _ _ _ h0] at h
    cases h

theorem Load_PRT_without_L {α : Type} (ft : FloatText α) (content : List Char)
    (h : ∀ s ∈ getlines '\n' content, ¬ isLine ['L'] s) :
    Load ft (PRTReader.fresh α) (some content) false = .returned false (PRTReader.fresh α) := by
  rcases loadLines_before_L ft false _ (PRTReader.fresh α) rfl h with h0 | h0
  · simp only [Load, h0]
    rfl
  · exact Load_of_loadLines_false ft false content _ _ h0

/-- The order checks of `ProcessLine` and `ProcessLineEM`.  `Load` on a fresh reader
returns `false` when a `v` or `f` line (a `c` line in environment-map mode) comes before
any `L` line; and it returns `false` at a second `L` line when the loop over the lines
in front of that line has ended by itself, that is neither raised nor overflowed. -/
theorem Load_rejects_line_order {α : Type} (ft : FloatText α) (isEM : Bool)
    (content : List Char) (pre post : List (List Char)) (bad : List Char)
    (hlines : getlines '\n' content = pre ++ bad :: post) :
    ((∀ s ∈ pre, ¬ isLine ['L'] s) →
      ((isEM = false ∧ (isLine ['v'] bad ∨ isLine ['f'] bad)) ∨
        (isEM = true ∧ isLine ['c'] bad)) →
      Load ft (PRTReader.fresh α) (some content) isEM
        = .returned false (PRTReader.fresh α)) ∧
    ((∃ s ∈ pre, isLine ['L'] s) → isLine ['L'] bad →
      ∀ (b : Bool) (r1 : PRTReader α),
        loadLines ft isEM pre (PRTReader.fresh α) = .returned b r1 →
        Load ft (PRTReader.fresh α) (some content) isEM = .returned false r1) := by
  constructor
  · intro hpre hbad
    rcases loadLines_before_L ft isEM pre (PRTReader.fresh α) rfl hpre with h0 | h0
    · apply Load_false_of_line ft isEM content pre post bad _ true _ hlines h0
      intro _
      rcases hbad with ⟨h1, h2 | h2⟩ | ⟨h1, h2⟩
      · exact ⟨h2.1, processLine_misplaced ft isEM _ _ _ rfl (Or.inl ⟨h1, Or.inl h2.2⟩)⟩
      · exact ⟨h2.1, processLine_misplaced ft isEM _ _ _ rfl (Or.inl ⟨h1, Or.inr h2.2⟩)⟩
      · exact ⟨h2.1, processLine_misplaced ft isEM _ _ _ rfl (Or.inr ⟨h1, h2.2⟩)⟩
    · exact Load_false_of_line ft isEM content pre post bad _ false _ hlines h0
        (fun hb => Bool.noConfusion hb)
  · intro hL hbad b r1 hpre
    apply Load_false_of_line ft isEM content pre post bad _ b r1 hlines hpre
    intro hb
    subst hb
    have hfound := loadLines_found_of_L ft isEM pre _ r1 hL hpre
    refine ⟨hbad.1, ?_⟩
    rw [hbad.2]
    exact processLine_second_L ft isEM r1 _ hfound

theorem Load_rejects_line_order_witness :
    Load integerText (PRTReader.fresh Int) (some "f 0 0 0\nL 0\nL 1".toList) false
        = .returned false (PRTReader.fresh Int) ∧
    Load integerText (PRTReader.fresh Int) (some "L 0\nL 1".toList) true
        = .returned false { PRTReader.fresh Int with nCoefficients_ := 1, maxLFound_ := true } :=
  ⟨(Load_rejects_line_order integerText false "f 0 0 0\nL 0\nL 1".toList []
      ["L 0".toList, "L 1".toList] "f 0 0 0".toList rfl).1
      (fun s hs => by cases hs) (Or.inl ⟨rfl, Or.inr ⟨rfl, rfl⟩⟩),
   (Load_rejects_line_order integerText true "L 0\nL 1".toList ["L 0".toList] []
      "L 1".toList rfl).2
      ⟨"L 0".toList, List.mem_cons_self _ _, rfl, rfl⟩ ⟨rfl, rfl⟩ true _ rfl⟩

/-- C13, the failing input.  The file `L x` / `L 1` has two `L` lines, and in both modes
`Load` does not return `false` on it: `std::stoi` throws `std::invalid_argument` on the
string `x` of the first line, nothing in `PRTReader` catches it, and the exception
leaves `Load` before the second `L` line is looked at. -/
theorem Load_line_order_raises :
    getlines '\n' "L x\nL 1".toList = ["L x".toList, "L 1".toList] ∧
    isLine ['L'] "L x".toList ∧ isLine ['L'] "L 1".toList ∧
    Load integerText (PRTReader.fresh Int) (some "L x\nL 1".toList) false
      = .raised .invalid_argument ∧
    Load integerText (PRTReader.fresh Int) (some "L x\nL 1".toList) true
      = .raised .invalid_argument :=
  ⟨rfl, ⟨rfl, rfl⟩, ⟨rfl, rfl⟩, rfl, rfl⟩

/-- The count checks of `SetVertex` and `ProcessLineEM`.  After a first `L` line with the
value `m`, a `v` line that does not carry exactly `3 + (m + 1)²` strings (a `c` line
that does not carry exactly `3 (m + 1)²` strings in environment-map mode) makes `Load`
return `false`, when the loop over the lines in front of that line has ended by itself,
that is neither raised nor overflowed. -/
theorem Load_rejects_token_count {α : Type} (ft : FloatText α) (isEM : Bool)
    (content : List Char) (pre mid post : List (List Char)) (lline bad t : List Char)
    (m : Int) (b : Bool) (r1 : PRTReader α)
    (hlines : getlines '\n' content = pre ++ lline :: (mid ++ bad :: post))
    (hpre : ∀ s ∈ pre, ¬ isLine ['L'] s)
    (hL : isLine ['L'] lline) (ht : tokens lline = [t]) (hm : stoi t = .ok m)
    (hbad : (isEM = false ∧ isLine ['v'] bad ∧
              (tokens bad).length ≠ 3 + ((m + 1) * (m + 1)).toNat) ∨
            (isEM = true ∧ isLine ['c'] bad ∧
              (tokens bad).length ≠ 3 * ((m + 1) * (m + 1)).toNat))
    (hnormal : loadLines ft isEM (pre ++ lline :: mid) (PRTReader.fresh α) = .returned b r1) :
    Load ft (PRTReader.fresh α) (some content) isEM = .returned false r1 := by
  have hlines' : getlines '\n' content = (pre ++ lline :: mid) ++ bad :: post := by
    rw [hlines]; simp
  apply Load_false_of_line ft isEM content _ post bad _ b r1 hlines' hnormal
  intro hb
  subst hb
  obtain ⟨h1, h2, _⟩ := loadLines_after_L ft isEM pre mid lline t m r1 hpre hL ht hm hnormal
  obtain ⟨hr1, hr2⟩ := stoi_range t m hm
  have hn : ((m + 1) * (m + 1)).toNat ≤ 2 ^ 62 := by
    have : (m + 1) * (m + 1) ≤ 2 ^ 62 := by nlinarith
    omega
  rcases hbad with ⟨he, hl, hc⟩ | ⟨he, hl, hc⟩
  · subst he
    refine ⟨hl.1, ?_⟩
    rw [hl.2]
    have hmod : (3 + r1.nCoefficients_) % 2 ^ 64 = 3 + ((m + 1) * (m + 1)).toNat := by
      rw [h2]; omega
    have hcond : (tokens bad).length ≠ (3 + r1.nCoefficients_) % 2 ^ 64 ∨
        r1.maxLFound_ = false := Or.inl (by rw [hmod]; exact hc)
    have hv : ProcessLine ft r1 ['v'] (tokens bad) = SetVertex ft r1 (tokens bad) := by
      simp [ProcessLine, h1]
    simp only [Bool.false_eq_true, if_false]
    rw [hv]
    unfold SetVertex
    rw [if_pos hcond]
  · subst he
    refine ⟨hl.1, ?_⟩
    rw [hl.2]
    have hmod : (r1.nCoefficients_ * 3) % 2 ^ 64 = 3 * ((m + 1) * (m + 1)).toNat := by
      rw [h2]; omega
    have hcond : (tokens bad).length ≠ (r1.nCoefficients_ * 3) % 2 ^ 64 ∨
        r1.maxLFound_ = false := Or.inl (by rw [hmod]; exact hc)
    simp only [if_true]
    unfold ProcessLineEM
    rw [if_neg (by decide), if_pos rfl, if_pos hcond]

theorem Load_rejects_token_count_witness :
    Load integerText (PRTReader.fresh Int) (some "L 1\nv 1 2 3 4 5 6\nf 0 0 0".toList) false
      = .returned false
          { PRTReader.fresh Int with maxL_ := 1, nCoefficients_ := 4, maxLFound_ := true } :=
  Load_rejects_token_count integerText false "L 1\nv 1 2 3 4 5 6\nf 0 0 0".toList [] []
    ["f 0 0 0".toList] "L 1".toList "v 1 2 3 4 5 6".toList "1".toList 1 true _ rfl
    (fun s hs => by cases hs) ⟨rfl, rfl⟩ rfl rfl (Or.inl ⟨rfl, ⟨rfl, rfl⟩, by decide⟩) rfl

/-- C14, the failing input.  In the file `L 0` / `f a b c` / `v 1` the `v` line carries
one string instead of `3 + (0 + 1)² = 4`, and `Load` does not return `false` on it:
`std::stoul` throws `std::invalid_argument` on the string `a` of the `f` line, nothing
in `PRTReader` catches it, and the exception leaves `Load` before the `v` line is
looked at. -/
theorem Load_token_count_raises :
    getlines '\n' "L 0\nf a b c\nv 1".toList = ["L 0".toList, "f a b c".toList, "v 1".toList] ∧
    isLine ['v'] "v 1".toList ∧ tokens "v 1".toList = ["1".toList] ∧
    Load integerText (PRTReader.fresh Int) (some "L 0\nf a b c\nv 1".toList) false
      = .raised .invalid_argument :=
  ⟨rfl, ⟨rfl, rfl⟩, rfl, rfl⟩

/-- C15, the failing input.  In environment-map mode `Load` on a fresh reader returns
`true` for the empty file and for a file that holds only a comment, neither of which
has an `L` line; the reader is then loaded and the accessors return instead of
throwing. -/
theorem Load_EM_without_L {α : Type} (ft : FloatText α) :
    Load ft (PRTReader.fresh α) (some []) true
      = .returned true { PRTReader.fresh α with isLoaded_ := true } ∧
    Load ft (PRTReader.fresh α) (some "# no data".toList) true
      = .returned true { PRTReader.fresh α with isLoaded_ := true } ∧
    GetCoefficients { PRTReader.fresh α with isLoaded_ := true } = .ok [] ∧
    GetMaxL { PRTReader.fresh α with isLoaded_ := true } = .ok 0 ∧
    GetNCoefficients { PRTReader.fresh α with isLoaded_ := true } = .ok 0 :=
  ⟨rfl, rfl, rfl, rfl, by norm_num [GetNCoefficients, toInt32, PRTReader.fresh]⟩

/-- C16, the failing input.  On the file `L abc`, in both modes, `Load` is left by the
`std::invalid_argument` of `std::stoi`; on `L 3000000000` by `std::out_of_range`. -/
theorem Load_raises {α : Type} (ft : FloatText α) (isEM : Bool) :
    Load ft (PRTReader.fresh α) (some "L abc".toList) isEM = .raised .invalid_argument ∧
    Load ft (PRTReader.fresh α) (some "L 3000000000".toList) isEM
      = .raised .out_of_range := by
  cases isEM
  · constructor
    · rfl
    · rfl
  · constructor
    · rfl
    · rfl

/-! ## `Workspace`, prepass size and ray frame -/

/-- C18, the failing input.  A mesh file with `maxL = 2` (9 coefficients per vertex), an
environment map file with `maxL = 1` (4 coefficients) and `SetMaxL(2)`: `emMaxL_` holds
the coefficient count 4 of the environment map, not its `maxL`, so `setMaxL` is
`min (min 2 2) 4 = 2`, and `(setMaxL + 1)² = 9` exceeds the 4 coefficients of the
environment map. -/
theorem RenderPRTObject_setMaxL_exceeds :
    ∃ ws1 ws2 : Workspace Int,
      AddPRT integerText (Workspace.create Int 1)
        (some "L 2\nv 0 0 0 1 2 3 4 5 6 7 8 9\nf 0 0 0".toList) = some (.ok ws1) ∧
      AddEM integerText ws1 (some "L 1\nc 1 2 3 4 5 6 7 8 9 10 11 12".toList) 0
        = some (.ok ws2) ∧
      ws2.prtData_.nCoefficients_ = 9 ∧
      (ws2.emData_.map fun em => em.nCoefficients_) = [4] ∧
      RenderPRTObject (SetMaxL ws2 2) = some { prtMaxL := 2, emMaxL := 4, setMaxL := 2 } ∧
      RenderPRTObject ws2 = some { prtMaxL := 2, emMaxL := 4, setMaxL := 2 } ∧
      ¬ ((2 + 1) ^ 2 ≤ 4) :=
  ⟨_, _, rfl, rfl, rfl, rfl, rfl, rfl, by decide⟩

section RayFrame
variable {α : Type} [Field α]

/-- C20.  At every vertex whose position and normal lie inside the arrays, the root
constants are `rayPos = (p, 0)`, `forward = (n, 0)` and `xDir = (-n.y, n.x, 0, 0)`, and
`xDir` is orthogonal to `forward`. -/
theorem setRay_spec (rayData : RayData α) (vertexData normalData : List α) (i : Nat)
    (hv : 3 * i + 2 < vertexData.length) (hn : 3 * i + 2 < normalData.length) :
    ∃ px py pz nx ny nz : α,
      vertexData[3 * i]? = some px ∧ vertexData[3 * i + 1]? = some py ∧
      vertexData[3 * i + 2]? = some pz ∧ normalData[3 * i]? = some nx ∧
      normalData[3 * i + 1]? = some ny ∧ normalData[3 * i + 2]? = some nz ∧
      ∃ rd, setRay rayData vertexData normalData i = some rd ∧
        rd.rayPos = ⟨px, py, pz, 0⟩ ∧ rd.forward = ⟨nx, ny, nz, 0⟩ ∧
        rd.xDir = ⟨-ny, nx, 0, 0⟩ ∧ dot3 rd.xDir rd.forward = 0 ∧
        rd.settings = rayData.settings := by
  have h0 : 3 * i < vertexData.length := by omega
  have h1 : 3 * i + 1 < vertexData.length := by omega
  have h0' : 3 * i < normalData.length := by omega
  have h1' : 3 * i + 1 < normalData.length := by omega
  refine ⟨vertexData[3 * i], vertexData[3 * i + 1], vertexData[3 * i + 2],
    normalData[3 * i], normalData[3 * i + 1], normalData[3 * i + 2],
    List.getElem?_eq_getElem h0, List.getElem?_eq_getElem h1, List.getElem?_eq_getElem hv,
    List.getElem?_eq_getElem h0', List.getElem?_eq_getElem h1', List.getElem?_eq_getElem hn,
    ?_⟩
  refine ⟨{ rayData with
      rayPos := ⟨vertexData[3 * i], vertexData[3 * i + 1], vertexData[3 * i + 2], 0⟩,
      forward := ⟨normalData[3 * i], normalData[3 * i + 1], normalData[3 * i + 2], 0⟩,
      xDir := ⟨-normalData[3 * i + 1], normalData[3 * i], 0, 0⟩ }, ?_, rfl, rfl, rfl, ?_, rfl⟩
  · simp only [setRay, List.getElem?_eq_getElem h0, List.getElem?_eq_getElem h1,
      List.getElem?_eq_getElem hv, List.getElem?_eq_getElem h0',
      List.getElem?_eq_getElem h1', List.getElem?_eq_getElem hn]
  · simp only [dot3]
    ring

end RayFrame

theorem setRay_spec_witness :
    ∃ rd, setRay (⟨⟨0, 0, 0, 0⟩, ⟨0, 0, 0, 0⟩, ⟨0, 0, 0, 0⟩, ⟨8, 1, 1, 0⟩⟩ : RayData ℚ)
        [1, 2, 3] [3, 4, 0] 0 = some rd ∧
      rd.xDir = ⟨-4, 3, 0, 0⟩ ∧ dot3 rd.xDir rd.forward = 0 := by
  obtain ⟨px, py, pz, nx, ny, nz, h1, h2, h3, h4, h5, h6, rd, hrd, _, hf, hx, hd, _⟩ :=
    setRay_spec (⟨⟨0, 0, 0, 0⟩, ⟨0, 0, 0, 0⟩, ⟨0, 0, 0, 0⟩, ⟨8, 1, 1, 0⟩⟩ : RayData ℚ)
      [1, 2, 3] [3, 4, 0] 0 (by decide) (by decide)
  simp at h4 h5
  subst h4 h5
  exact ⟨rd, hrd, hx, hd⟩

/-- C27, the failing input.  For the unit normal `(0, 0, 1)`, which is not zero, the
tangent passed as `xDir` is the zero vector. -/
theorem setRay_zero_tangent :
    ∃ rd, setRay (⟨⟨0, 0, 0, 0⟩, ⟨0, 0, 0, 0⟩, ⟨0, 0, 0, 0⟩, ⟨8, 1, 1, 0⟩⟩ : RayData ℚ)
        [1, 2, 3] [0, 0, 1] 0 = some rd ∧
      rd.forward = ⟨0, 0, 1, 0⟩ ∧ rd.forward.z ≠ 0 ∧ rd.xDir = ⟨0, 0, 0, 0⟩ := by
  refine ⟨_, rfl, rfl, by norm_num, ?_⟩
  simp

/-- C28, the failing input.  A reader that has loaded a valid file is given a second
valid file: `Load` returns `false` at the `L` line of the second file, because
`maxLFound_` is still set, and the reader keeps the data of the first file. -/
theorem Load_second_file :
    ∃ r1 : PRTReader Int,
      Load integerText (PRTReader.fresh Int)
        (some "L 0
v 1 2 3 4
f 0 0 0
".toList) false = .returned true r1 ∧
      Load integerText r1 (some "L 1
v 5 6 7 1 2 3 4
f 0 0 0
".toList) false
        = .returned false r1 ∧
      Load integerText (PRTReader.fresh Int)
        (some "L 1
v 5 6 7 1 2 3 4
f 0 0 0
".toList) false
        = .returned true
            { vertices_ := [5, 6, 7], coefficients_ := [1, 2, 3, 4], indices_ := [0, 0, 0],
              nCoefficients_ := 4, maxL_ := 1, isLoaded_ := true, maxLFound_ := true } ∧
      GetVertices r1 = .ok [1, 2, 3] ∧ GetCoefficients r1 = .ok [4] ∧ GetMaxL r1 = .ok 0 :=
  ⟨_, rfl, rfl, rfl, rfl, rfl, rfl⟩

/-- A loaded reader rejects every further file at its first `L` line (part of C28). -/
theorem Load_again {α : Type} (ft : FloatText α) (r : PRTReader α) (isEM : Bool)
    (content : List Char) (pre post : List (List Char)) (lline : List Char) (b : Bool)
    (r1 : PRTReader α) (hr : r.maxLFound_ = true)
    (hlines : getlines '\n' content = pre ++ lline :: post) (hL : isLine ['L'] lline)
    (hpre : loadLines ft isEM pre r = .returned b r1) :
    Load ft r (some content) isEM = .returned false r1 := by
  apply Load_false_of_line ft isEM content pre post lline r b r1 hlines hpre
  intro hb
  subst hb
  refine ⟨hL.1, ?_⟩
  rw [hL.2]
  exact processLine_second_L ft isEM r1 _ (loadLines_found ft isEM pre r r1 hr hpre).1

/-! ## `PRTWriter`: the text that `Write` produces -/

theorem getElem?_getD {β : Type} (l : List β) (i : Nat) (d : β) (h : i < l.length) :
    l[i]? = some (l.getD i d) := by
  rw [List.getD_eq_getElem?_getD, List.getElem?_eq_getElem h]
  rfl

theorem forUp_concat {β : Type} (body : Nat → List β → Option (List β)) (f : Nat → List β)
    (n : Nat) (o : List β) (h : ∀ i, i < n → ∀ o', body i o' = some (o' ++ f i)) :
    forUp body n o = some (o ++ concatUpTo f n) := by
  induction n with
  | zero => simp [forUp, concatUpTo]
  | succ n ih =>
    rw [forUp, ih (fun i hi => h i (Nat.lt_succ_of_lt hi))]
    simp [h n (Nat.lt_succ_self n), concatUpTo]

theorem forInt_concat {β : Type} (body : Nat → List β → Option (List β)) (f : Nat → List β)
    (n : Nat) (o : List β) (hn : n < 2 ^ 31)
    (h : ∀ i, i < n → ∀ o', body i o' = some (o' ++ f i)) :
    forInt body n o = some (o ++ concatUpTo f n) := by
  rw [forInt_of_lt body n o hn]
  exact forUp_concat body f n o h

theorem concatUpTo_congr {β : Type} (f g : Nat → List β) (n : Nat)
    (h : ∀ i, i < n → f i = g i) : concatUpTo f n = concatUpTo g n := by
  induction n with
  | zero => rfl
  | succ n ih =>
    rw [concatUpTo, concatUpTo, ih (fun i hi => h i (Nat.lt_succ_of_lt hi)),
      h n (Nat.lt_succ_self n)]

theorem concatUpTo_add {β : Type} (f : Nat → List β) (a b : Nat) :
    concatUpTo f (a + b) = concatUpTo f a ++ concatUpTo (fun j => f (a + j)) b := by
  induction b with
  | zero => simp [concatUpTo]
  | succ b ih =>
    rw [← Nat.add_assoc, concatUpTo, ih, concatUpTo, List.append_assoc]

theorem concatUpTo_singleton {β : Type} (g : Nat → β) (n : Nat) :
    concatUpTo (fun i => [g i]) n = (List.range n).map g := by
  induction n with
  | zero => rfl
  | succ n ih => rw [concatUpTo, ih, List.range_succ, List.map_append]; rfl

/-- Blocks of `n` consecutive values put one after the other give all the values. -/
theorem concatUpTo_blocks {β : Type} (g : Nat → β) (n V : Nat) :
    concatUpTo (fun i => (List.range n).map fun j => g (i * n + j)) V
      = (List.range (V * n)).map g := by
  induction V with
  | zero => simp [concatUpTo]
  | succ V ih =>
    rw [concatUpTo, ih, Nat.succ_mul, List.range_add, List.map_append, List.map_map]
    rfl

theorem map_getD_range {β γ : Type} (l : List β) (d : β) (g : β → γ) :
    (List.range l.length).map (fun k => g (l.getD k d)) = l.map g := by
  apply List.ext_getElem
  · simp
  · intro i h1 h2
    simp only [List.getElem_map, List.getElem_range]
    have hi : i < l.length := by simpa using h2
    rw [List.getD_eq_getElem l d hi]

theorem getlines_concatUpTo (d : Char) (t : Nat → List Char) (k : Nat) (rest : List Char)
    (h : ∀ j, j < k → d ∉ t j) :
    getlines d (concatUpTo (fun j => t j ++ [d]) k ++ rest)
      = (List.range k).map t ++ getlines d rest := by
  induction k generalizing rest with
  | zero => simp [concatUpTo]
  | succ k ih =>
    rw [concatUpTo, List.append_assoc, ih _ (fun j hj => h j (Nat.lt_succ_of_lt hj)),
      List.append_assoc, List.singleton_append,
      getlines_append_delim d (t k) rest (h k (Nat.lt_succ_self k)), List.range_succ,
      List.map_append]
    simp

theorem getlines_prefixed_aux (d : Char) (s : List Char) (t : Nat → List Char) (k : Nat)
    (rest : List Char) (hs : d ∉ s) (h : ∀ j, j < k → d ∉ t j) :
    getlines d (s ++ concatUpTo (fun j => d :: t j) k ++ d :: rest)
      = s :: (List.range k).map t ++ getlines d rest := by
  induction k generalizing rest with
  | zero =>
    simp only [concatUpTo, List.append_nil, List.range_zero, List.map_nil]
    exact getlines_append_delim d s rest hs
  | succ k ih =>
    have e : s ++ concatUpTo (fun j => d :: t j) (k + 1) ++ d :: rest
        = s ++ concatUpTo (fun j => d :: t j) k ++ d :: (t k ++ d :: rest) := by
      simp [concatUpTo]
    rw [e, ih _ (fun j hj => h j (Nat.lt_succ_of_lt hj)),
      getlines_append_delim d (t k) rest (h k (Nat.lt_succ_self k)), List.range_succ,
      List.map_append]
    simp

/-- A specifier followed by `k + 1` strings, each with a delimiter in front, is split
into the specifier and the strings. -/
theorem getlines_prefixed (d : Char) (s : List Char) (t : Nat → List Char) (k : Nat)
    (hs : d ∉ s) (h : ∀ j, j < k + 1 → d ∉ t j) (hlast : t k ≠ []) :
    getlines d (s ++ concatUpTo (fun j => d :: t j) (k + 1)) = s :: (List.range (k + 1)).map t := by
  have e : s ++ concatUpTo (fun j => d :: t j) (k + 1)
      = s ++ concatUpTo (fun j => d :: t j) k ++ d :: t k := by
    simp [concatUpTo]
  rw [e, getlines_prefixed_aux d s t k (t k) hs (fun j hj => h j (Nat.lt_succ_of_lt hj)),
    getlines_last d (t k) (h k (Nat.lt_succ_self k)) hlast, List.range_succ, List.map_append]
  simp

theorem parseAll_map {β γ : Type} (parse : List Char → Except Exception γ)
    (fmt : β → List Char) (g : β → γ) (xs : List β)
    (h : ∀ x ∈ xs, parse (fmt x) = .ok (g x)) :
    parseAll parse (xs.map fmt) = .ok (xs.map g) := by
  induction xs with
  | nil => rfl
  | cons x xs ih =>
    simp only [List.map_cons, parseAll, h x (List.mem_cons_self x xs),
      ih (fun y hy => h y (List.mem_cons_of_mem x hy))]

/-! ## The environment-map round trip -/

theorem writeCoefficients_eq {α : Type} (ft : FloatText α) (w : PRTWriter α)
    (out : List Char) (d : α) (K : Nat) (hK : (w.nCoefficients_ * 3) % 2 ^ 64 = K + 1)
    (hN : K + 1 < 2 ^ 31) (hlen : K + 1 ≤ w.pCoefficient_.length) :
    writeCoefficients ft w out = some (out ++ ['c', ' '] ++
      (concatUpTo (fun j => ft.put (w.pCoefficient_.getD j d) ++ [' ']) K
        ++ ft.put (w.pCoefficient_.getD K d))) := by
  have hc : concatUpTo (fun j => ft.put (w.pCoefficient_.getD j d) ++
        (if j ≠ K + 1 - 1 then [' '] else [])) (K + 1)
      = concatUpTo (fun j => ft.put (w.pCoefficient_.getD j d) ++ [' ']) K
        ++ ft.put (w.pCoefficient_.getD K d) := by
    rw [concatUpTo]
    have h1 : concatUpTo (fun j => ft.put (w.pCoefficient_.getD j d) ++
        (if j ≠ K + 1 - 1 then [' '] else [])) K
        = concatUpTo (fun j => ft.put (w.pCoefficient_.getD j d) ++ [' ']) K := by
      apply concatUpTo_congr
      intro i hi
      have : i ≠ K + 1 - 1 := by omega
      rw [if_pos this]
    rw [h1]
    simp
  unfold writeCoefficients
  rw [hK]
  rw [forInt_concat _ (fun j => ft.put (w.pCoefficient_.getD j d) ++
      (if j ≠ K + 1 - 1 then [' '] else [])) (K + 1) _ hN, hc]
  intro i hi o'
  rw [getElem?_getD w.pCoefficient_ i d (by omega)]
  by_cases h : i ≠ K + 1 - 1
  · simp only [Option.map, if_pos h]; simp
  · simp only [Option.map, if_neg h]; simp

/-- The two lines of an environment-map file, as the reader splits them. -/
theorem getlines_EM_text (m : Nat) (t : Nat → List Char) (K : Nat)
    (hnl : ∀ j, j < K + 1 → '\n' ∉ t j) :
    getlines '\n' (('L' :: ' ' :: decimal m ++ ['\n']) ++ ['c', ' '] ++
        (concatUpTo (fun j => t j ++ [' ']) K ++ t K))
      = [ 'L' :: ' ' :: decimal m,
          ['c', ' '] ++ (concatUpTo (fun j => t j ++ [' ']) K ++ t K) ] := by
  have h1 : '\n' ∉ 'L' :: ' ' :: decimal m := by
    intro h
    rcases List.mem_cons.1 h with h | h
    · revert h; decide
    · rcases List.mem_cons.1 h with h | h
      · revert h; decide
      · exact decimal_not_mem m '\n' rfl h
  have hc : ∀ k, k ≤ K → '\n' ∉ concatUpTo (fun j => t j ++ [' ']) k := by
    intro k hk
    induction k with
    | zero => simp [concatUpTo]
    | succ k ih =>
      rw [concatUpTo]
      intro h
      rcases List.mem_append.1 h with h | h
      · exact ih (by omega) h
      · rcases List.mem_append.1 h with h | h
        · exact hnl k (by omega) h
        · revert h; decide
  have h2 : '\n' ∉ ['c', ' '] ++ (concatUpTo (fun j => t j ++ [' ']) K ++ t K) := by
    intro h
    rcases List.mem_append.1 h with h | h
    · revert h; decide
    · rcases List.mem_append.1 h with h | h
      · exact hc K (le_refl K) h
      · exact hnl K (by omega) h
  have e : ('L' :: ' ' :: decimal m ++ ['\n']) ++ ['c', ' '] ++
        (concatUpTo (fun j => t j ++ [' ']) K ++ t K)
      = ('L' :: ' ' :: decimal m) ++ '\n' ::
          (['c', ' '] ++ (concatUpTo (fun j => t j ++ [' ']) K ++ t K)) := by
    simp
  rw [e, getlines_append_delim '\n' _ _ h1, getlines_last '\n' _ h2 (by simp)]

theorem tokens_L_line (m : Nat) :
    skipped ('L' :: ' ' :: decimal m) = false ∧ specifier ('L' :: ' ' :: decimal m) = ['L'] ∧
      tokens ('L' :: ' ' :: decimal m) = [decimal m] := by
  have h : getlines ' ' ('L' :: ' ' :: decimal m) = [['L'], decimal m] := by
    have e : 'L' :: ' ' :: decimal m = ['L'] ++ ' ' :: decimal m := rfl
    rw [e, getlines_append_delim ' ' ['L'] _ (by decide),
      getlines_last ' ' _ (decimal_not_mem m ' ' rfl) (decimal_spec m).1]
  refine ⟨rfl, ?_, ?_⟩
  · simp [specifier, h]
  · simp [tokens, h]

theorem tokens_c_line (t : Nat → List Char) (K : Nat)
    (hsp : ∀ j, j < K + 1 → ' ' ∉ t j) (hlast : t K ≠ []) :
    skipped (['c', ' '] ++ (concatUpTo (fun j => t j ++ [' ']) K ++ t K)) = false ∧
    specifier (['c', ' '] ++ (concatUpTo (fun j => t j ++ [' ']) K ++ t K)) = ['c'] ∧
    tokens (['c', ' '] ++ (concatUpTo (fun j => t j ++ [' ']) K ++ t K))
      = (List.range (K + 1)).map t := by
  have h : getlines ' ' (['c', ' '] ++ (concatUpTo (fun j => t j ++ [' ']) K ++ t K))
      = ['c'] :: (List.range (K + 1)).map t := by
    have e : ['c', ' '] ++ (concatUpTo (fun j => t j ++ [' ']) K ++ t K)
        = ['c'] ++ ' ' :: (concatUpTo (fun j => t j ++ [' ']) K ++ t K) := rfl
    rw [e, getlines_append_delim ' ' ['c'] _ (by decide),
      getlines_concatUpTo ' ' t K (t K) (fun j hj => hsp j (by omega)),
      getlines_last ' ' _ (hsp K (by omega)) hlast, List.range_succ, List.map_append]
    simp
  refine ⟨rfl, ?_, ?_⟩
  · unfold specifier; rw [h]; rfl
  · unfold tokens; rw [h]; rfl

theorem Write_EM {α : Type} (ft : FloatText α) (w : PRTWriter α)
    (h : w.addedCoefficients_ = true) :
    Write ft w true true
      = (writeCoefficients ft w ('L' :: ' ' :: decimal w.maxL_ ++ ['\n'])).map
          fun out => (true, some out) := by
  unfold Write
  rw [if_neg (by simp [h]), if_neg (by simp), if_neg (by simp)]
  simp

theorem Write_PRT {α : Type} (ft : FloatText α) (w : PRTWriter α)
    (h : w.addedCoefficients_ = true ∧ w.addedIndices_ = true ∧ w.addedVertices_ = true) :
    Write ft w true false
      = ((writeVertices ft w ('L' :: ' ' :: decimal w.maxL_ ++ ['\n'])).bind
          (writeIndices w)).map fun out => (true, some out) := by
  unfold Write
  rw [if_neg (by simp), if_neg (by simp [h.1, h.2.1, h.2.2]), if_neg (by simp)]
  simp

theorem AddCoefficients_nat {α : Type} (w : PRTWriter α) (maxL : Nat) (p : List α)
    (size : Nat) (h : (maxL + 1) * (maxL + 1) < 2 ^ 31) :
    AddCoefficients w (maxL : Int) p size = some
      { w with
        maxL_ := maxL, nCoefficients_ := (maxL + 1) * (maxL + 1),
        pCoefficient_ := p, coefficientSize_ := size, addedCoefficients_ := true } := by
  have h1 : ((maxL : Int) + 1) * ((maxL : Int) + 1) < 2 ^ 31 := by exact_mod_cast h
  have h2 : (maxL : Int) + 1 < 2 ^ 31 := by
    have : maxL + 1 ≤ (maxL + 1) * (maxL + 1) := Nat.le_mul_of_pos_right _ (Nat.succ_pos _)
    have : maxL + 1 < 2 ^ 31 := lt_of_le_of_lt this h
    exact_mod_cast this
  have h3 : toIndex (maxL : Int) = maxL := toIndex_natCast maxL (by
    have : maxL < (maxL + 1) * (maxL + 1) := by nlinarith
    omega)
  have h4 : toIndex (((maxL : Int) + 1) * ((maxL : Int) + 1)) = (maxL + 1) * (maxL + 1) := by
    have e : ((maxL : Int) + 1) * ((maxL : Int) + 1) = (((maxL + 1) * (maxL + 1) : Nat) : Int) := by
      push_cast; ring
    rw [e]
    exact toIndex_natCast _ (by omega)
  unfold AddCoefficients
  rw [if_pos ⟨h2, h1⟩, h3, h4]

theorem AddCoefficients_overflow {α : Type} (w : PRTWriter α) (maxL : Int) (p : List α)
    (size : Nat) (h : 2 ^ 31 ≤ (maxL + 1) * (maxL + 1)) :
    AddCoefficients w maxL p size = none := by
  unfold AddCoefficients
  rw [if_neg]
  intro hc
  exact absurd hc.2 (not_lt.2 h)

theorem toInt32_of_lt (n : Nat) (h : n < 2 ^ 31) : toInt32 n = n := by
  unfold toInt32
  omega

theorem loadLines_EM_text {α : Type} (ft : FloatText α) (rt : α → α) (maxL : Nat)
    (coefficients : List α) (l2 : List Char)
    (hb : (maxL + 1) * (maxL + 1) * 3 < 2 ^ 31)
    (hlen : coefficients.length = (maxL + 1) * (maxL + 1) * 3)
    (hstof : ∀ x ∈ coefficients, ft.stof (ft.put x) = .ok (rt x))
    (h2 : skipped l2 = false ∧ specifier l2 = ['c'] ∧ tokens l2 = coefficients.map ft.put) :
    loadLines ft true ['L' :: ' ' :: decimal maxL, l2] (PRTReader.fresh α)
      = .returned true
          { PRTReader.fresh α with
            maxL_ := maxL, nCoefficients_ := (maxL + 1) * (maxL + 1),
            maxLFound_ := true, coefficients_ := coefficients.map rt } := by
  have hm : maxL < 2 ^ 31 := by
    have : maxL < (maxL + 1) * (maxL + 1) := by nlinarith
    omega
  obtain ⟨s1, s2, s3⟩ := tokens_L_line maxL
  have hsq := toIndex_succ_sq (maxL : Int) (by
    have : (0 : Int) ≤ maxL := Int.natCast_nonneg _
    linarith) (by exact_mod_cast hm)
  have hsq' : ((maxL : Int) + 1) * ((maxL : Int) + 1) = (((maxL + 1) * (maxL + 1) : Nat) : Int) := by
    push_cast; ring
  rw [hsq', Int.toNat_natCast] at hsq
  have hidx : toIndex (maxL : Int) = maxL := toIndex_natCast maxL (by omega)
  have step1 : (if true = true then ProcessLineEM ft (PRTReader.fresh α)
        (specifier ('L' :: ' ' :: decimal maxL)) (tokens ('L' :: ' ' :: decimal maxL))
      else ProcessLine ft (PRTReader.fresh α)
        (specifier ('L' :: ' ' :: decimal maxL)) (tokens ('L' :: ' ' :: decimal maxL)))
      = .returned true
          { PRTReader.fresh α with
            maxL_ := maxL, nCoefficients_ := (maxL + 1) * (maxL + 1), maxLFound_ := true } := by
    rw [s2, s3, processLine_L, setMaxLine_fresh (decimal maxL) (maxL : Int) (stoi_decimal maxL hm),
      hsq, hidx]
  rw [loadLines_cons_of_true ft true _ _ _ _ s1 step1]
  have step2 : (if true = true then ProcessLineEM ft
          { PRTReader.fresh α with
            maxL_ := maxL, nCoefficients_ := (maxL + 1) * (maxL + 1), maxLFound_ := true } (specifier l2) (tokens l2)
      else ProcessLine ft
          { PRTReader.fresh α with
            maxL_ := maxL, nCoefficients_ := (maxL + 1) * (maxL + 1), maxLFound_ := true } (specifier l2) (tokens l2))
      = .returned true
          { PRTReader.fresh α with
            maxL_ := maxL, nCoefficients_ := (maxL + 1) * (maxL + 1),
            maxLFound_ := true, coefficients_ := coefficients.map rt } := by
    rw [h2.2.1, h2.2.2, if_pos rfl]
    unfold ProcessLineEM
    rw [if_neg (by decide), if_pos rfl, if_neg, parseAll_map ft.stof ft.put rt coefficients hstof]
    · simp [PRTReader.fresh]
    · simp only [List.length_map, hlen, not_or]
      constructor
      · intro hne
        apply hne
        exact (Nat.mod_eq_of_lt (by omega)).symm
      · simp
  rw [loadLines_cons_of_true ft true _ _ _ _ h2.1 step2]
  rfl

theorem getD_mem {β : Type} (l : List β) (d : β) (j : Nat) (h : j < l.length) :
    l.getD j d ∈ l := by
  rw [List.getD_eq_getElem l d h]
  exact List.getElem_mem h

/-- C12 (amended).  For `maxL` with `3 (maxL + 1)² < 2 ^ 31` and a coefficient array of
`3 (maxL + 1)²` numbers whose text forms are non-empty strings without space and line
break, `Write` in environment-map mode succeeds, and a fresh reader loads the text it
wrote: it reports the same `maxL`, `(maxL + 1)²` coefficients per channel, and the
coefficients in the same order, each being the number that `std::stof` reads from the
text of the original (`rt`). -/
theorem EM_round_trip {α : Type} (ft : FloatText α) (rt : α → α) (maxL : Nat)
    (coefficients : List α)
    (hb : (maxL + 1) * (maxL + 1) * 3 < 2 ^ 31)
    (hlen : coefficients.length = (maxL + 1) * (maxL + 1) * 3)
    (hput : ∀ x ∈ coefficients, ft.put x ≠ [] ∧ ' ' ∉ ft.put x ∧ '\n' ∉ ft.put x)
    (hstof : ∀ x ∈ coefficients, ft.stof (ft.put x) = .ok (rt x)) :
    ∃ w text r,
      AddCoefficients (PRTWriter.fresh α) (maxL : Int) coefficients coefficients.length
        = some w ∧
      Write ft w true true = some (true, some text) ∧
      Load ft (PRTReader.fresh α) (some text) true = .returned true r ∧
      GetMaxL r = .ok maxL ∧
      GetNCoefficients r = .ok (((maxL + 1) * (maxL + 1) : Nat) : Int) ∧
      GetCoefficients r = .ok (coefficients.map rt) := by
  have hn : (maxL + 1) * (maxL + 1) < 2 ^ 31 := by omega
  have hpos : 0 < (maxL + 1) * (maxL + 1) := Nat.mul_pos (Nat.succ_pos _) (Nat.succ_pos _)
  obtain ⟨K, hK⟩ : ∃ K, coefficients.length = K + 1 := ⟨coefficients.length - 1, by omega⟩
  obtain ⟨d, _⟩ : ∃ d, d ∈ coefficients := by
    cases coefficients with
    | nil => simp at hK
    | cons x xs => exact ⟨x, List.mem_cons_self x xs⟩
  have hwK : ((maxL + 1) * (maxL + 1) * 3) % 2 ^ 64 = K + 1 := by
    rw [Nat.mod_eq_of_lt (by omega)]; omega
  have hmem : ∀ j, j < K + 1 → coefficients.getD j d ∈ coefficients :=
    fun j hj => getD_mem coefficients d j (by omega)
  have htok : (List.range (K + 1)).map (fun j => ft.put (coefficients.getD j d))
      = coefficients.map ft.put := by
    rw [← hK]; exact map_getD_range coefficients d ft.put
  refine ⟨{ PRTWriter.fresh α with
      maxL_ := maxL, nCoefficients_ := (maxL + 1) * (maxL + 1),
      pCoefficient_ := coefficients, coefficientSize_ := coefficients.length,
      addedCoefficients_ := true },
    ('L' :: ' ' :: decimal maxL ++ ['\n']) ++ ['c', ' '] ++
        (concatUpTo (fun j => ft.put (coefficients.getD j d) ++ [' ']) K
          ++ ft.put (coefficients.getD K d)),
    { PRTReader.fresh α with
      maxL_ := maxL, nCoefficients_ := (maxL + 1) * (maxL + 1),
      maxLFound_ := true, coefficients_ := coefficients.map rt, isLoaded_ := true },
    AddCoefficients_nat (PRTWriter.fresh α) maxL coefficients _ hn, ?_, ?_, ?_, ?_, ?_⟩
  · rw [Write_EM ft _ rfl,
      writeCoefficients_eq ft _ _ d K hwK (by omega) (by simp [PRTWriter.fresh]; omega)]
    rfl
  · unfold Load
    simp only []
    rw [getlines_EM_text maxL (fun j => ft.put (coefficients.getD j d)) K
        (fun j hj => (hput _ (hmem j hj)).2.2),
      loadLines_EM_text ft rt maxL coefficients _ hb hlen hstof (by
        have h := tokens_c_line (fun j => ft.put (coefficients.getD j d)) K
          (fun j hj => (hput _ (hmem j hj)).2.1) (hput _ (hmem K (by omega))).1
        rw [htok] at h
        exact h)]
    have hf : finalChecks true
        { PRTReader.fresh α with
            maxL_ := maxL, nCoefficients_ := (maxL + 1) * (maxL + 1),
            maxLFound_ := true, coefficients_ := coefficients.map rt } = true := by
      simp [finalChecks, hlen]
      omega
    simp only [hf, if_true]
  · rfl
  · simp only [GetNCoefficients, if_true]
    rw [toInt32_of_lt _ hn]
  · rfl

theorem EM_round_trip_witness :
    ∃ w text r,
      AddCoefficients (PRTWriter.fresh Int) ((0 : Nat) : Int) [1, -2, 3] 3 = some w ∧
      Write integerText w true true = some (true, some text) ∧
      Load integerText (PRTReader.fresh Int) (some text) true = .returned true r ∧
      GetMaxL r = .ok 0 ∧ GetNCoefficients r = .ok (((0 + 1) * (0 + 1) : Nat) : Int) ∧
      GetCoefficients r = .ok ([1, -2, 3].map id) :=
  EM_round_trip integerText id 0 [1, -2, 3] (by norm_num) rfl (by decide)
    (by
      intro x hx
      simp only [List.mem_cons, List.mem_singleton, List.not_mem_nil, or_false] at hx
      rcases hx with rfl | rfl | rfl <;> rfl)

/-- C12 as stated fails for `maxL = 26754`: `AddCoefficients` succeeds, but the loop of
`writeCoefficients` counts with an `int` up to `3 · 26755² = 2147490075 > INT_MAX`, so
the behaviour of `Write` is undefined and no text is produced. -/
theorem EM_round_trip_counterexample :
    ∃ w, AddCoefficients (PRTWriter.fresh Int) ((26754 : Nat) : Int)
        (List.replicate 2147490075 0) 2147490075 = some w ∧
      w.nCoefficients_ * 3 = 2147490075 ∧
      Write integerText w true true = none := by
  refine ⟨_, AddCoefficients_nat (PRTWriter.fresh Int) 26754 _ _ (by norm_num), by norm_num, ?_⟩
  rw [Write_EM integerText _ rfl]
  unfold writeCoefficients
  rw [forInt_of_ge _ _ _ (by norm_num)]
  rfl

/-! ## The mesh round trip -/

theorem spaced_append (a b : List (List Char)) : spaced (a ++ b) = spaced a ++ spaced b := by
  induction a with
  | nil => rfl
  | cons t ts ih => simp [spaced, ih]

theorem concatUpTo_spaced (f : Nat → List Char) (k : Nat) :
    concatUpTo (fun j => ' ' :: f j) k = spaced ((List.range k).map f) := by
  induction k with
  | zero => rfl
  | succ k ih =>
    rw [concatUpTo, ih, List.range_succ, List.map_append, spaced_append]
    simp [spaced]

theorem getlines_spaced (s : List Char) (ts : List (List Char)) (hs : ' ' ∉ s)
    (hts : ∀ t ∈ ts, t ≠ [] ∧ ' ' ∉ t) (hne : ts = [] → s ≠ []) :
    getlines ' ' (s ++ spaced ts) = s :: ts := by
  induction ts generalizing s with
  | nil =>
    simp only [spaced, List.append_nil]
    exact getlines_last ' ' s hs (hne rfl)
  | cons t ts ih =>
    have ht := hts t (List.mem_cons_self t ts)
    have e : s ++ spaced (t :: ts) = s ++ ' ' :: (t ++ spaced ts) := by simp [spaced]
    rw [e, getlines_append_delim ' ' s _ hs,
      ih t ht.2 (fun u hu => hts u (List.mem_cons_of_mem t hu)) (fun _ => ht.1)]

theorem not_mem_spaced (c : Char) (hc : c ≠ ' ') (ts : List (List Char))
    (h : ∀ t ∈ ts, c ∉ t) : c ∉ spaced ts := by
  induction ts with
  | nil => simp [spaced]
  | cons t ts ih =>
    intro hm
    rw [spaced] at hm
    rcases List.mem_cons.1 hm with hm | hm
    · exact hc hm
    · rcases List.mem_append.1 hm with hm | hm
      · exact h t (List.mem_cons_self t ts) hm
      · exact ih (fun u hu => h u (List.mem_cons_of_mem t hu)) hm

/-- A line made of a one-letter specifier and strings with spaces in front, as `Load`
splits it. -/
theorem tokens_spaced (c : Char) (ts : List (List Char)) (hc : c ≠ ' ') (hc' : c ≠ '#')
    (hts : ∀ t ∈ ts, t ≠ [] ∧ ' ' ∉ t) :
    skipped ([c] ++ spaced ts) = false ∧ specifier ([c] ++ spaced ts) = [c] ∧
      tokens ([c] ++ spaced ts) = ts := by
  have h : getlines ' ' ([c] ++ spaced ts) = [c] :: ts :=
    getlines_spaced [c] ts (by simp [hc.symm]) hts (fun _ => by simp)
  refine ⟨?_, ?_, ?_⟩
  · simp [skipped, hc']
  · unfold specifier; rw [h]; rfl
  · unfold tokens; rw [h]; rfl

theorem getD_map_range {β : Type} (f : Nat → β) (m j : Nat) (d : β) (h : j < m) :
    ((List.range m).map f).getD j d = f j := by
  rw [List.getD_eq_getElem _ d (by simpa using h)]
  simp

theorem writeVertices_eq {α : Type} (ft : FloatText α) (w : PRTWriter α) (out : List Char)
    (d : α) (V : Nat) (hV : w.vertexSize_ / 3 = V) (hVb : V < 2 ^ 31)
    (h3 : ∀ i, i < V → 3 * i < 2 ^ 31) (hn : w.nCoefficients_ < 2 ^ 31)
    (hvl : 3 * V ≤ w.pVertex_.length)
    (hcl : V * w.nCoefficients_ ≤ w.pCoefficient_.length) :
    writeVertices ft w out = some (out ++ concatUpTo (fun i =>
      (['v'] ++ spaced
        (((List.range 3).map fun j => w.pVertex_.getD (3 * i + j) d).map ft.put ++
         ((List.range w.nCoefficients_).map fun j =>
            w.pCoefficient_.getD (i * w.nCoefficients_ + j) d).map ft.put)) ++ ['\n']) V) := by
  unfold writeVertices
  rw [hV]
  apply forInt_concat _ _ V out hVb
  intro i hi o
  have hin : (i + 1) * w.nCoefficients_ ≤ V * w.nCoefficients_ :=
    Nat.mul_le_mul_right _ hi
  have hVn : V * w.nCoefficients_ < 2 ^ 31 * 2 ^ 31 := by
    calc V * w.nCoefficients_ ≤ V * 2 ^ 31 := Nat.mul_le_mul_left _ (le_of_lt hn)
      _ < 2 ^ 31 * 2 ^ 31 := Nat.mul_lt_mul_of_pos_right hVb (by norm_num)
  rw [forUp_concat _ (fun j => ' ' :: ft.put (w.pVertex_.getD (3 * i + j) d)) 3 (o ++ ['v'])]
  · simp only [Option.bind]
    rw [forInt_concat _ (fun j => ' ' :: ft.put
        (w.pCoefficient_.getD (i * w.nCoefficients_ + j) d)) w.nCoefficients_ _ hn]
    · simp only [Option.map, concatUpTo_spaced, spaced_append, List.map_map]
      simp [Function.comp_def]
    · intro j hj o'
      have hlt : i * w.nCoefficients_ + j < V * w.nCoefficients_ := by
        have : i * w.nCoefficients_ + j < (i + 1) * w.nCoefficients_ := by
          rw [Nat.succ_mul]; omega
        omega
      rw [Nat.mod_eq_of_lt (by
          have : (2 : Nat) ^ 31 * 2 ^ 31 < 2 ^ 64 := by norm_num
          omega),
        getElem?_getD w.pCoefficient_ _ d (by omega)]
      rfl
  · intro j hj o'
    rw [if_neg (by have := h3 i hi; omega), getElem?_getD w.pVertex_ _ d (by omega)]
    rfl

theorem writeIndices_eq {α : Type} (w : PRTWriter α) (out : List Char) (T : Nat)
    (hT : w.indexSize_ / 3 = T) (hTb : T < 2 ^ 31) (h3 : ∀ i, i < T → 3 * i < 2 ^ 31)
    (hil : 3 * T ≤ w.pIndex_.length) :
    writeIndices w out = some (out ++ concatUpTo (fun i =>
      (['f'] ++ spaced (((List.range 3).map fun j => w.pIndex_.getD (3 * i + j) 0).map decimal))
        ++ ['\n']) T) := by
  unfold writeIndices
  rw [hT]
  apply forInt_concat _ _ T out hTb
  intro i hi o
  rw [forUp_concat _ (fun j => ' ' :: decimal (w.pIndex_.getD (3 * i + j) 0)) 3 (o ++ ['f'])]
  · simp only [Option.map, concatUpTo_spaced, List.map_map]
    simp [Function.comp_def]
  · intro j hj o'
    rw [if_neg (by have := h3 i hi; omega), getElem?_getD w.pIndex_ _ 0 (by omega)]
    rfl

theorem setVertex_tokens {α : Type} (ft : FloatText α) (rt : α → α) (r : PRTReader α)
    (vs cs : List α) (hfound : r.maxLFound_ = true) (hn : r.nCoefficients_ < 2 ^ 31)
    (hvs : vs.length = 3) (hcs : cs.length = r.nCoefficients_)
    (hstof : ∀ x ∈ vs ++ cs, ft.stof (ft.put x) = .ok (rt x)) :
    ProcessLine ft r ['v'] ((vs ++ cs).map ft.put) = .returned true
      { r with vertices_ := r.vertices_ ++ vs.map rt,
               coefficients_ := r.coefficients_ ++ cs.map rt } := by
  have htake : List.take 3 ((vs ++ cs).map ft.put) = vs.map ft.put := by
    rw [List.map_append, List.take_append_of_le_length (by simp [hvs])]
    rw [List.take_of_length_le (by simp [hvs])]
  have hdrop : List.take r.nCoefficients_ (List.drop 3 ((vs ++ cs).map ft.put))
      = cs.map ft.put := by
    rw [List.map_append, List.drop_append_of_le_length (by simp [hvs])]
    rw [List.drop_of_length_le (by simp [hvs]), List.nil_append,
      List.take_of_length_le (by simp [hcs])]
  have hlen : ¬ (((vs ++ cs).map ft.put).length ≠ (3 + r.nCoefficients_) % 2 ^ 64 ∨
      r.maxLFound_ = false) := by
    rw [Nat.mod_eq_of_lt (by omega)]
    simp [hvs, hcs, hfound]
  unfold ProcessLine
  rw [if_pos rfl, if_neg (by simp [hfound])]
  unfold SetVertex
  rw [if_neg hlen, htake,
    parseAll_map ft.stof ft.put rt vs (fun x hx => hstof x (List.mem_append_left _ hx))]
  simp only []
  rw [if_neg (by omega), hdrop,
    parseAll_map ft.stof ft.put rt cs (fun x hx => hstof x (List.mem_append_right _ hx))]

theorem setIndex_tokens {α : Type} (ft : FloatText α) (r : PRTReader α)
    (is : List Nat) (hfound : r.maxLFound_ = true) (hlen : is.length = 3)
    (hidx : ∀ i ∈ is, i < 2 ^ 32) :
    ProcessLine ft r ['f'] (is.map decimal) = .returned true
      { r with indices_ := r.indices_ ++ is } := by
  have htake : List.take 3 (is.map decimal) = is.map decimal :=
    List.take_of_length_le (by simp [hlen])
  have hp : parseAll stoul (is.map decimal) = .ok (is.map id) :=
    parseAll_map stoul decimal id is (fun x hx => stoul_decimal x (hidx x hx))
  unfold ProcessLine
  rw [if_neg (by decide), if_pos rfl]
  unfold SetIndex
  rw [if_neg (by simp [hlen, hfound]), htake, hp]
  simp

theorem loadLines_vertex_lines {α : Type} (ft : FloatText α) (rt : α → α)
    (vl : Nat → List Char) (vs cs : Nat → List α) (V : Nat) (rest : List (List Char))
    (r : PRTReader α) (hfound : r.maxLFound_ = true) (hn : r.nCoefficients_ < 2 ^ 31)
    (hline : ∀ i, i < V → skipped (vl i) = false ∧ specifier (vl i) = ['v'] ∧
      tokens (vl i) = (vs i ++ cs i).map ft.put)
    (hvs : ∀ i, i < V → (vs i).length = 3)
    (hcs : ∀ i, i < V → (cs i).length = r.nCoefficients_)
    (hstof : ∀ i, i < V → ∀ x ∈ vs i ++ cs i, ft.stof (ft.put x) = .ok (rt x)) :
    loadLines ft false ((List.range V).map vl ++ rest) r
      = loadLines ft false rest
          { r with vertices_ := r.vertices_ ++ concatUpTo (fun i => (vs i).map rt) V,
                   coefficients_ := r.coefficients_ ++ concatUpTo (fun i => (cs i).map rt) V } := by
  induction V generalizing rest with
  | zero => simp [concatUpTo]
  | succ V ih =>
    have e : (List.range (V + 1)).map vl ++ rest = (List.range V).map vl ++ (vl V :: rest) := by
      rw [List.range_succ, List.map_append]; simp
    rw [e, ih (vl V :: rest) (fun i hi => hline i (by omega)) (fun i hi => hvs i (by omega))
      (fun i hi => hcs i (by omega)) (fun i hi => hstof i (by omega))]
    obtain ⟨h1, h2, h3⟩ := hline V (Nat.lt_succ_self V)
    rw [loadLines_cons_of_true ft false (vl V) rest _ _ h1 (by
      rw [if_neg (by decide), h2, h3]
      exact setVertex_tokens ft rt _ (vs V) (cs V) hfound hn (hvs V (Nat.lt_succ_self V))
        (hcs V (Nat.lt_succ_self V)) (hstof V (Nat.lt_succ_self V)))]
    simp [concatUpTo, List.append_assoc]

theorem loadLines_index_lines {α : Type} (ft : FloatText α)
    (fl : Nat → List Char) (is : Nat → List Nat) (T : Nat) (rest : List (List Char))
    (r : PRTReader α) (hfound : r.maxLFound_ = true)
    (hline : ∀ i, i < T → skipped (fl i) = false ∧ specifier (fl i) = ['f'] ∧
      tokens (fl i) = (is i).map decimal)
    (hlen : ∀ i, i < T → (is i).length = 3)
    (hidx : ∀ i, i < T → ∀ x ∈ is i, x < 2 ^ 32) :
    loadLines ft false ((List.range T).map fl ++ rest) r
      = loadLines ft false rest
          { r with indices_ := r.indices_ ++ concatUpTo is T } := by
  induction T generalizing rest with
  | zero => simp [concatUpTo]
  | succ T ih =>
    have e : (List.range (T + 1)).map fl ++ rest = (List.range T).map fl ++ (fl T :: rest) := by
      rw [List.range_succ, List.map_append]; simp
    rw [e, ih (fl T :: rest) (fun i hi => hline i (by omega)) (fun i hi => hlen i (by omega))
      (fun i hi => hidx i (by omega))]
    obtain ⟨h1, h2, h3⟩ := hline T (Nat.lt_succ_self T)
    rw [loadLines_cons_of_true ft false (fl T) rest _ _ h1 (by
      rw [if_neg (by decide), h2, h3]
      exact setIndex_tokens ft _ (is T) hfound (hlen T (Nat.lt_succ_self T))
        (hidx T (Nat.lt_succ_self T)))]
    simp [concatUpTo, List.append_assoc]

theorem process_header_line {α : Type} (ft : FloatText α) (isEM : Bool) (maxL : Nat)
    (hm : maxL < 2 ^ 31) :
    (if isEM = true then ProcessLineEM ft (PRTReader.fresh α)
        (specifier ('L' :: ' ' :: decimal maxL)) (tokens ('L' :: ' ' :: decimal maxL))
      else ProcessLine ft (PRTReader.fresh α)
        (specifier ('L' :: ' ' :: decimal maxL)) (tokens ('L' :: ' ' :: decimal maxL)))
      = .returned true
          { PRTReader.fresh α with
            maxL_ := maxL, nCoefficients_ := (maxL + 1) * (maxL + 1), maxLFound_ := true } := by
  obtain ⟨_, s2, s3⟩ := tokens_L_line maxL
  have hsq := toIndex_succ_sq (maxL : Int) (by
    have : (0 : Int) ≤ maxL := Int.natCast_nonneg _
    linarith) (by exact_mod_cast hm)
  have hsq' : ((maxL : Int) + 1) * ((maxL : Int) + 1) = (((maxL + 1) * (maxL + 1) : Nat) : Int) := by
    push_cast; ring
  rw [hsq', Int.toNat_natCast] at hsq
  have hidx : toIndex (maxL : Int) = maxL := toIndex_natCast maxL (by omega)
  rw [s2, s3, processLine_L, setMaxLine_fresh (decimal maxL) (maxL : Int) (stoi_decimal maxL hm),
    hsq, hidx]

theorem concatUpTo_triples {β γ : Type} (l : List β) (d : β) (g : β → γ) (V : Nat)
    (hl : l.length = 3 * V) :
    concatUpTo (fun i => ((List.range 3).map fun j => l.getD (3 * i + j) d).map g) V
      = l.map g := by
  have e : (fun i => ((List.range 3).map fun j => l.getD (3 * i + j) d).map g)
      = fun i => (List.range 3).map fun j => (fun k => g (l.getD k d)) (i * 3 + j) := by
    funext i
    rw [List.map_map]
    apply List.map_congr_left
    intro j _
    simp [Nat.mul_comm]
  rw [e, concatUpTo_blocks (fun k => g (l.getD k d)) 3 V]
  have : V * 3 = l.length := by omega
  rw [this]
  exact map_getD_range l d g

theorem concatUpTo_rows {β γ : Type} (l : List β) (d : β) (g : β → γ) (n V : Nat)
    (hl : l.length = V * n) :
    concatUpTo (fun i => ((List.range n).map fun j => l.getD (i * n + j) d).map g) V
      = l.map g := by
  have e : (fun i => ((List.range n).map fun j => l.getD (i * n + j) d).map g)
      = fun i => (List.range n).map fun j => (fun k => g (l.getD k d)) (i * n + j) := by
    funext i
    rw [List.map_map]
    rfl
  rw [e, concatUpTo_blocks (fun k => g (l.getD k d)) n V, ← hl]
  exact map_getD_range l d g

/-- C11 (amended).  For `maxL` with `(maxL + 1)² < 2 ^ 31`, `V ≥ 1` vertices and `T ≥ 1`
triangles with `3 (V - 1)` and `3 (T - 1)` below `2 ^ 31`, arrays of `3 V` positions,
`V (maxL + 1)²` coefficients and `3 T` indices (`UINT32` values), all numbers having
text forms that are non-empty strings without space and line break: `Write` in mesh mode
succeeds, and a fresh reader loads the text it wrote; it reports the same `maxL`, the
same indices, and the positions and coefficients in the same order, each being the
number that `std::stof` reads from the text of the original (`rt`). -/
theorem PRT_round_trip {α : Type} (ft : FloatText α) (rt : α → α) (maxL V T : Nat)
    (vertices coefficients : List α) (indices : List Nat)
    (hV : 1 ≤ V) (hT : 1 ≤ T)
    (hb : (maxL + 1) * (maxL + 1) < 2 ^ 31)
    (hVb : 3 * (V - 1) < 2 ^ 31) (hTb : 3 * (T - 1) < 2 ^ 31)
    (hvl : vertices.length = 3 * V)
    (hcl : coefficients.length = V * ((maxL + 1) * (maxL + 1)))
    (hil : indices.length = 3 * T)
    (hidx : ∀ i ∈ indices, i < 2 ^ 32)
    (hput : ∀ x ∈ vertices ++ coefficients,
      ft.put x ≠ [] ∧ ' ' ∉ ft.put x ∧ '\n' ∉ ft.put x)
    (hstof : ∀ x ∈ vertices ++ coefficients, ft.stof (ft.put x) = .ok (rt x)) :
    ∃ w0 text r,
      AddCoefficients (AddVertices (PRTWriter.fresh α) vertices vertices.length) (maxL : Int)
        coefficients coefficients.length = some w0 ∧
      Write ft (AddIndices w0 indices indices.length) true false = some (true, some text) ∧
      Load ft (PRTReader.fresh α) (some text) false = .returned true r ∧
      GetMaxL r = .ok maxL ∧ GetVertices r = .ok (vertices.map rt) ∧
      GetIndices r = .ok indices ∧ GetCoefficients r = .ok (coefficients.map rt) := by
  obtain ⟨d, _⟩ : ∃ d, d ∈ vertices := by
    cases vertices with
    | nil => simp at hvl; omega
    | cons x xs => exact ⟨x, List.mem_cons_self x xs⟩
  have hm : maxL < 2 ^ 31 := by
    have : maxL < (maxL + 1) * (maxL + 1) := by nlinarith
    omega
  -- the data of vertex `i` and of triangle `i`
  have hvmem : ∀ i, i < V → ∀ x ∈ (List.range 3).map (fun j => vertices.getD (3 * i + j) d),
      x ∈ vertices := by
    intro i hi x hx
    obtain ⟨j, hj, rfl⟩ := List.mem_map.1 hx
    have hj' : j < 3 := List.mem_range.1 hj
    exact getD_mem vertices d _ (by omega)
  have hcmem : ∀ i, i < V → ∀ x ∈ (List.range ((maxL + 1) * (maxL + 1))).map
      (fun j => coefficients.getD (i * ((maxL + 1) * (maxL + 1)) + j) d), x ∈ coefficients := by
    intro i hi x hx
    obtain ⟨j, hj, rfl⟩ := List.mem_map.1 hx
    have hj' : j < (maxL + 1) * (maxL + 1) := List.mem_range.1 hj
    apply getD_mem coefficients d _
    have : (i + 1) * ((maxL + 1) * (maxL + 1)) ≤ V * ((maxL + 1) * (maxL + 1)) :=
      Nat.mul_le_mul_right _ hi
    rw [Nat.succ_mul] at this
    omega
  have himem : ∀ i, i < T → ∀ x ∈ (List.range 3).map (fun j => indices.getD (3 * i + j) 0),
      x ∈ indices := by
    intro i hi x hx
    obtain ⟨j, hj, rfl⟩ := List.mem_map.1 hx
    have hj' : j < 3 := List.mem_range.1 hj
    exact getD_mem indices 0 _ (by omega)
  have hmemAll : ∀ i, i < V → ∀ x ∈ (List.range 3).map (fun j => vertices.getD (3 * i + j) d) ++
      (List.range ((maxL + 1) * (maxL + 1))).map
        (fun j => coefficients.getD (i * ((maxL + 1) * (maxL + 1)) + j) d),
      x ∈ vertices ++ coefficients := by
    intro i hi x hx
    rcases List.mem_append.1 hx with h | h
    · exact List.mem_append_left _ (hvmem i hi x h)
    · exact List.mem_append_right _ (hcmem i hi x h)
  -- the lines
  have hvline : ∀ i, i < V →
      skipped (['v'] ++ spaced
        (((List.range 3).map fun j => vertices.getD (3 * i + j) d).map ft.put ++
         ((List.range ((maxL + 1) * (maxL + 1))).map fun j =>
            coefficients.getD (i * ((maxL + 1) * (maxL + 1)) + j) d).map ft.put)) = false ∧
      specifier (['v'] ++ spaced
        (((List.range 3).map fun j => vertices.getD (3 * i + j) d).map ft.put ++
         ((List.range ((maxL + 1) * (maxL + 1))).map fun j =>
            coefficients.getD (i * ((maxL + 1) * (maxL + 1)) + j) d).map ft.put)) = ['v'] ∧
      tokens (['v'] ++ spaced
        (((List.range 3).map fun j => vertices.getD (3 * i + j) d).map ft.put ++
         ((List.range ((maxL + 1) * (maxL + 1))).map fun j =>
            coefficients.getD (i * ((maxL + 1) * (maxL + 1)) + j) d).map ft.put))
        = (((List.range 3).map fun j => vertices.getD (3 * i + j) d) ++
         ((List.range ((maxL + 1) * (maxL + 1))).map fun j =>
            coefficients.getD (i * ((maxL + 1) * (maxL + 1)) + j) d)).map ft.put := by
    intro i hi
    rw [← List.map_append]
    apply tokens_spaced 'v' _ (by decide) (by decide)
    intro t ht
    obtain ⟨x, hx, rfl⟩ := List.mem_map.1 ht
    have := hput x (hmemAll i hi x hx)
    exact ⟨this.1, this.2.1⟩
  have hfline : ∀ i, i < T →
      skipped (['f'] ++ spaced
        (((List.range 3).map fun j => indices.getD (3 * i + j) 0).map decimal)) = false ∧
      specifier (['f'] ++ spaced
        (((List.range 3).map fun j => indices.getD (3 * i + j) 0).map decimal)) = ['f'] ∧
      tokens (['f'] ++ spaced
        (((List.range 3).map fun j => indices.getD (3 * i + j) 0).map decimal))
        = ((List.range 3).map fun j => indices.getD (3 * i + j) 0).map decimal := by
    intro i hi
    apply tokens_spaced 'f' _ (by decide) (by decide)
    intro t ht
    obtain ⟨x, hx, rfl⟩ := List.mem_map.1 ht
    exact ⟨(decimal_spec x).1, decimal_not_mem x ' ' rfl⟩
  have hvnl : ∀ i, i < V → '\n' ∉ ['v'] ++ spaced
        (((List.range 3).map fun j => vertices.getD (3 * i + j) d).map ft.put ++
         ((List.range ((maxL + 1) * (maxL + 1))).map fun j =>
            coefficients.getD (i * ((maxL + 1) * (maxL + 1)) + j) d).map ft.put) := by
    intro i hi hmem
    rcases List.mem_append.1 hmem with h | h
    · revert h; decide
    · refine not_mem_spaced '\n' (by decide) _ ?_ h
      intro t ht
      rw [← List.map_append] at ht
      obtain ⟨x, hx, rfl⟩ := List.mem_map.1 ht
      exact (hput x (hmemAll i hi x hx)).2.2
  have hfnl : ∀ i, i < T → '\n' ∉ ['f'] ++ spaced
        (((List.range 3).map fun j => indices.getD (3 * i + j) 0).map decimal) := by
    intro i hi hmem
    rcases List.mem_append.1 hmem with h | h
    · revert h; decide
    · refine not_mem_spaced '\n' (by decide) _ ?_ h
      intro t ht
      obtain ⟨x, hx, rfl⟩ := List.mem_map.1 ht
      exact decimal_not_mem x '\n' rfl
  have hhnl : '\n' ∉ 'L' :: ' ' :: decimal maxL := by
    intro h
    rcases List.mem_cons.1 h with h | h
    · revert h; decide
    · rcases List.mem_cons.1 h with h | h
      · revert h; decide
      · exact decimal_not_mem maxL '\n' rfl h
  refine ⟨{ AddVertices (PRTWriter.fresh α) vertices vertices.length with
      maxL_ := maxL, nCoefficients_ := (maxL + 1) * (maxL + 1),
      pCoefficient_ := coefficients, coefficientSize_ := coefficients.length,
      addedCoefficients_ := true },
    ('L' :: ' ' :: decimal maxL ++ ['\n']) ++
      concatUpTo (fun i => (['v'] ++ spaced
        (((List.range 3).map fun j => vertices.getD (3 * i + j) d).map ft.put ++
         ((List.range ((maxL + 1) * (maxL + 1))).map fun j =>
            coefficients.getD (i * ((maxL + 1) * (maxL + 1)) + j) d).map ft.put)) ++ ['\n']) V ++
      concatUpTo (fun i => (['f'] ++ spaced
        (((List.range 3).map fun j => indices.getD (3 * i + j) 0).map decimal)) ++ ['\n']) T,
    { PRTReader.fresh α with
      maxL_ := maxL, nCoefficients_ := (maxL + 1) * (maxL + 1), maxLFound_ := true,
      vertices_ := vertices.map rt, coefficients_ := coefficients.map rt,
      indices_ := indices, isLoaded_ := true },
    AddCoefficients_nat _ maxL coefficients _ hb, ?_, ?_, rfl, rfl, rfl, rfl⟩
  · rw [Write_PRT ft _ ⟨rfl, rfl, rfl⟩,
      writeVertices_eq ft _ _ d V (by simp [AddIndices, AddVertices, hvl]) (by omega)
        (fun i hi => by omega) hb (by simp [AddIndices, AddVertices, hvl])
        (by simp [AddIndices, AddVertices, hcl])]
    simp only [Option.bind]
    rw [writeIndices_eq _ _ T (by simp [AddIndices, hil]) (by omega) (fun i hi => by omega)
        (by simp [AddIndices, hil])]
    rfl
  · have hlines : getlines '\n' (('L' :: ' ' :: decimal maxL ++ ['\n']) ++
        concatUpTo (fun i => (['v'] ++ spaced
          (((List.range 3).map fun j => vertices.getD (3 * i + j) d).map ft.put ++
           ((List.range ((maxL + 1) * (maxL + 1))).map fun j =>
              coefficients.getD (i * ((maxL + 1) * (maxL + 1)) + j) d).map ft.put)) ++ ['\n']) V ++
        concatUpTo (fun i => (['f'] ++ spaced
          (((List.range 3).map fun j => indices.getD (3 * i + j) 0).map decimal)) ++ ['\n']) T)
        = ('L' :: ' ' :: decimal maxL) ::
          ((List.range V).map (fun i => ['v'] ++ spaced
            (((List.range 3).map fun j => vertices.getD (3 * i + j) d).map ft.put ++
             ((List.range ((maxL + 1) * (maxL + 1))).map fun j =>
                coefficients.getD (i * ((maxL + 1) * (maxL + 1)) + j) d).map ft.put)) ++
           ((List.range T).map (fun i => ['f'] ++ spaced
            (((List.range 3).map fun j => indices.getD (3 * i + j) 0).map decimal)) ++ [])) := by
      have e : ∀ (A B : List Char), ('L' :: ' ' :: decimal maxL ++ ['\n']) ++ A ++ B
          = ('L' :: ' ' :: decimal maxL) ++ '\n' :: (A ++ (B ++ [])) := by
        intro A B; simp
      rw [e, getlines_append_delim '\n' _ _ hhnl,
        getlines_concatUpTo '\n' _ V _ hvnl, getlines_concatUpTo '\n' _ T _ hfnl]
      rfl
    unfold Load
    simp only []
    rw [hlines, loadLines_cons_of_true ft false _ _ _ _ (tokens_L_line maxL).1
        (process_header_line ft false maxL hm),
      loadLines_vertex_lines ft rt _
        (fun i => (List.range 3).map fun j => vertices.getD (3 * i + j) d)
        (fun i => (List.range ((maxL + 1) * (maxL + 1))).map fun j =>
            coefficients.getD (i * ((maxL + 1) * (maxL + 1)) + j) d)
        V _ _ rfl hb hvline (fun i _ => by simp) (fun i _ => by simp [PRTReader.fresh])
        (fun i hi x hx => hstof x (hmemAll i hi x hx)),
      loadLines_index_lines ft _
        (fun i => (List.range 3).map fun j => indices.getD (3 * i + j) 0)
        T [] _ rfl hfline (fun i _ => by simp) (fun i hi x hx => hidx x (himem i hi x hx))]
    have h1 := concatUpTo_triples vertices d rt V hvl
    have h2 := concatUpTo_rows coefficients d rt ((maxL + 1) * (maxL + 1)) V hcl
    have h3' : concatUpTo (fun i => (List.range 3).map fun j => indices.getD (3 * i + j) 0) T
        = indices := by
      have h3 := concatUpTo_triples indices 0 id T hil
      simp only [List.map_id] at h3
      exact h3
    simp only [loadLines, PRTReader.fresh, List.nil_append, h1, h2, h3']
    have hf : finalChecks false
        { vertices_ := vertices.map rt, coefficients_ := coefficients.map rt,
          indices_ := indices, nCoefficients_ := (maxL + 1) * (maxL + 1), maxL_ := maxL,
          isLoaded_ := false, maxLFound_ := true } = true := by
      have hmod : ((maxL + 1) * (maxL + 1) * (3 * V)) % 2 ^ 64 / 3
          = V * ((maxL + 1) * (maxL + 1)) := by
        have hlt : (maxL + 1) * (maxL + 1) * (3 * V) < 2 ^ 64 := by
          have h3V : 3 * V < 2 ^ 32 := by omega
          calc (maxL + 1) * (maxL + 1) * (3 * V)
              ≤ 2 ^ 31 * (3 * V) := Nat.mul_le_mul_right _ (le_of_lt hb)
            _ < 2 ^ 31 * 2 ^ 32 := Nat.mul_lt_mul_of_pos_left h3V (by norm_num)
            _ < 2 ^ 64 := by norm_num
        rw [Nat.mod_eq_of_lt hlt]
        have : (maxL + 1) * (maxL + 1) * (3 * V) = V * ((maxL + 1) * (maxL + 1)) * 3 := by ring
        rw [this, Nat.mul_div_cancel _ (by norm_num)]
      unfold finalChecks
      simp only [Bool.false_eq_true, if_false, List.length_map, hvl, hil, hcl, hmod]
      rw [if_neg (by omega), if_neg (by omega), if_neg (by simp)]
    rw [if_pos hf]

theorem PRT_round_trip_witness :
    ∃ w0 text r,
      AddCoefficients (AddVertices (PRTWriter.fresh Int) [1, 2, 3] 3) ((0 : Nat) : Int)
        [4] 1 = some w0 ∧
      Write integerText (AddIndices w0 [0, 0, 0] 3) true false = some (true, some text) ∧
      Load integerText (PRTReader.fresh Int) (some text) false = .returned true r ∧
      GetMaxL r = .ok 0 ∧ GetVertices r = .ok ([1, 2, 3].map id) ∧
      GetIndices r = .ok [0, 0, 0] ∧ GetCoefficients r = .ok ([4].map id) :=
  PRT_round_trip integerText id 0 1 1 [1, 2, 3] [4] [0, 0, 0] (by norm_num) (by norm_num)
    (by norm_num) (by norm_num) (by norm_num) rfl rfl rfl (by decide) (by decide)
    (by
      intro x hx
      simp only [List.cons_append, List.nil_append, List.mem_cons, List.mem_singleton,
        List.not_mem_nil, or_false] at hx
      rcases hx with rfl | rfl | rfl | rfl <;> rfl)

/-- C11 as stated fails for `maxL = 46340`: `AddCoefficients` computes
`(maxL + 1) * (maxL + 1) = 46341² = 2147488281 > INT_MAX` in `int`, which is undefined,
so no text is produced. -/
theorem PRT_round_trip_counterexample :
    AddCoefficients (AddVertices (PRTWriter.fresh Int) [1, 2, 3] 3) ((46340 : Nat) : Int)
        (List.replicate 2147488281 0) 2147488281 = none ∧
    (46340 + 1) * (46340 + 1) = 2147488281 ∧ 2 ^ 31 ≤ 2147488281 :=
  ⟨AddCoefficients_overflow _ _ _ _ (by norm_num), by norm_num, by norm_num⟩

/-! ## `PRTWriter::Write`: the gate -/

theorem writeVertices_returns {α : Type} (ft : FloatText α) (w : PRTWriter α)
    (out : List Char) (hn : w.nCoefficients_ < 2 ^ 31)
    (hVb : 3 * (w.vertexSize_ / 3) < 2 ^ 31)
    (hvl : 3 * (w.vertexSize_ / 3) ≤ w.pVertex_.length)
    (hcl : w.vertexSize_ / 3 * w.nCoefficients_ ≤ w.pCoefficient_.length) :
    ∃ body, writeVertices ft w out = some (out ++ body) := by
  cases hp : w.pVertex_ with
  | nil =>
    have hV : w.vertexSize_ / 3 = 0 := by rw [hp] at hvl; simp at hvl; omega
    refine ⟨[], ?_⟩
    unfold writeVertices
    rw [hV, forInt_of_lt _ _ _ (by norm_num)]
    simp [forUp]
  | cons d _ =>
    exact ⟨_, writeVertices_eq ft w out d _ rfl (by omega) (fun i hi => by omega) hn hvl hcl⟩

theorem writeCoefficients_returns {α : Type} (ft : FloatText α) (w : PRTWriter α)
    (out : List Char) (hN : (w.nCoefficients_ * 3) % 2 ^ 64 < 2 ^ 31)
    (hlen : (w.nCoefficients_ * 3) % 2 ^ 64 ≤ w.pCoefficient_.length) :
    ∃ body, writeCoefficients ft w out = some (out ++ body) := by
  cases hK : (w.nCoefficients_ * 3) % 2 ^ 64 with
  | zero =>
    refine ⟨['c', ' '], ?_⟩
    unfold writeCoefficients
    rw [hK, forInt_of_lt _ _ _ (by norm_num)]
    simp [forUp]
  | succ K =>
    cases hp : w.pCoefficient_ with
    | nil => rw [hp, hK] at hlen; simp at hlen
    | cons d _ =>
      refine ⟨['c', ' '] ++
        (concatUpTo (fun j => ft.put (w.pCoefficient_.getD j d) ++ [' ']) K
          ++ ft.put (w.pCoefficient_.getD K d)), ?_⟩
      rw [writeCoefficients_eq ft w out d K hK (by omega) (by omega), List.append_assoc]

/-- C17 (amended).  A fresh writer has no data; each `Add` function sets its own flag
and no other, and `AddCoefficients` stores `maxL`.  `Write` returns `false` and writes
nothing when a flag it needs is missing or the file cannot be opened.  When the flags
are set, the file can be opened and the data is in range (`WriterInRange`), it returns
`true` and the text starts with the line `L <maxL_>`. -/
theorem Write_gate {α : Type} (ft : FloatText α) (w : PRTWriter α) (canOpen isEM : Bool) :
    ((PRTWriter.fresh α).addedVertices_ = false ∧
      (PRTWriter.fresh α).addedCoefficients_ = false ∧
      (PRTWriter.fresh α).addedIndices_ = false) ∧
    (∀ p size, (AddVertices w p size).addedVertices_ = true ∧
      (AddVertices w p size).addedCoefficients_ = w.addedCoefficients_ ∧
      (AddVertices w p size).addedIndices_ = w.addedIndices_) ∧
    (∀ p size, (AddIndices w p size).addedIndices_ = true ∧
      (AddIndices w p size).addedCoefficients_ = w.addedCoefficients_ ∧
      (AddIndices w p size).addedVertices_ = w.addedVertices_) ∧
    (∀ (maxL : Nat) p size w', AddCoefficients w (maxL : Int) p size = some w' →
      w'.addedCoefficients_ = true ∧ w'.maxL_ = maxL ∧
      w'.addedVertices_ = w.addedVertices_ ∧ w'.addedIndices_ = w.addedIndices_) ∧
    (isEM = false → (w.addedVertices_ = false ∨ w.addedCoefficients_ = false ∨
        w.addedIndices_ = false) → Write ft w canOpen isEM = some (false, none)) ∧
    (isEM = true → w.addedCoefficients_ = false →
      Write ft w canOpen isEM = some (false, none)) ∧
    (canOpen = false → Write ft w canOpen isEM = some (false, none)) ∧
    (canOpen = true → w.addedCoefficients_ = true →
      (isEM = false → w.addedVertices_ = true ∧ w.addedIndices_ = true) →
      WriterInRange w isEM →
      ∃ body, Write ft w canOpen isEM
        = some (true, some ('L' :: ' ' :: decimal w.maxL_ ++ '\n' :: body))) := by
  refine ⟨⟨rfl, rfl, rfl⟩, fun _ _ => ⟨rfl, rfl, rfl⟩, fun _ _ => ⟨rfl, rfl, rfl⟩, ?_, ?_, ?_,
    ?_, ?_⟩
  · intro maxL p size w' h
    unfold AddCoefficients at h
    split at h
    · rename_i hc
      simp only [Option.some.injEq] at h
      subst h
      refine ⟨rfl, ?_, rfl, rfl⟩
      have : maxL < 2 ^ 31 := by
        have := hc.1
        omega
      exact toIndex_natCast maxL (by omega)
    · cases h
  · intro he hmiss
    subst he
    unfold Write
    rw [if_neg (by simp), if_pos ⟨rfl, by tauto⟩]
  · intro he hmiss
    subst he
    unfold Write
    rw [if_pos ⟨rfl, hmiss⟩]
  · intro hc
    subst hc
    unfold Write
    split
    · rfl
    · split
      · rfl
      · rfl
  · intro hc hcoef hprt hrange
    subst hc
    cases isEM with
    | true =>
      unfold WriterInRange at hrange
      rw [if_pos rfl] at hrange
      obtain ⟨body, hbody⟩ := writeCoefficients_returns ft w
        ('L' :: ' ' :: decimal w.maxL_ ++ ['\n']) hrange.1 hrange.2
      refine ⟨body, ?_⟩
      rw [Write_EM ft w hcoef, hbody]
      simp
    | false =>
      unfold WriterInRange at hrange
      rw [if_neg (by decide)] at hrange
      obtain ⟨hn, h1, h2, h3, h4, h5⟩ := hrange
      obtain ⟨b1, hb1⟩ := writeVertices_returns ft w
        ('L' :: ' ' :: decimal w.maxL_ ++ ['\n']) hn h1 h2 h3
      have hb2 := writeIndices_eq w ('L' :: ' ' :: decimal w.maxL_ ++ ['\n'] ++ b1)
        (w.indexSize_ / 3) rfl (by omega) (fun i hi => by omega) h5
      refine ⟨b1 ++ concatUpTo (fun i =>
        (['f'] ++ spaced (((List.range 3).map fun j => w.pIndex_.getD (3 * i + j) 0).map decimal))
          ++ ['\n']) (w.indexSize_ / 3), ?_⟩
      rw [Write_PRT ft w ⟨hcoef, (hprt rfl).2, (hprt rfl).1⟩, hb1]
      simp only [Option.bind]
      rw [hb2]
      simp only [Option.map, List.append_assoc, List.cons_append, List.nil_append]

theorem Write_gate_witness :
    WriterInRange (⟨[], [1, -2, 3], [], 0, 3, 0, 1, 0, false, false, true⟩ : PRTWriter Int) true ∧
    ∃ body, Write integerText (⟨[], [1, -2, 3], [], 0, 3, 0, 1, 0, false, false, true⟩ :
        PRTWriter Int) true true
      = some (true, some ('L' :: ' ' :: decimal 0 ++ '\n' :: body)) :=
  ⟨by unfold WriterInRange; norm_num,
   (Write_gate integerText (⟨[], [1, -2, 3], [], 0, 3, 0, 1, 0, false, false, true⟩ :
      PRTWriter Int) true true).2.2.2.2.2.2.2 rfl rfl (fun h => Bool.noConfusion h)
      (by unfold WriterInRange; norm_num)⟩

/-- C17 as stated fails at the ends of the `int` range.  After `AddCoefficients(-2, ...)`
the required data has been added and `Write` returns `true`, but `maxL_` is a `size_t`
and the first line is `L 18446744073709551614`, not `L -2`.  After
`AddCoefficients(26754, ...)` with an array of `3 · 26755²` numbers the loop counter of
`writeCoefficients` would pass `INT_MAX`: the behaviour of `Write` is undefined. -/
theorem Write_gate_counterexample :
    (∃ w, AddCoefficients (PRTWriter.fresh Int) (-2) [1, 2, 3] 3 = some w ∧
      Write integerText w true true
        = some (true, some "L 18446744073709551614\nc 1 2 3".toList)) ∧
    (∃ w, AddCoefficients (PRTWriter.fresh Int) ((26754 : Nat) : Int)
        (List.replicate 2147490075 0) 2147490075 = some w ∧
      Write integerText w true true = none) := by
  constructor
  · exact ⟨_, rfl, rfl⟩
  · refine ⟨_, AddCoefficients_nat (PRTWriter.fresh Int) 26754 _ _ (by norm_num), ?_⟩
    rw [Write_EM integerText _ rfl]
    unfold writeCoefficients
    rw [forInt_of_ge _ _ _ (by norm_num)]
    rfl

/-! ## Resource states of the recorded command lists -/

theorem runStates_append {ρ : Type} (a b : List (Command ρ)) (st : ResourceId → ResourceState) :
    runStates (a ++ b) st = (runStates a st).bind (runStates b) := by
  induction a generalizing st with
  | nil => rfl
  | cons c cs ih =>
    cases c with
    | Barrier res before after =>
      simp only [List.cons_append, runStates]
      split
      · exact ih _
      · rfl
    | CopyResource dest src =>
      simp only [List.cons_append, runStates]
      split
      · exact ih _
      · rfl
    | SetPipeline p => simp only [List.cons_append, runStates]; exact ih _
    | SetDescriptorHeap n h => simp only [List.cons_append, runStates]; exact ih _
    | SetComputeConstants i s d => simp only [List.cons_append, runStates]; exact ih _
    | SetComputeDesciptorTable i h k => simp only [List.cons_append, runStates]; exact ih _
    | Dispatch x y z => simp only [List.cons_append, runStates]; exact ih _

theorem integrateStep_block {α : Type} (constants : PRTConstantContainer) (i : Nat)
    (t u : List (Command (RayData α)) × RayData α) (h : integrateStep constants i t = some u) :
    ∃ blk, u.1 = t.1 ++ blk ∧ ∀ st, runStates blk st = some st := by
  unfold integrateStep at h
  split at h
  · cases h
  · simp only [Option.some.injEq] at h
    subst h
    exact ⟨_, rfl, fun st => rfl⟩

theorem emStep_block (constants : EMConstantContainer) (i : Nat)
    (t u : List (Command EMSETTINGS)) (h : emStep constants i t = some u) :
    ∃ blk, u = t ++ blk ∧ ∀ st, runStates blk st = some st := by
  unfold emStep at h
  split at h
  · cases h
  · simp only [Option.some.injEq] at h
    subst h
    exact ⟨_, rfl, fun st => rfl⟩

/-- The commands between the barriers leave the resource states alone. -/
theorem runStates_integrate_prefix {α : Type} (constants : PRTConstantContainer) (n : Nat)
    (s0 s : List (Command (RayData α)) × RayData α)
    (h : forUp (integrateStep constants) n s0 = some s) :
    ∃ mid, s.1 = s0.1 ++ mid ∧ ∀ st, runStates mid st = some st := by
  apply forUp_preserves (integrateStep constants)
    (fun s => ∃ mid, s.1 = s0.1 ++ mid ∧ ∀ st, runStates mid st = some st) _ n s0 s
    ⟨[], by simp, fun st => rfl⟩ h
  intro i t u ⟨mid, hmid, hneutral⟩ ht
  obtain ⟨blk, hb, hn⟩ := integrateStep_block constants i t u ht
  refine ⟨mid ++ blk, by rw [hb, hmid, List.append_assoc], fun st => ?_⟩
  rw [runStates_append, hneutral st]
  exact hn st

theorem runStates_em_prefix (constants : EMConstantContainer) (n : Nat)
    (s0 s : List (Command EMSETTINGS)) (h : forUp (emStep constants) n s0 = some s) :
    ∃ mid, s = s0 ++ mid ∧ ∀ st, runStates mid st = some st := by
  apply forUp_preserves (emStep constants)
    (fun s => ∃ mid, s = s0 ++ mid ∧ ∀ st, runStates mid st = some st) _ n s0 s
    ⟨[], by simp, fun st => rfl⟩ h
  intro i t u ⟨mid, hmid, hneutral⟩ ht
  obtain ⟨blk, hb, hn⟩ := emStep_block constants i t u ht
  refine ⟨mid ++ blk, by rw [hb, hmid, List.append_assoc], fun st => ?_⟩
  rw [runStates_append, hneutral st]
  exact hn st

theorem forInt_eq_some {σ : Type} (body : Nat → σ → Option σ) (n : Nat) (s t : σ)
    (h : forInt body n s = some t) : n < 2 ^ 31 ∧ forUp body n s = some t := by
  unfold forInt at h
  split at h
  · exact ⟨by assumption, h⟩
  · cases h

theorem PopulateIntegrator_returns {α : Type} (constants : PRTConstantContainer)
    (rayData : RayData α) (h : constants.nCoefficients + 3 ≤ 2 ^ 31) :
    ∃ p, PopulateIntegrator constants rayData = some p := by
  obtain ⟨t, ht, _⟩ := forUp_invariant (integrateStep (α := α) constants) (fun _ _ => True)
    constants.nCoefficients
    ([ .Barrier .randomRes .UNORDERED_ACCESS .NON_PIXEL_SHADER_RESOURCE,
       .Barrier .visibilityRes .UNORDERED_ACCESS .NON_PIXEL_SHADER_RESOURCE ], rayData)
    trivial (fun i hi t _ => by
      show ∃ u, integrateStep constants i t = some u ∧ True
      unfold integrateStep
      rw [if_neg (by omega)]
      exact ⟨_, rfl, trivial⟩)
  unfold PopulateIntegrator
  rw [forInt_of_lt _ _ _ (by omega), ht]
  exact ⟨_, rfl⟩

theorem emCommands_returns (constants : EMConstantContainer)
    (h : constants.nCoefficients + 3 ≤ 2 ^ 31) : ∃ cmds, emCommands constants = some cmds := by
  obtain ⟨t, ht, _⟩ := forUp_invariant (emStep constants) (fun _ _ => True)
    constants.nCoefficients
    [ .SetPipeline .emIntegrate, .SetDescriptorHeap 1 .emHeap,
      .SetComputeDesciptorTable 0 .emHeap 0, .SetComputeDesciptorTable 1 .emHeap 1,
      .SetComputeDesciptorTable 2 .emHeap 2 ]
    trivial (fun i hi t _ => by
      show ∃ u, emStep constants i t = some u ∧ True
      unfold emStep
      rw [if_neg (by omega)]
      exact ⟨_, rfl, trivial⟩)
  unfold emCommands
  rw [forInt_of_lt _ _ _ (by omega), ht]
  exact ⟨_, rfl⟩

theorem runStates_rayTracer {α : Type} (constants : PRTConstantContainer) (rayData : RayData α)
    (st : ResourceId → ResourceState) (hp : st .planeRes = .UNORDERED_ACCESS) :
    runStates (PopulateRayTracer constants rayData) st = some st := by
  simp only [PopulateRayTracer, runStates, hp, if_true]
  congr 1
  funext r
  cases r <;> simp [hp]

theorem runStates_integrator_shape {ρ : Type} (mid : List (Command ρ))
    (hneutral : ∀ st, runStates mid st = some st) (st : ResourceId → ResourceState)
    (hr : st .randomRes = .UNORDERED_ACCESS) (hv : st .visibilityRes = .UNORDERED_ACCESS)
    (hres : st .resultRes = .UNORDERED_ACCESS) (hrb : st .readbackRes = .COPY_DEST) :
    runStates (([ .Barrier .randomRes .UNORDERED_ACCESS .NON_PIXEL_SHADER_RESOURCE,
        .Barrier .visibilityRes .UNORDERED_ACCESS .NON_PIXEL_SHADER_RESOURCE ] ++ mid) ++
      [ .Barrier .randomRes .NON_PIXEL_SHADER_RESOURCE .UNORDERED_ACCESS,
        .Barrier .visibilityRes .NON_PIXEL_SHADER_RESOURCE .UNORDERED_ACCESS,
        .Barrier .resultRes .UNORDERED_ACCESS .COPY_SOURCE,
        .CopyResource .readbackRes .resultRes,
        .Barrier .resultRes .COPY_SOURCE .UNORDERED_ACCESS ]) st = some st := by
  rw [runStates_append, runStates_append]
  have h1 : runStates ([ .Barrier .randomRes .UNORDERED_ACCESS .NON_PIXEL_SHADER_RESOURCE,
      .Barrier .visibilityRes .UNORDERED_ACCESS .NON_PIXEL_SHADER_RESOURCE ] : List (Command ρ)) st
      = some (fun r => if r = .visibilityRes then .NON_PIXEL_SHADER_RESOURCE
          else if r = .randomRes then .NON_PIXEL_SHADER_RESOURCE else st r) := by
    simp [runStates, hr, hv]
  rw [h1]
  simp only [Option.some_bind, hneutral]
  simp [runStates, hres, hrb]
  funext r
  cases r <;> simp [hr, hv, hres, hrb]

theorem runStates_em_shape {ρ : Type} (pre mid : List (Command ρ))
    (hpre : ∀ st, runStates pre st = some st)
    (hneutral : ∀ st, runStates mid st = some st) (st : ResourceId → ResourceState)
    (hres : st .resultRes = .UNORDERED_ACCESS) (hrb : st .readbackRes = .COPY_DEST) :
    runStates ((pre ++ mid) ++
      [ .Barrier .resultRes .UNORDERED_ACCESS .COPY_SOURCE,
        .CopyResource .readbackRes .resultRes,
        .Barrier .resultRes .COPY_SOURCE .UNORDERED_ACCESS ]) st = some st := by
  rw [runStates_append, runStates_append, hpre]
  simp only [Option.some_bind, hneutral]
  simp [runStates, hres, hrb]
  funext r
  cases r <;> simp [hres, hrb]

/-- C23.  Run from the states in which the resources are created, every command list
that `PopulateRayTracer`, `PopulateIntegrator` or `ExecuteEMPipeline` records passes the
check of every barrier (its `stateBefore` is the current state of its resource; the copy
finds its source in `COPY_SOURCE` and its destination in `COPY_DEST`) and ends in the
states it started from, in particular with the plane, random, visibility and result
buffers in `UNORDERED_ACCESS`.  The lists of `PopulateIntegrator` and
`ExecuteEMPipeline` exist whenever `nCoefficients + 3 ≤ 2 ^ 31`. -/
theorem barriers_valid {α : Type} (constants : PRTConstantContainer)
    (emConstants : EMConstantContainer) (rayData : RayData α) :
    runStates (PopulateRayTracer constants rayData) initialState = some initialState ∧
    (∀ cmds rd, PopulateIntegrator constants rayData = some (cmds, rd) →
      runStates cmds initialState = some initialState) ∧
    (∀ cmds, emCommands emConstants = some cmds →
      runStates cmds initialState = some initialState) ∧
    (constants.nCoefficients + 3 ≤ 2 ^ 31 →
      ∃ p, PopulateIntegrator constants rayData = some p) ∧
    (emConstants.nCoefficients + 3 ≤ 2 ^ 31 → ∃ cmds, emCommands emConstants = some cmds) ∧
    initialState .planeRes = .UNORDERED_ACCESS ∧ initialState .randomRes = .UNORDERED_ACCESS ∧
    initialState .visibilityRes = .UNORDERED_ACCESS ∧
    initialState .resultRes = .UNORDERED_ACCESS := by
  refine ⟨runStates_rayTracer constants rayData initialState rfl, ?_, ?_,
    PopulateIntegrator_returns constants rayData,
    emCommands_returns emConstants, rfl, rfl, rfl, rfl⟩
  · intro cmds rd h
    unfold PopulateIntegrator at h
    simp only [Option.map_eq_some'] at h
    obtain ⟨s, hs, hmk⟩ := h
    obtain ⟨_, hs'⟩ := forInt_eq_some _ _ _ _ hs
    obtain ⟨mid, hmid, hneutral⟩ := runStates_integrate_prefix constants _ _ _ hs'
    simp only [Prod.mk.injEq] at hmk
    rw [← hmk.1, hmid]
    exact runStates_integrator_shape mid hneutral initialState rfl rfl rfl rfl
  · intro cmds h
    unfold emCommands at h
    simp only [Option.map_eq_some'] at h
    obtain ⟨s, hs, hmk⟩ := h
    obtain ⟨_, hs'⟩ := forInt_eq_some _ _ _ _ hs
    obtain ⟨mid, hmid, hneutral⟩ := runStates_em_prefix emConstants _ _ _ hs'
    rw [← hmk, hmid]
    exact runStates_em_shape
      [ .SetPipeline .emIntegrate, .SetDescriptorHeap 1 .emHeap,
        .SetComputeDesciptorTable 0 .emHeap 0, .SetComputeDesciptorTable 1 .emHeap 1,
        .SetComputeDesciptorTable 2 .emHeap 2 ] mid (fun st => rfl) hneutral initialState rfl rfl

/-- Witness for `barriers_valid`: four coefficients, eight events per axis. -/
theorem barriers_valid_witness :
    ∃ cmds rd ecmds,
      PopulateIntegrator ⟨64, 8, 8, 1, 1, 4, 12, 8⟩
        (⟨⟨0, 0, 0, 0⟩, ⟨0, 0, 1, 0⟩, ⟨0, 0, 0, 0⟩, ⟨8, 1, 12, 0⟩⟩ : RayData ℚ)
        = some (cmds, rd) ∧
      runStates cmds initialState = some initialState ∧
      emCommands ⟨4, 2, 64, 8, 8, 1, 1, 4⟩ = some ecmds ∧
      runStates ecmds initialState = some initialState := by
  have t := barriers_valid ⟨64, 8, 8, 1, 1, 4, 12, 8⟩ ⟨4, 2, 64, 8, 8, 1, 1, 4⟩
    (⟨⟨0, 0, 0, 0⟩, ⟨0, 0, 1, 0⟩, ⟨0, 0, 0, 0⟩, ⟨8, 1, 12, 0⟩⟩ : RayData ℚ)
  obtain ⟨⟨cmds, rd⟩, hp⟩ := t.2.2.2.1 (by norm_num)
  obtain ⟨ecmds, he⟩ := t.2.2.2.2.1 (by norm_num)
  exact ⟨cmds, rd, ecmds, hp, t.2.1 cmds rd hp, he, t.2.2.1 ecmds he⟩

/-! ## `ExecuteEMPipeline` -/

theorem countP_concatUpTo {β : Type} (p : β → Bool) (f : Nat → List β) (c n : Nat)
    (h : ∀ i, i < n → (f i).countP p = c) : (concatUpTo f n).countP p = n * c := by
  induction n with
  | zero => simp [concatUpTo]
  | succ n ih =>
    rw [concatUpTo, List.countP_append, ih (fun i hi => h i (Nat.lt_succ_of_lt hi)),
      h n (Nat.lt_succ_self n), Nat.succ_mul]

theorem emCommands_eq (constants : EMConstantContainer)
    (hn : constants.nCoefficients + 3 ≤ 2 ^ 31) (hx : constants.numEventsX / 8 < 2 ^ 32) :
    emCommands constants = some
      ([ .SetPipeline .emIntegrate, .SetDescriptorHeap 1 .emHeap,
         .SetComputeDesciptorTable 0 .emHeap 0, .SetComputeDesciptorTable 1 .emHeap 1,
         .SetComputeDesciptorTable 2 .emHeap 2 ] ++
       concatUpTo (fun i =>
         [ .SetComputeDesciptorTable 3 .emHeap (3 + i),
           .SetComputeConstants 4 4 ⟨constants.numEventsX % 2 ^ 32, i⟩,
           .Dispatch (constants.numEventsX / 8) (constants.numEventsX / 8) 1 ])
         constants.nCoefficients ++
       [ .Barrier .resultRes .UNORDERED_ACCESS .COPY_SOURCE,
         .CopyResource .readbackRes .resultRes,
         .Barrier .resultRes .COPY_SOURCE .UNORDERED_ACCESS ]) := by
  unfold emCommands
  rw [forInt_of_lt _ _ _ (by omega), forUp_concat (emStep constants) (fun i =>
      [ .SetComputeDesciptorTable 3 .emHeap (3 + i),
        .SetComputeConstants 4 4 ⟨constants.numEventsX % 2 ^ 32, i % 2 ^ 32⟩,
        .Dispatch (constants.numEventsX / 8 % 2 ^ 32) (constants.numEventsX / 8 % 2 ^ 32) 1 ])]
  · simp only [Option.map]
    rw [concatUpTo_congr _ (fun i =>
      [ .SetComputeDesciptorTable 3 .emHeap (3 + i),
        .SetComputeConstants 4 4 ⟨constants.numEventsX % 2 ^ 32, i⟩,
        .Dispatch (constants.numEventsX / 8) (constants.numEventsX / 8) 1 ])]
    intro i hi
    rw [Nat.mod_eq_of_lt hx, Nat.mod_eq_of_lt (by omega : i < 2 ^ 32)]
  · intro i hi o
    unfold emStep
    rw [if_neg (by omega)]

/-- C22 (amended).  For constants with `nCoefficients + 3 ≤ 2 ^ 31` (the loop counter
`i` and the handle index `3 + i` are `int`s) and `numEventsX / 8 < 2 ^ 32` (the arguments
of `Dispatch` are `UINT`s), `ExecuteEMPipeline` resets the command list, records the
pipeline, the heap and three descriptor tables, then for `i = 0 .. nCoefficients - 1` in
this order the descriptor table `3 + i`, the root constants with `iCoefficient = i` and
one `Dispatch` of size `(numEventsX / 8, numEventsX / 8, 1)`, so exactly `nCoefficients`
dispatches; then the barrier of the result buffer to `COPY_SOURCE`, the copy into the
read-back buffer and the barrier back; it closes the list, executes it once, signals
the next fence value and waits for that value. -/
theorem ExecuteEMPipeline_spec (constants : EMConstantContainer) (h : Host EMSETTINGS)
    (hn : constants.nCoefficients + 3 ≤ 2 ^ 31) (hx : constants.numEventsX / 8 < 2 ^ 32) :
    ∃ cmds : List (Command EMSETTINGS),
      cmds =
        [ .SetPipeline .emIntegrate, .SetDescriptorHeap 1 .emHeap,
          .SetComputeDesciptorTable 0 .emHeap 0, .SetComputeDesciptorTable 1 .emHeap 1,
          .SetComputeDesciptorTable 2 .emHeap 2 ] ++
        concatUpTo (fun i =>
          [ .SetComputeDesciptorTable 3 .emHeap (3 + i),
            .SetComputeConstants 4 4 ⟨constants.numEventsX % 2 ^ 32, i⟩,
            .Dispatch (constants.numEventsX / 8) (constants.numEventsX / 8) 1 ])
          constants.nCoefficients ++
        [ .Barrier .resultRes .UNORDERED_ACCESS .COPY_SOURCE,
          .CopyResource .readbackRes .resultRes,
          .Barrier .resultRes .COPY_SOURCE .UNORDERED_ACCESS ] ∧
      cmds.countP Command.isDispatch = constants.nCoefficients ∧
      ExecuteEMPipeline constants h = some
        { fenceValue_ := (h.fenceValue_ + 1) % 2 ^ 64,
          trace := h.trace ++ [.reset .commandList] ++ cmds.map (.record .commandList) ++
            [.close .commandList, .execute .commandList,
             .signal ((h.fenceValue_ + 1) % 2 ^ 64),
             .waitForFence ((h.fenceValue_ + 1) % 2 ^ 64)] } := by
  refine ⟨_, rfl, ?_, ?_⟩
  · have hc := countP_concatUpTo Command.isDispatch (fun i =>
        ([ .SetComputeDesciptorTable 3 .emHeap (3 + i),
          .SetComputeConstants 4 4 ⟨constants.numEventsX % 2 ^ 32, i⟩,
          .Dispatch (constants.numEventsX / 8) (constants.numEventsX / 8) 1 ] :
          List (Command EMSETTINGS))) 1 constants.nCoefficients (fun i _ => rfl)
    rw [List.countP_append, List.countP_append, hc]
    simp [Command.isDispatch, List.countP_cons]
  · unfold ExecuteEMPipeline
    rw [emCommands_eq constants hn hx]
    simp [Host.recordList, Host.Execute, Host.Signal, Host.WaitForFence]

/-- Witness for `ExecuteEMPipeline_spec`: four coefficients, eight events per axis, on a
queue whose fence value is 2. -/
theorem ExecuteEMPipeline_spec_witness :
    ((⟨4, 2, 64, 8, 8, 1, 1, 4⟩ : EMConstantContainer).nCoefficients + 3 ≤ 2 ^ 31 ∧
      (⟨4, 2, 64, 8, 8, 1, 1, 4⟩ : EMConstantContainer).numEventsX / 8 < 2 ^ 32) ∧
    ∃ cmds : List (Command EMSETTINGS),
      cmds =
        [ .SetPipeline .emIntegrate, .SetDescriptorHeap 1 .emHeap,
          .SetComputeDesciptorTable 0 .emHeap 0, .SetComputeDesciptorTable 1 .emHeap 1,
          .SetComputeDesciptorTable 2 .emHeap 2 ] ++
        concatUpTo (fun i =>
          [ .SetComputeDesciptorTable 3 .emHeap (3 + i),
            .SetComputeConstants 4 4
              ⟨(⟨4, 2, 64, 8, 8, 1, 1, 4⟩ : EMConstantContainer).numEventsX % 2 ^ 32, i⟩,
            .Dispatch ((⟨4, 2, 64, 8, 8, 1, 1, 4⟩ : EMConstantContainer).numEventsX / 8)
              ((⟨4, 2, 64, 8, 8, 1, 1, 4⟩ : EMConstantContainer).numEventsX / 8) 1 ])
          (⟨4, 2, 64, 8, 8, 1, 1, 4⟩ : EMConstantContainer).nCoefficients ++
        [ .Barrier .resultRes .UNORDERED_ACCESS .COPY_SOURCE,
          .CopyResource .readbackRes .resultRes,
          .Barrier .resultRes .COPY_SOURCE .UNORDERED_ACCESS ] ∧
      cmds.countP Command.isDispatch
        = (⟨4, 2, 64, 8, 8, 1, 1, 4⟩ : EMConstantContainer).nCoefficients ∧
      ExecuteEMPipeline ⟨4, 2, 64, 8, 8, 1, 1, 4⟩ ⟨2, []⟩ = some
        { fenceValue_ := ((⟨2, []⟩ : Host EMSETTINGS).fenceValue_ + 1) % 2 ^ 64,
          trace := (⟨2, []⟩ : Host EMSETTINGS).trace ++ [.reset .commandList] ++
            cmds.map (.record .commandList) ++
            [.close .commandList, .execute .commandList,
             .signal (((⟨2, []⟩ : Host EMSETTINGS).fenceValue_ + 1) % 2 ^ 64),
             .waitForFence (((⟨2, []⟩ : Host EMSETTINGS).fenceValue_ + 1) % 2 ^ 64)] } :=
  ⟨⟨by norm_num, by norm_num⟩,
    ExecuteEMPipeline_spec ⟨4, 2, 64, 8, 8, 1, 1, 4⟩ ⟨2, []⟩ (by norm_num) (by norm_num)⟩

/-- C22 as stated fails for the constants of the descriptor `MaxL = 46340`,
`NumEvents = 64`, `SHGridNum = 8`: `nCoefficients` is `46341 ^ 2 = 2147488281`, the
`int` counter of the loop cannot reach it, and the behaviour of `ExecuteEMPipeline` is
undefined. -/
theorem ExecuteEMPipeline_counterexample :
    (InitializeEMConstants ⟨46340, 64, 8⟩ 4 2).nCoefficients = 2147488281 ∧
    ExecuteEMPipeline (InitializeEMConstants ⟨46340, 64, 8⟩ 4 2) ⟨0, []⟩ = none := by
  rw [InitializeEMConstants_46340]
  refine ⟨rfl, ?_⟩
  unfold ExecuteEMPipeline emCommands
  rw [forInt_of_ge _ _ _ (by norm_num)]
  rfl

/-! ## The vertex loop of `GeneratePRT` -/

theorem forUp_some_invariant {σ : Type} (body : Nat → σ → Option σ) (Inv : Nat → σ → Prop)
    (n : Nat) (s t : σ) (h0 : Inv 0 s)
    (hstep : ∀ i, i < n → ∀ u v, Inv i u → body i u = some v → Inv (i + 1) v)
    (h : forUp body n s = some t) : Inv n t := by
  induction n generalizing t with
  | zero =>
    simp only [forUp, Option.some.injEq] at h
    exact h ▸ h0
  | succ n ih =>
    simp only [forUp, Option.bind_eq_some] at h
    obtain ⟨u, hu, hb⟩ := h
    exact hstep n (Nat.lt_succ_self n) u t
      (ih u (fun i hi => hstep i (Nat.lt_succ_of_lt hi)) hu) hb

/-- Every iteration of a loop that ran to its end succeeded on some state. -/
theorem forUp_some_step {σ : Type} (body : Nat → σ → Option σ) (n : Nat) (s t : σ)
    (h : forUp body n s = some t) (i : Nat) (hi : i < n) : ∃ u v, body i u = some v := by
  induction n generalizing t with
  | zero => omega
  | succ n ih =>
    simp only [forUp, Option.bind_eq_some] at h
    obtain ⟨u, hu, hb⟩ := h
    rcases Nat.lt_succ_iff_lt_or_eq.1 hi with hlt | heq
    · exact ih u hu hlt
    · exact ⟨u, t, heq ▸ hb⟩

/-- A loop that pushes back one value per iteration, the value not depending on the
vector: if it runs to its end from one vector, it appends the same block to any. -/
theorem forUp_push {β : Type} (g : Nat → Option β) (n : Nat) (o t : List β)
    (h : forUp (fun j o => (g j).map fun x => o ++ [x]) n o = some t) :
    ∃ blk : List β, blk.length = n ∧
      ∀ o', forUp (fun j o => (g j).map fun x => o ++ [x]) n o' = some (o' ++ blk) := by
  induction n generalizing t with
  | zero => exact ⟨[], rfl, fun o' => by simp [forUp]⟩
  | succ n ih =>
    simp only [forUp, Option.bind_eq_some] at h
    obtain ⟨u, hu, hb⟩ := h
    obtain ⟨blk, hlen, hall⟩ := ih u hu
    simp only [Option.map_eq_some'] at hb
    obtain ⟨x, hx, -⟩ := hb
    refine ⟨blk ++ [x], by simp [hlen], fun o' => ?_⟩
    simp only [forUp, hall o', Option.some_bind, hx, Option.map_some', List.append_assoc]

section VertexLoopTheorems
variable {α : Type} [Field α]

theorem StorePRTResult_eq (coefficients readback : List α) (constants : PRTConstantContainer) :
    StorePRTResult coefficients readback constants =
      forInt (fun j o =>
        ((forInt (fun k (total : α) =>
            (readback[(j * constants.numThreadGroups + k) % 2 ^ 64]?).map fun b => total + b)
          constants.numThreadGroups 0).map fun total =>
            total / (constants.numEvents : α) * 4).map fun x => o ++ [x])
        constants.nCoefficients coefficients := by
  unfold StorePRTResult
  congr 1
  funext j o
  rw [Option.map_map]
  rfl

/-- The frame of `StorePRTResult`: a call that returns has appended a block of
`nCoefficients` values that depends on the read-back buffer only. -/
theorem StorePRTResult_frame (coefficients readback out : List α)
    (constants : PRTConstantContainer)
    (h : StorePRTResult coefficients readback constants = some out) :
    ∃ blk : List α, blk.length = constants.nCoefficients ∧
      ∀ c, StorePRTResult c readback constants = some (c ++ blk) := by
  rw [StorePRTResult_eq] at h
  obtain ⟨hn, h'⟩ := forInt_eq_some _ _ _ _ h
  obtain ⟨blk, hlen, hall⟩ := forUp_push _ _ _ _ h'
  refine ⟨blk, hlen, fun c => ?_⟩
  rw [StorePRTResult_eq, forInt_of_lt _ _ _ hn]
  exact hall c

theorem StorePRTResult_returns (coefficients readback : List α)
    (constants : PRTConstantContainer)
    (hn : constants.nCoefficients < 2 ^ 31) (ht : constants.numThreadGroups < 2 ^ 31)
    (hB : constants.nCoefficients * constants.numThreadGroups ≤ readback.length) :
    ∃ out, StorePRTResult coefficients readback constants = some out := by
  unfold StorePRTResult
  rw [forInt_of_lt _ _ _ hn]
  obtain ⟨t, ht', -⟩ := forUp_invariant
    (fun j coeffs =>
      (forInt (fun k (total : α) =>
          (readback[(j * constants.numThreadGroups + k) % 2 ^ 64]?).map fun b => total + b)
        constants.numThreadGroups 0).map fun total =>
          coeffs ++ [total / (constants.numEvents : α) * 4])
    (fun _ _ => True) constants.nCoefficients coefficients trivial
    (fun j hj u _ => by
      show ∃ v, (forInt (fun k (total : α) =>
          (readback[(j * constants.numThreadGroups + k) % 2 ^ 64]?).map fun b => total + b)
        constants.numThreadGroups 0).map (fun total =>
          u ++ [total / (constants.numEvents : α) * 4]) = some v ∧ True
      rw [forInt_of_lt _ _ _ ht]
      obtain ⟨w, hw, -⟩ := forUp_invariant
        (fun k (total : α) =>
          (readback[(j * constants.numThreadGroups + k) % 2 ^ 64]?).map fun b => total + b)
        (fun _ _ => True) constants.numThreadGroups 0 trivial
        (fun k hk total _ => by
          show ∃ v, ((readback[(j * constants.numThreadGroups + k) % 2 ^ 64]?).map
            fun b => total + b) = some v ∧ True
          have hlt : j * constants.numThreadGroups + k
              < constants.nCoefficients * constants.numThreadGroups := by
            have : (j + 1) * constants.numThreadGroups
                ≤ constants.nCoefficients * constants.numThreadGroups :=
              Nat.mul_le_mul_right _ hj
            rw [Nat.succ_mul] at this
            omega
          have hb : constants.nCoefficients * constants.numThreadGroups < 2 ^ 31 * 2 ^ 31 :=
            Nat.mul_lt_mul'' hn ht
          rw [Nat.mod_eq_of_lt (by
              have : (2 : Nat) ^ 31 * 2 ^ 31 < 2 ^ 64 := by norm_num
              omega),
            getElem?_getD readback _ 0 (by omega)]
          exact ⟨_, rfl, trivial⟩)
      rw [hw]
      exact ⟨_, rfl, trivial⟩)
  exact ⟨t, ht'⟩

theorem setRay_returns (rayData : RayData α) (vertexData normalData : List α) (i : Nat)
    (hv : 3 * i + 2 < vertexData.length) (hn : 3 * i + 2 < normalData.length) :
    ∃ rd, setRay rayData vertexData normalData i = some rd := by
  unfold setRay
  rw [getElem?_getD vertexData (3 * i) 0 (by omega),
    getElem?_getD vertexData (3 * i + 1) 0 (by omega),
    getElem?_getD vertexData (3 * i + 2) 0 (by omega),
    getElem?_getD normalData (3 * i) 0 (by omega),
    getElem?_getD normalData (3 * i + 1) 0 (by omega),
    getElem?_getD normalData (3 * i + 2) 0 (by omega)]
  exact ⟨_, rfl⟩

/-- The vertex loop runs to its end when the `int` counters stay in range and the arrays
and the read-back buffer hold what is read. -/
theorem vertexLoop_returns (constants : PRTConstantContainer) (vertexData normalData : List α)
    (readback : Nat → List α) (V : Nat) (h : Host (RayData α)) (rayData : RayData α)
    (hV : V < 2 ^ 31) (hn : constants.nCoefficients + 3 ≤ 2 ^ 31)
    (ht : constants.numThreadGroups < 2 ^ 31)
    (hv : 3 * V ≤ vertexData.length) (hnl : 3 * V ≤ normalData.length)
    (hB : ∀ i, i < V →
      constants.nCoefficients * constants.numThreadGroups ≤ (readback i).length) :
    ∃ s, vertexLoop constants vertexData normalData readback V h rayData = some s := by
  unfold vertexLoop
  rw [forInt_of_lt _ _ _ hV]
  obtain ⟨t, ht', -⟩ := forUp_invariant
    (vertexStep constants vertexData normalData readback) (fun _ _ => True) V
    { host := h, rayData := { rayData with settings := initialRaySettings constants },
      coefficients := [] } trivial
    (fun i hi u _ => by
      show ∃ v, vertexStep constants vertexData normalData readback i u = some v ∧ True
      obtain ⟨rd, hrd⟩ := setRay_returns u.rayData vertexData normalData i
        (by omega) (by omega)
      obtain ⟨p, hp⟩ := PopulateIntegrator_returns constants rd hn
      obtain ⟨out, hout⟩ := StorePRTResult_returns u.coefficients (readback i) constants
        (by omega) ht (hB i hi)
      unfold vertexStep
      rw [hrd, Option.some_bind, hp, Option.some_bind, hout]
      exact ⟨_, rfl, trivial⟩)
  exact ⟨t, ht'⟩

end VertexLoopTheorems

section TraceTheorems
variable {α : Type} [Field α]

/-- One iteration of the vertex loop: what it adds to the trace, for a queue whose fence
value is not about to wrap. -/
theorem vertexStep_trace (constants : PRTConstantContainer) (vertexData normalData : List α)
    (readback : Nat → List α) (i : Nat) (u v : VertexLoop α)
    (hstep : vertexStep constants vertexData normalData readback i u = some v)
    (hf : u.host.fenceValue_ + 2 < 2 ^ 64) :
    ∃ rd cmds rd', setRay u.rayData vertexData normalData i = some rd ∧
      PopulateIntegrator constants rd = some (cmds, rd') ∧
      v.host.trace = u.host.trace ++ vertexEvents constants rd cmds u.host.fenceValue_ ∧
      v.host.fenceValue_ = u.host.fenceValue_ + 2 := by
  unfold vertexStep at hstep
  simp only [Option.bind_eq_some, Option.map_eq_some'] at hstep
  obtain ⟨rd, hrd, p, hp, coeffs, -, hv⟩ := hstep
  subst hv
  have h1 : (u.host.fenceValue_ + 1) % 2 ^ 64 = u.host.fenceValue_ + 1 :=
    Nat.mod_eq_of_lt (by omega)
  have h2 : (u.host.fenceValue_ + 1 + 1) % 2 ^ 64 = u.host.fenceValue_ + 2 :=
    Nat.mod_eq_of_lt (by omega)
  refine ⟨rd, p.1, p.2, hrd, hp, ?_, ?_⟩
  · simp [Host.recordList, Host.Execute, Host.Signal, Host.WaitForFence, Host.mapUnmap,
      vertexEvents, h1, h2]
    norm_num at hf
    omega
  · simp [Host.recordList, Host.Execute, Host.Signal, Host.WaitForFence, Host.mapUnmap,
      h1, h2]
    norm_num at hf
    omega

end TraceTheorems

/-! ## The layout of the coefficient vector -/

theorem concatUpTo_length {β : Type} (f : Nat → List β) (c n : Nat)
    (h : ∀ i, i < n → (f i).length = c) : (concatUpTo f n).length = n * c := by
  induction n with
  | zero => simp [concatUpTo]
  | succ n ih =>
    rw [concatUpTo, List.length_append, ih (fun i hi => h i (Nat.lt_succ_of_lt hi)),
      h n (Nat.lt_succ_self n), Nat.succ_mul]

theorem getElem?_concatUpTo {β : Type} (f : Nat → List β) (c n : Nat)
    (h : ∀ i, i < n → (f i).length = c) (i j : Nat) (hi : i < n) (hj : j < c) :
    (concatUpTo f n)[i * c + j]? = (f i)[j]? := by
  induction n with
  | zero => omega
  | succ n ih =>
    have hlen := concatUpTo_length f c n (fun k hk => h k (Nat.lt_succ_of_lt hk))
    rw [concatUpTo]
    rcases Nat.lt_succ_iff_lt_or_eq.1 hi with hlt | heq
    · have hb : i * c + j < n * c := by
        have : (i + 1) * c ≤ n * c := Nat.mul_le_mul_right _ hlt
        rw [Nat.succ_mul] at this
        omega
      rw [List.getElem?_append_left (by rw [hlen]; exact hb)]
      exact ih (fun k hk => h k (Nat.lt_succ_of_lt hk)) hlt
    · subst heq
      rw [List.getElem?_append_right (by rw [hlen]; omega), hlen]
      congr 1
      omega

/-- What a returning `writeVertices` tells about its input: the `int` counters did not
overflow and every position read was inside the array. -/
theorem writeVertices_some_bounds {α : Type} (ft : FloatText α) (w : PRTWriter α)
    (out text : List Char) (h : writeVertices ft w out = some text) :
    w.vertexSize_ / 3 < 2 ^ 31 ∧
    ∀ i, i < w.vertexSize_ / 3 →
      3 * i < 2 ^ 31 ∧ 3 * i + 2 < w.pVertex_.length ∧ w.nCoefficients_ < 2 ^ 31 := by
  unfold writeVertices at h
  obtain ⟨hV, h1⟩ := forInt_eq_some _ _ _ _ h
  refine ⟨hV, fun i hi => ?_⟩
  obtain ⟨u, v, hb⟩ := forUp_some_step _ _ _ _ h1 i hi
  simp only [Option.bind_eq_some, Option.map_eq_some'] at hb
  obtain ⟨o2, ho2, o4, ho4, -⟩ := hb
  obtain ⟨a, b, hab⟩ := forUp_some_step _ _ _ _ ho2 2 (by norm_num)
  obtain ⟨hn, -⟩ := forInt_eq_some _ _ _ _ ho4
  by_cases hg : 2 ^ 31 ≤ 3 * i
  · rw [if_pos hg] at hab
    cases hab
  · rw [if_neg hg] at hab
    simp only [Option.map_eq_some'] at hab
    obtain ⟨x, hx, -⟩ := hab
    have hlt : 3 * i + 2 < w.pVertex_.length := by
      by_contra hge
      rw [List.getElem?_eq_none (by omega)] at hx
      cases hx
    exact ⟨by omega, hlt, hn⟩

section LayoutTheorems
variable {α : Type} [Field α]

theorem vertexStep_coefficients (constants : PRTConstantContainer)
    (vertexData normalData : List α) (readback : Nat → List α) (i : Nat) (u v : VertexLoop α)
    (hstep : vertexStep constants vertexData normalData readback i u = some v) :
    StorePRTResult u.coefficients (readback i) constants = some v.coefficients := by
  unfold vertexStep at hstep
  simp only [Option.bind_eq_some, Option.map_eq_some'] at hstep
  obtain ⟨rd, -, p, -, coeffs, hc, hv⟩ := hstep
  subst hv
  exact hc

/-- C26.  After every run of the vertex loop of `GeneratePRT` over `V` vertices the
coefficient vector has exactly `V * nCoefficients` entries; it is the blocks of the
vertices one after the other, block `i` being the `nCoefficients` values that
`StorePRTResult` appends for vertex `i` to whatever vector it is given (it only appends:
what it is given stays in front, unchanged); coefficient `j` of vertex `i` is at index
`i * nCoefficients + j`; and whenever `PRTWriter::writeVertices` returns on this vector,
the `i`-th line it writes is `v`, the three positions and then the values of block `i`
in order.  The loop does run to its end when the `int` counters and the arrays are in
range. -/
theorem coefficient_layout (constants : PRTConstantContainer) (vertexData normalData : List α)
    (readback : Nat → List α) (V : Nat) (h : Host (RayData α)) (rayData : RayData α) :
    (∀ s, vertexLoop constants vertexData normalData readback V h rayData = some s →
      s.coefficients.length = V * constants.nCoefficients ∧
      ∃ blocks : Nat → List α,
        s.coefficients = concatUpTo blocks V ∧
        (∀ i, i < V → (blocks i).length = constants.nCoefficients ∧
          ∀ c, StorePRTResult c (readback i) constants = some (c ++ blocks i)) ∧
        (∀ i j, i < V → j < constants.nCoefficients →
          s.coefficients[i * constants.nCoefficients + j]? = (blocks i)[j]?) ∧
        (∀ (ft : FloatText α) (w : PRTWriter α) (out text : List Char) (d : α),
          w.pCoefficient_ = s.coefficients → w.nCoefficients_ = constants.nCoefficients →
          w.vertexSize_ / 3 = V → writeVertices ft w out = some text →
          text = out ++ concatUpTo (fun i =>
            (['v'] ++ spaced
              (((List.range 3).map fun j => w.pVertex_.getD (3 * i + j) d).map ft.put ++
               (blocks i).map ft.put)) ++ ['\n']) V)) ∧
    (V < 2 ^ 31 → constants.nCoefficients + 3 ≤ 2 ^ 31 →
      constants.numThreadGroups < 2 ^ 31 →
      3 * V ≤ vertexData.length → 3 * V ≤ normalData.length →
      (∀ i, i < V →
        constants.nCoefficients * constants.numThreadGroups ≤ (readback i).length) →
      ∃ s, vertexLoop constants vertexData normalData readback V h rayData = some s) := by
  refine ⟨fun s hs => ?_, vertexLoop_returns constants vertexData normalData readback V h
    rayData⟩
  unfold vertexLoop at hs
  obtain ⟨-, hs'⟩ := forInt_eq_some _ _ _ _ hs
  have hinv : ∃ blocks : Nat → List α, s.coefficients = concatUpTo blocks V ∧
      ∀ i, i < V → (blocks i).length = constants.nCoefficients ∧
        ∀ c, StorePRTResult c (readback i) constants = some (c ++ blocks i) := by
    refine forUp_some_invariant (vertexStep constants vertexData normalData readback)
      (fun n t => ∃ blocks : Nat → List α, t.coefficients = concatUpTo blocks n ∧
        ∀ i, i < n → (blocks i).length = constants.nCoefficients ∧
          ∀ c, StorePRTResult c (readback i) constants = some (c ++ blocks i)) V _ s ?_ ?_ hs'
    · exact ⟨fun _ => [], rfl, fun i hi => absurd hi (Nat.not_lt_zero i)⟩
    · intro n hn u v ⟨blocks, hcat, hall⟩ hstep
      have hst := vertexStep_coefficients constants vertexData normalData readback n u v hstep
      obtain ⟨blk, hlen, hfr⟩ := StorePRTResult_frame _ _ _ _ hst
      have hv : v.coefficients = u.coefficients ++ blk := by
        have := hfr u.coefficients
        rw [hst] at this
        exact Option.some.inj this
      refine ⟨fun i => if i = n then blk else blocks i, ?_, ?_⟩
      · rw [hv, hcat, concatUpTo]
        have hc : concatUpTo (fun i => if i = n then blk else blocks i) n
            = concatUpTo blocks n := by
          apply concatUpTo_congr
          intro i hi
          have hne : i ≠ n := Nat.ne_of_lt hi
          simp only [if_neg hne]
        rw [hc]
        simp only [if_true]
      · intro i hi
        rcases Nat.lt_succ_iff_lt_or_eq.1 hi with hlt | heq
        · have hne : i ≠ n := Nat.ne_of_lt hlt
          simp only [if_neg hne]
          exact hall i hlt
        · subst heq
          simp only [if_true]
          exact ⟨hlen, hfr⟩
  obtain ⟨blocks, hcat, hall⟩ := hinv
  have hlen : s.coefficients.length = V * constants.nCoefficients := by
    rw [hcat]
    exact concatUpTo_length blocks _ V (fun i hi => (hall i hi).1)
  have hidx : ∀ i j, i < V → j < constants.nCoefficients →
      s.coefficients[i * constants.nCoefficients + j]? = (blocks i)[j]? := by
    intro i j hi hj
    rw [hcat]
    exact getElem?_concatUpTo blocks _ V (fun k hk => (hall k hk).1) i j hi hj
  refine ⟨hlen, blocks, hcat, hall, hidx, ?_⟩
  intro ft w out text d hw hnc hV hwrite
  obtain ⟨hVb, hb⟩ := writeVertices_some_bounds ft w out text hwrite
  rw [hV] at hVb hb
  rcases Nat.eq_zero_or_pos V with h0 | hpos
  · subst h0
    unfold writeVertices at hwrite
    rw [hV, forInt_of_lt _ _ _ (by norm_num)] at hwrite
    simp only [forUp, Option.some.injEq] at hwrite
    simp [concatUpTo, hwrite]
  · have hlast := hb (V - 1) (by omega)
    have heq := writeVertices_eq ft w out d V hV hVb (fun i hi => (hb i hi).1) hlast.2.2
      (by omega) (by rw [hw, hlen, hnc])
    rw [hwrite] at heq
    rw [Option.some.inj heq]
    congr 1
    apply concatUpTo_congr
    intro i hi
    have hblk : ((List.range w.nCoefficients_).map fun j =>
        w.pCoefficient_.getD (i * w.nCoefficients_ + j) d) = blocks i := by
      apply List.ext_getElem?
      intro j
      by_cases hj : j < constants.nCoefficients
      · rw [List.getElem?_map, List.getElem?_range (by rw [hnc]; exact hj)]
        simp only [Option.map_some']
        rw [List.getD_eq_getElem?_getD, hw, hnc, hidx i j hi hj,
          List.getElem?_eq_getElem (by rw [(hall i hi).1]; exact hj)]
        rfl
      · rw [List.getElem?_eq_none (by simp [hnc]; omega),
          List.getElem?_eq_none (by rw [(hall i hi).1]; omega)]
    rw [hblk]

/-- Witness for `coefficient_layout`: one vertex, one coefficient, one thread group. -/
theorem coefficient_layout_witness :
    ∃ s : VertexLoop ℚ,
      vertexLoop ⟨64, 8, 8, 1, 0, 1, 1, 1⟩ [0, 0, 0] [0, 0, 1] (fun _ => [5]) 1 ⟨0, []⟩
        ⟨⟨0, 0, 0, 0⟩, ⟨0, 0, 0, 0⟩, ⟨0, 0, 0, 0⟩, ⟨0, 0, 0, 0⟩⟩ = some s ∧
      s.coefficients.length
        = 1 * (⟨64, 8, 8, 1, 0, 1, 1, 1⟩ : PRTConstantContainer).nCoefficients := by
  have t := coefficient_layout ⟨64, 8, 8, 1, 0, 1, 1, 1⟩ ([0, 0, 0] : List ℚ) [0, 0, 1]
    (fun _ => [5]) 1 ⟨0, []⟩ ⟨⟨0, 0, 0, 0⟩, ⟨0, 0, 0, 0⟩, ⟨0, 0, 0, 0⟩, ⟨0, 0, 0, 0⟩⟩
  obtain ⟨s, hs⟩ := t.2 (by norm_num) (by norm_num) (by norm_num) (by simp) (by simp)
    (fun i _ => by simp)
  exact ⟨s, hs, (t.1 s hs).1⟩

end LayoutTheorems

/-! ## Thread groups, partial sums and buffer sizes -/

theorem dispatch_mem_integrator {α : Type} (constants : PRTConstantContainer)
    (rayData : RayData α) (cmds : List (Command (RayData α))) (rd : RayData α)
    (h : PopulateIntegrator constants rayData = some (cmds, rd)) (x y z : Nat)
    (hm : Command.Dispatch x y z ∈ cmds) :
    x = constants.numEventsX % 2 ^ 32 / 8 ∧ y = constants.numEventsX % 2 ^ 32 / 8 ∧ z = 1 := by
  unfold PopulateIntegrator at h
  simp only [Option.map_eq_some'] at h
  obtain ⟨s, hs, hmk⟩ := h
  obtain ⟨-, hs'⟩ := forInt_eq_some _ _ _ _ hs
  have hP := forUp_preserves (integrateStep (α := α) constants)
    (fun s => ∀ x y z, Command.Dispatch x y z ∈ s.1 →
      x = constants.numEventsX % 2 ^ 32 / 8 ∧ y = constants.numEventsX % 2 ^ 32 / 8 ∧ z = 1)
    (by
      intro i t u ht hstep x y z hmem
      unfold integrateStep at hstep
      split at hstep
      · cases hstep
      · simp only [Option.some.injEq] at hstep
        subst hstep
        rcases List.mem_append.1 hmem with h1 | h1
        · exact ht x y z h1
        · simp at h1
          exact ⟨h1.1, h1.2.1, h1.2.2⟩)
    _ _ s (by intro x y z hmem; simp at hmem) hs'
  simp only [Prod.mk.injEq] at hmk
  rw [← hmk.1] at hm
  rcases List.mem_append.1 hm with h1 | h1
  · exact hP x y z h1
  · simp at h1

theorem dispatch_mem_em (constants : EMConstantContainer) (cmds : List (Command EMSETTINGS))
    (h : emCommands constants = some cmds) (x y z : Nat)
    (hm : Command.Dispatch x y z ∈ cmds) :
    x = constants.numEventsX / 8 % 2 ^ 32 ∧ y = constants.numEventsX / 8 % 2 ^ 32 ∧ z = 1 := by
  unfold emCommands at h
  simp only [Option.map_eq_some'] at h
  obtain ⟨s, hs, hmk⟩ := h
  obtain ⟨-, hs'⟩ := forInt_eq_some _ _ _ _ hs
  have hP := forUp_preserves (emStep constants)
    (fun s => ∀ x y z, Command.Dispatch x y z ∈ s →
      x = constants.numEventsX / 8 % 2 ^ 32 ∧ y = constants.numEventsX / 8 % 2 ^ 32 ∧ z = 1)
    (by
      intro i t u ht hstep x y z hmem
      unfold emStep at hstep
      split at hstep
      · cases hstep
      · simp only [Option.some.injEq] at hstep
        subst hstep
        rcases List.mem_append.1 hmem with h1 | h1
        · exact ht x y z h1
        · simp at h1
          exact ⟨h1.1, h1.2.1, h1.2.2⟩)
    _ _ s (by intro x y z hmem; simp at hmem) hs'
  rw [← hmk] at hm
  rcases List.mem_append.1 hm with h1 | h1
  · exact hP x y z h1
  · simp at h1

/-- The thread groups of one dispatch: for a plan whose `numEventsX` is below `2 ^ 32`,
`(numEventsX / 8)²` is `numThreadGroups`. -/
theorem roundInput_groups (n s : Nat) (hX : (RoundInput n s).roundedNumEventsX < 2 ^ 32) :
    (RoundInput n s).roundedNumEventsX / 8 * ((RoundInput n s).roundedNumEventsX / 8)
      = (RoundInput n s).roundedNumEvents / (8 * 8) := by
  obtain ⟨h8, -, hsq, -, -⟩ := planInvariantExact_roundInput 0 n s (by norm_num) hX
  obtain ⟨q, hq⟩ := h8
  rw [← hsq, hq]
  have e1 : 8 * q / 8 = q := by omega
  have e2 : 8 * q * (8 * q) = q * q * (8 * 8) := by ring
  rw [e1, e2, Nat.mul_div_cancel _ (by norm_num)]

theorem prtReadbackWidth_eq (c : PRTConstantContainer)
    (h : c.nCoefficients * c.numThreadGroups * 4 < 2 ^ 64) :
    prtReadbackWidth c = 4 * (c.nCoefficients * c.numThreadGroups) := by
  unfold prtReadbackWidth SetBuffer
  generalize c.nCoefficients * c.numThreadGroups = P at h
  omega

theorem emReadbackWidth_eq (c : EMConstantContainer)
    (h : 12 * c.nCoefficients * c.numThreadGroups < 2 ^ 64) :
    emReadbackWidth c = 4 * (c.nCoefficients * c.numThreadGroups * 3) := by
  unfold emReadbackWidth SetBuffer
  rw [Nat.mul_assoc] at h
  generalize c.nCoefficients * c.numThreadGroups = P at h
  omega

section ReducerTheorems
variable {α : Type} [Field α]

theorem StoreEMResult_returns (coefficients readback : List α)
    (constants : EMConstantContainer)
    (hn : constants.nCoefficients < 2 ^ 31) (ht : constants.numThreadGroups < 2 ^ 31)
    (hB : constants.nCoefficients * constants.numThreadGroups * 3 ≤ readback.length) :
    ∃ out, StoreEMResult coefficients readback constants = some out := by
  unfold StoreEMResult
  rw [forInt_of_lt _ _ _ hn]
  obtain ⟨t, ht', -⟩ := forUp_invariant
    (fun j coeffs =>
      (forInt (fun k (total : α × α × α) =>
          (readback[((j * constants.numThreadGroups + k) * 3) % 2 ^ 64]?).bind fun b0 =>
          (readback[((j * constants.numThreadGroups + k) * 3 + 1) % 2 ^ 64]?).bind fun b1 =>
          (readback[((j * constants.numThreadGroups + k) * 3 + 2) % 2 ^ 64]?).map fun b2 =>
            (total.1 + b0, total.2.1 + b1, total.2.2 + b2))
        constants.numThreadGroups (0, 0, 0)).map fun total =>
          coeffs ++ [total.1 / (constants.numEvents : α) * 4 * 3.14159,
            total.2.1 / (constants.numEvents : α) * 4 * 3.14159,
            total.2.2 / (constants.numEvents : α) * 4 * 3.14159])
    (fun _ _ => True) constants.nCoefficients coefficients trivial
    (fun j hj u _ => by
      show ∃ v, (forInt (fun k (total : α × α × α) =>
          (readback[((j * constants.numThreadGroups + k) * 3) % 2 ^ 64]?).bind fun b0 =>
          (readback[((j * constants.numThreadGroups + k) * 3 + 1) % 2 ^ 64]?).bind fun b1 =>
          (readback[((j * constants.numThreadGroups + k) * 3 + 2) % 2 ^ 64]?).map fun b2 =>
            (total.1 + b0, total.2.1 + b1, total.2.2 + b2))
        constants.numThreadGroups (0, 0, 0)).map (fun total =>
          u ++ [total.1 / (constants.numEvents : α) * 4 * 3.14159,
            total.2.1 / (constants.numEvents : α) * 4 * 3.14159,
            total.2.2 / (constants.numEvents : α) * 4 * 3.14159]) = some v ∧ True
      rw [forInt_of_lt _ _ _ ht]
      obtain ⟨w, hw, -⟩ := forUp_invariant
        (fun k (total : α × α × α) =>
          (readback[((j * constants.numThreadGroups + k) * 3) % 2 ^ 64]?).bind fun b0 =>
          (readback[((j * constants.numThreadGroups + k) * 3 + 1) % 2 ^ 64]?).bind fun b1 =>
          (readback[((j * constants.numThreadGroups + k) * 3 + 2) % 2 ^ 64]?).map fun b2 =>
            (total.1 + b0, total.2.1 + b1, total.2.2 + b2))
        (fun _ _ => True) constants.numThreadGroups (0, 0, 0) trivial
        (fun k hk total _ => by
          show ∃ v,
            ((readback[((j * constants.numThreadGroups + k) * 3) % 2 ^ 64]?).bind fun b0 =>
            (readback[((j * constants.numThreadGroups + k) * 3 + 1) % 2 ^ 64]?).bind fun b1 =>
            (readback[((j * constants.numThreadGroups + k) * 3 + 2) % 2 ^ 64]?).map fun b2 =>
              (total.1 + b0, total.2.1 + b1, total.2.2 + b2)) = some v ∧ True
          have hlt : j * constants.numThreadGroups + k
              < constants.nCoefficients * constants.numThreadGroups := by
            have : (j + 1) * constants.numThreadGroups
                ≤ constants.nCoefficients * constants.numThreadGroups :=
              Nat.mul_le_mul_right _ hj
            rw [Nat.succ_mul] at this
            omega
          have hb : constants.nCoefficients * constants.numThreadGroups < 2 ^ 31 * 2 ^ 31 :=
            Nat.mul_lt_mul'' hn ht
          have h3 : (2 : Nat) ^ 31 * 2 ^ 31 * 3 < 2 ^ 64 := by norm_num
          rw [Nat.mod_eq_of_lt (by omega), Nat.mod_eq_of_lt (by omega),
            Nat.mod_eq_of_lt (by omega),
            getElem?_getD readback _ 0 (by omega), getElem?_getD readback _ 0 (by omega),
            getElem?_getD readback _ 0 (by omega)]
          exact ⟨_, rfl, trivial⟩)
      rw [hw]
      exact ⟨_, rfl, trivial⟩)
  exact ⟨t, ht'⟩

/-- C25 (amended).  For every descriptor whose rounded `numEventsX` is below `2 ^ 32`:
every dispatch that `PopulateIntegrator` or `ExecuteEMPipeline` records has
`numThreadGroups` thread groups, `(numEventsX / 8) * (numEventsX / 8) * 1`; and with
`nCoefficients` and `numThreadGroups` below `2 ^ 31`, `StorePRTResult` finds every sum it
reads inside a read-back buffer of the width set by `InitializePRTResources`, and so
does `StoreEMResult` for the width set by `InitializeEMResources` when that width,
`12 * nCoefficients * numThreadGroups` bytes, is below `2 ^ 64`. -/
theorem groups_eq_numThreadGroups (m n s t v px py : Nat)
    (hX : (RoundInput n s).roundedNumEventsX < 2 ^ 32) :
    (∀ (rayData rd : RayData α) (cmds : List (Command (RayData α))) (x y z : Nat),
      PopulateIntegrator (InitializePRTConstants ⟨m, n, s⟩ t v) rayData = some (cmds, rd) →
      Command.Dispatch x y z ∈ cmds →
      x * y * z = (InitializePRTConstants ⟨m, n, s⟩ t v).numThreadGroups) ∧
    (∀ (cmds : List (Command EMSETTINGS)) (x y z : Nat),
      emCommands (InitializeEMConstants ⟨m, n, s⟩ px py) = some cmds →
      Command.Dispatch x y z ∈ cmds →
      x * y * z = (InitializeEMConstants ⟨m, n, s⟩ px py).numThreadGroups) ∧
    ((InitializePRTConstants ⟨m, n, s⟩ t v).nCoefficients < 2 ^ 31 →
      (InitializePRTConstants ⟨m, n, s⟩ t v).numThreadGroups < 2 ^ 31 →
      ∀ coefficients readback : List α,
        4 * readback.length = prtReadbackWidth (InitializePRTConstants ⟨m, n, s⟩ t v) →
        ∃ out, StorePRTResult coefficients readback (InitializePRTConstants ⟨m, n, s⟩ t v)
          = some out) ∧
    ((InitializeEMConstants ⟨m, n, s⟩ px py).nCoefficients < 2 ^ 31 →
      (InitializeEMConstants ⟨m, n, s⟩ px py).numThreadGroups < 2 ^ 31 →
      12 * (InitializeEMConstants ⟨m, n, s⟩ px py).nCoefficients
        * (InitializeEMConstants ⟨m, n, s⟩ px py).numThreadGroups < 2 ^ 64 →
      ∀ coefficients readback : List α,
        4 * readback.length = emReadbackWidth (InitializeEMConstants ⟨m, n, s⟩ px py) →
        ∃ out, StoreEMResult coefficients readback (InitializeEMConstants ⟨m, n, s⟩ px py)
          = some out) := by
  have hg := roundInput_groups n s hX
  have hmod : (RoundInput n s).roundedNumEventsX % 2 ^ 32
      = (RoundInput n s).roundedNumEventsX := Nat.mod_eq_of_lt hX
  have hmod' : (RoundInput n s).roundedNumEventsX / 8 % 2 ^ 32
      = (RoundInput n s).roundedNumEventsX / 8 :=
    Nat.mod_eq_of_lt (lt_of_le_of_lt (Nat.div_le_self _ _) hX)
  refine ⟨?_, ?_, ?_, ?_⟩
  · intro rayData rd cmds x y z hp hmem
    obtain ⟨hx, hy, hz⟩ := dispatch_mem_integrator _ rayData cmds rd hp x y z hmem
    rw [hx, hy, hz, InitializePRTConstants_eq]
    simp only [hmod, Nat.mul_one]
    exact hg
  · intro cmds x y z hp hmem
    obtain ⟨hx, hy, hz⟩ := dispatch_mem_em _ cmds hp x y z hmem
    rw [hx, hy, hz, InitializeEMConstants_eq]
    simp only [hmod', Nat.mul_one]
    exact hg
  · intro hn ht coefficients readback hw
    apply StorePRTResult_returns coefficients readback _ hn ht
    have hb : (InitializePRTConstants ⟨m, n, s⟩ t v).nCoefficients
        * (InitializePRTConstants ⟨m, n, s⟩ t v).numThreadGroups < 2 ^ 31 * 2 ^ 31 :=
      Nat.mul_lt_mul'' hn ht
    have h3 : (2 : Nat) ^ 31 * 2 ^ 31 * 4 = 2 ^ 64 := by norm_num
    rw [prtReadbackWidth_eq _ (by omega)] at hw
    omega
  · intro hn ht h12 coefficients readback hw
    apply StoreEMResult_returns coefficients readback _ hn ht
    rw [emReadbackWidth_eq _ h12] at hw
    omega

/-- Witness for `groups_eq_numThreadGroups`: the descriptor `MaxL = 2`,
`NumEvents = 100`, `SHGridNum = 10` (9 coefficients, 4 thread groups), with read-back
buffers of `9 * 4` and `9 * 4 * 3` floats. -/
theorem groups_eq_numThreadGroups_witness :
    (∃ (cmds : List (Command (RayData ℚ))) (rd : RayData ℚ),
      PopulateIntegrator (InitializePRTConstants ⟨2, 100, 10⟩ 12 8)
        ⟨⟨0, 0, 0, 0⟩, ⟨0, 0, 1, 0⟩, ⟨0, 0, 0, 0⟩, ⟨16, 1, 12, 0⟩⟩ = some (cmds, rd) ∧
      ∀ x y z, Command.Dispatch x y z ∈ cmds →
        x * y * z = (InitializePRTConstants ⟨2, 100, 10⟩ 12 8).numThreadGroups) ∧
    (∃ out, StorePRTResult ([] : List ℚ) (List.replicate 36 0)
      (InitializePRTConstants ⟨2, 100, 10⟩ 12 8) = some out) ∧
    (∃ out, StoreEMResult ([] : List ℚ) (List.replicate 108 0)
      (InitializeEMConstants ⟨2, 100, 10⟩ 4 2) = some out) := by
  have hX : (RoundInput 100 10).roundedNumEventsX < 2 ^ 32 := by
    rw [RoundInput_100_10]; norm_num
  have t := groups_eq_numThreadGroups (α := ℚ) 2 100 10 12 8 4 2 hX
  have hc : InitializePRTConstants ⟨2, 100, 10⟩ 12 8 =
      { maxL := 2, nCoefficients := 9, triangleNum := 12, vertexNum := 8,
        numEvents := 256, numEventsX := 16, shGridNum := 16, numThreadGroups := 4 } := by
    rw [InitializePRTConstants_eq, RoundInput_100_10]; norm_num
  have he : InitializeEMConstants ⟨2, 100, 10⟩ 4 2 =
      { maxL := 2, nCoefficients := 9, numPixelsX := 4, numPixelsY := 2,
        numEvents := 256, numEventsX := 16, shGridNum := 16, numThreadGroups := 4 } := by
    rw [InitializeEMConstants_eq, RoundInput_100_10]; norm_num
  refine ⟨?_, ?_, ?_⟩
  · obtain ⟨⟨cmds, rd⟩, hp⟩ := PopulateIntegrator_returns
      (InitializePRTConstants ⟨2, 100, 10⟩ 12 8)
      (⟨⟨0, 0, 0, 0⟩, ⟨0, 0, 1, 0⟩, ⟨0, 0, 0, 0⟩, ⟨16, 1, 12, 0⟩⟩ : RayData ℚ)
      (by rw [hc]; norm_num)
    exact ⟨cmds, rd, hp, fun x y z hm => t.1 _ rd cmds x y z hp hm⟩
  · exact t.2.2.1 (by rw [hc]; norm_num) (by rw [hc]; norm_num) [] (List.replicate 36 0)
      (by rw [hc]; norm_num [prtReadbackWidth, SetBuffer])
  · exact t.2.2.2 (by rw [he]; norm_num) (by rw [he]; norm_num) (by rw [he]; norm_num) []
      (List.replicate 108 0) (by rw [he]; norm_num [emReadbackWidth, SetBuffer])

/-- C25 as stated fails for the descriptor `NumEvents = 2 ^ 64 - 1`: `RoundInput` gives
`numEventsX = 2 ^ 32` while `numEvents = 64 * (2 ^ 29)²` has wrapped to `0`, so
`numThreadGroups` is `0`, but `ExecuteEMPipeline` records a dispatch of
`2 ^ 29 * 2 ^ 29 * 1` thread groups. -/
theorem groups_counterexample :
    (InitializeEMConstants ⟨0, 18446744073709551615, 18446744073709551615⟩ 4 2).numThreadGroups
      = 0 ∧
    ∃ cmds,
      emCommands (InitializeEMConstants ⟨0, 18446744073709551615, 18446744073709551615⟩ 4 2)
        = some cmds ∧
      Command.Dispatch 536870912 536870912 1 ∈ cmds ∧
      536870912 * 536870912 * 1 ≠
        (InitializeEMConstants ⟨0, 18446744073709551615, 18446744073709551615⟩ 4
          2).numThreadGroups := by
  have he : InitializeEMConstants ⟨0, 18446744073709551615, 18446744073709551615⟩ 4 2 =
      { maxL := 0, nCoefficients := 1, numPixelsX := 4, numPixelsY := 2,
        numEvents := 0, numEventsX := 4294967296, shGridNum := 0, numThreadGroups := 0 } := by
    rw [InitializeEMConstants_eq, RoundInput_max]; norm_num
  rw [he]
  refine ⟨rfl, _, rfl, ?_, by norm_num⟩
  simp

end ReducerTheorems

/-! ## `GenerateSHvector` -/

/-- A loop whose iteration `i` appends the block `blk i k` to column `k`, for every
column: after `n` iterations column `k` has grown by the blocks `0 .. n - 1`. -/
theorem forUp_columns {α : Type} (body : Nat → List (List α) → Option (List (List α)))
    (blk : Nat → Nat → List α) (nC n : Nat)
    (hbody : ∀ i, i < n → ∀ v : List (List α), v.length = nC →
      ∃ w, body i v = some w ∧ w.length = nC ∧
        ∀ k, k < nC → w[k]? = some (v.getD k [] ++ blk i k))
    (v0 : List (List α)) (h0 : v0.length = nC) :
    ∃ w, forUp body n v0 = some w ∧ w.length = nC ∧
      ∀ k, k < nC → w[k]? = some (v0.getD k [] ++ concatUpTo (fun i => blk i k) n) := by
  apply forUp_invariant body
    (fun m w => w.length = nC ∧
      ∀ k, k < nC → w[k]? = some (v0.getD k [] ++ concatUpTo (fun i => blk i k) m))
    n v0
  · refine ⟨h0, fun k hk => ?_⟩
    simp only [concatUpTo, List.append_nil]
    exact getElem?_getD v0 k [] (by omega)
  · intro m hm w ⟨hlen, hcol⟩
    obtain ⟨w1, hw1, hlen1, hcol1⟩ := hbody m hm w hlen
    refine ⟨w1, hw1, hlen1, fun k hk => ?_⟩
    rw [hcol1 k hk, List.getD_eq_getElem?_getD, hcol k hk, Option.getD_some, concatUpTo,
      List.append_assoc]

section SHGridTheorems
variable {α : Type} [Field α]

theorem forUp_pushSH (sh : List α) (n : Nat) (v : List (List α)) (hs : n ≤ sh.length)
    (hv : n ≤ v.length) :
    ∃ w, forUp (pushSH sh) n v = some w ∧ w.length = v.length ∧
      (∀ k, k < n → w[k]? = some (v.getD k [] ++ [sh.getD k 0])) ∧
      ∀ k, n ≤ k → w[k]? = v[k]? := by
  induction n with
  | zero => exact ⟨v, rfl, rfl, fun k hk => absurd hk (Nat.not_lt_zero k), fun k _ => rfl⟩
  | succ n ih =>
    obtain ⟨w, hw, hlen, hlt, hge⟩ := ih (by omega) (by omega)
    have hwn : w[n]? = some (v.getD n []) := by
      rw [hge n (le_refl n)]
      exact getElem?_getD v n [] (by omega)
    refine ⟨w.set n (v.getD n [] ++ [sh.getD n 0]), ?_, by rw [List.length_set, hlen], ?_, ?_⟩
    · rw [forUp, hw, Option.some_bind]
      unfold pushSH
      rw [getElem?_getD sh n 0 (by omega), Option.some_bind, hwn, Option.map_some']
    · intro k hk
      rcases Nat.lt_succ_iff_lt_or_eq.1 hk with h1 | h1
      · rw [List.getElem?_set_ne (by omega)]
        exact hlt k h1
      · subst h1
        rw [List.getElem?_set_self (by omega)]
    · intro k hk
      rw [List.getElem?_set_ne (by omega)]
      exact hge k (by omega)

/-- What `GenerateSHvector` returns: column `k` has grown by the rows `i = 0 .. G - 1`,
row `i` holding entry `k` of the `CalcSH` vectors of the grid points `(i, 0 .. G - 1)`. -/
theorem GenerateSHvector_columns (ops : MathOps α)
    (hpow : ∀ m : Nat, ops.pow (-1) (m : α) = (-1) ^ m) (G maxL : Nat) (hG : G < 2 ^ 31)
    (hL : (maxL + 1) * (maxL + 1) < 2 ^ 31) (init : List (List α))
    (hinit : init.length = (maxL + 1) * (maxL + 1)) :
    ∃ v, GenerateSHvector ops G maxL init = some v ∧ v.length = (maxL + 1) * (maxL + 1) ∧
      ∀ k, k < (maxL + 1) * (maxL + 1) →
        v[k]? = some (init.getD k [] ++ concatUpTo
          (fun i => (List.range G).map fun j => (shCell ops G maxL i j).getD k 0) G) := by
  have hN : maxL + 1 < 2 ^ 31 := by nlinarith
  have hnc : (toInt32 (((maxL + 1) * (maxL + 1)) % 2 ^ 64)).toNat = (maxL + 1) * (maxL + 1) := by
    rw [Nat.mod_eq_of_lt (by omega), toInt32_of_lt _ hL, Int.toNat_natCast]
  unfold GenerateSHvector
  simp only [hnc]
  rw [forInt_of_lt _ _ _ hG]
  apply forUp_columns _
    (fun i k => (List.range G).map fun j => (shCell ops G maxL i j).getD k 0)
    ((maxL + 1) * (maxL + 1)) G _ init hinit
  intro i hi v hv
  rw [forInt_of_lt _ _ _ hG]
  obtain ⟨w, hw, hlen, hcol⟩ := forUp_columns
    (fun j v =>
      (CalcSH ops maxL (ops.cos ((3.1315927 : α) * (j : α) / ((G - 1 : Nat) : α)))
        (2 * (3.1315927 : α) * (i : α) / ((G - 1 : Nat) : α))).bind fun sh =>
        forUp (pushSH sh) ((maxL + 1) * (maxL + 1)) v)
    (fun j k => [(shCell ops G maxL i j).getD k 0])
    ((maxL + 1) * (maxL + 1)) G
    (by
      intro j hj u hu
      obtain ⟨sh, hsh, hshlen, -⟩ := CalcSH_spec ops hpow maxL hN
        (ops.cos ((3.1315927 : α) * (j : α) / ((G - 1 : Nat) : α)))
        (2 * (3.1315927 : α) * (i : α) / ((G - 1 : Nat) : α))
      rw [pow_two] at hshlen
      obtain ⟨w, hw, hlen, hlt, -⟩ := forUp_pushSH sh ((maxL + 1) * (maxL + 1)) u
        (by omega) (by omega)
      refine ⟨w, ?_, by omega, fun k hk => ?_⟩
      · show (CalcSH ops maxL _ _).bind _ = some w
        rw [hsh, Option.some_bind, hw]
      · rw [hlt k hk]
        show some (u.getD k [] ++ [sh.getD k 0])
          = some (u.getD k [] ++ [(shCell ops G maxL i j).getD k 0])
        unfold shCell
        rw [hsh, Option.getD_some])
    v hv
  refine ⟨w, hw, hlen, fun k hk => ?_⟩
  rw [hcol k hk, concatUpTo_singleton]

theorem specY_one_zero (ops : MathOps α) (hpow : ∀ a : α, ops.pow a 0 = 1) (x phi : α) :
    specY ops x phi 1 0 = ops.sqrt (3 / (4 * PI)) * x := by
  simp only [specY, specK, specLegendre, specA, Int.natAbs_zero, Nat.sub_zero, Nat.add_zero,
    Nat.factorial_one, Nat.cast_one, mul_one, lt_irrefl, if_false, Nat.cast_zero, zero_div,
    hpow, pow_zero, Nat.mul_zero, Nat.zero_sub, Nat.doubleFactorial, mul_zero, zero_add]
  rw [show ((2 : α) + 1) = 3 by norm_num]

end SHGridTheorems

/-- C24, the failing input: grid size `G = 2`, `maxL = 1`, four empty vectors, real
arithmetic with the real `sqrt`, `sin`, `cos` and power function.  `GenerateSHvector`
returns, and entry `0 * G + 1` of `shVector[2]` (row `i = 0`, column `j = 1`, the
harmonic `l = 1`, `m = 0`) is `sqrt(3 / (4 PI)) * cos(3.1315927)`: the polar angle of
the last column is `3.1315927`, the constant `PI` of `GenerateSHvector`, and not
`3.1415926`, the constant `PI` of the normalisation in `CalcCoefficient`.  The value the
claim gives for this entry, `CalcSH(maxL, cos(theta_1), phi_0)[2]` with
`theta_1 = PI * 1 / (G - 1)`, is `sqrt(3 / (4 PI)) * cos(3.1415926)`, which is
different. -/
theorem GenerateSHvector_pi :
    ∃ v col sh,
      GenerateSHvector (⟨Real.sqrt, Real.sin, Real.cos, fun b e => b ^ e⟩ : MathOps ℝ) 2 1
        (List.replicate 4 []) = some v ∧
      v[2]? = some col ∧
      col[0 * 2 + 1]? = some (Real.sqrt (3 / (4 * PI)) * Real.cos 3.1315927) ∧
      CalcSH (⟨Real.sqrt, Real.sin, Real.cos, fun b e => b ^ e⟩ : MathOps ℝ) 1
        (Real.cos (specTheta PI 2 1)) (specPhi PI 2 0) = some sh ∧
      sh[2]? = some (Real.sqrt (3 / (4 * PI)) * Real.cos 3.1415926) ∧
      col[0 * 2 + 1]? ≠ sh[2]? := by
  have hpow : ∀ m : Nat, (⟨Real.sqrt, Real.sin, Real.cos, fun b e => b ^ e⟩ : MathOps ℝ).pow
      (-1) (m : ℝ) = (-1) ^ m := fun m => Real.rpow_natCast (-1) m
  have hpow0 : ∀ a : ℝ, (⟨Real.sqrt, Real.sin, Real.cos, fun b e => b ^ e⟩ : MathOps ℝ).pow
      a 0 = 1 := fun a => Real.rpow_zero a
  obtain ⟨v, hv, -, hcol⟩ := GenerateSHvector_columns
    (⟨Real.sqrt, Real.sin, Real.cos, fun b e => b ^ e⟩ : MathOps ℝ) hpow 2 1 (by norm_num)
    (by norm_num) (List.replicate 4 []) (by simp)
  obtain ⟨sc, hc, -, hcent⟩ := CalcSH_spec
    (⟨Real.sqrt, Real.sin, Real.cos, fun b e => b ^ e⟩ : MathOps ℝ) hpow 1 (by norm_num)
    (Real.cos ((3.1315927 : ℝ) * ((1 : Nat) : ℝ) / ((2 - 1 : Nat) : ℝ)))
    (2 * (3.1315927 : ℝ) * ((0 : Nat) : ℝ) / ((2 - 1 : Nat) : ℝ))
  obtain ⟨sh, hsh, -, hshent⟩ := CalcSH_spec
    (⟨Real.sqrt, Real.sin, Real.cos, fun b e => b ^ e⟩ : MathOps ℝ) hpow 1 (by norm_num)
    (Real.cos (specTheta PI 2 1)) (specPhi PI 2 0)
  have hPI : (PI : ℝ) = 3.1415926 := rfl
  have e1 : sc[2]? = some (Real.sqrt (3 / (4 * PI)) * Real.cos 3.1315927) := by
    have := hcent 1 1 (le_refl 1) (by norm_num)
    rw [show ((1 : Nat) : Int) - (1 : Nat) = 0 by norm_num, specY_one_zero _ hpow0] at this
    rw [show 1 * 1 + 1 = 2 by norm_num] at this
    rw [this]
    norm_num
  have e2 : sh[2]? = some (Real.sqrt (3 / (4 * PI)) * Real.cos 3.1415926) := by
    have := hshent 1 1 (le_refl 1) (by norm_num)
    rw [show ((1 : Nat) : Int) - (1 : Nat) = 0 by norm_num, specY_one_zero _ hpow0] at this
    rw [show 1 * 1 + 1 = 2 by norm_num] at this
    rw [this, specTheta, hPI]
    norm_num
  have hcell : (shCell (⟨Real.sqrt, Real.sin, Real.cos, fun b e => b ^ e⟩ : MathOps ℝ) 2 1 0
      1).getD 2 0 = Real.sqrt (3 / (4 * PI)) * Real.cos 3.1315927 := by
    unfold shCell
    rw [hc, Option.getD_some, List.getD_eq_getElem?_getD, e1, Option.getD_some]
  have e3 : (List.replicate 4 ([] : List ℝ)).getD 2 [] ++ concatUpTo
      (fun i => (List.range 2).map fun j =>
        (shCell (⟨Real.sqrt, Real.sin, Real.cos, fun b e => b ^ e⟩ : MathOps ℝ) 2 1 i j).getD
          2 0) 2 =
      [(shCell (⟨Real.sqrt, Real.sin, Real.cos, fun b e => b ^ e⟩ : MathOps ℝ) 2 1 0 0).getD 2 0,
       (shCell (⟨Real.sqrt, Real.sin, Real.cos, fun b e => b ^ e⟩ : MathOps ℝ) 2 1 0 1).getD 2 0,
       (shCell (⟨Real.sqrt, Real.sin, Real.cos, fun b e => b ^ e⟩ : MathOps ℝ) 2 1 1 0).getD 2 0,
       (shCell (⟨Real.sqrt, Real.sin, Real.cos, fun b e => b ^ e⟩ : MathOps ℝ) 2 1 1 1).getD 2
         0] := by
    simp [concatUpTo, List.range_succ, List.replicate]
  have hc1 : ((List.replicate 4 ([] : List ℝ)).getD 2 [] ++ concatUpTo
      (fun i => (List.range 2).map fun j =>
        (shCell (⟨Real.sqrt, Real.sin, Real.cos, fun b e => b ^ e⟩ : MathOps ℝ) 2 1 i j).getD
          2 0) 2)[0 * 2 + 1]? = some (Real.sqrt (3 / (4 * PI)) * Real.cos 3.1315927) := by
    rw [e3, ← hcell]
    rfl
  refine ⟨v, _, sh, hv, hcol 2 (by norm_num), hc1, hsh, e2, ?_⟩
  rw [hc1, e2]
  intro heq
  have heq' := Option.some.inj heq
  have hs : 0 < Real.sqrt (3 / (4 * (PI : ℝ))) := by
    apply Real.sqrt_pos.2
    rw [hPI]; norm_num
  have hcos : Real.cos 3.1415926 < Real.cos 3.1315927 :=
    Real.cos_lt_cos_of_nonneg_of_le_pi (by norm_num)
      (le_of_lt (lt_trans (by norm_num) Real.pi_gt_d20)) (by norm_num)
  have := mul_lt_mul_of_pos_left hcos hs
  rw [heq'] at this
  exact lt_irrefl _ this

/-! ## `HDRReader::DecodeByteCode` -/

/-- A round that goes on has moved `iter` forward, and not beyond `cend()`. -/
theorem decodeStep_next (width_ height_ : Nat) (byteData : List Nat) (s t : DecodeState)
    (h : decodeStep width_ height_ byteData s = .next t) :
    s.pos < t.pos ∧ t.pos ≤ byteData.length := by
  unfold decodeStep at h
  split at h
  · split at h
    · cases h
    · split at h
      · split at h
        · cases h
        · split at h
          · cases h
          · split at h
            · cases h
            · simp only [DecodeStep.next.injEq] at h
              subst h
              simp only
              omega
      · split at h
        · cases h
        · split at h
          · cases h
          · split at h
            · cases h
            · simp only [DecodeStep.next.injEq] at h
              subst h
              simp only
              omega
  · split at h
    · split at h
      · simp only [DecodeStep.next.injEq] at h
        subst h
        simp only
        omega
      · cases h
    · cases h

/-- The rounds of `decodeFrom` never run out: with more rounds left than bytes behind
`iter`, a run ends by itself. -/
theorem decodeFrom_ne_none (width_ height_ : Nat) (byteData : List Nat) (fuel : Nat) :
    ∀ s : DecodeState, s.pos ≤ byteData.length → byteData.length < fuel + s.pos →
      decodeFrom width_ height_ byteData fuel s ≠ none := by
  induction fuel with
  | zero => intro s h1 h2; omega
  | succ n ih =>
    intro s h1 h2
    rw [decodeFrom]
    cases hstep : decodeStep width_ height_ byteData s with
    | done r => simp
    | next t =>
      obtain ⟨h3, h4⟩ := decodeStep_next width_ height_ byteData s t hstep
      exact ih t h4 (by omega)

/-- The call `DecodeByteCode` always ends: as a return or as undefined behaviour. -/
theorem DecodeByteCode_ne_none (width_ height_ : Nat) (byteData : List Nat) :
    DecodeByteCode width_ height_ byteData ≠ none := by
  unfold DecodeByteCode
  split
  · split
    · exact decodeFrom_ne_none _ _ _ _ _ (by simpa using ‹4 ≤ byteData.length›) (by simp)
    · simp
  · simp

/-- C29, the failing inputs.  For a `1 × 1` image (a decoded buffer of 4 floats) and the
six bytes `2 2 0 1 255 7` behind the header, the count byte `255` announces a run of
`127` copies of `7`; `DecodeByteCode` stores them at once, and the fifth store is at
index 4, behind the end of the buffer, before the count is compared with the length of
the scanline.  For the four bytes `2 2 0 1` alone, `iter += 4` leaves `iter` at
`cend()` and `*iter` reads there. -/
theorem DecodeByteCode_overrun :
    (1 * 1 * 4) % 2 ^ 64 = 4 ∧
    DecodeByteCode 1 1 [2, 2, 0, 1, 255, 7] = some (.undefined .writePastEnd) ∧
    DecodeByteCode 1 1 [2, 2, 0, 1] = some (.undefined .readPastEnd) := by
  refine ⟨by norm_num, by decide, by decide⟩

/-! ## `ObjReader::CalcNormal` -/

theorem toIndex_of_nonneg (x : Int) (h0 : 0 ≤ x) (h : x < 2 ^ 64) : toIndex x = x.toNat := by
  unfold toIndex
  rw [Int.emod_eq_of_lt h0 h]

/-- The `size_t` value of a negative `int` `-k`. -/
theorem toIndex_neg_natCast (k : Nat) (h1 : 1 ≤ k) (h2 : k ≤ 2 ^ 31) :
    toIndex (-(k : Int)) = 2 ^ 64 - k := by
  unfold toIndex
  have hk : k ≤ 2 ^ 64 := le_trans h2 (by norm_num)
  have e : (-(k : Int)) % 2 ^ 64 = (((2 ^ 64 - k : Nat) : Int) + (-1) * 2 ^ 64) % 2 ^ 64 := by
    congr 1
    rw [Nat.cast_sub hk]
    push_cast
    ring
  have hlt : (((2 ^ 64 - k : Nat) : Int)) < 2 ^ 64 := by
    have : 2 ^ 64 - k < 2 ^ 64 := Nat.sub_lt (by norm_num) (by omega)
    exact_mod_cast this
  rw [e, Int.add_mul_emod_self, Int.emod_eq_of_lt (Int.natCast_nonneg _) hlt, Int.toNat_natCast]

/-- The left side of the range check for the negative index `-k`. -/
theorem rangeCheck_neg (k : Nat) (h1 : 1 ≤ k) (h2 : k ≤ 2 ^ 31) :
    (toIndex (-(k : Int)) * 3 + 2) % 2 ^ 64 = 2 ^ 64 - (3 * k - 2) := by
  rw [toIndex_neg_natCast k h1 h2]
  have hk : 3 * k - 2 < 2 ^ 64 := lt_of_le_of_lt (Nat.sub_le _ _)
    (lt_of_le_of_lt (Nat.mul_le_mul_left 3 h2) (by norm_num))
  have hk64 : k ≤ 2 ^ 64 := le_trans h2 (by norm_num)
  have e : (2 ^ 64 - k) * 3 + 2 = (2 ^ 64 - (3 * k - 2)) + 2 * 2 ^ 64 := by
    generalize (2 : Nat) ^ 64 = M at hk hk64
    omega
  rw [e, Nat.add_mul_mod_self_right, Nat.mod_eq_of_lt (Nat.sub_lt (by norm_num) (by omega))]

/-- The range check in `size_t` arithmetic, for a vector of `3 V` entries below the
largest vector size: an `int` index passes exactly when it is in `[0, V)`. -/
theorem rangeCheck_iff (V : Nat) (x : Int) (hV : 3 * V < 2 ^ 62) (h1 : -2 ^ 31 ≤ x)
    (h2 : x < 2 ^ 31) :
    ¬ 3 * V < (toIndex x * 3 + 2) % 2 ^ 64 ↔ 0 ≤ x ∧ x < V := by
  rcases lt_or_le x 0 with hneg | hpos
  · obtain ⟨k, hk⟩ : ∃ k : Nat, x = -(k : Int) := ⟨(-x).toNat, by omega⟩
    subst hk
    have hk1 : 1 ≤ k := by omega
    have hk2 : k ≤ 2 ^ 31 := by omega
    rw [rangeCheck_neg k hk1 hk2]
    have hbig : 3 * V < 2 ^ 64 - (3 * k - 2) := by
      have h3k : 3 * k - 2 ≤ 2 ^ 62 := le_trans (Nat.sub_le _ _)
        (le_trans (Nat.mul_le_mul_left 3 hk2) (by norm_num))
      have h64 : (2 : Nat) ^ 62 + 2 ^ 62 < 2 ^ 64 := by norm_num
      generalize (2 : Nat) ^ 64 = M at h64
      generalize (2 : Nat) ^ 62 = N at hV h3k h64
      omega
    constructor
    · intro h
      exact absurd hbig h
    · intro ⟨h0, _⟩
      omega
  · obtain ⟨k, hk⟩ : ∃ k : Nat, x = (k : Int) := ⟨x.toNat, by omega⟩
    subst hk
    have hk2 : k < 2 ^ 31 := by exact_mod_cast h2
    rw [toIndex_of_nonneg _ hpos (lt_trans h2 (by norm_num)), Int.toNat_natCast,
      Nat.mod_eq_of_lt (lt_of_lt_of_le (by omega : k * 3 + 2 < 2 ^ 31 * 3 + 2) (by norm_num))]
    constructor
    · intro h
      refine ⟨hpos, ?_⟩
      have : k < V := by omega
      exact_mod_cast this
    · intro ⟨_, hlt⟩
      have : k < V := by exact_mod_cast hlt
      omega

theorem toIndex_of_range (V : Nat) (x : Int) (i : Nat) (hV : 3 * V < 2 ^ 62) (h0 : 0 ≤ x)
    (hlt : x < V) (hi : i < 3) :
    (toIndex x * 3 + i) % 2 ^ 64 < 3 * V := by
  obtain ⟨k, hk⟩ : ∃ k : Nat, x = (k : Int) := ⟨x.toNat, by omega⟩
  subst hk
  have hkV : k < V := by exact_mod_cast hlt
  have hV64 : 3 * V < 2 ^ 64 := lt_trans hV (by norm_num)
  rw [toIndex_of_nonneg _ h0 (by exact_mod_cast (by omega : k < 2 ^ 64)), Int.toNat_natCast,
    Nat.mod_eq_of_lt (by omega)]
  omega

/-- The indices that pass the first loop are in `[0, V)`, one per token. -/
theorem checkIndices_passed (V : Nat) (hV : 3 * V < 2 ^ 62) (ts : List (List Char)) :
    ∀ (acc indices : List Int), checkIndices (3 * V) ts acc = .passed indices →
      (∀ x ∈ acc, 0 ≤ x ∧ x < V) →
      indices.length = acc.length + ts.length ∧ ∀ x ∈ indices, 0 ≤ x ∧ x < V := by
  induction ts with
  | nil =>
    intro acc indices h hacc
    simp only [checkIndices, RangeCheck.passed.injEq] at h
    subst h
    exact ⟨by simp, hacc⟩
  | cons t ts ih =>
    intro acc indices h hacc
    unfold checkIndices at h
    cases hs : stoi t with
    | error e => rw [hs] at h; cases h
    | ok v =>
      rw [hs] at h
      obtain ⟨hv1, hv2⟩ := stoi_range t v hs
      simp only at h
      split at h
      · cases h
      · split at h
        · cases h
        · rename_i hmin hchk
          have hr := (rangeCheck_iff V (v - 1) hV (by omega) (by omega)).1 hchk
          obtain ⟨hl, hall⟩ := ih (acc ++ [v - 1]) indices h (by
            intro x hx
            rcases List.mem_append.1 hx with h1 | h1
            · exact hacc x h1
            · simp only [List.mem_singleton] at h1
              subst h1
              exact hr)
          refine ⟨?_, hall⟩
          rw [hl]
          simp
          omega

/-- Tokens that `std::stoi` reads, none of them `INT_MIN`: the first loop rejects if one
of the values is outside `[1, V]` and passes otherwise. -/
theorem checkIndices_values (V : Nat) (hV : 3 * V < 2 ^ 62) (ts : List (List Char)) :
    ∀ (vals : List Int) (acc : List Int), ts.map stoi = vals.map Except.ok →
      (∀ v ∈ vals, v ≠ -2 ^ 31) →
      ((∃ v ∈ vals, v ≤ 0 ∨ (V : Int) < v) → checkIndices (3 * V) ts acc = .rejected) := by
  induction ts with
  | nil =>
    intro vals acc hp _ hbad
    cases vals with
    | nil => obtain ⟨v, hv, -⟩ := hbad; cases hv
    | cons v vs => simp at hp
  | cons t ts ih =>
    intro vals acc hp hmin hbad
    cases vals with
    | nil => simp at hp
    | cons v vs =>
      simp only [List.map_cons, List.cons.injEq] at hp
      obtain ⟨hs, hrest⟩ := hp
      obtain ⟨hv1, hv2⟩ := stoi_range t v hs
      have hne := hmin v (List.mem_cons_self v vs)
      unfold checkIndices
      rw [hs]
      simp only
      rw [if_neg (by omega)]
      by_cases hgood : 1 ≤ v ∧ v ≤ V
      · have hchk : ¬ 3 * V < (toIndex (v - 1) * 3 + 2) % 2 ^ 64 :=
          (rangeCheck_iff V (v - 1) hV (by omega) (by omega)).2 (by omega)
        rw [if_neg hchk]
        apply ih vs _ hrest (fun w hw => hmin w (List.mem_cons_of_mem v hw))
        obtain ⟨w, hw, hwbad⟩ := hbad
        rcases List.mem_cons.1 hw with h1 | h1
        · subst h1; omega
        · exact ⟨w, h1, hwbad⟩
      · have hchk : 3 * V < (toIndex (v - 1) * 3 + 2) % 2 ^ 64 := by
          by_contra hcon
          have := (rangeCheck_iff V (v - 1) hV (by omega) (by omega)).1 hcon
          omega
        rw [if_pos hchk]

section ObjNormalTheorems
variable {α : Type} [Field α]

theorem vertexAt_some (vertices_ : List α) (V : Nat) (x : Int) (i : Nat)
    (hlen : vertices_.length = 3 * V) (hV : 3 * V < 2 ^ 62) (h0 : 0 ≤ x) (hlt : x < V)
    (hi : i < 3) : ∃ a, vertexAt vertices_ x i = some a := by
  unfold vertexAt
  exact ⟨_, getElem?_getD vertices_ _ 0
    (by rw [hlen]; exact toIndex_of_range V x i hV h0 hlt hi)⟩

theorem edge_some (vertices_ : List α) (V : Nat) (x y : Int) (i : Nat)
    (hlen : vertices_.length = 3 * V) (hV : 3 * V < 2 ^ 62) (hx0 : 0 ≤ x) (hx : x < V)
    (hy0 : 0 ≤ y) (hy : y < V) (hi : i < 3) : ∃ a, edge vertices_ x y i = some a := by
  obtain ⟨a, ha⟩ := vertexAt_some vertices_ V x i hlen hV hx0 hx hi
  obtain ⟨b, hb⟩ := vertexAt_some vertices_ V y i hlen hV hy0 hy hi
  unfold edge
  rw [ha, hb]
  exact ⟨_, rfl⟩

theorem addNormal_some (normals_ : List α) (V : Nat) (x : Int) (i : Nat) (a : α)
    (hlen : normals_.length = 3 * V) (hV : 3 * V < 2 ^ 62) (h0 : 0 ≤ x) (hlt : x < V)
    (hi : i < 3) : ∃ n, addNormal normals_ x i a = some n ∧ n.length = 3 * V := by
  have hb := toIndex_of_range V x i hV h0 hlt hi
  unfold addNormal
  rw [getElem?_getD normals_ _ 0 (by rw [hlen]; exact hb), Option.some_bind,
    store_of_lt _ _ _ (by rw [hlen]; exact hb)]
  exact ⟨_, rfl, by rw [List.length_set, hlen]⟩

theorem faceStep_some (vertices_ normals_ : List α) (indices : List Int) (V iFace : Nat)
    (hv : vertices_.length = 3 * V) (hn : normals_.length = 3 * V) (hV : 3 * V < 2 ^ 62)
    (hidx : ∀ x ∈ indices, 0 ≤ x ∧ x < V) (hf : iFace + 2 < indices.length) :
    ∃ n, faceStep vertices_ indices iFace normals_ = some n ∧ n.length = 3 * V := by
  have hmem : ∀ k, k < 3 → ∃ x, indices[iFace + k]? = some x ∧ 0 ≤ x ∧ x < V := by
    intro k hk
    have hlt : iFace + k < indices.length := by omega
    exact ⟨indices[iFace + k], List.getElem?_eq_getElem hlt,
      hidx _ (List.getElem_mem hlt)⟩
  obtain ⟨i0, hi0, h00, h0V⟩ := hmem 0 (by norm_num)
  obtain ⟨i1, hi1, h10, h1V⟩ := hmem 1 (by norm_num)
  obtain ⟨i2, hi2, h20, h2V⟩ := hmem 2 (by norm_num)
  obtain ⟨a0, ha0⟩ := edge_some vertices_ V i1 i0 0 hv hV h10 h1V h00 h0V (by norm_num)
  obtain ⟨b0, hb0⟩ := edge_some vertices_ V i2 i0 0 hv hV h20 h2V h00 h0V (by norm_num)
  obtain ⟨a1, ha1⟩ := edge_some vertices_ V i1 i0 1 hv hV h10 h1V h00 h0V (by norm_num)
  obtain ⟨b1, hb1⟩ := edge_some vertices_ V i2 i0 1 hv hV h20 h2V h00 h0V (by norm_num)
  obtain ⟨a2, ha2⟩ := edge_some vertices_ V i1 i0 2 hv hV h10 h1V h00 h0V (by norm_num)
  obtain ⟨b2, hb2⟩ := edge_some vertices_ V i2 i0 2 hv hV h20 h2V h00 h0V (by norm_num)
  have hfn : faceNormal vertices_ indices iFace
      = some [a1 * b2 - a2 * b1, a2 * b0 - a0 * b2, a0 * b1 - a1 * b0] := by
    unfold faceNormal
    rw [Nat.add_zero] at hi0
    rw [hi0, Option.some_bind, hi1, Option.some_bind, hi2, Option.some_bind, ha0,
      Option.some_bind, hb0, Option.some_bind, ha1, Option.some_bind, hb1, Option.some_bind,
      ha2, Option.some_bind, hb2, Option.map_some']
  unfold faceStep
  rw [hfn, Option.some_bind]
  obtain ⟨n, hn', hlen⟩ := forUp_invariant
    (fun iVertex n =>
      forUp (fun iIndex n =>
        (indices[iFace + iIndex]?).bind fun index =>
          (([a1 * b2 - a2 * b1, a2 * b0 - a0 * b2, a0 * b1 - a1 * b0] : List α)[iVertex]?).bind
            fun x => addNormal n index iVertex x) 3 n)
    (fun _ n => n.length = 3 * V) 3 normals_ hn
    (fun iVertex hiV n hnl => forUp_invariant
      (fun iIndex n =>
        (indices[iFace + iIndex]?).bind fun index =>
          (([a1 * b2 - a2 * b1, a2 * b0 - a0 * b2, a0 * b1 - a1 * b0] : List α)[iVertex]?).bind
            fun x => addNormal n index iVertex x)
      (fun _ n => n.length = 3 * V) 3 n hnl
      (fun iIndex hiI m hml => by
        obtain ⟨x, hx, hx0, hxV⟩ := hmem iIndex hiI
        obtain ⟨y, hy⟩ : ∃ y,
            ([a1 * b2 - a2 * b1, a2 * b0 - a0 * b2, a0 * b1 - a1 * b0] : List α)[iVertex]?
              = some y :=
          ⟨_, List.getElem?_eq_getElem (by simpa using hiV)⟩
        obtain ⟨m', hm', hml'⟩ := addNormal_some m V x iVertex y hml hV hx0 hxV hiV
        refine ⟨m', ?_, hml'⟩
        show (indices[iFace + iIndex]?).bind _ = some m'
        rw [hx, Option.some_bind, hy, Option.some_bind, hm']))
  exact ⟨n, hn', hlen⟩

/-- C30 (amended).  For every `f` line of at least 3 tokens and every state in which
`vertices_` and `normals_` both have `3 V` entries (`V` below the largest vector size):
if the first loop of `CalcNormal` passes every index, then every later access is inside
the vectors, that is, `CalcNormal` returns `true` and `normals_` keeps its length; and
when `std::stoi` reads every token and none of the values is `INT_MIN`, a line with a
value that is 0, negative or greater than `V` is rejected with `false`, `normals_`
unchanged. -/
theorem CalcNormal_range (vertices_ normals_ : List α) (line : List (List Char)) (V : Nat)
    (h3 : 3 ≤ line.length) (hl : line.length < 2 ^ 64)
    (hv : vertices_.length = 3 * V) (hn : normals_.length = 3 * V) (hV : 3 * V < 2 ^ 62) :
    (∀ indices, checkIndices vertices_.length line [] = .passed indices →
      ∃ n, CalcNormal vertices_ normals_ line = .returned true n ∧
        n.length = normals_.length) ∧
    (∀ vals : List Int, line.map stoi = vals.map Except.ok →
      (∀ v ∈ vals, v ≠ -2 ^ 31) → (∃ v ∈ vals, v ≤ 0 ∨ (V : Int) < v) →
      CalcNormal vertices_ normals_ line = .returned false normals_) := by
  constructor
  · intro indices hpass
    have hpass' := hpass
    rw [hv] at hpass'
    obtain ⟨hlen, hidx⟩ := checkIndices_passed V hV line [] indices hpass'
      (fun x hx => by cases hx)
    have hcount : (line.length + (2 ^ 64 - 2)) % 2 ^ 64 = line.length - 2 := by
      have e : line.length + (2 ^ 64 - 2) = (line.length - 2) + 1 * 2 ^ 64 := by
        have h64 : (2 : Nat) ≤ 2 ^ 64 := by norm_num
        generalize (2 : Nat) ^ 64 = M at h64
        omega
      rw [e, Nat.add_mul_mod_self_right, Nat.mod_eq_of_lt (lt_of_le_of_lt (Nat.sub_le _ _) hl)]
    obtain ⟨n, hn', hnl⟩ := forUp_invariant (faceStep vertices_ indices)
      (fun _ n => n.length = 3 * V) (line.length - 2) normals_ hn
      (fun iFace hiF m hml =>
        faceStep_some vertices_ m indices V iFace hv hml hV hidx (by
          rw [hlen]; simp; omega))
    refine ⟨n, ?_, by rw [hnl, hn]⟩
    unfold CalcNormal
    rw [hpass, hcount]
    simp only [hn']
  · intro vals hparse hmin hbad
    have hrej := checkIndices_values V hV line vals [] hparse hmin hbad
    unfold CalcNormal
    rw [hv, hrej]

/-- Witness for `CalcNormal_range`: three vertices; the line `1 2 3` passes and the
line `1 0 3` is rejected. -/
theorem CalcNormal_range_witness :
    (∃ n, CalcNormal ([0, 0, 0, 1, 0, 0, 0, 1, 0] : List ℚ) [0, 0, 0, 0, 0, 0, 0, 0, 0]
        ["1".toList, "2".toList, "3".toList] = .returned true n ∧
      n.length = ([0, 0, 0, 0, 0, 0, 0, 0, 0] : List ℚ).length) ∧
    CalcNormal ([0, 0, 0, 1, 0, 0, 0, 1, 0] : List ℚ) [0, 0, 0, 0, 0, 0, 0, 0, 0]
      ["1".toList, "0".toList, "3".toList] = .returned false [0, 0, 0, 0, 0, 0, 0, 0, 0] :=
  ⟨(CalcNormal_range ([0, 0, 0, 1, 0, 0, 0, 1, 0] : List ℚ) [0, 0, 0, 0, 0, 0, 0, 0, 0]
      ["1".toList, "2".toList, "3".toList] 3 (by simp) (by simp) (by simp) (by simp)
      (by norm_num)).1 [0, 1, 2] (by rfl),
    (CalcNormal_range ([0, 0, 0, 1, 0, 0, 0, 1, 0] : List ℚ) [0, 0, 0, 0, 0, 0, 0, 0, 0]
      ["1".toList, "0".toList, "3".toList] 3 (by simp) (by simp) (by simp) (by simp)
      (by norm_num)).2 [1, 0, 3] (by rfl) (by decide) ⟨0, by simp, Or.inl (le_refl 0)⟩⟩

/-- C30 as stated fails for the index token `-2147483648`: `std::stoi` returns
`INT_MIN`, the subtraction `stoi(..) - 1` overflows, and the call is not a rejection
with `false` but undefined behaviour.  For the token `-9999999999` `std::stoi` throws
`std::out_of_range`. -/
theorem CalcNormal_counterexample :
    CalcNormal ([0, 0, 0, 1, 0, 0, 0, 1, 0] : List ℚ) [0, 0, 0, 0, 0, 0, 0, 0, 0]
      ["1".toList, "-2147483648".toList, "3".toList] = .undefined ∧
    CalcNormal ([0, 0, 0, 1, 0, 0, 0, 1, 0] : List ℚ) [0, 0, 0, 0, 0, 0, 0, 0, 0]
      ["1".toList, "-9999999999".toList, "3".toList] = .raised .out_of_range := by
  constructor <;> rfl

end ObjNormalTheorems

/-! ## The vertex loop: what is recorded, dispatched and waited for -/

theorem PopulateRayTracer_eq {α : Type} (constants : PRTConstantContainer) (rd : RayData α) :
    PopulateRayTracer constants rd
      = specRayTracerList rd rd.settings.numPlaneChunks (constants.numEventsX % 2 ^ 32 / 8) :=
  rfl

/-- The member `numPlaneChunks` of the root constants is not written by
`PopulateIntegrator`, which assigns `iSH` only. -/
theorem PopulateIntegrator_numPlaneChunks {α : Type} (constants : PRTConstantContainer)
    (rayData rd : RayData α) (cmds : List (Command (RayData α)))
    (h : PopulateIntegrator constants rayData = some (cmds, rd)) :
    rd.settings.numPlaneChunks = rayData.settings.numPlaneChunks := by
  unfold PopulateIntegrator at h
  simp only [Option.map_eq_some'] at h
  obtain ⟨s, hs, hmk⟩ := h
  obtain ⟨-, hs'⟩ := forInt_eq_some _ _ _ _ hs
  have hP := forUp_preserves (integrateStep (α := α) constants)
    (fun s => s.2.settings.numPlaneChunks = rayData.settings.numPlaneChunks)
    (by
      intro i t u ht hstep
      unfold integrateStep at hstep
      split at hstep
      · cases hstep
      · simp only [Option.some.injEq] at hstep
        subst hstep
        exact ht)
    _ _ s rfl hs'
  simp only [Prod.mk.injEq] at hmk
  rw [← hmk.2]
  exact hP

theorem vertexEvents_eq {α : Type} (constants : PRTConstantContainer) (rd : RayData α)
    (cmds : List (Command (RayData α))) (f : Nat) :
    vertexEvents constants rd cmds f
      = specVertexEvents (PopulateRayTracer constants rd) cmds f := rfl

section VertexTrace
variable {α : Type} [Field α]

/-- The three assignments of the vertex loop leave `rayData.settings` alone. -/
theorem setRay_settings (rayData rd : RayData α) (vertexData normalData : List α) (i : Nat)
    (h : setRay rayData vertexData normalData i = some rd) :
    rd.settings = rayData.settings := by
  unfold setRay at h
  split at h
  · simp only [Option.some.injEq] at h
    rw [← h]
  · cases h

/-- One iteration of the vertex loop: `numPlaneChunks` stays what it was. -/
theorem vertexStep_numPlaneChunks (constants : PRTConstantContainer)
    (vertexData normalData : List α) (readback : Nat → List α) (i : Nat) (u v : VertexLoop α)
    (hstep : vertexStep constants vertexData normalData readback i u = some v) :
    ∃ rd, setRay u.rayData vertexData normalData i = some rd ∧
      rd.settings.numPlaneChunks = u.rayData.settings.numPlaneChunks ∧
      v.rayData.settings.numPlaneChunks = u.rayData.settings.numPlaneChunks ∧
      recorded .commandList v.host.trace
        = recorded .commandList u.host.trace ++ PopulateRayTracer constants rd := by
  unfold vertexStep at hstep
  simp only [Option.bind_eq_some, Option.map_eq_some'] at hstep
  obtain ⟨rd, hrd, p, hp, coeffs, -, hv⟩ := hstep
  subst hv
  have hset := setRay_settings _ _ _ _ _ hrd
  refine ⟨rd, hrd, by rw [hset], ?_, ?_⟩
  · show p.2.settings.numPlaneChunks = u.rayData.settings.numPlaneChunks
    rw [PopulateIntegrator_numPlaneChunks constants rd p.2 p.1 hp, hset]
  · simp [recorded, Host.recordList, Host.Execute, Host.Signal, Host.WaitForFence,
      Host.mapUnmap, List.filterMap_append, List.filterMap_map, Function.comp_def]

/-- The vertex loop, vertex by vertex: the root constants of vertex `i` carry the
`numPlaneChunks` of `initialRaySettings`, and the trace is the concatenation of the
events of the vertices. -/
theorem vertexLoop_trace (constants : PRTConstantContainer) (vertexData normalData : List α)
    (readback : Nat → List α) (V : Nat) (h : Host (RayData α)) (rayData : RayData α)
    (hf : h.fenceValue_ + 2 * V < 2 ^ 64) (s : VertexLoop α)
    (hs : vertexLoop constants vertexData normalData readback V h rayData = some s) :
    ∃ (rds : Nat → RayData α) (cmds : Nat → List (Command (RayData α))),
      (∀ i, i < V → (∃ r, setRay r vertexData normalData i = some (rds i)) ∧
        (∃ rd, PopulateIntegrator constants (rds i) = some (cmds i, rd)) ∧
        (rds i).settings.numPlaneChunks = (constants.triangleNum / 512 + 1) % 2 ^ 32) ∧
      s.host.trace = h.trace ++ concatUpTo
        (fun i => vertexEvents constants (rds i) (cmds i) (h.fenceValue_ + 2 * i)) V ∧
      s.host.fenceValue_ = h.fenceValue_ + 2 * V := by
  unfold vertexLoop at hs
  obtain ⟨-, hs'⟩ := forInt_eq_some _ _ _ _ hs
  have key := forUp_some_invariant (vertexStep constants vertexData normalData readback)
    (fun n t => t.rayData.settings.numPlaneChunks = (constants.triangleNum / 512 + 1) % 2 ^ 32 ∧
      ∃ (rds : Nat → RayData α) (cmds : Nat → List (Command (RayData α))),
      (∀ i, i < n → (∃ r, setRay r vertexData normalData i = some (rds i)) ∧
        (∃ rd, PopulateIntegrator constants (rds i) = some (cmds i, rd)) ∧
        (rds i).settings.numPlaneChunks = (constants.triangleNum / 512 + 1) % 2 ^ 32) ∧
      t.host.trace = h.trace ++ concatUpTo
        (fun i => vertexEvents constants (rds i) (cmds i) (h.fenceValue_ + 2 * i)) n ∧
      t.host.fenceValue_ = h.fenceValue_ + 2 * n) V _ s ?_ ?_ hs'
  · exact key.2
  · exact ⟨rfl, fun _ => rayData, fun _ => [], fun i hi => absurd hi (Nat.not_lt_zero i),
      by simp [concatUpTo], rfl⟩
  · intro n hn u v ⟨hu, rds, cmds, hall, htrace, hfence⟩ hstep
    obtain ⟨rd, c, rd', hrd, hp, ht, hfv⟩ := vertexStep_trace constants vertexData normalData
      readback n u v hstep (by rw [hfence]; omega)
    obtain ⟨rd2, hrd2, hch, hvch, -⟩ := vertexStep_numPlaneChunks constants vertexData
      normalData readback n u v hstep
    have hrdeq : rd2 = rd := by
      rw [hrd] at hrd2
      exact (Option.some.inj hrd2).symm
    subst hrdeq
    refine ⟨by rw [hvch, hu], fun i => if i = n then rd2 else rds i,
      fun i => if i = n then c else cmds i, ?_, ?_, ?_⟩
    · intro i hi
      rcases Nat.lt_succ_iff_lt_or_eq.1 hi with hlt | heq
      · have hne : i ≠ n := Nat.ne_of_lt hlt
        simp only [if_neg hne]
        exact hall i hlt
      · subst heq
        simp only [if_true]
        exact ⟨⟨_, hrd⟩, ⟨rd', hp⟩, by rw [hch, hu]⟩
    · rw [ht, htrace, concatUpTo, List.append_assoc]
      have hc : concatUpTo (fun i => vertexEvents constants (if i = n then rd2 else rds i)
            (if i = n then c else cmds i) (h.fenceValue_ + 2 * i)) n
          = concatUpTo
            (fun i => vertexEvents constants (rds i) (cmds i) (h.fenceValue_ + 2 * i)) n := by
        apply concatUpTo_congr
        intro i hi
        have hne : i ≠ n := Nat.ne_of_lt hi
        simp only [if_neg hne]
      rw [hc, hfence]
      simp only [if_true]
    · rw [hfv, hfence]
      ring

/-- The vertex loop with the trace written out: the events of vertex `i` are those of
`specVertexTrace`, with both dispatches of the ray-tracing list explicit. -/
theorem vertexLoop_specTrace (constants : PRTConstantContainer)
    (vertexData normalData : List α) (readback : Nat → List α) (V : Nat)
    (h : Host (RayData α)) (rayData : RayData α)
    (hf : h.fenceValue_ + 2 * V < 2 ^ 64) (s : VertexLoop α)
    (hs : vertexLoop constants vertexData normalData readback V h rayData = some s) :
    ∃ (rds : Nat → RayData α) (cmds : Nat → List (Command (RayData α))),
      (∀ i, i < V → (∃ r, setRay r vertexData normalData i = some (rds i)) ∧
        (∃ rd, PopulateIntegrator constants (rds i) = some (cmds i, rd))) ∧
      s.host.trace
        = h.trace ++ concatUpTo (specVertexTrace constants rds cmds h.fenceValue_) V ∧
      s.host.fenceValue_ = h.fenceValue_ + 2 * V := by
  obtain ⟨rds, cmds, hall, htrace, hfence⟩ := vertexLoop_trace constants vertexData normalData
    readback V h rayData hf s hs
  refine ⟨rds, cmds, fun i hi => ⟨(hall i hi).1, (hall i hi).2.1⟩, ?_, hfence⟩
  rw [htrace]
  congr 1
  apply concatUpTo_congr
  intro i hi
  rw [vertexEvents_eq, PopulateRayTracer_eq, (hall i hi).2.2]
  rfl

end VertexTrace

section TraceClaim
variable {α : Type} [Field α]

/-- C21.  In every run of the vertex loop of `GeneratePRT` over `V` vertices (on a queue
whose fence value stays below `2 ^ 64`), the trace of the host is the trace before the
loop followed, for `i = 0, 1, .., V - 1` in this order, by the events of vertex `i`,
which are: the ray-tracing list is reset; the prepass pipeline is set and dispatched
(`Dispatch(triangleNum / 512 + 1, 1, 1)`), then the ray-tracing pipeline is set and
dispatched (`Dispatch(numEventsX / 8, numEventsX / 8, 1)`), both recorded on that list;
the list is closed, executed and signalled with a new fence value; the integration list
is reset, recorded and closed; the wait for that fence value ends; the integration list
is executed and signalled with the next value; the wait for that value ends; the
read-back buffer is mapped and unmapped.  For two consecutive vertices `i` and `i + 1`
the trace is what came before, the events of vertex `i`, the events of vertex `i + 1`,
and what comes after: no list of vertex `i + 1` is reset or executed before the
read-back of vertex `i`.  The loop does run to its end when `V < 2 ^ 31`,
`nCoefficients + 3 ≤ 2 ^ 31`, `numThreadGroups < 2 ^ 31` and the arrays and the
read-back buffer hold the entries that are read. -/
theorem GeneratePRT_trace (constants : PRTConstantContainer) (vertexData normalData : List α)
    (readback : Nat → List α) (V : Nat) (h : Host (RayData α)) (rayData : RayData α)
    (hf : h.fenceValue_ + 2 * V < 2 ^ 64) :
    (∀ s, vertexLoop constants vertexData normalData readback V h rayData = some s →
      ∃ (rds : Nat → RayData α) (cmds : Nat → List (Command (RayData α))),
        (∀ i, i < V → (∃ r, setRay r vertexData normalData i = some (rds i)) ∧
          ∃ rd, PopulateIntegrator constants (rds i) = some (cmds i, rd)) ∧
        s.host.trace
          = h.trace ++ concatUpTo (specVertexTrace constants rds cmds h.fenceValue_) V ∧
        (∀ i, i + 1 < V → ∃ post,
          s.host.trace
            = (h.trace ++ concatUpTo (specVertexTrace constants rds cmds h.fenceValue_) i) ++
              specVertexTrace constants rds cmds h.fenceValue_ i ++
              specVertexTrace constants rds cmds h.fenceValue_ (i + 1) ++ post) ∧
        s.host.fenceValue_ = h.fenceValue_ + 2 * V) ∧
    (V < 2 ^ 31 → constants.nCoefficients + 3 ≤ 2 ^ 31 →
      constants.numThreadGroups < 2 ^ 31 →
      3 * V ≤ vertexData.length → 3 * V ≤ normalData.length →
      (∀ i, i < V →
        constants.nCoefficients * constants.numThreadGroups ≤ (readback i).length) →
      ∃ s, vertexLoop constants vertexData normalData readback V h rayData = some s) := by
  refine ⟨fun s hs => ?_, vertexLoop_returns constants vertexData normalData readback V h
    rayData⟩
  obtain ⟨rds, cmds, hall, htrace, hfence⟩ := vertexLoop_specTrace constants vertexData
    normalData readback V h rayData hf s hs
  refine ⟨rds, cmds, hall, htrace, fun i hi => ?_, hfence⟩
  obtain ⟨k, hk⟩ : ∃ k, V = (i + 2) + k := ⟨V - (i + 2), by omega⟩
  refine ⟨concatUpTo (fun j => specVertexTrace constants rds cmds h.fenceValue_ (i + 2 + j)) k,
    ?_⟩
  rw [htrace, hk, concatUpTo_add, concatUpTo, concatUpTo]
  simp only [List.append_assoc]

/-- Witness for `GeneratePRT_trace`: two vertices, one coefficient, one thread group; the
loop runs to its end and the trace is the events of vertex 0 followed by those of
vertex 1. -/
theorem GeneratePRT_trace_witness :
    ∃ (s : VertexLoop ℚ) (rds : Nat → RayData ℚ) (cmds : Nat → List (Command (RayData ℚ))),
      vertexLoop ⟨64, 8, 8, 1, 0, 1, 1, 2⟩ [0, 0, 0, 1, 0, 0] [0, 0, 1, 0, 1, 0]
        (fun _ => [5]) 2 ⟨0, []⟩
        ⟨⟨0, 0, 0, 0⟩, ⟨0, 0, 0, 0⟩, ⟨0, 0, 0, 0⟩, ⟨0, 0, 0, 0⟩⟩ = some s ∧
      s.host.trace = (⟨0, []⟩ : Host (RayData ℚ)).trace ++
        concatUpTo (specVertexTrace ⟨64, 8, 8, 1, 0, 1, 1, 2⟩ rds cmds
          (⟨0, []⟩ : Host (RayData ℚ)).fenceValue_) 2 ∧
      (∃ post, s.host.trace
        = ((⟨0, []⟩ : Host (RayData ℚ)).trace ++
            concatUpTo (specVertexTrace ⟨64, 8, 8, 1, 0, 1, 1, 2⟩ rds cmds
              (⟨0, []⟩ : Host (RayData ℚ)).fenceValue_) 0) ++
          specVertexTrace ⟨64, 8, 8, 1, 0, 1, 1, 2⟩ rds cmds
            (⟨0, []⟩ : Host (RayData ℚ)).fenceValue_ 0 ++
          specVertexTrace ⟨64, 8, 8, 1, 0, 1, 1, 2⟩ rds cmds
            (⟨0, []⟩ : Host (RayData ℚ)).fenceValue_ (0 + 1) ++ post) ∧
      s.host.fenceValue_ = (⟨0, []⟩ : Host (RayData ℚ)).fenceValue_ + 2 * 2 := by
  have t := GeneratePRT_trace ⟨64, 8, 8, 1, 0, 1, 1, 2⟩ ([0, 0, 0, 1, 0, 0] : List ℚ)
    [0, 0, 1, 0, 1, 0] (fun _ => [5]) 2 ⟨0, []⟩
    ⟨⟨0, 0, 0, 0⟩, ⟨0, 0, 0, 0⟩, ⟨0, 0, 0, 0⟩, ⟨0, 0, 0, 0⟩⟩ (by norm_num)
  obtain ⟨s, hs⟩ := t.2 (by norm_num) (by norm_num) (by norm_num) (by simp) (by simp)
    (fun i _ => by simp)
  obtain ⟨rds, cmds, -, h1, h2, h3⟩ := t.1 s hs
  exact ⟨s, rds, cmds, hs, h1, h2 0 (by norm_num), h3⟩

end TraceClaim

/-! ## `StorePRTResult` and `StoreEMResult` in floating-point arithmetic -/

theorem getElem?_eq_some_getD_of_lt {β : Type} (B : List β) (i : Nat) (d : β)
    (h : i < B.length) : B[i]? = some (B.getD i d) := by
  rw [List.getD_eq_getElem?_getD, List.getElem?_eq_getElem h]
  rfl

/-- In exact arithmetic the sum from the left is the sum. -/
theorem sumUpTo_exactOps {β : Type} [Field β] (fns : MathOps β) (f : Nat → β) (n : Nat) :
    Single.sumUpTo (exactOps fns) 0 f n = ∑ k in Finset.range n, f k := by
  induction n with
  | zero => simp [Single.sumUpTo]
  | succ n ih =>
    rw [Single.sumUpTo, ih, Finset.sum_range_succ]
    rfl

/-- In exact arithmetic the PRT coefficient is `(Σ B) / numEvents * 4`. -/
theorem specPRTCoefficient_exactOps {β : Type} [Field β] (fns : MathOps β) (B : List β)
    (g numEvents j : Nat) :
    Single.specPRTCoefficient (exactOps fns) B g numEvents j
      = (∑ k in Finset.range g, B.getD (j * g + k) 0) / (numEvents : β) * 4 := by
  have h0 : (exactOps fns).ofInt 0 = (0 : β) := by
    show ((0 : Int) : β) = 0
    simp
  have h4 : (exactOps fns).lit 4 1 = (4 : β) := by
    show ((4 : Nat) : β) / ((1 : Nat) : β) = 4
    simp
  have hn : (exactOps fns).ofInt (numEvents : Int) = (numEvents : β) := by
    show (((numEvents : Nat) : Int) : β) = _
    simp
  unfold Single.specPRTCoefficient
  rw [h0, h4, hn, sumUpTo_exactOps]
  rfl

/-- In exact arithmetic the environment-map coefficient is
`(Σ B) / numEvents * 4 * 3.14159`. -/
theorem specEMCoefficient_exactOps {β : Type} [Field β] (fns : MathOps β) (B : List β)
    (g numEvents j c : Nat) :
    Single.specEMCoefficient (exactOps fns) B g numEvents j c
      = (∑ k in Finset.range g, B.getD ((j * g + k) * 3 + c) 0) / (numEvents : β) * 4
          * (314159 / 100000) := by
  have h0 : (exactOps fns).lit 0 1 = (0 : β) := by
    show ((0 : Nat) : β) / ((1 : Nat) : β) = 0
    simp
  have h4 : (exactOps fns).lit 4 1 = (4 : β) := by
    show ((4 : Nat) : β) / ((1 : Nat) : β) = 4
    simp
  have hp : (exactOps fns).lit 314159 100000 = (314159 / 100000 : β) := by
    show ((314159 : Nat) : β) / ((100000 : Nat) : β) = _
    simp
  have hn : (exactOps fns).ofInt (numEvents : Int) = (numEvents : β) := by
    show (((numEvents : Nat) : Int) : β) = _
    simp
  unfold Single.specEMCoefficient
  rw [h0, h4, hp, hn, sumUpTo_exactOps]
  rfl

/-- The embedding of `StorePRTResult` over a field is the floating-point embedding with
the operations read exactly. -/
theorem StorePRTResult_eq_exactOps {β : Type} [Field β] (fns : MathOps β)
    (coefficients readback : List β) (constants : PRTConstantContainer) :
    StorePRTResult coefficients readback constants
      = Single.StorePRTResult (exactOps fns) coefficients readback constants := by
  simp [StorePRTResult, Single.StorePRTResult, exactOps]

/-- The embedding of `StoreEMResult` over a field of characteristic zero is the
floating-point embedding with the operations read exactly. -/
theorem StoreEMResult_eq_exactOps {β : Type} [Field β] [CharZero β] (fns : MathOps β)
    (coefficients readback : List β) (constants : EMConstantContainer) :
    StoreEMResult coefficients readback constants
      = Single.StoreEMResult (exactOps fns) coefficients readback constants := by
  have h : (3.14159 : β) = 314159 / 100000 := by norm_num
  simp [StoreEMResult, Single.StoreEMResult, exactOps, h]

section StoreSingle
variable {α δ : Type}

/-- What `StorePRTResult` returns on the range of its `int` counters. -/
theorem Single_StorePRTResult_eq (ops : FloatOps α δ) (coefficients B : List α)
    (c : PRTConstantContainer)
    (hn : c.nCoefficients < 2 ^ 31) (ht : c.numThreadGroups < 2 ^ 31)
    (hB : c.nCoefficients * c.numThreadGroups ≤ B.length) :
    Single.StorePRTResult ops coefficients B c =
      some (coefficients ++ (List.range c.nCoefficients).map
        (Single.specPRTCoefficient ops B c.numThreadGroups c.numEvents)) := by
  unfold Single.StorePRTResult
  rw [forInt_of_lt _ _ _ hn]
  obtain ⟨out, hout, hI⟩ := forUp_invariant
    (fun j coeffs =>
      (forInt (fun k (total : α) =>
          (B[(j * c.numThreadGroups + k) % 2 ^ 64]?).map fun b => ops.add total b)
        c.numThreadGroups (ops.ofInt 0)).map fun total =>
          coeffs ++ [ops.mul (ops.div total (ops.ofInt c.numEvents)) (ops.lit 4 1)])
    (fun j coeffs => coeffs = coefficients ++ (List.range j).map
      (Single.specPRTCoefficient ops B c.numThreadGroups c.numEvents))
    c.nCoefficients coefficients (by simp)
    (by
      intro j hj coeffs hcoeffs
      have hidx : ∀ k, k < c.numThreadGroups →
          (j * c.numThreadGroups + k) % 2 ^ 64 = j * c.numThreadGroups + k ∧
          j * c.numThreadGroups + k < B.length := by
        intro k hk
        have h1 : j * c.numThreadGroups + k < c.nCoefficients * c.numThreadGroups := by
          calc j * c.numThreadGroups + k < j * c.numThreadGroups + c.numThreadGroups := by omega
            _ = (j + 1) * c.numThreadGroups := by ring
            _ ≤ c.nCoefficients * c.numThreadGroups := Nat.mul_le_mul_right _ hj
        have h2 : c.nCoefficients * c.numThreadGroups < 2 ^ 31 * 2 ^ 31 :=
          Nat.mul_lt_mul'' hn ht
        have h3 : (2 : Nat) ^ 31 * 2 ^ 31 < 2 ^ 64 := by norm_num
        exact ⟨Nat.mod_eq_of_lt (by omega), by omega⟩
      obtain ⟨total, htotal, hsum⟩ := forUp_invariant
        (fun k (total : α) =>
          (B[(j * c.numThreadGroups + k) % 2 ^ 64]?).map fun b => ops.add total b)
        (fun k total => total = Single.sumUpTo ops (ops.ofInt 0)
          (fun k' => B.getD (j * c.numThreadGroups + k') (ops.ofInt 0)) k)
        c.numThreadGroups (ops.ofInt 0) rfl
        (by
          intro k hk total htot
          obtain ⟨h1, h2⟩ := hidx k hk
          refine ⟨ops.add total (B.getD (j * c.numThreadGroups + k) (ops.ofInt 0)), ?_, ?_⟩
          · beta_reduce
            rw [h1, getElem?_eq_some_getD_of_lt B _ (ops.ofInt 0) h2]
            rfl
          · beta_reduce
            rw [Single.sumUpTo, htot])
      refine ⟨coeffs ++ [ops.mul (ops.div total (ops.ofInt c.numEvents)) (ops.lit 4 1)], ?_, ?_⟩
      · beta_reduce
        rw [forInt_of_lt _ _ _ ht, htotal]
        rfl
      · beta_reduce
        rw [hcoeffs, hsum, List.range_succ, List.map_append, List.append_assoc]
        rfl)
  rw [hout, hI]

/-- What `StoreEMResult` returns on the range of its `int` counters. -/
theorem Single_StoreEMResult_eq (ops : FloatOps α δ) (coefficients B : List α)
    (c : EMConstantContainer)
    (hn : c.nCoefficients < 2 ^ 31) (ht : c.numThreadGroups < 2 ^ 31)
    (hB : c.nCoefficients * c.numThreadGroups * 3 ≤ B.length) :
    Single.StoreEMResult ops coefficients B c =
      some (coefficients ++ (List.range (3 * c.nCoefficients)).map
        (fun i => Single.specEMCoefficient ops B c.numThreadGroups c.numEvents
          (i / 3) (i % 3))) := by
  unfold Single.StoreEMResult
  rw [forInt_of_lt _ _ _ hn]
  obtain ⟨out, hout, hI⟩ := forUp_invariant
    (fun j coeffs =>
      (forInt (fun k (total : α × α × α) =>
          (B[((j * c.numThreadGroups + k) * 3) % 2 ^ 64]?).bind fun b0 =>
          (B[((j * c.numThreadGroups + k) * 3 + 1) % 2 ^ 64]?).bind fun b1 =>
          (B[((j * c.numThreadGroups + k) * 3 + 2) % 2 ^ 64]?).map fun b2 =>
            (ops.add total.1 b0, ops.add total.2.1 b1, ops.add total.2.2 b2))
        c.numThreadGroups (ops.lit 0 1, ops.lit 0 1, ops.lit 0 1)).map fun total =>
          coeffs ++
            [ops.mul (ops.mul (ops.div total.1 (ops.ofInt c.numEvents)) (ops.lit 4 1))
              (ops.lit 314159 100000),
             ops.mul (ops.mul (ops.div total.2.1 (ops.ofInt c.numEvents)) (ops.lit 4 1))
              (ops.lit 314159 100000),
             ops.mul (ops.mul (ops.div total.2.2 (ops.ofInt c.numEvents)) (ops.lit 4 1))
              (ops.lit 314159 100000)])
    (fun j coeffs => coeffs = coefficients ++ (List.range (3 * j)).map
      (fun i => Single.specEMCoefficient ops B c.numThreadGroups c.numEvents (i / 3) (i % 3)))
    c.nCoefficients coefficients (by simp)
    (by
      intro j hj coeffs hcoeffs
      have hidx : ∀ k ch, k < c.numThreadGroups → ch < 3 →
          ((j * c.numThreadGroups + k) * 3 + ch) % 2 ^ 64
            = (j * c.numThreadGroups + k) * 3 + ch ∧
          (j * c.numThreadGroups + k) * 3 + ch < B.length := by
        intro k ch hk hch
        have h1 : j * c.numThreadGroups + k < c.nCoefficients * c.numThreadGroups := by
          calc j * c.numThreadGroups + k < j * c.numThreadGroups + c.numThreadGroups := by omega
            _ = (j + 1) * c.numThreadGroups := by ring
            _ ≤ c.nCoefficients * c.numThreadGroups := Nat.mul_le_mul_right _ hj
        have h2 : c.nCoefficients * c.numThreadGroups < 2 ^ 31 * 2 ^ 31 :=
          Nat.mul_lt_mul'' hn ht
        have h3 : (2 : Nat) ^ 31 * 2 ^ 31 * 3 < 2 ^ 64 := by norm_num
        exact ⟨Nat.mod_eq_of_lt (by omega), by omega⟩
      obtain ⟨total, htotal, hsum⟩ := forUp_invariant
        (fun k (total : α × α × α) =>
          (B[((j * c.numThreadGroups + k) * 3) % 2 ^ 64]?).bind fun b0 =>
          (B[((j * c.numThreadGroups + k) * 3 + 1) % 2 ^ 64]?).bind fun b1 =>
          (B[((j * c.numThreadGroups + k) * 3 + 2) % 2 ^ 64]?).map fun b2 =>
            (ops.add total.1 b0, ops.add total.2.1 b1, ops.add total.2.2 b2))
        (fun k total => total =
          (Single.sumUpTo ops (ops.lit 0 1)
            (fun k' => B.getD ((j * c.numThreadGroups + k') * 3 + 0) (ops.lit 0 1)) k,
           Single.sumUpTo ops (ops.lit 0 1)
            (fun k' => B.getD ((j * c.numThreadGroups + k') * 3 + 1) (ops.lit 0 1)) k,
           Single.sumUpTo ops (ops.lit 0 1)
            (fun k' => B.getD ((j * c.numThreadGroups + k') * 3 + 2) (ops.lit 0 1)) k))
        c.numThreadGroups (ops.lit 0 1, ops.lit 0 1, ops.lit 0 1) rfl
        (by
          intro k hk total htot
          obtain ⟨h10, h20⟩ := hidx k 0 hk (by norm_num)
          obtain ⟨h11, h21⟩ := hidx k 1 hk (by norm_num)
          obtain ⟨h12, h22⟩ := hidx k 2 hk (by norm_num)
          rw [Nat.add_zero] at h10 h20
          refine ⟨(ops.add total.1 (B.getD ((j * c.numThreadGroups + k) * 3) (ops.lit 0 1)),
            ops.add total.2.1 (B.getD ((j * c.numThreadGroups + k) * 3 + 1) (ops.lit 0 1)),
            ops.add total.2.2 (B.getD ((j * c.numThreadGroups + k) * 3 + 2) (ops.lit 0 1))),
            ?_, ?_⟩
          · beta_reduce
            rw [h10, h11, h12, getElem?_eq_some_getD_of_lt B _ (ops.lit 0 1) h20,
              getElem?_eq_some_getD_of_lt B _ (ops.lit 0 1) h21,
              getElem?_eq_some_getD_of_lt B _ (ops.lit 0 1) h22]
            rfl
          · beta_reduce
            rw [Single.sumUpTo, Single.sumUpTo, Single.sumUpTo, htot]
            rfl)
      refine ⟨coeffs ++
            [ops.mul (ops.mul (ops.div total.1 (ops.ofInt c.numEvents)) (ops.lit 4 1))
              (ops.lit 314159 100000),
             ops.mul (ops.mul (ops.div total.2.1 (ops.ofInt c.numEvents)) (ops.lit 4 1))
              (ops.lit 314159 100000),
             ops.mul (ops.mul (ops.div total.2.2 (ops.ofInt c.numEvents)) (ops.lit 4 1))
              (ops.lit 314159 100000)], ?_, ?_⟩
      · beta_reduce
        rw [forInt_of_lt _ _ _ ht, htotal]
        rfl
      · beta_reduce
        have e3 : 3 * (j + 1) = 3 * j + 1 + 1 + 1 := by ring
        have d0 : (3 * j) / 3 = j := by omega
        have d1 : (3 * j + 1) / 3 = j := by omega
        have d2 : (3 * j + 1 + 1) / 3 = j := by omega
        have m0 : (3 * j) % 3 = 0 := by omega
        have m1 : (3 * j + 1) % 3 = 1 := by omega
        have m2 : (3 * j + 1 + 1) % 3 = 2 := by omega
        rw [hcoeffs, hsum, e3, List.range_succ, List.range_succ, List.range_succ]
        simp only [List.map_append, List.map_cons, List.map_nil, List.append_assoc,
          List.cons_append, List.nil_append, d0, d1, d2, m0, m1, m2,
          Single.specEMCoefficient])
  rw [hout, hI]

end StoreSingle

/-! ## `CalcSH` in floating-point arithmetic -/

section SingleSH
variable {α δ : Type}

theorem Single_Factorical_of_le (ops : FloatOps α δ) (n : Int) (h : n ≤ 2 ^ 24) :
    Single.Factorical ops n = some (Single.factorical ops n.toNat) := by
  unfold Single.Factorical
  rw [if_neg (by omega)]

theorem Single_DoubleFactorical_of_le (ops : FloatOps α δ) (n : Int) (h : n ≤ 2 ^ 24) :
    Single.DoubleFactorical ops n = some (Single.doubleFactorical ops n.toNat) := by
  unfold Single.DoubleFactorical
  rw [if_neg (by omega)]

theorem Single_CalcLegendre1_eq (ops : FloatOps α δ) (m : Nat) (x : α)
    (hm : 2 * m ≤ 2 ^ 24) :
    Single.CalcLegendre1 ops (m : Int) x = some (Single.specLegendre ops x m 0) := by
  have ht : (2 * (m : Int) - 1).toNat = 2 * m - 1 := by omega
  unfold Single.CalcLegendre1
  rw [Single_DoubleFactorical_of_le ops _ (by omega), ht]
  rfl

theorem Single_CalcLegendre2_eq (ops : FloatOps α δ) (m : Nat) (x : α) :
    Single.CalcLegendre2 ops (m : Int) x (Single.specLegendre ops x m 0)
      = Single.specLegendre ops x m 1 := rfl

theorem Single_CalcLegendre3_eq (ops : FloatOps α δ) (m d : Nat) (x : α) :
    Single.CalcLegendre3 ops ((m + d + 2 : Nat) : Int) (m : Int) x
      (Single.specLegendre ops x m (d + 1)) (Single.specLegendre ops x m d)
      = Single.specLegendre ops x m (d + 2) := rfl

/-- The value of `CalcCoefficient(l, m, phi)` where both factorials are taken of
integers up to `2 ^ 24`: `K(l, m)` for `m = 0` and `K(l, m) * A(m, phi)` otherwise. -/
theorem Single_CalcCoefficient_eq (ops : FloatOps α δ) (l : Nat) (m : Int) (phi : α)
    (hm : m.natAbs ≤ l) (h24 : l + m.natAbs ≤ 2 ^ 24) :
    Single.CalcCoefficient ops (l : Int) m phi
      = some (if m = 0 then Single.specK ops l m
          else ops.mul (Single.specK ops l m) (Single.specA ops m phi)) := by
  have h1 : ((l : Int) - |m|).toNat = l - m.natAbs := by
    rw [← Int.natCast_natAbs]; omega
  have h2 : ((l : Int) + |m|).toNat = l + m.natAbs := by
    rw [← Int.natCast_natAbs]; omega
  have hb1 : (l : Int) - |m| ≤ 2 ^ 24 := by
    rw [← Int.natCast_natAbs]; omega
  have hb2 : (l : Int) + |m| ≤ 2 ^ 24 := by
    rw [← Int.natCast_natAbs]; omega
  unfold Single.CalcCoefficient
  rw [Single_Factorical_of_le ops _ hb1, Single_Factorical_of_le ops _ hb2, h1, h2]
  simp only [Option.some_bind, Option.map_some']
  rcases lt_trichotomy m 0 with h | h | h
  · have h' : ¬ 0 < m := by omega
    have h0 : m ≠ 0 := by omega
    rw [if_pos h, if_neg h0]
    unfold Single.specA Single.specK
    rw [if_neg h']
  · subst h
    simp only [lt_self_iff_false, if_false, if_true]
    rfl
  · have h' : ¬ m < 0 := by omega
    have h0 : m ≠ 0 := by omega
    rw [if_neg h', if_pos h, if_neg h0]
    unfold Single.specA Single.specK
    rw [if_pos h]

theorem Single_legendreStep_inv (ops : FloatOps α δ)
    (x : α) (N L M : Nat) (hN24 : 2 * N ≤ 2 ^ 24)
    (hN : (N + 1) * (N + 1) < 2 ^ 64) (hL : L ≤ N) (hM : M ≤ L) (v : List α)
    (h : Single.LegendreInv ops x ((N + 1) * (N + 1)) L (M + 1) v) :
    ∃ v', Single.legendreStep ops x (L : Int) (M : Int) v = some v' ∧
      Single.LegendreInv ops x ((N + 1) * (N + 1)) L M v' := by
  obtain ⟨hlen, hent⟩ := h
  have hbound : ∀ l i, l ≤ N → i ≤ 2 * l → l * l + i < 2 ^ 64 := fun l i hl hi =>
    lt_trans (shIndex_lt N l i hl hi) hN
  have hw : toIndex ((L : Int) * L + L + M) = L * L + L + M := by
    have : (L : Int) * L + L + M = ((L * L + L + M : Nat) : Int) := by push_cast; ring
    rw [this, toIndex_natCast]
    have := hbound L (L + M) hL (by omega)
    omega
  have hwlt : L * L + L + M < v.length := by
    rw [hlen]
    have := shIndex_lt N L (L + M) hL (by omega)
    omega
  -- the value written is `P(L, M)`
  have hres : ∃ res, Single.legendreValue ops x (L : Int) (M : Int) v = some res ∧
      res = Single.specLegendre ops x M (L - M) := by
    rcases Nat.lt_trichotomy L (M + 1) with h1 | h1 | h1
    · have hLM : L = M := by omega
      subst hLM
      refine ⟨Single.specLegendre ops x L 0, ?_, ?_⟩
      · unfold Single.legendreValue
        rw [if_pos rfl]
        exact Single_CalcLegendre1_eq ops L x (by omega)
      · rw [Nat.sub_self]
    · subst h1
      have hr : toIndex ((M : Int) * M + 2 * M) = M * M + M + M := by
        have : (M : Int) * M + 2 * M = ((M * M + M + M : Nat) : Int) := by push_cast; ring
        rw [this, toIndex_natCast]
        have := hbound M (M + M) (by omega) (by omega)
        omega
      have hP := hent M M (le_refl M) (Or.inl (by omega))
      rw [Nat.sub_self] at hP
      refine ⟨Single.CalcLegendre2 ops (M : Int) x (Single.specLegendre ops x M 0), ?_, ?_⟩
      · have hne : ¬ (((M + 1 : Nat) : Int) = (M : Int)) := by omega
        have heq : ((M + 1 : Nat) : Int) = (M : Int) + 1 := by omega
        unfold Single.legendreValue
        rw [if_neg hne, if_pos heq, hr, hP]
        rfl
      · have : M + 1 - M = 1 := by omega
        rw [this, Single_CalcLegendre2_eq]
    · obtain ⟨d, rfl⟩ : ∃ d, L = M + d + 2 := ⟨L - M - 2, by omega⟩
      have hr1 : toIndex (((M + d + 2 : Nat) : Int) * ((M + d + 2 : Nat) : Int)
          - ((M + d + 2 : Nat) : Int) + M)
          = (M + d + 1) * (M + d + 1) + (M + d + 1) + M := by
        have : ((M + d + 2 : Nat) : Int) * ((M + d + 2 : Nat) : Int)
            - ((M + d + 2 : Nat) : Int) + M
            = (((M + d + 1) * (M + d + 1) + (M + d + 1) + M : Nat) : Int) := by
          push_cast; ring
        rw [this, toIndex_natCast]
        have := hbound (M + d + 1) (M + d + 1 + M) (by omega) (by omega)
        omega
      have hr2 : toIndex (((M + d + 2 : Nat) : Int) * ((M + d + 2 : Nat) : Int)
          - 3 * ((M + d + 2 : Nat) : Int) + M + 2)
          = (M + d) * (M + d) + (M + d) + M := by
        have : ((M + d + 2 : Nat) : Int) * ((M + d + 2 : Nat) : Int)
            - 3 * ((M + d + 2 : Nat) : Int) + M + 2
            = (((M + d) * (M + d) + (M + d) + M : Nat) : Int) := by
          push_cast; ring
        rw [this, toIndex_natCast]
        have := hbound (M + d) (M + d + M) (by omega) (by omega)
        omega
      have hP1 := hent (M + d + 1) M (by omega) (Or.inl (by omega))
      have hP2 := hent (M + d) M (by omega) (Or.inl (by omega))
      have e1 : M + d + 1 - M = d + 1 := by omega
      have e2 : M + d - M = d := by omega
      have e3 : M + d + 2 - M = d + 2 := by omega
      rw [e1] at hP1
      rw [e2] at hP2
      refine ⟨Single.CalcLegendre3 ops ((M + d + 2 : Nat) : Int) (M : Int) x
        (Single.specLegendre ops x M (d + 1)) (Single.specLegendre ops x M d), ?_, ?_⟩
      · have hne : ¬ (((M + d + 2 : Nat) : Int) = (M : Int)) := by omega
        have hne' : ¬ (((M + d + 2 : Nat) : Int) = (M : Int) + 1) := by omega
        unfold Single.legendreValue
        rw [if_neg hne, if_neg hne', hr1, hr2, hP1, hP2]
        rfl
      · rw [e3, Single_CalcLegendre3_eq]
  obtain ⟨res, hres1, hres2⟩ := hres
  refine ⟨v.set (L * L + L + M) res, ?_, ?_, ?_⟩
  · unfold Single.legendreStep
    rw [hres1, hw]
    exact store_of_lt v _ res hwlt
  · rw [List.length_set, hlen]
  · intro l m hml hcond
    by_cases hsame : L * L + L + M = l * l + l + m
    · obtain ⟨hl, hm⟩ := shIndex_inj L (L + M) l (l + m) (by omega) (by omega) (by omega)
      have hm' : M = m := by omega
      subst hl hm'
      rw [List.getElem?_set_self hwlt, hres2]
    · rw [List.getElem?_set_ne hsame]
      apply hent l m hml
      rcases hcond with h1 | ⟨h1, h2⟩
      · exact Or.inl h1
      · refine Or.inr ⟨h1, ?_⟩
        subst h1
        rcases Nat.lt_or_ge M m with h3 | h3
        · exact h3
        · exfalso; apply hsame; have : M = m := by omega
          rw [this]


theorem Single_legendre_pass (ops : FloatOps α δ)
    (x : α) (N : Nat) (hN24 : 2 * N ≤ 2 ^ 24)
    (hN : (N + 1) * (N + 1) < 2 ^ 64) :
    ∃ v, forUp (fun l => forDown (fun m => Single.legendreStep ops x l m) (l + 1)) (N + 1)
        (List.replicate ((N + 1) * (N + 1)) (ops.lit 0 1)) = some v ∧
      Single.LegendreInv ops x ((N + 1) * (N + 1)) (N + 1) (N + 1 + 1) v := by
  exact forUp_invariant
    (fun l => forDown (fun m => Single.legendreStep ops x (l : Int) (m : Int)) (l + 1))
    (fun L v => Single.LegendreInv ops x ((N + 1) * (N + 1)) L (L + 1) v) (N + 1)
    (List.replicate ((N + 1) * (N + 1)) (ops.lit 0 1))
    ⟨List.length_replicate _ _, fun l m hml hc => by omega⟩
    (by
      intro L hL v hv
      obtain ⟨v', hv', hI⟩ := forDown_invariant
        (fun m => Single.legendreStep ops x (L : Int) (m : Int))
        (fun M v => Single.LegendreInv ops x ((N + 1) * (N + 1)) L M v) (L + 1) v hv
        (fun M hM w hw =>
          Single_legendreStep_inv ops x N L M hN24 hN (by omega) (by omega) w hw)
      refine ⟨v', hv', hI.1, ?_⟩
      intro l m hml hc
      apply hI.2 l m hml
      rcases hc with h1 | ⟨h1, h2⟩
      · rcases Nat.lt_or_ge l L with h3 | h3
        · exact Or.inl h3
        · exact Or.inr ⟨by omega, Nat.zero_le _⟩
      · omega)


theorem Single_coefficientStep_inv (ops : FloatOps α δ) (x phi : α) (N L I : Nat)
    (hN24 : 2 * N ≤ 2 ^ 24)
    (hN : (N + 1) * (N + 1) < 2 ^ 64) (hL : L ≤ N) (hI : I ≤ 2 * L) (v : List α)
    (h : Single.CoefficientInv ops x phi ((N + 1) * (N + 1)) N L I v) :
    ∃ v', Single.coefficientStep ops phi (L : Int) ((I : Int) - L) v = some v' ∧
      Single.CoefficientInv ops x phi ((N + 1) * (N + 1)) N L (I + 1) v' := by
  obtain ⟨hlen, hY, hP⟩ := h
  have hbound : ∀ l i, l ≤ N → i ≤ 2 * l → l * l + i < 2 ^ 64 := fun l i hl hi =>
    lt_trans (shIndex_lt N l i hl hi) hN
  have habs : ((I : Int) - L).natAbs ≤ L := by omega
  have hw : toIndex ((L : Int) * L + L + ((I : Int) - L)) = L * L + I := by
    have : (L : Int) * L + L + ((I : Int) - L) = ((L * L + I : Nat) : Int) := by
      push_cast; ring
    rw [this, toIndex_natCast _ (hbound L I hL hI)]
  have hr : toIndex ((L : Int) * L + L + |(I : Int) - L|)
      = L * L + L + ((I : Int) - L).natAbs := by
    have : (L : Int) * L + L + |(I : Int) - L|
        = ((L * L + L + ((I : Int) - L).natAbs : Nat) : Int) := by
      rw [← Int.natCast_natAbs]; push_cast; ring
    rw [this, toIndex_natCast]
    have := hbound L (L + ((I : Int) - L).natAbs) hL (by omega)
    omega
  have hwlt : L * L + I < v.length := by
    rw [hlen]; exact shIndex_lt N L I hL hI
  have hread := hP L ((I : Int) - L).natAbs hL habs (Or.inr ⟨rfl, by omega⟩)
  have hval : ops.mul
      (if (I : Int) - L = 0 then Single.specK ops L ((I : Int) - L)
        else ops.mul (Single.specK ops L ((I : Int) - L)) (Single.specA ops ((I : Int) - L) phi))
      (Single.specLegendre ops x ((I : Int) - L).natAbs (L - ((I : Int) - L).natAbs))
      = Single.specY ops x phi L ((I : Int) - L) := by
    unfold Single.specY
    split_ifs <;> rfl
  refine ⟨v.set (L * L + I) (Single.specY ops x phi L ((I : Int) - L)), ?_, ?_, ?_, ?_⟩
  · unfold Single.coefficientStep
    rw [Single_CalcCoefficient_eq ops L _ phi habs (by omega), Option.some_bind, hr, hread,
      Option.some_bind, hw, hval]
    exact store_of_lt v _ _ hwlt
  · rw [List.length_set, hlen]
  · intro l i hi hc
    by_cases hsame : L * L + I = l * l + i
    · obtain ⟨hl, hi'⟩ := shIndex_inj L I l i hI hi hsame
      subst hl hi'
      rw [List.getElem?_set_self hwlt]
    · rw [List.getElem?_set_ne hsame]
      apply hY l i hi
      rcases hc with h1 | ⟨h1, h2⟩
      · exact Or.inl h1
      · refine Or.inr ⟨h1, ?_⟩
        subst h1
        rcases Nat.lt_or_ge i I with h3 | h3
        · exact h3
        · exfalso; apply hsame; have : I = i := by omega
          rw [this]
  · intro l m hl hml hc
    have hne : L * L + I ≠ l * l + l + m := by
      intro heq
      obtain ⟨h1, h2⟩ := shIndex_inj L I l (l + m) hI (by omega) (by omega)
      omega
    rw [List.getElem?_set_ne hne]
    apply hP l m hl hml
    rcases hc with h1 | ⟨h1, h2⟩
    · exact Or.inl h1
    · exact Or.inr ⟨h1, by omega⟩


theorem Single_coefficient_pass (ops : FloatOps α δ) (x phi : α) (N : Nat)
    (hN24 : 2 * N ≤ 2 ^ 24)
    (hN : (N + 1) * (N + 1) < 2 ^ 64) (v : List α)
    (hv : Single.LegendreInv ops x ((N + 1) * (N + 1)) (N + 1) (N + 1 + 1) v) :
    ∃ w, forUp (fun l => forUp (fun i => Single.coefficientStep ops phi l ((i : Int) - l))
        (2 * l + 1)) (N + 1) v = some w ∧
      w.length = (N + 1) * (N + 1) ∧
      ∀ l i, l ≤ N → i ≤ 2 * l → w[l * l + i]? = some (Single.specY ops x phi l ((i : Int) - l)) := by
  have hloop := forUp_invariant
    (fun l => forUp (fun i => Single.coefficientStep ops phi (l : Int) ((i : Int) - l)) (2 * l + 1))
    (fun L w => Single.CoefficientInv ops x phi ((N + 1) * (N + 1)) N L 0 w) (N + 1) v
    ⟨hv.1, fun l i _ hc => by omega, fun l m hl hml _ => hv.2 l m hml (Or.inl (by omega))⟩
    (by
      intro L hL w hw
      obtain ⟨w', hw', hI⟩ := forUp_invariant
        (fun i => Single.coefficientStep ops phi (L : Int) ((i : Int) - L))
        (fun I u => Single.CoefficientInv ops x phi ((N + 1) * (N + 1)) N L I u) (2 * L + 1) w hw
        (fun I hI u hu =>
          Single_coefficientStep_inv ops x phi N L I hN24 hN (by omega) (by omega) u hu)
      refine ⟨w', hw', hI.1, ?_, ?_⟩
      · intro l i hi hc
        apply hI.2.1 l i hi
        rcases hc with h1 | ⟨h1, h2⟩
        · rcases Nat.lt_or_ge l L with h3 | h3
          · exact Or.inl h3
          · exact Or.inr ⟨by omega, by omega⟩
        · omega
      · intro l m hl hml hc
        apply hI.2.2 l m hl hml
        rcases hc with h1 | ⟨h1, h2⟩
        · exact Or.inl (by omega)
        · exact Or.inl (by omega))
  obtain ⟨w, hw, hI⟩ := hloop
  refine ⟨w, hw, hI.1, ?_⟩
  intro l i hl hi
  exact hI.2.1 l i hi (Or.inl (by omega))


/-- Functional correctness of `CalcSH` in floating-point arithmetic, where the vector
can be constructed and every factorial is taken of an integer up to `2 ^ 24`: the call
returns, the result has `(N + 1) ^ 2` entries, and entry `l * l + i` of row `l` is
`Y(l, i - l)`. -/
theorem Single_CalcSH_spec (ops : FloatOps α δ) (capacity N : Nat)
    (hcap : (N + 1) * (N + 1) ≤ capacity) (hN24 : 2 * N ≤ 2 ^ 24) (x phi : α) :
    ∃ v, Single.CalcSH ops capacity N x phi = some v ∧ v.length = (N + 1) ^ 2 ∧
      ∀ l i, l ≤ N → i ≤ 2 * l →
        v[l * l + i]? = some (Single.specY ops x phi l ((i : Int) - l)) := by
  have hN : N + 1 ≤ 2 ^ 24 := by omega
  have hsz : (N + 1) * (N + 1) ≤ 2 ^ 24 * 2 ^ 24 := Nat.mul_le_mul hN hN
  have hsz62 : (N + 1) * (N + 1) ≤ 2 ^ 62 - 1 := by
    have : (2 : Nat) ^ 24 * 2 ^ 24 ≤ 2 ^ 62 - 1 := by norm_num
    omega
  have hN64 : (N + 1) * (N + 1) < 2 ^ 64 := by
    have : (2 : Nat) ^ 62 - 1 < 2 ^ 64 := by norm_num
    omega
  have hmod : ((N + 1) * (N + 1)) % 2 ^ 64 = (N + 1) * (N + 1) := Nat.mod_eq_of_lt hN64
  obtain ⟨v, hv, hLeg⟩ := Single_legendre_pass ops x N hN24 hN64
  obtain ⟨w, hw, hlen, hent⟩ := Single_coefficient_pass ops x phi N hN24 hN64 v hLeg
  refine ⟨w, ?_, by rw [hlen, pow_two], hent⟩
  unfold Single.CalcSH
  simp only [hmod]
  rw [if_neg (by
    have hmin : (N + 1) * (N + 1) ≤ min capacity (2 ^ 62 - 1) := le_min hcap hsz62
    omega), hv]
  exact hw

end SingleSH

/-! ## The binary floating-point model -/

theorem lt_two_pow_bitLengthAux (fuel n : Nat) (h : n ≤ fuel) :
    n < 2 ^ bitLengthAux fuel n := by
  induction fuel generalizing n with
  | zero =>
    have : n = 0 := by omega
    subst this
    simp [bitLengthAux]
  | succ fuel ih =>
    unfold bitLengthAux
    split_ifs with h0
    · subst h0
      simp
    · have h2 := ih (n / 2) (by omega)
      rw [pow_succ]
      omega

/-- A number has no more binary digits than `bitLength` says. -/
theorem lt_two_pow_bitLength (n : Nat) : n < 2 ^ bitLength n :=
  lt_two_pow_bitLengthAux n n (le_refl n)

theorem isqrtAux_spec (k n r : Nat) (h1 : r * r ≤ n) (h2 : n < (r + 2 ^ k) * (r + 2 ^ k)) :
    isqrtAux k n r * isqrtAux k n r ≤ n ∧
      n < (isqrtAux k n r + 1) * (isqrtAux k n r + 1) := by
  induction k generalizing r with
  | zero =>
    simp only [isqrtAux]
    exact ⟨h1, by simpa using h2⟩
  | succ k ih =>
    simp only [isqrtAux]
    split_ifs with hc
    · apply ih _ hc
      have : r + 2 ^ k + 2 ^ k = r + 2 ^ (k + 1) := by rw [pow_succ]; omega
      rw [this]
      exact h2
    · exact ih r h1 (by omega)

/-- The digit-by-digit root is the integer square root. -/
theorem isqrt_eq_sqrt (n : Nat) : isqrt n = Nat.sqrt n := by
  have hb := lt_two_pow_bitLength n
  have hk : n < (0 + 2 ^ (bitLength n / 2 + 1)) * (0 + 2 ^ (bitLength n / 2 + 1)) := by
    rw [Nat.zero_add, ← pow_add]
    calc n < 2 ^ bitLength n := hb
      _ ≤ 2 ^ (bitLength n / 2 + 1 + (bitLength n / 2 + 1)) :=
        Nat.pow_le_pow_right (by norm_num) (by omega)
  obtain ⟨h1, h2⟩ := isqrtAux_spec (bitLength n / 2 + 1) n 0 (Nat.zero_le _) hk
  exact Nat.eq_sqrt.2 ⟨h1, h2⟩

/-- The integers at the end of the range in which every integer is a `float`:
`2 ^ 24 - 1` and `2 ^ 24` are converted exactly, `2 ^ 24 + 1` is converted to `2 ^ 24`,
and `2 ^ 24 - 1.0f` is `2 ^ 24 - 1`. -/
theorem binary32_integers :
    (binary32.ofInt 16777215).toRat = some 16777215 ∧
    (binary32.ofInt 16777216).toRat = some 16777216 ∧
    binary32.ofInt 16777217 = binary32.ofInt 16777216 ∧
    binary32.sub (binary32.ofInt 16777216) (binary32.lit 1 1) = binary32.ofInt 16777215 := by
  have h1 : binary32.ofInt 16777215 = Fp.finite false 16777215 0 := by decide!
  have h2 : binary32.ofInt 16777216 = Fp.finite false 8388608 1 := by decide!
  refine ⟨?_, ?_, by decide!, by decide!⟩
  · rw [h1]
    simp only [Fp.toRat]
    norm_num
  · rw [h2]
    simp only [Fp.toRat]
    norm_num

/-! ## Integers in binary32 and the factorial recursions -/

section StoreClaims
variable {α δ : Type}

/-- C9 (amended).  When `nCoefficients` and `numThreadGroups` are below `2 ^ 31` (the
range of the `int` loop counters) and the read-back buffer `B` holds
`nCoefficients * numThreadGroups` partial sums, `StorePRTResult` returns, keeps what
the vector held and appends exactly `nCoefficients` values, the `j`-th being
`(S / float(numEvents)) * 4.0f` in `float` arithmetic, where `S` is the `float` sum
`((0 + B[j g]) + B[j g + 1]) + .. + B[j g + g - 1]` (`g = numThreadGroups`) added up from
the left.  Nothing is assumed about the `float` operations, so this holds with
rounding, with overflow, and with `numEvents = 0`, where the value is a NaN or an
infinity.  Read in exact arithmetic (a field of characteristic zero) with
`numEvents ≠ 0` the value is `(sum over k < g of B[j g + k]) / numEvents * 4`. -/
theorem StorePRTResult_spec (ops : FloatOps α δ) (coefficients B : List α)
    (c : PRTConstantContainer)
    (hn : c.nCoefficients < 2 ^ 31) (ht : c.numThreadGroups < 2 ^ 31)
    (hB : c.nCoefficients * c.numThreadGroups ≤ B.length) :
    Single.StorePRTResult ops coefficients B c =
      some (coefficients ++ (List.range c.nCoefficients).map
        (Single.specPRTCoefficient ops B c.numThreadGroups c.numEvents)) ∧
    ((List.range c.nCoefficients).map
      (Single.specPRTCoefficient ops B c.numThreadGroups c.numEvents)).length
        = c.nCoefficients ∧
    (∀ j, Single.specPRTCoefficient ops B c.numThreadGroups c.numEvents j
      = ops.mul
          (ops.div
            (Single.sumUpTo ops (ops.ofInt 0)
              (fun k => B.getD (j * c.numThreadGroups + k) (ops.ofInt 0)) c.numThreadGroups)
            (ops.ofInt c.numEvents))
          (ops.lit 4 1)) ∧
    (c.numEvents ≠ 0 → ∀ (β : Type) [Field β] [CharZero β] (fns : MathOps β) (B' : List β)
        (j : Nat),
      Single.specPRTCoefficient (exactOps fns) B' c.numThreadGroups c.numEvents j
        = (∑ k in Finset.range c.numThreadGroups, B'.getD (j * c.numThreadGroups + k) 0)
            / (c.numEvents : β) * 4) :=
  ⟨Single_StorePRTResult_eq ops coefficients B c hn ht hB, by simp, fun _ => rfl,
    fun _ β _ _ fns B' j => specPRTCoefficient_exactOps fns B' _ _ j⟩

/-- Witness for `StorePRTResult_spec` in IEEE arithmetic: one coefficient, four thread
groups, 256 events. -/
theorem StorePRTResult_spec_witness :
    ((⟨256, 16, 8, 4, 0, 1, 12, 8⟩ : PRTConstantContainer).nCoefficients < 2 ^ 31 ∧
      (⟨256, 16, 8, 4, 0, 1, 12, 8⟩ : PRTConstantContainer).numThreadGroups < 2 ^ 31 ∧
      (⟨256, 16, 8, 4, 0, 1, 12, 8⟩ : PRTConstantContainer).nCoefficients
        * (⟨256, 16, 8, 4, 0, 1, 12, 8⟩ : PRTConstantContainer).numThreadGroups
        ≤ [binary32.ofInt 3, binary32.lit 1 2, binary32.ofInt 5, binary32.lit 7 4].length) ∧
    Single.StorePRTResult (ieee ⟨fun x => x, fun x => x, fun x _ => x⟩) [binary32.ofInt 7]
        [binary32.ofInt 3, binary32.lit 1 2, binary32.ofInt 5, binary32.lit 7 4]
        ⟨256, 16, 8, 4, 0, 1, 12, 8⟩ =
      some ([binary32.ofInt 7] ++ (List.range 1).map
        (Single.specPRTCoefficient (ieee ⟨fun x => x, fun x => x, fun x _ => x⟩)
          [binary32.ofInt 3, binary32.lit 1 2, binary32.ofInt 5, binary32.lit 7 4] 4 256)) :=
  ⟨⟨by norm_num, by norm_num, by simp⟩,
    (StorePRTResult_spec (ieee ⟨fun x => x, fun x => x, fun x _ => x⟩) [binary32.ofInt 7]
      [binary32.ofInt 3, binary32.lit 1 2, binary32.ofInt 5, binary32.lit 7 4]
      ⟨256, 16, 8, 4, 0, 1, 12, 8⟩ (by norm_num) (by norm_num) (by simp)).1⟩

/-- C9 as stated fails in three ways.  Rounding: with 256 events and four thread groups
the buffers `[2 ^ 24, 1, 0, 0]` and `[2 ^ 24, 0, 0, 0]` both give the coefficient
`2 ^ 18`, because the `float` sum `2 ^ 24 + 1` is `2 ^ 24`; the formula of the claim
gives `2 ^ 18 + 1 / 64` for the first.  No events (the descriptor `NumEvents = 0` gives
`numEvents = 0` and no thread group): the value appended is `0.0f / 0.0f`, a NaN.
Counters: with `nCoefficients = 2147488281` (the descriptor `MaxL = 46340`) or with
`2147488281` thread groups the `int` counter cannot reach the bound, `++j` overflows,
and the call does not append `nCoefficients` values. -/
theorem StorePRTResult_counterexample :
    Single.StorePRTResult (ieee ⟨fun x => x, fun x => x, fun x _ => x⟩) []
        [binary32.ofInt 16777216, binary32.ofInt 1, binary32.ofInt 0, binary32.ofInt 0]
        ⟨256, 16, 8, 4, 0, 1, 12, 8⟩ = some [Fp.finite false 8388608 (-5)] ∧
    Single.StorePRTResult (ieee ⟨fun x => x, fun x => x, fun x _ => x⟩) []
        [binary32.ofInt 16777216, binary32.ofInt 0, binary32.ofInt 0, binary32.ofInt 0]
        ⟨256, 16, 8, 4, 0, 1, 12, 8⟩ = some [Fp.finite false 8388608 (-5)] ∧
    (Fp.finite false 8388608 (-5)).toRat = some 262144 ∧
    [(binary32.ofInt 16777216).toRat, (binary32.ofInt 1).toRat, (binary32.ofInt 0).toRat]
      = [some 16777216, some 1, some 0] ∧
    ((16777216 + 1 + 0 + 0 : ℚ) / 256 * 4 = 262144 + 1 / 64) ∧
    Single.StorePRTResult (ieee ⟨fun x => x, fun x => x, fun x _ => x⟩) [] []
        ⟨0, 0, 8, 0, 0, 1, 12, 8⟩ = some [Fp.nan] ∧
    (List.replicate 2147488281 (binary32.ofInt 0)).length = 2147488281 * 1 ∧
    Single.StorePRTResult (ieee ⟨fun x => x, fun x => x, fun x _ => x⟩) []
      (List.replicate 2147488281 (binary32.ofInt 0))
      { maxL := 46340, nCoefficients := 2147488281, triangleNum := 12, vertexNum := 8,
        numEvents := 64, numEventsX := 8, shGridNum := 8, numThreadGroups := 1 } = none ∧
    Single.StorePRTResult (ieee ⟨fun x => x, fun x => x, fun x _ => x⟩) []
      (List.replicate 2147488281 (binary32.ofInt 0))
      { maxL := 0, nCoefficients := 1, triangleNum := 12, vertexNum := 8,
        numEvents := 137439249984, numEventsX := 370728, shGridNum := 8,
        numThreadGroups := 2147488281 } = none := by
  refine ⟨by decide!, by decide!, ?_, ?_, by norm_num, by decide!,
    by rw [List.length_replicate], forInt_of_ge _ _ _ (by norm_num), ?_⟩
  · simp only [Fp.toRat]
    norm_num
  · have h1 : binary32.ofInt 16777216 = Fp.finite false 8388608 1 := by decide!
    have h2 : binary32.ofInt 1 = Fp.finite false 8388608 (-23) := by decide!
    have h3 : binary32.ofInt 0 = Fp.finite false 0 0 := by decide!
    rw [h1, h2, h3]
    simp only [Fp.toRat]
    norm_num
  · unfold Single.StorePRTResult
    rw [forInt_of_lt _ _ _ (by norm_num)]
    simp only [forUp, Option.some_bind]
    rw [forInt_of_ge _ _ _ (by norm_num)]
    rfl

/-- C8 (amended).  When `nCoefficients` and `numThreadGroups` are below `2 ^ 31` (the
range of the `int` loop counters) and the read-back buffer `B` holds
`nCoefficients * numThreadGroups * 3` partial sums, `StoreEMResult` returns, keeps what
the vector held and appends exactly `3 * nCoefficients` values, the one at position
`3 * j + c` (coefficient `j`, channel `c`) being
`((S / float(numEvents)) * 4.0f) * 3.14159f` in `float` arithmetic, where `S` is the
`float` sum of the `B[(j g + k) * 3 + c]`, `k < g = numThreadGroups`, added up from the
left starting from `0.0f`.  Nothing is assumed about the `float` operations.  Read in
exact arithmetic (a field of characteristic zero) with `numEvents ≠ 0` the value is
`(sum over k < g of B[(j g + k) * 3 + c]) / numEvents * 4 * 3.14159`. -/
theorem StoreEMResult_spec (ops : FloatOps α δ) (coefficients B : List α)
    (c : EMConstantContainer)
    (hn : c.nCoefficients < 2 ^ 31) (ht : c.numThreadGroups < 2 ^ 31)
    (hB : c.nCoefficients * c.numThreadGroups * 3 ≤ B.length) :
    Single.StoreEMResult ops coefficients B c =
      some (coefficients ++ (List.range (3 * c.nCoefficients)).map
        (fun i => Single.specEMCoefficient ops B c.numThreadGroups c.numEvents
          (i / 3) (i % 3))) ∧
    ((List.range (3 * c.nCoefficients)).map
      (fun i => Single.specEMCoefficient ops B c.numThreadGroups c.numEvents
        (i / 3) (i % 3))).length = 3 * c.nCoefficients ∧
    (∀ j ch, Single.specEMCoefficient ops B c.numThreadGroups c.numEvents j ch
      = ops.mul
          (ops.mul
            (ops.div
              (Single.sumUpTo ops (ops.lit 0 1)
                (fun k => B.getD ((j * c.numThreadGroups + k) * 3 + ch) (ops.lit 0 1))
                c.numThreadGroups)
              (ops.ofInt c.numEvents))
            (ops.lit 4 1))
          (ops.lit 314159 100000)) ∧
    (c.numEvents ≠ 0 → ∀ (β : Type) [Field β] [CharZero β] (fns : MathOps β) (B' : List β)
        (j ch : Nat),
      Single.specEMCoefficient (exactOps fns) B' c.numThreadGroups c.numEvents j ch
        = (∑ k in Finset.range c.numThreadGroups,
              B'.getD ((j * c.numThreadGroups + k) * 3 + ch) 0)
            / (c.numEvents : β) * 4 * (314159 / 100000)) :=
  ⟨Single_StoreEMResult_eq ops coefficients B c hn ht hB, by simp, fun _ _ => rfl,
    fun _ β _ _ fns B' j ch => specEMCoefficient_exactOps fns B' _ _ j ch⟩

/-- Witness for `StoreEMResult_spec` in IEEE arithmetic: one coefficient, two thread
groups. -/
theorem StoreEMResult_spec_witness :
    ((⟨4, 2, 128, 8, 8, 2, 0, 1⟩ : EMConstantContainer).nCoefficients < 2 ^ 31 ∧
      (⟨4, 2, 128, 8, 8, 2, 0, 1⟩ : EMConstantContainer).numThreadGroups < 2 ^ 31 ∧
      (⟨4, 2, 128, 8, 8, 2, 0, 1⟩ : EMConstantContainer).nCoefficients
        * (⟨4, 2, 128, 8, 8, 2, 0, 1⟩ : EMConstantContainer).numThreadGroups * 3
        ≤ [binary32.ofInt 1, binary32.lit 1 2, binary32.ofInt 3, binary32.ofInt 4,
            binary32.lit 5 8, binary32.ofInt 6].length) ∧
    Single.StoreEMResult (ieee ⟨fun x => x, fun x => x, fun x _ => x⟩) []
        [binary32.ofInt 1, binary32.lit 1 2, binary32.ofInt 3, binary32.ofInt 4,
          binary32.lit 5 8, binary32.ofInt 6] ⟨4, 2, 128, 8, 8, 2, 0, 1⟩ =
      some ([] ++ (List.range (3 * 1)).map
        (fun i => Single.specEMCoefficient (ieee ⟨fun x => x, fun x => x, fun x _ => x⟩)
          [binary32.ofInt 1, binary32.lit 1 2, binary32.ofInt 3, binary32.ofInt 4,
            binary32.lit 5 8, binary32.ofInt 6] 2 128 (i / 3) (i % 3))) :=
  ⟨⟨by norm_num, by norm_num, by simp⟩,
    (StoreEMResult_spec (ieee ⟨fun x => x, fun x => x, fun x _ => x⟩) []
      [binary32.ofInt 1, binary32.lit 1 2, binary32.ofInt 3, binary32.ofInt 4,
        binary32.lit 5 8, binary32.ofInt 6] ⟨4, 2, 128, 8, 8, 2, 0, 1⟩
      (by norm_num) (by norm_num) (by simp)).1⟩

/-- C8 as stated fails in four ways.  The constant: with 64 events, one thread group
and the partial sums `(16, 0, 0)` the first value appended is the `float` `3.14159f`,
which is `13176784 / 2 ^ 22`, more than `10⁻⁶` below `16 / 64 * 4 * pi = pi`.  Rounding:
with 256 events and four thread groups the partial sums `2 ^ 24, 1, 0, 0` and
`2 ^ 24, 0, 0, 0` of the first channel give the same value.  No events: the values
appended are NaN.  Counters: with `nCoefficients = 2147488281` (the descriptor
`MaxL = 46340`) the `int` counter `j` cannot reach the bound, `++j` overflows, and the
call does not append `3 * nCoefficients` values. -/
theorem StoreEMResult_counterexample :
    Single.StoreEMResult (ieee ⟨fun x => x, fun x => x, fun x _ => x⟩) []
        [binary32.ofInt 16, binary32.ofInt 0, binary32.ofInt 0] ⟨4, 2, 64, 8, 8, 1, 0, 1⟩
      = some [Fp.finite false 13176784 (-22), Fp.finite false 0 0, Fp.finite false 0 0] ∧
    (Fp.finite false 13176784 (-22)).toRat = some (13176784 / 4194304) ∧
    (binary32.ofInt 16).toRat = some 16 ∧
    ((13176784 / 4194304 : ℚ) : ℝ) + 1 / 10 ^ 6 < 16 / 64 * 4 * Real.pi ∧
    Single.StoreEMResult (ieee ⟨fun x => x, fun x => x, fun x _ => x⟩) []
        [binary32.ofInt 16777216, binary32.ofInt 0, binary32.ofInt 0,
          binary32.ofInt 1, binary32.ofInt 0, binary32.ofInt 0,
          binary32.ofInt 0, binary32.ofInt 0, binary32.ofInt 0,
          binary32.ofInt 0, binary32.ofInt 0, binary32.ofInt 0] ⟨4, 2, 256, 16, 8, 4, 0, 1⟩
      = Single.StoreEMResult (ieee ⟨fun x => x, fun x => x, fun x _ => x⟩) []
        [binary32.ofInt 16777216, binary32.ofInt 0, binary32.ofInt 0,
          binary32.ofInt 0, binary32.ofInt 0, binary32.ofInt 0,
          binary32.ofInt 0, binary32.ofInt 0, binary32.ofInt 0,
          binary32.ofInt 0, binary32.ofInt 0, binary32.ofInt 0] ⟨4, 2, 256, 16, 8, 4, 0, 1⟩ ∧
    Single.StoreEMResult (ieee ⟨fun x => x, fun x => x, fun x _ => x⟩) [] []
        ⟨4, 2, 0, 0, 8, 0, 0, 1⟩ = some [Fp.nan, Fp.nan, Fp.nan] ∧
    (List.replicate 6442464843 (binary32.ofInt 0)).length = 2147488281 * 1 * 3 ∧
    Single.StoreEMResult (ieee ⟨fun x => x, fun x => x, fun x _ => x⟩) []
      (List.replicate 6442464843 (binary32.ofInt 0))
      { maxL := 46340, nCoefficients := 2147488281, numPixelsX := 4, numPixelsY := 2,
        numEvents := 64, numEventsX := 8, shGridNum := 8, numThreadGroups := 1 } = none := by
  refine ⟨by decide!, ?_, ?_, ?_, by decide!, by decide!, by rw [List.length_replicate],
    forInt_of_ge _ _ _ (by norm_num)⟩
  · simp only [Fp.toRat]
    norm_num
  · have h1 : binary32.ofInt 16 = Fp.finite false 8388608 (-19) := by decide!
    rw [h1]
    simp only [Fp.toRat]
    norm_num
  · have hpi := Real.pi_gt_d6
    norm_num
    linarith

end StoreClaims

/-! ## `CalcSH` in floating-point arithmetic: entries and size -/

theorem shIndex_exists (N k : Nat) (hk : k < (N + 1) * (N + 1)) :
    ∃ l i, l ≤ N ∧ i ≤ 2 * l ∧ k = l * l + i := by
  refine ⟨Nat.sqrt k, k - Nat.sqrt k * Nat.sqrt k, ?_, ?_, ?_⟩
  · have h1 : Nat.sqrt k < N + 1 := Nat.sqrt_lt.2 hk
    omega
  · have h1 := Nat.sqrt_le_add k
    have h2 := Nat.sqrt_le k
    omega
  · have h2 := Nat.sqrt_le k
    omega

section ExactReading
variable {β : Type} [Field β] [CharZero β]

theorem factorical_exactOps (fns : MathOps β) (n : Nat) :
    Single.factorical (exactOps fns) n = (n.factorial : β) := by
  induction n with
  | zero =>
    show ((1 : Nat) : β) / ((1 : Nat) : β) = _
    simp
  | succ n ih =>
    rw [Single.factorical]
    split_ifs with h
    · rw [ih, Nat.factorial_succ]
      show (((n + 1 : Nat) : Int) : β) * (n.factorial : β) = _
      push_cast
      ring
    · have : n = 0 := by omega
      subst this
      show ((1 : Nat) : β) / ((1 : Nat) : β) = _
      simp

theorem doubleFactorical_exactOps (fns : MathOps β) (n : Nat) :
    Single.doubleFactorical (exactOps fns) n = (n.doubleFactorial : β) := by
  induction n using Nat.strong_induction_on with
  | _ n ih =>
    match n with
    | 0 =>
      show ((1 : Nat) : β) / ((1 : Nat) : β) = _
      simp
    | 1 =>
      show ((1 : Nat) : β) / ((1 : Nat) : β) = _
      simp
    | k + 2 =>
      rw [Single.doubleFactorical, ih k (by omega), Nat.doubleFactorial_add_two]
      show (((k + 2 : Nat) : Int) : β) * (k.doubleFactorial : β) = _
      push_cast
      ring

theorem specLegendre_exactOps (fns : MathOps β)
    (hpow : ∀ k : Nat, fns.pow (-1) (k : β) = (-1) ^ k) (x : β) (m d : Nat) :
    Single.specLegendre (exactOps fns) x m d = specLegendre fns x m d := by
  induction d using Nat.strong_induction_on with
  | _ d ih =>
    match d with
    | 0 =>
      rw [Single.specLegendre, specLegendre, doubleFactorical_exactOps]
      show fns.pow (((-1 : Int)) : β) (((m : Nat) : Int) : β) * ((2 * m - 1).doubleFactorial : β)
        * fns.pow ((((1 : Int)) : β) - x * x) ((((m : Nat) : Int) : β) / (((2 : Int)) : β)) = _
      have h1 : (((-1 : Int)) : β) = -1 := by simp
      have h2 : ((((m : Nat) : Int)) : β) = (m : β) := by simp
      have h3 : (((2 : Int)) : β) = 2 := by simp
      have h4 : (((1 : Int)) : β) = 1 := by simp
      rw [h1, h2, h3, h4, hpow, pow_two]
    | 1 =>
      rw [Single.specLegendre, specLegendre, ih 0 (by omega)]
      show x * (((2 * (m : Int) + 1 : Int)) : β) * specLegendre fns x m 0 = _
      push_cast
      ring
    | k + 2 =>
      rw [Single.specLegendre, specLegendre, ih (k + 1) (by omega), ih k (by omega)]
      show (x * (((2 * ((m + k + 2 : Nat) : Int) - 1 : Int)) : β) * specLegendre fns x m (k + 1)
        - ((((m + k + 2 : Nat) : Int) + (m : Int) - 1 : Int) : β) * specLegendre fns x m k)
        / (((((m + k + 2 : Nat) : Int) - (m : Int) : Int)) : β) = _
      push_cast
      ring

theorem specK_exactOps (fns : MathOps β) (l : Nat) (m : Int) :
    Single.specK (exactOps fns) l m = specK fns l m := by
  unfold Single.specK specK
  rw [factorical_exactOps, factorical_exactOps]
  show fns.sqrt ((((2 * (l : Int) + 1 : Int)) : β) * ((l - m.natAbs).factorial : β)
    / (((4 : Nat) : β) / ((1 : Nat) : β) * (((31415926 : Nat) : β) / ((10000000 : Nat) : β))
      * ((l + m.natAbs).factorial : β))) = _
  have hPI : (((31415926 : Nat) : β) / ((10000000 : Nat) : β)) = (PI : β) := by
    unfold PI
    norm_num
  rw [hPI]
  congr 1
  push_cast
  ring

/-- Read in exact arithmetic, the value `Single.specY` is the product
`K(l, m) P(l, |m|) A(m, phi)` of the specification (with the constant `PI` of the code
for pi). -/
theorem specY_exactOps (fns : MathOps β)
    (hpow : ∀ k : Nat, fns.pow (-1) (k : β) = (-1) ^ k) (x phi : β) (l : Nat) (m : Int) :
    Single.specY (exactOps fns) x phi l m
      = specK fns l m * specLegendre fns x m.natAbs (l - m.natAbs) * specA fns m phi := by
  unfold Single.specY
  rw [specK_exactOps, specLegendre_exactOps fns hpow]
  have h2 : (exactOps fns).sqrt ((exactOps fns).lit 2 1) = fns.sqrt 2 := by
    show fns.sqrt (((2 : Nat) : β) / ((1 : Nat) : β)) = _
    norm_num
  rcases lt_trichotomy m 0 with h | h | h
  · have h0 : m ≠ 0 := by omega
    have h' : ¬ 0 < m := by omega
    rw [if_neg h0]
    unfold Single.specA specA
    rw [if_neg h', if_neg h', if_pos h, h2]
    show specK fns l m * (fns.sqrt 2 * fns.sin ((((-m : Int)) : β) * phi))
      * specLegendre fns x m.natAbs (l - m.natAbs) = _
    rw [Int.cast_neg]
    ring
  · subst h
    rw [if_pos rfl]
    unfold specA
    simp only [lt_self_iff_false, if_false, mul_one]
    rfl
  · have h0 : m ≠ 0 := by omega
    rw [if_neg h0]
    unfold Single.specA specA
    rw [if_pos h, if_pos h, h2]
    show specK fns l m * (fns.sqrt 2 * fns.cos ((m : β) * phi))
      * specLegendre fns x m.natAbs (l - m.natAbs) = _
    ring

/-- On the range where both return, the embedding of `CalcSH` over a field is the
floating-point embedding with the operations read exactly. -/
theorem CalcSH_eq_exactOps (fns : MathOps β)
    (hpow : ∀ k : Nat, fns.pow (-1) (k : β) = (-1) ^ k) (capacity N : Nat)
    (hcap : (N + 1) * (N + 1) ≤ capacity) (hN24 : 2 * N ≤ 2 ^ 24) (x phi : β) :
    CalcSH fns N x phi = Single.CalcSH (exactOps fns) capacity N x phi := by
  obtain ⟨v, hv, hlen, hent⟩ := CalcSH_spec fns hpow N (by omega) x phi
  obtain ⟨w, hw, hlen', hent'⟩ := Single_CalcSH_spec (exactOps fns) capacity N hcap hN24 x phi
  rw [hv, hw]
  congr 1
  apply List.ext_getElem?
  intro k
  rcases Nat.lt_or_ge k ((N + 1) * (N + 1)) with hk | hk
  · obtain ⟨l, i, hl, hi, rfl⟩ := shIndex_exists N k hk
    rw [hent l i hl hi, hent' l i hl hi, specY_exactOps fns hpow]
    rfl
  · rw [List.getElem?_eq_none (by rw [hlen, pow_two]; exact hk),
      List.getElem?_eq_none (by rw [hlen', pow_two]; exact hk)]

end ExactReading

section SingleSHRange
variable {α δ : Type}

/-- At `N = 2 ^ 32 - 1` the product `(N + 1ull) * (N + 1ull)` wraps to `0`, the vector
is empty, and the first assignment `SHvec[0] = res` is outside it. -/
theorem Single_CalcSH_wrap (ops : FloatOps α δ) (capacity : Nat) (x phi : α) :
    Single.CalcSH ops capacity 4294967295 x phi = none := by
  have hsize : ((4294967295 + 1) * (4294967295 + 1)) % 2 ^ 64 = 0 := by norm_num
  have hfirst : forDown (fun m => Single.legendreStep ops x ((0 : Nat) : Int) (m : Int))
      (0 + 1) (List.replicate 0 (ops.lit 0 1)) = none := by
    simp [forDown, Single.legendreStep, Single.legendreValue, Single.CalcLegendre1,
      Single.DoubleFactorical, store, toIndex]
  have hloop := forUp_none_of_first
    (fun l => forDown (fun m => Single.legendreStep ops x (l : Int) (m : Int)) (l + 1))
    4294967295 (List.replicate 0 (ops.lit 0 1)) hfirst
  unfold Single.CalcSH
  simp only [hsize]
  rw [if_neg (by omega), hloop]
  rfl

theorem factorical_ieee (lib lib' : Libm) (n : Nat) :
    Single.factorical (ieee lib) n = Single.factorical (ieee lib') n := by
  induction n with
  | zero => rfl
  | succ n ih =>
    rw [Single.factorical, Single.factorical, ih]
    rfl

/-- The value `K(l, m)` does not involve `sin`, `cos` or `pow`. -/
theorem specK_ieee (lib lib' : Libm) (l : Nat) (m : Int) :
    Single.specK (ieee lib) l m = Single.specK (ieee lib') l m := by
  unfold Single.specK
  rw [factorical_ieee lib lib', factorical_ieee lib lib']
  rfl

theorem mul_nan (fmt : Format) (x : Fp) : fmt.mul .nan x = .nan := by
  cases x <;> rfl

/-- C5 (amended).  For every `N ≤ 2 ^ 23` for which a vector of `(N + 1)²` floats can be
constructed, every `x` and every `phi`, `CalcSH(N, x, phi)` returns a vector whose entry
`l * l + l + m`, for every `l` in `[0, N]` and `m` in `[-l, l]`, is the value of
`K(l, m) P(l, |m|) A(m, phi)` as the code evaluates it in floating-point arithmetic:
`K(l, m) * P(l, |m|)` for `m = 0` and `(K(l, m) * A(m, phi)) * P(l, |m|)` otherwise, with
`P` the three-case recurrence (`P(m, m)` computed in `double` and converted),
`K(l, m) = sqrt(float(2l+1) * (l-|m|)! / (4.0f * PI * (l+|m|)!))`, the factorials being
`float` products and `PI` the `float` literal `3.1415926f`, and
`A = sqrt(2.0f) * cos(m * phi)` for `m > 0`, `sqrt(2.0f) * sin(-m * phi)` for `m < 0`;
so the in-place normalisation pass always multiplies the still-unnormalised
`P(l, |m|)`.  Nothing is assumed about the results of the floating-point operations
(they round and overflow); the nested calls of the two factorials are those on the
integers below the argument, as they are in IEEE 754 arithmetic (`Fp_Factorical_eq`,
`Fp_DoubleFactorical_eq`).  Read in exact arithmetic, with `pow(-1, k) = (-1)^k`, the
value is `K(l, m) * P(l, |m|) * A(m, phi)` with `3.1415926` for pi. -/
theorem CalcSH_entry (ops : FloatOps α δ) (capacity N : Nat)
    (hcap : (N + 1) * (N + 1) ≤ capacity) (hN24 : 2 * N ≤ 2 ^ 24) (x phi : α) :
    (∃ v, Single.CalcSH ops capacity N x phi = some v ∧
      ∀ (l : Nat) (m : Int), l ≤ N → -(l : Int) ≤ m → m ≤ l →
        v[((l : Int) * l + l + m).toNat]? = some (Single.specY ops x phi l m)) ∧
    (∀ (l : Nat) (m : Int), Single.specY ops x phi l m =
      if m = 0 then
        ops.mul (Single.specK ops l m) (Single.specLegendre ops x m.natAbs (l - m.natAbs))
      else
        ops.mul (ops.mul (Single.specK ops l m) (Single.specA ops m phi))
          (Single.specLegendre ops x m.natAbs (l - m.natAbs))) ∧
    (∀ (β : Type) [Field β] [CharZero β] (fns : MathOps β),
      (∀ k : Nat, fns.pow (-1) (k : β) = (-1) ^ k) →
      ∀ (y psi : β) (l : Nat) (m : Int),
        Single.specY (exactOps fns) y psi l m
          = specK fns l m * specLegendre fns y m.natAbs (l - m.natAbs) * specA fns m psi) := by
  refine ⟨?_, fun l m => rfl, fun β _ _ fns hpow y psi l m => specY_exactOps fns hpow y psi l m⟩
  obtain ⟨v, hv, -, hent⟩ := Single_CalcSH_spec ops capacity N hcap hN24 x phi
  refine ⟨v, hv, ?_⟩
  intro l m hl hm1 hm2
  have hidx : ((l : Int) * l + l + m).toNat = l * l + (l + m).toNat := by
    have : (l : Int) * l + l + m = ((l * l + (l + m).toNat : Nat) : Int) := by
      push_cast
      rw [Int.toNat_of_nonneg (by omega)]
      ring
    rw [this, Int.toNat_natCast]
  have hm : (((l + m).toNat : Nat) : Int) - l = m := by omega
  have := hent l (l + m).toNat hl (by omega)
  rw [hm] at this
  rw [hidx, this]

/-- Witness for `CalcSH_entry` at `N = 2`, `x = 1 / 2`, `phi = 1` (all three cases of the
recurrence occur): in IEEE arithmetic, and in exact arithmetic over the reals with the
real `sqrt`, `sin`, `cos` and power function, where the entries are
`K(l, m) * P(l, |m|) * A(m, phi)`. -/
theorem CalcSH_entry_witness :
    ((2 + 1) * (2 + 1) ≤ 9 ∧ 2 * 2 ≤ 2 ^ 24) ∧
    (∃ v, Single.CalcSH (ieee ⟨fun x => x, fun x => x, fun x _ => x⟩) 9 2
        (binary32.lit 1 2) (binary32.lit 1 1) = some v ∧
      ∀ (l : Nat) (m : Int), l ≤ 2 → -(l : Int) ≤ m → m ≤ l →
        v[((l : Int) * l + l + m).toNat]? = some
          (Single.specY (ieee ⟨fun x => x, fun x => x, fun x _ => x⟩)
            (binary32.lit 1 2) (binary32.lit 1 1) l m)) ∧
    (∃ v, Single.CalcSH
        (exactOps (⟨Real.sqrt, Real.sin, Real.cos, fun b e => b ^ e⟩ : MathOps ℝ)) 9 2
        (1 / 2) 1 = some v ∧
      ∀ (l : Nat) (m : Int), l ≤ 2 → -(l : Int) ≤ m → m ≤ l →
        v[((l : Int) * l + l + m).toNat]? = some
          (specK ⟨Real.sqrt, Real.sin, Real.cos, fun b e => b ^ e⟩ l m
            * specLegendre ⟨Real.sqrt, Real.sin, Real.cos, fun b e => b ^ e⟩ (1 / 2) m.natAbs
                (l - m.natAbs)
            * specA ⟨Real.sqrt, Real.sin, Real.cos, fun b e => b ^ e⟩ m 1)) := by
  refine ⟨⟨by norm_num, by norm_num⟩,
    (CalcSH_entry (ieee ⟨fun x => x, fun x => x, fun x _ => x⟩) 9 2 (by norm_num)
      (by norm_num) (binary32.lit 1 2) (binary32.lit 1 1)).1, ?_⟩
  have h := CalcSH_entry
    (exactOps (⟨Real.sqrt, Real.sin, Real.cos, fun b e => b ^ e⟩ : MathOps ℝ)) 9 2
    (by norm_num) (by norm_num) (1 / 2) 1
  obtain ⟨⟨v, hv, hent⟩, -, hexact⟩ := h
  refine ⟨v, hv, fun l m hl hm1 hm2 => ?_⟩
  rw [hent l m hl hm1 hm2,
    hexact ℝ ⟨Real.sqrt, Real.sin, Real.cos, fun b e => b ^ e⟩
      (fun k => Real.rpow_natCast (-1) k) (1 / 2) 1 l m]

/-- C5 as stated fails.  Overflow: `34!` is a `float`, but `float(69) * 34!` and
`4.0f * PI * 34!` are above the largest `float`.  So at `N = 34`, whatever `sin`, `cos`
and `pow` return, entry `34 * 34 + 34 + 0` is a NaN, not a number: `K(34, 0)` is
`sqrt(inf / inf)`.  And at `N = 17`, `x = 0`, `phi = 0` the factor `K(17, 17)` of entry
`17 * 17 + 17 + 17` is `sqrt(35 / inf)`, which is `0`, so the entry is `0` (or a NaN),
while the real number `K(17, 17) P(17, 17) A(17, 0)` is not `0`.  The constant: the
code's `PI` is the `float` `13176794 / 2 ^ 22`, while the `float` nearest to pi is
`13176795 / 2 ^ 22`, and `K(0, 0)` computed with the one and with the other are
different `float`s.  Size: at `N = 2 ^ 32 - 1` no vector is returned, so there is no
entry. -/
theorem CalcSH_entry_counterexample :
    (∀ lib : Libm, ∃ v, Single.CalcSH (ieee lib) 1225 34 (binary32.lit 1 2) (binary32.lit 1 1)
        = some v ∧ v[34 * 34 + 34 + 0]? = some Fp.nan) ∧
    Fp.nan.toRat = none ∧
    (∀ lib : Libm, ∃ v, Single.CalcSH (ieee lib) 324 17 (binary32.lit 0 1) (binary32.lit 0 1)
        = some v ∧
      v[17 * 17 + 17 + 17]? = some
        (binary32.mul
          (binary32.mul (Fp.finite false 0 0)
            (Single.specA (ieee lib) 17 (binary32.lit 0 1)))
          (Single.specLegendre (ieee lib) (binary32.lit 0 1) 17 0))) ∧
    specK (⟨Real.sqrt, Real.sin, Real.cos, fun b e => b ^ e⟩ : MathOps ℝ) 17 17
      * specLegendre ⟨Real.sqrt, Real.sin, Real.cos, fun b e => b ^ e⟩ 0 17 0
      * specA ⟨Real.sqrt, Real.sin, Real.cos, fun b e => b ^ e⟩ 17 0 ≠ 0 ∧
    Single.factorical (ieee ⟨fun x => x, fun x => x, fun x _ => x⟩) 34
      = Fp.finite false 14556102 104 ∧
    binary32.mul (binary32.ofInt 69)
      (Single.factorical (ieee ⟨fun x => x, fun x => x, fun x _ => x⟩) 34)
      = Fp.infinite false ∧
    binary32.mul (binary32.mul (binary32.lit 4 1) (binary32.lit 31415926 10000000))
      (Single.factorical (ieee ⟨fun x => x, fun x => x, fun x _ => x⟩) 34)
      = Fp.infinite false ∧
    binary32.lit 31415926 10000000 = Fp.finite false 13176794 (-22) ∧
    |Real.pi - 13176795 / 2 ^ 22| < 1 / 2 ^ 23 ∧
    1 / 2 ^ 23 < |Real.pi - 13176794 / 2 ^ 22| ∧
    (∀ (lib : Libm) (phi : Fp),
      Single.CalcCoefficient (ieee lib) 0 0 phi = some (Fp.finite false 9465531 (-25))) ∧
    binary32.sqrt (binary32.div (binary32.mul (binary32.ofInt 1) (binary32.lit 1 1))
      (binary32.mul (binary32.mul (binary32.lit 4 1) (Fp.finite false 13176795 (-22)))
        (binary32.lit 1 1))) = Fp.finite false 9465530 (-25) ∧
    Single.CalcSH (ieee ⟨fun x => x, fun x => x, fun x _ => x⟩) (2 ^ 62) 4294967295
      (binary32.lit 1 2) (binary32.lit 1 1) = none := by
  have hK34 : Single.specK (ieee ⟨fun x => x, fun x => x, fun x _ => x⟩) 34 0 = Fp.nan := by
    decide!
  have hK0 : Single.specK (ieee ⟨fun x => x, fun x => x, fun x _ => x⟩) 0 0
      = Fp.finite false 9465531 (-25) := by
    decide!
  have hpi1 := Real.pi_gt_d20
  have hpi2 := Real.pi_lt_d20
  have hK17 : Single.specK (ieee ⟨fun x => x, fun x => x, fun x _ => x⟩) 17 17
      = Fp.finite false 0 0 := by
    decide!
  refine ⟨fun lib => ?_, rfl, fun lib => ?_, ?_, by decide!, by decide!, by decide!,
    by decide!, ?_, ?_, fun lib phi => ?_, by decide!, Single_CalcSH_wrap _ _ _ _⟩
  · obtain ⟨v, hv, -, hent⟩ := Single_CalcSH_spec (ieee lib) 1225 34 (by norm_num)
      (by norm_num) (binary32.lit 1 2) (binary32.lit 1 1)
    refine ⟨v, hv, ?_⟩
    have h := hent 34 34 (le_refl _) (by norm_num)
    rw [h]
    have h0 : ((34 : Nat) : Int) - ((34 : Nat) : Int) = 0 := by norm_num
    rw [h0]
    unfold Single.specY
    rw [if_pos rfl, specK_ieee lib ⟨fun x => x, fun x => x, fun x _ => x⟩, hK34]
    exact congrArg some (mul_nan binary32
      (Single.specLegendre (ieee lib) (binary32.lit 1 2) (0 : Int).natAbs
        (34 - (0 : Int).natAbs)))
  · obtain ⟨v, hv, -, hent⟩ := Single_CalcSH_spec (ieee lib) 324 17 (by norm_num)
      (by norm_num) (binary32.lit 0 1) (binary32.lit 0 1)
    refine ⟨v, hv, ?_⟩
    have h := hent 17 34 (le_refl _) (by norm_num)
    have h0 : ((34 : Nat) : Int) - ((17 : Nat) : Int) = 17 := by norm_num
    rw [h0] at h
    have hidx : 17 * 17 + 17 + 17 = 17 * 17 + 34 := by norm_num
    rw [hidx, h]
    unfold Single.specY
    have hn : (17 : Int).natAbs = 17 := rfl
    have hmul : (ieee lib).mul = binary32.mul := rfl
    rw [if_neg (by norm_num), specK_ieee lib ⟨fun x => x, fun x => x, fun x _ => x⟩, hK17, hn,
      Nat.sub_self, hmul]
  · have hK : specK (⟨Real.sqrt, Real.sin, Real.cos, fun b e => b ^ e⟩ : MathOps ℝ) 17 17
        ≠ 0 := by
      unfold specK
      apply ne_of_gt
      apply Real.sqrt_pos.2
      have hPI : (0 : ℝ) < PI := by unfold PI; norm_num
      positivity
    have hP : specLegendre (⟨Real.sqrt, Real.sin, Real.cos, fun b e => b ^ e⟩ : MathOps ℝ)
        0 17 0 ≠ 0 := by
      unfold specLegendre
      have h1 : ((1 : ℝ) - 0 ^ 2) ^ (((17 : Nat) : ℝ) / 2) = 1 := by
        rw [show ((1 : ℝ) - 0 ^ 2) = 1 by norm_num, Real.one_rpow]
      show (-1 : ℝ) ^ 17 * ((2 * 17 - 1).doubleFactorial : ℝ)
        * ((1 : ℝ) - 0 ^ 2) ^ (((17 : Nat) : ℝ) / 2) ≠ 0
      rw [h1]
      have h2 : ((2 * 17 - 1).doubleFactorial : ℝ) ≠ 0 :=
        Nat.cast_ne_zero.2 (Nat.pos_iff_ne_zero.1 (Nat.doubleFactorial_pos _))
      have h3 : ((-1 : ℝ) ^ 17) ≠ 0 := by norm_num
      exact mul_ne_zero (mul_ne_zero h3 h2) one_ne_zero
    have hA : specA (⟨Real.sqrt, Real.sin, Real.cos, fun b e => b ^ e⟩ : MathOps ℝ) 17 0
        ≠ 0 := by
      unfold specA
      rw [if_pos (by norm_num)]
      show Real.sqrt 2 * Real.cos (((17 : Int) : ℝ) * 0) ≠ 0
      rw [mul_zero, Real.cos_zero, mul_one]
      exact ne_of_gt (Real.sqrt_pos.2 (by norm_num))
    exact mul_ne_zero (mul_ne_zero hK hP) hA
  · rw [abs_lt]
    constructor <;> norm_num <;> linarith
  · rw [lt_abs]
    left
    norm_num
    linarith
  · have h := Single_CalcCoefficient_eq (ieee lib) 0 0 phi (by simp) (by simp)
    rw [if_pos rfl, specK_ieee lib ⟨fun x => x, fun x => x, fun x _ => x⟩, hK0] at h
    exact h

end SingleSHRange

end DxPRT
